import Mathlib

/-!
# Split-ordered lock-free hash table, single-threaded embedding

Embedding of `lock_free_list.{h,cpp}`, `lock_free_hashtable.{h,cpp}` and
`lock_based_hashtable.cpp`.

* The heap is a list of `NodeType` cells; a node pointer is the index of its
  cell (`none` is `nullptr`), `new` appends a cell.
* A pointer word whose least significant bit carries a mark is a `MarkedPtr`
  (address and flag).
* `uint32_t` values are natural numbers, truncated with `u32` wherever the
  source computes in 32 bits.
* An operation returns `none` where the C++ run has no defined result: a
  dereference of `nullptr`, an index outside a `std::vector`, a shift by the
  full word width, or a loop that does not come to an end within the number
  of heap cells.
* Every atomic access is executed without interference (one thread).
-/

/-! ## Machine words -/

/-- Truncation to `uint32_t`. -/
def u32 (x : Nat) : Nat := x % 2 ^ 32

/-- The constant `UINT32_MAX`. -/
def UINT32_MAX : Nat := 0xFFFFFFFF

/-! ## `lock_free_list.h` -/

/-- The struct `KeyValue`: sort key and value of a node. -/
structure KeyValue where
  key : Nat
  value : Nat
deriving DecidableEq, Repr

namespace KeyValue

/-- The member `operator==`. -/
def eq (a b : KeyValue) : Bool := a.key == b.key && a.value == b.value

/-- The member `operator!=`. -/
def ne (a b : KeyValue) : Bool := a.key != b.key || a.value != b.value

/-- The member `operator>=`. -/
def ge (a b : KeyValue) : Bool :=
  if a.key > b.key then true
  else if a.key = b.key then decide (a.value ≥ b.value)
  else false

/-- The member `operator<`. -/
def lt (a b : KeyValue) : Bool :=
  if a.key < b.key then true
  else if a.key = b.key then decide (a.value < b.value)
  else false

end KeyValue

/-- An untagged `NodeType*`: `none` is `nullptr`, `some a` is heap cell `a`. -/
abbrev Ptr := Option Nat

/-- A pointer word with the mark in its least significant bit. -/
structure MarkedPtr where
  ptr : Ptr
  flag : Bool
deriving DecidableEq, Repr

/-- The struct `NodeType`. -/
structure NodeType where
  item : KeyValue
  mark : Bool
  next : MarkedPtr
deriving DecidableEq, Repr

/-- The struct `Window`. -/
structure Window where
  pred : Ptr
  curr : Ptr
deriving DecidableEq, Repr

/-- The heap of list nodes. -/
abbrev Heap := List NodeType

/-- The class `LockFreeList`: the heap its nodes live in and the `head` field. -/
structure LockFreeList where
  mem : Heap
  head : Ptr
deriving DecidableEq, Repr

/-- The unmarked null pointer word. -/
def nullWord : MarkedPtr := ⟨none, false⟩

/-- An unmarked pointer word to `p`. -/
def plain (p : Ptr) : MarkedPtr := ⟨p, false⟩

namespace Heap

/-- Dereference of a node pointer; `none` for `nullptr` or a cell never allocated. -/
def read (m : Heap) (p : Ptr) : Option NodeType :=
  match p with
  | none => none
  | some a => m[a]?

/-- Result of `new NodeType()` followed by the three field assignments:
the new cell is appended, its pointer is the old heap length. -/
def alloc (m : Heap) (n : NodeType) : Heap × Nat := (m ++ [n], m.length)

/-- Assignment `p->next = w`. -/
def writeNext (m : Heap) (p : Ptr) (w : MarkedPtr) : Option Heap :=
  match p with
  | none => none
  | some a =>
    match m[a]? with
    | none => none
    | some n => some (m.set a { n with next := w })

/-- The call `p->next.compare_exchange_strong(expected, desired)`, executed
without interference; the boolean is its result. -/
def casNext (m : Heap) (p : Ptr) (expected desired : MarkedPtr) : Option (Heap × Bool) :=
  match p with
  | none => none
  | some a =>
    match m[a]? with
    | none => none
    | some n =>
      if n.next = expected then some (m.set a { n with next := desired }, true)
      else some (m, false)

end Heap

/-! ## `lock_free_list.cpp` -/

namespace LockFreeList

/-- The method `GetPointer`: the pointer without its mark. -/
def GetPointer (w : MarkedPtr) : Ptr := w.ptr

/-- The method `GetFlag`: the mark of a pointer word. -/
def GetFlag (w : MarkedPtr) : Bool := w.flag

/-- The method `SetFlag`. -/
def SetFlag (w : MarkedPtr) : MarkedPtr := { w with flag := true }

/-- The method `ResetFlag`. -/
def ResetFlag (w : MarkedPtr) : MarkedPtr := { w with flag := false }

/-- The constructor: the member initialiser `head(new NodeType())` allocates a
zeroed node (cell 0, never linked), then the tail (cell 1) and the head
(cell 2) are allocated and `head` is set to the latter. -/
def new : LockFreeList :=
  let m0 : Heap := []
  let (m1, _) := m0.alloc ⟨⟨0, 0⟩, false, nullWord⟩
  let (m2, tail_imm) := m1.alloc ⟨⟨UINT32_MAX, UINT32_MAX⟩, false, nullWord⟩
  let (m3, head_imm) := m2.alloc ⟨⟨0, 0⟩, false, plain (some tail_imm)⟩
  ⟨m3, some head_imm⟩

/-- The method `GetHead`. -/
def GetHead (l : LockFreeList) : Ptr := l.head

/-- The `while` loop of `Contains`; the result is the final value of `n`. -/
def Contains.loop : Nat → Heap → KeyValue → Ptr → Option Ptr
  | 0, _, _, _ => none
  | _ + 1, _, _, none => some none
  | fuel + 1, m, item, some a =>
    (m.read (some a)).bind fun n =>
      if n.item.lt item then Contains.loop fuel m item (GetPointer n.next)
      else some (some a)

/-- The method `Contains(start, item)`. -/
def Contains (l : LockFreeList) (start : Ptr) (item : KeyValue) : Option Bool :=
  (Contains.loop (l.mem.length + 1) l.mem item start).bind fun n =>
    match n with
    | none => some false
    | some a =>
      (l.mem.read (some a)).bind fun nd =>
        some (nd.item.eq item && !GetFlag nd.next)

/-- The loop `while (GetFlag(curr->next))` inside `Find`: returns the heap and
the final values of `curr` and `succ`. -/
def Find.skipMarked : Nat → Heap → Ptr → Ptr → Ptr → Option (Heap × Ptr × Ptr)
  | 0, _, _, _, _ => none
  | fuel + 1, m, pred, curr, succ =>
    (m.read curr).bind fun c =>
      if GetFlag c.next then
        (m.casNext pred (plain curr) (plain succ)).bind fun r =>
          if r.2 then some (r.1, curr, succ)
          else
            (r.1.read succ).bind fun s =>
              Find.skipMarked fuel r.1 pred succ (GetPointer s.next)
      else some (m, curr, succ)

/-- The inner `while (true)` loop of `Find`, entered with `pred` and `curr`. -/
def Find.walk : Nat → Heap → KeyValue → Ptr → Ptr → Option (Heap × Window)
  | 0, _, _, _, _ => none
  | fuel + 1, m, item, pred, curr =>
    (m.read curr).bind fun c =>
      if c.next = nullWord then some (m, ⟨pred, curr⟩)
      else
        (Find.skipMarked (m.length + 1) m pred curr (GetPointer c.next)).bind fun r =>
          (r.1.read r.2.1).bind fun c1 =>
            if c1.item.ge item then some (r.1, ⟨pred, r.2.1⟩)
            else Find.walk fuel r.1 item r.2.1 (GetPointer c1.next)

/-- The method `Find(start, item)`. Every path through the inner loop leaves by
`return`, so the outer `while (true)` runs its body once. -/
def Find (m : Heap) (start : Ptr) (item : KeyValue) : Option (Heap × Window) :=
  (m.read start).bind fun p =>
    Find.walk (m.length + 1) m item start (GetPointer p.next)

/-- The retry loop of `Add`, with the new node already allocated at `n`. -/
def Add.loop : Nat → Heap → Ptr → KeyValue → Nat → Option (Heap × Bool)
  | 0, _, _, _, _ => none
  | fuel + 1, m, start, item, n =>
    (Find m start item).bind fun r =>
      let pred := r.2.pred
      let curr := r.2.curr
      (match curr with
        | none => some false
        | some _ => (r.1.read curr).bind fun c => some (c.item.eq item)).bind fun dup =>
      if dup then some (r.1.dropLast, false)
      else
        (r.1.writeNext (some n) (ResetFlag (plain curr))).bind fun m2 =>
          (m2.casNext pred (plain curr) (plain (some n))).bind fun r3 =>
            if r3.2 then some (r3.1, true)
            else Add.loop fuel r3.1 start item n

/-- The method `Add(start, item)`. The candidate node is the last cell
allocated, so `delete (n)` gives the heap its previous length back. -/
def Add (l : LockFreeList) (start : Ptr) (item : KeyValue) : Option (LockFreeList × Bool) :=
  let (m1, n) := l.mem.alloc ⟨item, false, nullWord⟩
  (Add.loop (m1.length + 1) m1 start item n).bind fun r =>
    some ({ l with mem := r.1 }, r.2)

/-- The retry loop of `AddAndGetPointer`. -/
def AddAndGetPointer.loop : Nat → Heap → Ptr → KeyValue → Nat → Option (Heap × Ptr)
  | 0, _, _, _, _ => none
  | fuel + 1, m, start, item, n =>
    (Find m start item).bind fun r =>
      let pred := r.2.pred
      let curr := r.2.curr
      (match curr with
        | none => some false
        | some _ => (r.1.read curr).bind fun c => some (c.item.eq item)).bind fun dup =>
      if dup then some (r.1.dropLast, none)
      else
        (r.1.writeNext (some n) (ResetFlag (plain curr))).bind fun m2 =>
          (m2.casNext pred (plain curr) (plain (some n))).bind fun r3 =>
            if r3.2 then some (r3.1, some n)
            else AddAndGetPointer.loop fuel r3.1 start item n

/-- The method `AddAndGetPointer(start, item)`. -/
def AddAndGetPointer (l : LockFreeList) (start : Ptr) (item : KeyValue) :
    Option (LockFreeList × Ptr) :=
  let (m1, n) := l.mem.alloc ⟨item, false, nullWord⟩
  (AddAndGetPointer.loop (m1.length + 1) m1 start item n).bind fun r =>
    some ({ l with mem := r.1 }, r.2)

/-- The retry loop of `Remove`. -/
def Remove.loop : Nat → Heap → Ptr → KeyValue → Option (Heap × Bool)
  | 0, _, _, _ => none
  | fuel + 1, m, start, item =>
    (Find m start item).bind fun r =>
      let w := r.2
      match w.curr with
      | none => some (r.1, false)
      | some _ =>
        (r.1.read w.curr).bind fun c =>
          if item.ne c.item then some (r.1, false)
          else
            let succ := c.next
            let markedsucc := SetFlag succ
            let succ := ResetFlag succ
            (r.1.casNext w.curr succ markedsucc).bind fun r2 =>
              if !r2.2 then Remove.loop fuel r2.1 start item
              else
                (r2.1.casNext w.pred (plain w.curr) succ).bind fun r3 =>
                  some (r3.1, true)

/-- The method `Remove(start, item)`. -/
def Remove (l : LockFreeList) (start : Ptr) (item : KeyValue) : Option (LockFreeList × Bool) :=
  (Remove.loop (l.mem.length + 1) l.mem start item).bind fun r =>
    some ({ l with mem := r.1 }, r.2)

end LockFreeList

/-! ## `lock_free_hashtable.{h,cpp}` -/

/-- The class `LockFreeHashTable`. The field `hashtable` is the vector the
atomic pointer refers to (one `Ptr` per `TableEntry`); `growing` is the mark
in the least significant bit of that pointer. -/
structure LockFreeHashTable where
  list : LockFreeList
  hashtable : List Ptr
  growing : Bool
  table_size : Nat
deriving DecidableEq, Repr

namespace LockFreeHashTable

/-- The constant `MAX_AVERAGE_BUCKET_SIZE`. -/
def MAX_AVERAGE_BUCKET_SIZE : Nat := 4

/-- The constant `HIGH`. -/
def HIGH : Nat := 0x80000000

/-- The constant `MASK`. -/
def MASK : Nat := 0x00FFFFFF

/-- The constant `ALLONE`. -/
def ALLONE : Nat := 0xFFFFFFFF

/-- The method `HashFunction`. -/
def HashFunction (value : Nat) : Nat :=
  let x := value
  let x := u32 (((x >>> 16) ^^^ x) * 0x45d9f3b)
  let x := u32 (((x >>> 16) ^^^ x) * 0x45d9f3b)
  let x := (x >>> 16) ^^^ x
  x

/-- One iteration of the loop of `Reverse`. -/
def Reverse.step (input : Nat) (reverse_num : Nat) (i : Nat) : Nat :=
  if input &&& (1 <<< i) ≠ 0 then reverse_num ||| (1 <<< ((32 - 1) - i)) else reverse_num

/-- The method `Reverse`: the loop runs `i` over `0 .. 31`. -/
def Reverse (input : Nat) : Nat :=
  (List.range 32).foldl (Reverse.step input) 0

/-- The method `MakeNormalKey`. -/
def MakeNormalKey (value : Nat) : Nat :=
  let key := HashFunction value &&& MASK
  Reverse (key ||| HIGH)

/-- The method `MakeSentinelKey`. -/
def MakeSentinelKey (value : Nat) : Nat :=
  Reverse (value &&& MASK)

/-- The method `GetHashtablePointer`: the vector, whatever the mark. -/
def GetHashtablePointer (s : LockFreeHashTable) : List Ptr := s.hashtable

/-- The method `GetNumberOfBitsUsed`: the vector size is narrowed to
`uint32_t`, and `(uint32_t)log2(n)` is the floor of the binary logarithm. -/
def GetNumberOfBitsUsed (s : LockFreeHashTable) : Nat :=
  Nat.log2 (u32 s.GetHashtablePointer.length)

/-- The method `GetSentinelNode`. A shift by 32 or an index outside the vector
has no defined result. -/
def GetSentinelNode (s : LockFreeHashTable) (value : Nat) : Option Ptr :=
  let shift := u32 (32 + 2 ^ 32 - s.GetNumberOfBitsUsed)
  if shift ≥ 32 then none
  else
    let value_lower_bits := value &&& (ALLONE >>> shift)
    s.GetHashtablePointer[value_lower_bits]?

/-- The method `Contains`. -/
def Contains (s : LockFreeHashTable) (value : Nat) : Option Bool :=
  (s.GetSentinelNode (HashFunction value)).bind fun sentinel =>
    let key := MakeNormalKey value
    s.list.Contains sentinel ⟨key, value⟩

/-- The method `AddSentinelNode`; `~(1 << k)` is taken in 32 bits. -/
def AddSentinelNode (s : LockFreeHashTable) (value : Nat) :
    Option (LockFreeHashTable × Ptr) :=
  (s.GetSentinelNode (value &&& (ALLONE ^^^ (1 <<< s.GetNumberOfBitsUsed)))).bind fun start =>
    let key := MakeSentinelKey value
    (s.list.AddAndGetPointer start ⟨key, value⟩).bind fun r =>
      some ({ s with list := r.1 }, r.2)

/-- The first `for` loop of `DoubleHashTableSize`: `k` iterations are left,
the next one copies entry `i`. -/
def DoubleHashTableSize.copy : Nat → Nat → List Ptr → List Ptr → Option (List Ptr)
  | 0, _, _, htable_new => some htable_new
  | k + 1, i, htable_ptr, htable_new =>
    (htable_ptr[i]?).bind fun e =>
      if i < htable_new.length then
        DoubleHashTableSize.copy k (i + 1) htable_ptr (htable_new.set i e)
      else none

/-- The second `for` loop of `DoubleHashTableSize`: `k` iterations are left,
the next one creates the sentinel of bucket `i`. -/
def DoubleHashTableSize.fill : Nat → Nat → LockFreeHashTable → List Ptr →
    Option (LockFreeHashTable × List Ptr)
  | 0, _, s, htable_new => some (s, htable_new)
  | k + 1, i, s, htable_new =>
    (s.AddSentinelNode i).bind fun r =>
      if i < htable_new.length then
        DoubleHashTableSize.fill k (i + 1) r.1 (htable_new.set i r.2)
      else none

/-- The method `DoubleHashTableSize`. The bound `current_max_entry * 2` is a
`uint32_t` product; the final `store` publishes the new vector unmarked. -/
def DoubleHashTableSize (s : LockFreeHashTable) : Option LockFreeHashTable :=
  let htable_ptr := s.GetHashtablePointer
  let current_max_entry := u32 htable_ptr.length
  let htable_new : List Ptr := List.replicate (u32 (current_max_entry * 2)) none
  (DoubleHashTableSize.copy current_max_entry 0 htable_ptr htable_new).bind fun htable_new =>
    (DoubleHashTableSize.fill (u32 (current_max_entry * 2) - current_max_entry)
        current_max_entry s htable_new).bind fun r =>
      some { r.1 with hashtable := r.2, growing := false }

/-- The method `Add`. The pointer `htable_old` is the result of
`GetHashtablePointer`, which strips the mark, so `GetFlag(htable_old)` is
`false`; `compare_exchange_strong(htable_old, marked_htable)` succeeds when the
published pointer is unmarked (`growing = false`) and then marks it. -/
def Add (s : LockFreeHashTable) (value : Nat) : Option (LockFreeHashTable × Bool) :=
  (s.GetSentinelNode (HashFunction value)).bind fun sentinel =>
    let key := MakeNormalKey value
    (s.list.Add sentinel ⟨key, value⟩).bind fun r =>
      if !r.2 then some ({ s with list := r.1 }, false)
      else
        let s1 := { s with list := r.1, table_size := u32 (s.table_size + 1) }
        let htable_old := s1.GetHashtablePointer
        let htable_old_flag := false
        let permissibletablesize := u32 (MAX_AVERAGE_BUCKET_SIZE * htable_old.length)
        if u32 s1.table_size > permissibletablesize ∧ !htable_old_flag then
          if s1.growing = false then
            (DoubleHashTableSize { s1 with growing := true }).bind fun s2 => some (s2, true)
          else some (s1, true)
        else some (s1, true)

/-- The method `Remove`. -/
def Remove (s : LockFreeHashTable) (value : Nat) : Option (LockFreeHashTable × Bool) :=
  (s.GetSentinelNode (HashFunction value)).bind fun sentinel =>
    let key := MakeNormalKey value
    (s.list.Remove sentinel ⟨key, value⟩).bind fun r =>
      if !r.2 then some ({ s with list := r.1 }, false)
      else some ({ s with list := r.1, table_size := u32 (s.table_size + (2 ^ 32 - 1)) }, true)

/-- The default constructor. The empty vector first assigned to `hashtable` is
replaced by `hashtable_init` before any use. -/
def new : Option LockFreeHashTable :=
  let list := LockFreeList.new
  let hashtable_init : List Ptr := List.replicate 2 none
  let hashtable_init := hashtable_init.set 0 list.GetHead
  let second_sentinel_node_key := MakeSentinelKey 1
  (list.AddAndGetPointer list.GetHead ⟨second_sentinel_node_key, 1⟩).bind fun r =>
    let hashtable_init := hashtable_init.set 1 r.2
    some ⟨r.1, hashtable_init, false, 0⟩

end LockFreeHashTable

/-! ## Calls and runs -/

/-- A call of one of the three public methods of `HashTable`. -/
inductive Op where
  | Add (value : Nat)
  | Remove (value : Nat)
  | Contains (value : Nat)
deriving DecidableEq, Repr

/-- The argument of a call. -/
def Op.value : Op → Nat
  | .Add v => v
  | .Remove v => v
  | .Contains v => v

namespace LockFreeHashTable

/-- One call on the table: the state it leaves and the boolean it returns.
The body of `Contains` assigns to no field, node or vector, so the state it
leaves is the one it was called in. -/
def call (s : LockFreeHashTable) : Op → Option (LockFreeHashTable × Bool)
  | .Add v => s.Add v
  | .Remove v => s.Remove v
  | .Contains v => (s.Contains v).bind fun b => some (s, b)

/-- A sequence of calls issued by one thread, with the list of the results. -/
def run (s : LockFreeHashTable) : List Op → Option (LockFreeHashTable × List Bool)
  | [] => some (s, [])
  | op :: ops =>
    (s.call op).bind fun r =>
      (run r.1 ops).bind fun r2 => some (r2.1, r.2 :: r2.2)

/-- The states one thread reaches from a freshly constructed table by calls
with 32-bit arguments that return. -/
inductive Reachable : LockFreeHashTable → Prop where
  | init {s : LockFreeHashTable} : LockFreeHashTable.new = some s → Reachable s
  | call {s s1 : LockFreeHashTable} {op : Op} {b : Bool} :
      Reachable s → op.value < 2 ^ 32 → s.call op = some (s1, b) → Reachable s1

end LockFreeHashTable

/-! ## `lock_based_hashtable.{h,cpp}` -/

/-- The class `LockBasedHashTable`. Every entry of the `std::unordered_map`
maps its key to 0, so the map is represented by its set of keys; the mutex
has no effect on one thread. -/
structure LockBasedHashTable where
  map : Finset Nat

namespace LockBasedHashTable

/-- The constructor: the empty map. -/
def new : LockBasedHashTable := ⟨∅⟩

/-- The method `Add`: `map.insert({value, 0}).second`. -/
def Add (t : LockBasedHashTable) (value : Nat) : LockBasedHashTable × Bool :=
  (⟨insert value t.map⟩, decide (value ∉ t.map))

/-- The method `Remove`: `map.erase(value) == 1`. -/
def Remove (t : LockBasedHashTable) (value : Nat) : LockBasedHashTable × Bool :=
  (⟨t.map.erase value⟩, decide (value ∈ t.map))

/-- The method `Contains`: `map.find(value) != map.end()`. -/
def Contains (t : LockBasedHashTable) (value : Nat) : Bool :=
  decide (value ∈ t.map)

/-- One call on the reference table. -/
def call (t : LockBasedHashTable) : Op → LockBasedHashTable × Bool
  | .Add v => t.Add v
  | .Remove v => t.Remove v
  | .Contains v => (t, t.Contains v)

/-- A sequence of calls on the reference table, with the list of the results. -/
def run (t : LockBasedHashTable) : List Op → LockBasedHashTable × List Bool
  | [] => (t, [])
  | op :: ops =>
    let r := t.call op
    let r2 := run r.1 ops
    (r2.1, r.2 :: r2.2)

end LockBasedHashTable

/-! ## Abstraction of the heap -/

/-- `Seg m p xs q`: starting at pointer `p` and following unmarked `next`
words, the cells met are exactly those of `xs` (address and item), and the
`next` pointer of the last one is `q`. -/
def Seg (m : Heap) : Ptr → List (Nat × KeyValue) → Ptr → Prop
  | p, [], q => p = q
  | p, x :: xs, q =>
    p = some x.1 ∧ ∃ n, m[x.1]? = some n ∧ n.item = x.2 ∧ n.next.flag = false ∧
      Seg m n.next.ptr xs q


/-- The item of the tail node set up by the constructor of `LockFreeList`. -/
def tailItem : KeyValue := ⟨UINT32_MAX, UINT32_MAX⟩

/-- Well-formed list state without marked nodes: `L` are the cells reachable
from `head` (address and item) in list order, strictly ascending in the order
of `KeyValue::operator<`, ending with the tail node. -/
structure ListInv (l : LockFreeList) (L : List (Nat × KeyValue)) : Prop where
  seg : Seg l.mem l.head L none
  sorted : L.Pairwise (fun x y => x.2.lt y.2 = true)
  last : ∃ t, L.getLast? = some (t, tailItem)

namespace LockFreeHashTable

/-- The item `Add`, `Remove` and `Contains` build for a value. -/
def normalItem (v : Nat) : KeyValue := ⟨MakeNormalKey v, v⟩

/-- The item of the sentinel node of bucket `b`. -/
def sentinelItem (b : Nat) : KeyValue := ⟨MakeSentinelKey b, b⟩

end LockFreeHashTable

/-- A regular item has an odd sort key other than the one of the tail; a
sentinel item has an even sort key. -/
def isRegular (it : KeyValue) : Bool := it.key % 2 == 1 && it.key != UINT32_MAX

/-- Number of regular cells in a list of cells. -/
def regularCount (L : List (Nat × KeyValue)) : Nat :=
  (L.filter fun x => isRegular x.2).length

namespace LockFreeHashTable

/-- The part of the table invariant that also holds while
`DoubleHashTableSize` runs: the list is well formed, the published vector has
`2 ^ k` entries, entry `b` points at the cell of the sentinel of bucket `b`,
every cell is the tail, a sentinel of a bucket below `lim`, or regular, and
`table_size` counts the regular cells modulo `2 ^ 32`. -/
structure CoreInv (s : LockFreeHashTable) (L : List (Nat × KeyValue)) (lim : Nat) : Prop where
  list : ListInv s.list L
  size : ∃ k, 1 ≤ k ∧ k ≤ 31 ∧ s.hashtable.length = 2 ^ k
  bucket : ∀ b, b < s.hashtable.length →
    ∃ a, s.hashtable[b]? = some (some a) ∧ (a, sentinelItem b) ∈ L
  kinds : ∀ x ∈ L, x.2 = tailItem ∨ (∃ b, b < lim ∧ x.2 = sentinelItem b) ∨
    (∃ v, x.2 = normalItem v)
  count : s.table_size = regularCount L % 2 ^ 32

/-- The invariant of the table between two operations: the core invariant
with every sentinel below the bucket count, no growth in progress, and at
most `MAX_AVERAGE_BUCKET_SIZE` regular cells per bucket on average. -/
structure TableInv (s : LockFreeHashTable) (L : List (Nat × KeyValue)) : Prop where
  core : CoreInv s L s.hashtable.length
  growing : s.growing = false
  load : regularCount L ≤ MAX_AVERAGE_BUCKET_SIZE * s.hashtable.length

/-- The test of `Add` after a successful insertion: the incremented counter
against `permissibletablesize`, both in 32 bits. -/
def growthDue (s : LockFreeHashTable) : Prop :=
  u32 (s.table_size + 1) > u32 (MAX_AVERAGE_BUCKET_SIZE * s.hashtable.length)

instance (s : LockFreeHashTable) : Decidable (growthDue s) := by
  unfold growthDue
  exact inferInstance

end LockFreeHashTable

namespace LockFreeHashTable

/-- The state the default constructor leaves: cell 0 is the node of the member
initialiser, cell 1 the tail, cell 2 the head, cell 3 the sentinel of bucket 1. -/
def fresh : LockFreeHashTable :=
  ⟨⟨[⟨⟨0, 0⟩, false, nullWord⟩, ⟨⟨UINT32_MAX, UINT32_MAX⟩, false, nullWord⟩,
      ⟨⟨0, 0⟩, false, plain (some 3)⟩,
      ⟨⟨MakeSentinelKey 1, 1⟩, false, plain (some 1)⟩], some 2⟩,
    [some 2, some 3], false, 0⟩

end LockFreeHashTable

/-- The calls `Add(0), Add(1), ..., Add(n - 1)`. -/
def addsUpTo (n : Nat) : List Op := (List.range n).map Op.Add

/-- The bucket count `N` the source reaches after `n` insertions into a fresh
table without removals: 2 up to eight elements, then the power of two with
`2 * N < n ≤ 4 * N` up to `2 ^ 31` elements; the next two insertions double
again because `4 * N` no longer fits into 32 bits. -/
def sizeAfter (n N : Nat) : Prop :=
  (n ≤ 8 ∧ N = 2) ∨ (8 < n ∧ n ≤ 2 ^ 31 ∧ 2 * N < n ∧ n ≤ 4 * N) ∨
    (n = 2 ^ 31 + 1 ∧ N = 2 ^ 30) ∨ (n = 2 ^ 31 + 2 ∧ N = 2 ^ 31)

namespace LockFreeHashTable

/-- The table after `Add(1), ..., Add(8)` on a fresh table: eight elements in
two buckets, the load at which the next insertion makes the table grow. -/
def loaded : LockFreeHashTable :=
  match fresh.run [Op.Add 1, Op.Add 2, Op.Add 3, Op.Add 4, Op.Add 5, Op.Add 6, Op.Add 7,
      Op.Add 8] with
  | some r => r.1
  | none => fresh

end LockFreeHashTable

/-! ## List states with logically deleted nodes -/

/-- `MSeg m p xs q`: starting at pointer `p` and following `next` words,
marked or not, the cells met are exactly those of `xs` (address, item and the
mark of the `next` word), and the `next` pointer of the last one is `q`. -/
def MSeg (m : Heap) : Ptr → List (Nat × KeyValue × Bool) → Ptr → Prop
  | p, [], q => p = q
  | p, x :: xs, q =>
    p = some x.1 ∧ ∃ n, m[x.1]? = some n ∧ n.item = x.2.1 ∧ n.next.flag = x.2.2 ∧
      MSeg m n.next.ptr xs q

/-- Well-formed list state that may hold logically deleted nodes: `L` are the
cells reachable from `head` in list order, strictly ascending in the order of
`KeyValue::operator<`; the first one, the head, is unmarked and the last one
is the unmarked tail node. -/
structure MListInv (l : LockFreeList) (L : List (Nat × KeyValue × Bool)) : Prop where
  seg : MSeg l.mem l.head L none
  sorted : L.Pairwise (fun x y => x.2.1.lt y.2.1 = true)
  first : ∃ x, L.head? = some x ∧ x.2.2 = false
  last : ∃ t, L.getLast? = some (t, tailItem, false)

namespace LockFreeList

/-- The list state after `Add(head, item)` on a new list and the first
compare-and-swap of a `Remove(head, item)`, which marks the `next` word of the
node of `item` (cell 3), before the second one unlinks the node: the head
(cell 2) still points to the marked node, which points to the tail (cell 1). -/
def withMarked (item : KeyValue) : LockFreeList :=
  ⟨[⟨⟨0, 0⟩, false, nullWord⟩, ⟨⟨UINT32_MAX, UINT32_MAX⟩, false, nullWord⟩,
      ⟨⟨0, 0⟩, false, plain (some 3)⟩, ⟨item, false, SetFlag (plain (some 1))⟩], some 2⟩

/-- The list state in which the node of `item` (cell 3) is marked and no
longer linked: the head (cell 2) points to the tail (cell 1). -/
def withUnlinked (item : KeyValue) : LockFreeList :=
  ⟨[⟨⟨0, 0⟩, false, nullWord⟩, ⟨⟨UINT32_MAX, UINT32_MAX⟩, false, nullWord⟩,
      ⟨⟨0, 0⟩, false, plain (some 1)⟩, ⟨item, false, SetFlag (plain (some 1))⟩], some 2⟩

end LockFreeList

/-! ## `initial_project.c`

The C variant. A `hash_entry *` is the index of its cell (`none` is `NULL`), a
`void *` payload and a key are numbers (`0` is `NULL`), a `marked_ptr_t` is a
`MarkedPtr`, and a `marked_ptr_t *` is a `Loc`: a slot of the bucket array or
the `next` field of a cell. `uint64_t`, `size_t` and `uintptr_t` have 64 bits,
`int` results are numbers. `free` leaves the heap as it is: a cell is never
handed out twice. A failed `assert`, an access outside the bucket array and a
loop that does not come to an end have no result (`none`). -/

namespace InitialProject

/-- Truncation to `uint64_t`. -/
def u64 (x : Nat) : Nat := x % 2 ^ 64

/-- The type `marked_ptr_t`. -/
abbrev marked_ptr_t := MarkedPtr

/-- The struct `hash_entry`. -/
structure hash_entry where
  key : Nat
  value : Nat
  next : marked_ptr_t
deriving DecidableEq, Repr

/-- The memory the list functions work on: the `hash_entry` cells allocated
so far and the bucket array `B`. -/
structure Memory where
  cells : List hash_entry
  B : List marked_ptr_t
deriving DecidableEq, Repr

/-- The struct `hash_s`, with the memory its field `B` points into and the
value of the global `hard_max_buckets`. -/
structure hash_s where
  mem : Memory
  count : Nat
  size : Nat
  hard_max_buckets : Nat
deriving DecidableEq, Repr

/-- A `marked_ptr_t *`: `&h->B[i]` or `&PTR_OF(a)->next`. -/
inductive Loc where
  | bucket (i : Nat)
  | next (a : Nat)
deriving DecidableEq, Repr

/-- The constant `MAX_LOAD`. -/
def MAX_LOAD : Nat := 4

/-- The macro `MARK_OF`. -/
def MARK_OF (x : marked_ptr_t) : Bool := x.flag

/-- The macro `PTR_OF`. -/
def PTR_OF (x : marked_ptr_t) : Ptr := x.ptr

/-- The macro `CONSTRUCT`: the pointer `ptr` with the mark `mark`. -/
def CONSTRUCT (mark : Bool) (ptr : Ptr) : marked_ptr_t := ⟨ptr, mark⟩

/-- The macro `UNINITIALIZED`. -/
def UNINITIALIZED : marked_ptr_t := ⟨none, false⟩

/-- The macro `MSB`. -/
def MSB : Nat := u64 (1 <<< 63)

/-- The macro `HASH_KEY`: the value of the expression. -/
def HASH_KEY (key : Nat) : Nat := u64 (((key >>> 16) ^^^ key) * 0x45d9f3b)

/-- The macro `REVERSE_BYTE`; the argument is narrowed to `uint32_t`, the
products are taken in `unsigned long`. -/
def REVERSE_BYTE (x : Nat) : Nat :=
  (u64 (((u64 (x % 2 ^ 32 * 0x0802) &&& 0x22110) ||| (u64 (x % 2 ^ 32 * 0x8020) &&& 0x88440))
    * 0x10101) >>> 16) &&& 0xff

/-- The macro `REVERSE`. -/
def REVERSE (x : Nat) : Nat :=
  u64 (REVERSE_BYTE (u64 x &&& 0xff) <<< 56) |||
  u64 (REVERSE_BYTE ((u64 x >>> 8) &&& 0xff) <<< 48) |||
  u64 (REVERSE_BYTE ((u64 x >>> 16) &&& 0xff) <<< 40) |||
  u64 (REVERSE_BYTE ((u64 x >>> 24) &&& 0xff) <<< 32) |||
  u64 (REVERSE_BYTE ((u64 x >>> 32) &&& 0xff) <<< 24) |||
  u64 (REVERSE_BYTE ((u64 x >>> 40) &&& 0xff) <<< 16) |||
  u64 (REVERSE_BYTE ((u64 x >>> 48) &&& 0xff) <<< 8) |||
  u64 (REVERSE_BYTE ((u64 x >>> 56) &&& 0xff) <<< 0)

/-- The function `so_regularkey`. -/
def so_regularkey (key : Nat) : Nat := REVERSE (key ||| MSB)

/-- The function `so_dummykey`. -/
def so_dummykey (key : Nat) : Nat := REVERSE key

/-- The function `GET_PARENT`. -/
def GET_PARENT (bucket : Nat) : Nat :=
  let t := bucket
  let t := t ||| (t >>> 1)
  let t := t ||| (t >>> 2)
  let t := t ||| (t >>> 4)
  let t := t ||| (t >>> 8)
  let t := t ||| (t >>> 16)
  let t := t ||| (t >>> 32)
  bucket &&& (t >>> 1)

namespace Memory

/-- The read `*addr`. -/
def load (m : Memory) : Loc → Option marked_ptr_t
  | .bucket i => m.B[i]?
  | .next a => (m.cells[a]?).bind fun e => some e.next

/-- The assignment `*addr = v`. -/
def store (m : Memory) (addr : Loc) (v : marked_ptr_t) : Option Memory :=
  match addr with
  | .bucket i => if i < m.B.length then some { m with B := m.B.set i v } else none
  | .next a => (m.cells[a]?).bind fun e => some { m with cells := m.cells.set a { e with next := v } }

/-- The macro `CAS` on a `marked_ptr_t`, `__sync_val_compare_and_swap`,
executed without interference: the result is the value read. -/
def CAS (m : Memory) (addr : Loc) (oldv newv : marked_ptr_t) : Option (Memory × marked_ptr_t) :=
  (m.load addr).bind fun w =>
    if w = oldv then (m.store addr newv).bind fun m1 => some (m1, w)
    else some (m, w)

/-- The call `malloc(sizeof(hash_entry))` followed by the assignments to the
three fields: the new cell is appended, its pointer is the old number of
cells. -/
def malloc (m : Memory) (e : hash_entry) : Memory × Nat :=
  ({ m with cells := m.cells ++ [e] }, m.cells.length)

end Memory

/-- What `list_find` hands back: the pointer returned and the values stored
through `oprev`, `ocur` and `onext`. -/
structure Found where
  ret : Nat
  prev : Loc
  cur : marked_ptr_t
  next : marked_ptr_t
deriving DecidableEq, Repr

/-- The inner `while (1)` loop of `list_find`, entered with `prev`, `cur` and
`next`. The result holds the final value of `next` and `some` of the values
handed back at a `return`, or `none` when the loop is left by `break`. -/
def list_find.inner : Nat → Memory → Nat → Loc → marked_ptr_t → marked_ptr_t →
    Option (Memory × marked_ptr_t × Option Found)
  | 0, _, _, _, _, _ => none
  | fuel + 1, m, key, prev, cur, next =>
    match PTR_OF cur with
    | none => some (m, next, some ⟨0, prev, cur, next⟩)
    | some a =>
      (m.cells[a]?).bind fun e =>
        let next := e.next
        let ckey := e.key
        let cval := e.value
        (m.load prev).bind fun w =>
          if w ≠ CONSTRUCT false (PTR_OF cur) then some (m, next, none)
          else if !MARK_OF next then
            if ckey ≥ key then
              some (m, next, some ⟨if ckey = key then cval else 0, prev, cur, next⟩)
            else list_find.inner fuel m key (.next a) next next
          else
            (m.CAS prev (CONSTRUCT false (PTR_OF cur)) (CONSTRUCT false (PTR_OF next))).bind
              fun r =>
                if r.2 = CONSTRUCT false (PTR_OF cur) then
                  list_find.inner fuel r.1 key prev next next
                else some (r.1, next, none)

/-- The outer `while (1)` loop of `list_find`. -/
def list_find.outer : Nat → Memory → Loc → Nat → marked_ptr_t → Option (Memory × Found)
  | 0, _, _, _, _ => none
  | fuel + 1, m, head, key, next =>
    let prev := head
    (m.load prev).bind fun cur =>
      (list_find.inner (m.cells.length + 1) m key prev cur next).bind fun r =>
        match r.2.2 with
        | some f => some (r.1, f)
        | none => list_find.outer fuel r.1 head key r.2.1

/-- The function `list_find`. -/
def list_find (m : Memory) (head : Loc) (key : Nat) : Option (Memory × Found) :=
  list_find.outer (m.cells.length + 1) m head key UNINITIALIZED

/-- The loop of `list_insert`; the result is the `int` returned and the value
of `cur`, which the function stores through `ocur` when that is not `NULL`. -/
def list_insert.loop : Nat → Memory → Loc → Nat → Option (Memory × Nat × marked_ptr_t)
  | 0, _, _, _ => none
  | fuel + 1, m, head, node =>
    (m.cells[node]?).bind fun n =>
      let key := n.key
      (list_find m head key).bind fun r =>
        let lprev := r.2.prev
        let cur := r.2.cur
        if r.2.ret ≠ 0 then some (r.1, 0, cur)
        else
          (r.1.store (.next node) (CONSTRUCT false (PTR_OF cur))).bind fun m1 =>
            (m1.CAS lprev (CONSTRUCT false (PTR_OF cur)) (CONSTRUCT false (some node))).bind
              fun r2 =>
                if r2.2 = CONSTRUCT false (PTR_OF cur) then some (r2.1, 1, cur)
                else list_insert.loop fuel r2.1 head node

/-- The function `list_insert`. -/
def list_insert (m : Memory) (head : Loc) (node : Nat) : Option (Memory × Nat × marked_ptr_t) :=
  list_insert.loop (m.cells.length + 1) m head node

/-- The loop of `list_delete`. -/
def list_delete.loop : Nat → Memory → Loc → Nat → Option (Memory × Nat)
  | 0, _, _, _ => none
  | fuel + 1, m, head, key =>
    (list_find m head key).bind fun r =>
      let lprev := r.2.prev
      let lcur := r.2.cur
      let lnext := r.2.next
      if r.2.ret = 0 then some (r.1, 0)
      else
        match PTR_OF lcur with
        | none => none
        | some c =>
          (r.1.CAS (.next c) (CONSTRUCT false (PTR_OF lnext)) (CONSTRUCT true (PTR_OF lnext))).bind
            fun r2 =>
              if r2.2 ≠ CONSTRUCT false (PTR_OF lnext) then list_delete.loop fuel r2.1 head key
              else
                (r2.1.CAS lprev (CONSTRUCT false (PTR_OF lcur))
                    (CONSTRUCT false (PTR_OF lnext))).bind fun r3 =>
                  if r3.2 = CONSTRUCT false (PTR_OF lcur) then some (r3.1, 1)
                  else (list_find r3.1 head key).bind fun r4 => some (r4.1, 1)

/-- The function `list_delete`. -/
def list_delete (m : Memory) (head : Loc) (key : Nat) : Option (Memory × Nat) :=
  list_delete.loop (m.cells.length + 1) m head key

end InitialProject

namespace InitialProject

/-- The function `initialize_bucket` on the memory `h->B` points into. The
recursion clears the highest set bit of `bucket` at every level, so 64 levels
are enough for a 64-bit index. When `list_insert` returns 0 the function waits
until slot `bucket` holds the pointer found; without another thread that loop
ends only if the slot holds it already. -/
def initialize_bucket.go : Nat → Memory → Nat → Option Memory
  | 0, _, _ => none
  | fuel + 1, m, bucket =>
    let parent := GET_PARENT bucket
    (m.B[parent]?).bind fun bp =>
      (if bp = UNINITIALIZED then initialize_bucket.go fuel m parent else some m).bind fun m1 =>
        let (m2, dummy) := m1.malloc ⟨so_dummykey bucket, 0, UNINITIALIZED⟩
        (list_insert m2 (.bucket parent) dummy).bind fun r =>
          if r.2.1 = 0 then
            let dummy := PTR_OF r.2.2
            (r.1.B[bucket]?).bind fun b =>
              if b ≠ CONSTRUCT false dummy then none else some r.1
          else r.1.store (.bucket bucket) (CONSTRUCT false (some dummy))

/-- The function `initialize_bucket`. -/
def initialize_bucket (h : hash_s) (bucket : Nat) : Option hash_s :=
  (initialize_bucket.go 64 h.mem bucket).bind fun m => some { h with mem := m }

/-- The function `hash_create`; `g` is the value of the global
`hard_max_buckets` at the call (0 when the program starts), `pagesize` the
result of `getpagesize()`, and `sizeof(marked_ptr_t)` is 8. The argument
`needSync` is not used. -/
def hash_create (g pagesize : Nat) : Option hash_s :=
  let hard_max_buckets := if g = 0 then pagesize / 8 else g
  let B : List marked_ptr_t := List.replicate hard_max_buckets UNINITIALIZED
  let cells : List hash_entry := [⟨0, 0, UNINITIALIZED⟩]
  let dummy := 0
  if 0 < B.length then some ⟨⟨cells, B.set 0 (CONSTRUCT false (some dummy))⟩, 0, 2, hard_max_buckets⟩
  else none

/-- The function `hash_put`. The statement `HASH_KEY(lkey);` computes a value
and drops it, so `lkey` keeps the value of `key`. -/
def hash_put (h : hash_s) (key : Nat) (value : Nat) : Option (hash_s × Nat) :=
  let lkey := u64 key
  if h.size = 0 then none
  else
    let bucket := lkey % h.size
    if lkey &&& MSB ≠ 0 then none
    else
      let (m1, node) := h.mem.malloc ⟨so_regularkey lkey, value, UNINITIALIZED⟩
      let h1 := { h with mem := m1 }
      (h1.mem.B[bucket]?).bind fun b =>
        (if b = UNINITIALIZED then initialize_bucket h1 bucket else some h1).bind fun h2 =>
          (list_insert h2.mem (.bucket bucket) node).bind fun r =>
            if r.2.1 = 0 then some ({ h2 with mem := r.1 }, 0)
            else
              let h3 := { h2 with mem := r.1 }
              let csize := h3.size
              let old := h3.count
              let h4 := { h3 with count := u64 (h3.count + 1) }
              if old / csize > MAX_LOAD then
                if u64 (2 * csize) ≤ h4.hard_max_buckets then
                  some ({ h4 with size := if h4.size = csize then u64 (2 * csize) else h4.size }, 1)
                else some (h4, 1)
              else some (h4, 1)

/-- The function `hash_get`: the payload found, or `NULL`. -/
def hash_get (h : hash_s) (key : Nat) : Option (hash_s × Nat) :=
  let lkey := u64 key
  if h.size = 0 then none
  else
    let bucket := lkey % h.size
    (h.mem.B[bucket]?).bind fun b =>
      (if b = UNINITIALIZED then initialize_bucket h bucket else some h).bind fun h2 =>
        (list_find h2.mem (.bucket bucket) (so_regularkey lkey)).bind fun r =>
          some ({ h2 with mem := r.1 }, r.2.ret)

/-- The function `hash_remove`. -/
def hash_remove (h : hash_s) (key : Nat) : Option (hash_s × Nat) :=
  let lkey := u64 key
  if h.size = 0 then none
  else
    let bucket := lkey % h.size
    (h.mem.B[bucket]?).bind fun b =>
      (if b = UNINITIALIZED then initialize_bucket h bucket else some h).bind fun h2 =>
        (list_delete h2.mem (.bucket bucket) (so_regularkey lkey)).bind fun r =>
          if r.2 = 0 then some ({ h2 with mem := r.1 }, 0)
          else some ({ h2 with mem := r.1, count := u64 (h2.count + (2 ^ 64 - 1)) }, 1)

/-- The function `hash_count`. -/
def hash_count (h : hash_s) : Nat := h.size

/-- The loop of `call_hash_callback_fn`: the calls of `f` in the order they
are made, each with the key and the payload passed. -/
def call_hash_callback_fn.loop : Nat → Memory → marked_ptr_t → Option (List (Nat × Nat))
  | 0, _, _ => none
  | fuel + 1, m, cursor =>
    match PTR_OF cursor with
    | none => some []
    | some a =>
      let tmp := cursor
      (m.cells[a]?).bind fun e =>
        let key := e.key
        if MARK_OF tmp ≠ false then none
        else
          (call_hash_callback_fn.loop fuel m e.next).bind fun rest =>
            some (if key &&& 1 ≠ 0 then (REVERSE (key ^^^ 1), e.value) :: rest else rest)

/-- The function `call_hash_callback_fn`. -/
def call_hash_callback_fn (h : hash_s) : Option (List (Nat × Nat)) :=
  (h.mem.B[0]?).bind fun cursor => call_hash_callback_fn.loop (h.mem.cells.length + 1) h.mem cursor

/-- A call of `hash_put`, `hash_remove` or `hash_get`. -/
inductive Call where
  | put (key value : Nat)
  | remove (key : Nat)
  | get (key : Nat)
deriving DecidableEq, Repr

/-- One call on the table: the state it leaves and the value it returns. -/
def call (h : hash_s) : Call → Option (hash_s × Nat)
  | .put key value => hash_put h key value
  | .remove key => hash_remove h key
  | .get key => hash_get h key

/-- A sequence of calls issued by one thread, with the list of the results. -/
def run (h : hash_s) : List Call → Option (hash_s × List Nat)
  | [] => some (h, [])
  | c :: cs =>
    (call h c).bind fun r =>
      (run r.1 cs).bind fun r2 => some (r2.1, r.2 :: r2.2)

/-- The states one thread reaches by calls that return, from the table
`hash_create` sets up in a program whose page size is `pagesize`. -/
inductive Reached (pagesize : Nat) : hash_s → Prop where
  | init {h : hash_s} : hash_create 0 pagesize = some h → Reached pagesize h
  | call {h h1 : hash_s} {c : Call} {r : Nat} :
      Reached pagesize h → call h c = some (h1, r) → Reached pagesize h1

end InitialProject

/-! ## `initial_project.c`: states and runs used in the statements -/

namespace InitialProject

/-- The cells met from `cursor` to the null pointer, following `next` words
whatever their mark. -/
def cellsFrom : Nat → Memory → marked_ptr_t → Option (List hash_entry)
  | 0, _, _ => none
  | fuel + 1, m, cursor =>
    match PTR_OF cursor with
    | none => some []
    | some a => (m.cells[a]?).bind fun e => (cellsFrom fuel m e.next).bind fun rest =>
        some (e :: rest)

/-- The cells of the list of a table, from the cell of bucket 0 on. -/
def listCells (h : hash_s) : Option (List hash_entry) :=
  (h.mem.B[0]?).bind fun cursor => cellsFrom (h.mem.cells.length + 1) h.mem cursor

/-- A regular cell has an odd sort key; the cell of a bucket has an even one. -/
def isRegular (e : hash_entry) : Bool := decide (e.key &&& 1 ≠ 0)

/-- The state `hash_create` leaves in a program whose page size is
`pagesize`: one zeroed cell, to which slot 0 of the bucket array points. -/
def table (pagesize : Nat) : hash_s :=
  ⟨⟨[⟨0, 0, UNINITIALIZED⟩],
    (List.replicate (pagesize / 8) UNINITIALIZED).set 0 (CONSTRUCT false (some 0))⟩,
    0, 2, pagesize / 8⟩

/-- The calls `hash_put(h, 1, 1), ..., hash_put(h, n, n)`. -/
def putsUpTo (n : Nat) : List Call := (List.range n).map fun i => Call.put (i + 1) (i + 1)

/-- Number of `hash_put` calls in a run that returned 1. -/
def putsDone : List Call → List Nat → Nat
  | .put _ _ :: cs, r :: rs => (if r = 1 then 1 else 0) + putsDone cs rs
  | _ :: cs, _ :: rs => putsDone cs rs
  | _, _ => 0

/-- Number of `hash_remove` calls in a run that returned 1. -/
def removesDone : List Call → List Nat → Nat
  | .remove _ :: cs, r :: rs => (if r = 1 then 1 else 0) + removesDone cs rs
  | _ :: cs, _ :: rs => removesDone cs rs
  | _, _ => 0

end InitialProject

namespace InitialProject

/-- The table of a program with page size 32 (four slots) after
`hash_put(h, 1, 1), ..., hash_put(h, 11, 11)`: `size` has reached
`hard_max_buckets`. -/
def capped : hash_s :=
  match run (table 32) (putsUpTo 11) with
  | some r => r.1
  | none => table 32

/-- The table of a program with page size 4096 after
`hash_put(h, 1, 1), ..., hash_put(h, 10, 10)`: ten elements in two buckets,
the load at which the next insertion doubles `size`. -/
def tenth : hash_s :=
  match run (table 4096) (putsUpTo 10) with
  | some r => r.1
  | none => table 4096

end InitialProject

/-! ## `initial_project.c`: abstraction of the memory -/

namespace InitialProject

/-- `CSeg m p xs q`: starting at pointer `p` and following unmarked `next`
words, the cells met are exactly those of `xs` (address, sort key, payload),
and the `next` pointer of the last one is `q`. -/
def CSeg (m : Memory) : Ptr → List (Nat × Nat × Nat) → Ptr → Prop
  | p, [], q => p = q
  | p, x :: xs, q =>
    p = some x.1 ∧ ∃ e, m.cells[x.1]? = some e ∧ e.key = x.2.1 ∧ e.value = x.2.2 ∧
      e.next.flag = false ∧ CSeg m e.next.ptr xs q

/-- The order `list_insert` keeps: a cell comes before every cell with a
greater sort key, and before a cell with the same sort key only if that cell
carries the payload `NULL`. -/
def before (x y : Nat × Nat × Nat) : Prop :=
  x.2.1 < y.2.1 ∨ (x.2.1 = y.2.1 ∧ y.2.2 = 0)

/-- The regular cells of a list of cells: sort key and payload of the cells
with an odd sort key, in list order. -/
def regs (L : List (Nat × Nat × Nat)) : List (Nat × Nat) :=
  (L.filter fun x => decide (x.2.1 &&& 1 ≠ 0)).map Prod.snd

/-- Invariant of the memory between two calls: slot 0 of the bucket array
points to the first of the cells `L`, which lead to the null pointer through
unmarked `next` words and are in the order `before`; the bucket array has
fewer than `2 ^ 63` slots, each of them uninitialised or pointing to the cell
of `L` with the sort key of its bucket and the payload `NULL`; every cell of
`L` is regular, with the sort key of a key below `2 ^ 63`, or the cell an
initialised slot points to. -/
structure MInv (m : Memory) (L : List (Nat × Nat × Nat)) : Prop where
  seg : ∃ d, m.B[0]? = some ⟨some d, false⟩ ∧ CSeg m (some d) L none
  sorted : L.Pairwise before
  slots : m.B.length < 2 ^ 63
  bucket : ∀ b, b < m.B.length → m.B[b]? = some UNINITIALIZED ∨
    ∃ a, m.B[b]? = some ⟨some a, false⟩ ∧ (a, so_dummykey b, 0) ∈ L
  kinds : ∀ x ∈ L, (∃ k, k < 2 ^ 63 ∧ x.2.1 = so_regularkey k) ∨
    (∃ b, b < m.B.length ∧ x.2.1 = so_dummykey b ∧ x.2.2 = 0 ∧
      m.B[b]? = some ⟨some x.1, false⟩)

/-- Invariant of the table between two calls: the memory invariant, the
bucket array has `hard_max_buckets` slots, `size` is a power of two of at
least 2 and at most the number of slots, and `count` is the number of regular
cells. -/
structure CInv (h : hash_s) (L : List (Nat × Nat × Nat)) : Prop where
  mem : MInv h.mem L
  cap : h.hard_max_buckets = h.mem.B.length
  size : ∃ j, 1 ≤ j ∧ h.size = 2 ^ j ∧ h.size ≤ h.mem.B.length
  count : h.count = (regs L).length % 2 ^ 64

end InitialProject

namespace InitialProject

/-- What `initialize_bucket` keeps when it takes the memory `m` with the cells
`L` to the memory `m1` with the cells `L1`: the number of slots, the
initialised slots, the regular cells, and every cell outside the list. -/
structure Grows (m : Memory) (L : List (Nat × Nat × Nat)) (m1 : Memory)
    (L1 : List (Nat × Nat × Nat)) : Prop where
  slots : m1.B.length = m.B.length
  kept : ∀ b : Nat, m.B[b]? ≠ some UNINITIALIZED → m1.B[b]? = m.B[b]?
  regs : regs L1 = regs L
  cells : m.cells.length ≤ m1.cells.length
  outside : ∀ a : Nat, a < m.cells.length → (∀ x ∈ L, x.1 ≠ a) →
    m1.cells[a]? = m.cells[a]? ∧ ∀ x ∈ L1, x.1 ≠ a

end InitialProject
/-! ## Key encoding and window condition of the specification -/

namespace LockFreeHashTable

/-- The mask the specification describes: every bit of a 32-bit word but the
top one. -/
def spec_MASK : Nat := 0x7FFFFFFF

/-- The constant `TOP = 1 << (W - 1)` of the specification, with `W = 32`. -/
def spec_TOP : Nat := 1 <<< (32 - 1)

/-- The sentinel key of the specification: `reverse(b & MASK)`. -/
def spec_sentinel_key (b : Nat) : Nat := Reverse (b &&& spec_MASK)

/-- The key of a value in the specification: `reverse((hash(v) & MASK) | TOP)`. -/
def spec_normal_key (v : Nat) : Nat := Reverse ((HashFunction v &&& spec_MASK) ||| spec_TOP)

end LockFreeHashTable

namespace LockFreeList

/-- The condition the specification puts on the window `Find(start, item)`
returns: `pred->next` is an unmarked pointer to `curr`, `curr->next` is
unmarked, and `pred->item < item <= curr->item`. -/
def Find_post (m : Heap) (w : Window) (item : KeyValue) : Bool :=
  match m.read w.pred, m.read w.curr with
  | some np, some nc =>
    decide (GetPointer np.next = w.curr) && !GetFlag np.next && !GetFlag nc.next &&
      np.item.lt item && nc.item.ge item
  | _, _ => false

end LockFreeList


/-! ## The order on items -/

namespace KeyValue

theorem lt_iff (a b : KeyValue) :
    a.lt b = true ↔ a.key < b.key ∨ (a.key = b.key ∧ a.value < b.value) := by
  unfold KeyValue.lt
  split_ifs with h1 h2 <;> simp <;> omega

theorem ge_iff (a b : KeyValue) :
    a.ge b = true ↔ b.key < a.key ∨ (a.key = b.key ∧ b.value ≤ a.value) := by
  unfold KeyValue.ge
  split_ifs with h1 h2 <;> simp <;> omega

theorem eq_iff (a b : KeyValue) : a.eq b = true ↔ a = b := by
  cases a; cases b
  simp [KeyValue.eq]

theorem ne_iff (a b : KeyValue) : a.ne b = true ↔ a ≠ b := by
  cases a; cases b
  simp [KeyValue.ne]
  omega

theorem ext_iff' (a b : KeyValue) : a = b ↔ a.key = b.key ∧ a.value = b.value := by
  cases a; cases b; simp

theorem lt_irrefl (a : KeyValue) : ¬ a.lt a = true := by
  rw [lt_iff]; omega

theorem lt_trans {a b c : KeyValue} (h1 : a.lt b = true) (h2 : b.lt c = true) :
    a.lt c = true := by
  rw [lt_iff] at *; omega

theorem ge_iff_not_lt (a b : KeyValue) : a.ge b = true ↔ ¬ a.lt b = true := by
  rw [lt_iff, ge_iff]; omega

theorem ge_cases {a b : KeyValue} (h : a.ge b = true) : a = b ∨ b.lt a = true := by
  rw [ge_iff] at h; rw [lt_iff, ext_iff']; omega

theorem lt_asymm {a b : KeyValue} (h : a.lt b = true) : ¬ b.lt a = true := by
  rw [lt_iff] at *; omega

theorem ne_of_lt {a b : KeyValue} (h : a.lt b = true) : a ≠ b := by
  intro e; subst e; exact lt_irrefl a h

end KeyValue

/-! ## Bit reversal -/

namespace LockFreeHashTable

theorem Reverse.step_testBit (x acc i j : Nat) :
    (Reverse.step x acc i).testBit j = (acc.testBit j || (x.testBit i && decide (31 - i = j))) := by
  unfold Reverse.step
  have h : (x &&& 1 <<< i ≠ 0) ↔ x.testBit i = true := by
    rw [Nat.one_shiftLeft, Nat.and_two_pow]
    cases x.testBit i <;> simp
  by_cases hb : x.testBit i = true
  · rw [if_pos (h.mpr hb)]
    simp [Nat.one_shiftLeft, Nat.testBit_two_pow, hb]
  · rw [if_neg (fun hc => hb (h.mp hc))]
    simp [hb]

theorem Reverse.loop_testBit (x n j : Nat) (hn : n ≤ 32) :
    ((List.range n).foldl (Reverse.step x) 0).testBit j
      = (decide (j ≤ 31 ∧ 31 - j < n) && x.testBit (31 - j)) := by
  induction n with
  | zero => simp
  | succ n ih =>
    rw [List.range_succ, List.foldl_append, List.foldl_cons, List.foldl_nil,
      Reverse.step_testBit, ih (by omega)]
    by_cases h1 : 31 - n = j
    · have h2 : 31 - j = n := by omega
      have h3 : j ≤ 31 := by omega
      simp [h1, h2, h3]
    · by_cases h3 : j ≤ 31 ∧ 31 - j < n
      · have h4 : j ≤ 31 ∧ 31 - j < n + 1 := ⟨h3.1, by omega⟩
        simp [h1, h3, h4]
      · have h4 : ¬ (j ≤ 31 ∧ 31 - j < n + 1) := by omega
        simp [h1, h3, h4]

theorem Reverse_testBit (x j : Nat) :
    (Reverse x).testBit j = (decide (j ≤ 31) && x.testBit (31 - j)) := by
  unfold Reverse
  rw [Reverse.loop_testBit x 32 j (le_refl _)]
  by_cases h : j ≤ 31
  · have : 31 - j < 32 := by omega
    simp [h, this]
  · simp [h]

theorem Reverse_lt (x : Nat) : Reverse x < 2 ^ 32 := by
  apply Nat.lt_pow_two_of_testBit
  intro i hi
  rw [Reverse_testBit]
  have : ¬ i ≤ 31 := by omega
  simp [this]

/-- Bitwise inclusion gives the order. -/
theorem le_of_and_eq {x y : Nat} (h : x &&& y = x) : x ≤ y := by
  rw [← h]; exact Nat.and_le_right

theorem Reverse_and (x y : Nat) : Reverse (x &&& y) = Reverse x &&& Reverse y := by
  apply Nat.eq_of_testBit_eq
  intro i
  simp only [Reverse_testBit, Nat.testBit_and]
  cases decide (i ≤ 31) <;> simp

theorem Reverse_mono {x y : Nat} (h : x &&& y = x) : Reverse x ≤ Reverse y := by
  apply le_of_and_eq
  rw [← Reverse_and, h]

end LockFreeHashTable

/-! ## List segments in the heap -/

namespace Seg

theorem append {m : Heap} {xs ys : List (Nat × KeyValue)} {p q : Ptr} :
    Seg m p (xs ++ ys) q ↔ ∃ r, Seg m p xs r ∧ Seg m r ys q := by
  induction xs generalizing p with
  | nil => simp [Seg]
  | cons x xs ih =>
    constructor
    · intro h
      have h1 : Seg m p (x :: (xs ++ ys)) q := h
      obtain ⟨hp, n, hn, hi, hf, hr⟩ := h1
      obtain ⟨r, h2, h3⟩ := ih.mp hr
      exact ⟨r, ⟨hp, n, hn, hi, hf, h2⟩, h3⟩
    · rintro ⟨r, ⟨hp, n, hn, hi, hf, h2⟩, h3⟩
      show Seg m p (x :: (xs ++ ys)) q
      exact ⟨hp, n, hn, hi, hf, ih.mpr ⟨r, h2, h3⟩⟩

theorem congr {m m1 : Heap} {xs : List (Nat × KeyValue)} {p q : Ptr}
    (h : ∀ x ∈ xs, m1[x.1]? = m[x.1]?) (hs : Seg m p xs q) : Seg m1 p xs q := by
  induction xs generalizing p with
  | nil => exact hs
  | cons x xs ih =>
    obtain ⟨hp, n, hn, hi, hf, hr⟩ := hs
    refine ⟨hp, n, ?_, hi, hf, ih (fun y hy => h y (List.mem_cons_of_mem _ hy)) hr⟩
    rw [h x (List.mem_cons_self _ _)]; exact hn

theorem node {m : Heap} {xs : List (Nat × KeyValue)} {p q : Ptr} (hs : Seg m p xs q)
    {x : Nat × KeyValue} (hx : x ∈ xs) :
    ∃ n, m[x.1]? = some n ∧ n.item = x.2 ∧ n.next.flag = false := by
  induction xs generalizing p with
  | nil => cases hx
  | cons y ys ih =>
    obtain ⟨_, n, hn, hi, hf, hr⟩ := hs
    rcases List.mem_cons.mp hx with rfl | hx
    · exact ⟨n, hn, hi, hf⟩
    · exact ih hr hx

theorem addr_lt {m : Heap} {xs : List (Nat × KeyValue)} {p q : Ptr} (hs : Seg m p xs q)
    {x : Nat × KeyValue} (hx : x ∈ xs) : x.1 < m.length := by
  obtain ⟨n, hn, _⟩ := hs.node hx
  exact (List.getElem?_eq_some.mp hn).1

theorem addr_ne {m : Heap} {xs : List (Nat × KeyValue)} {p q : Ptr} (hs : Seg m p xs q)
    {x y : Nat × KeyValue} (hx : x ∈ xs) (hy : y ∈ xs) (hne : x.2 ≠ y.2) : x.1 ≠ y.1 := by
  obtain ⟨n, hn, hi, _⟩ := hs.node hx
  obtain ⟨n1, hn1, hi1, _⟩ := hs.node hy
  intro e
  rw [e, hn1] at hn
  cases hn
  exact hne (hi.symm.trans hi1)

/-- Allocation of a further cell leaves every segment in place. -/
theorem alloc {m : Heap} {xs : List (Nat × KeyValue)} {p q : Ptr} (hs : Seg m p xs q)
    (n : NodeType) : Seg (m ++ [n]) p xs q := by
  refine hs.congr (fun x hx => ?_)
  exact List.getElem?_append_left (hs.addr_lt hx)

/-- In a strictly ascending segment no address occurs twice. -/
theorem nodup {m : Heap} {xs : List (Nat × KeyValue)} {p q : Ptr} (hs : Seg m p xs q)
    (hsort : xs.Pairwise (fun x y => x.2.lt y.2 = true)) : (xs.map Prod.fst).Nodup := by
  rw [List.Nodup, List.pairwise_map]
  refine List.Pairwise.imp_of_mem ?_ hsort
  intro x y hx hy hlt
  exact hs.addr_ne hx hy (KeyValue.ne_of_lt hlt)

theorem length_le {m : Heap} {xs : List (Nat × KeyValue)} {p q : Ptr} (hs : Seg m p xs q)
    (hsort : xs.Pairwise (fun x y => x.2.lt y.2 = true)) : xs.length ≤ m.length := by
  have h1 := hs.nodup hsort
  have h2 : xs.map Prod.fst ⊆ List.range m.length := by
    intro a ha
    obtain ⟨x, hx, rfl⟩ := List.mem_map.mp ha
    exact List.mem_range.mpr (hs.addr_lt hx)
  have h3 := (List.subperm_of_subset h1 h2).length_le
  simpa using h3

end Seg

/-! ## `Find` on a list without marked nodes -/

open LockFreeList


theorem Heap.read_some (m : Heap) (a : Nat) : m.read (some a) = m[a]? := rfl

theorem Find.walk_spec (m : Heap) (item : KeyValue) :
    ∀ (rest : List (Nat × KeyValue)) (p : Nat) (ip : KeyValue) (q : Ptr) (fuel : Nat),
      Seg m q rest none → rest ≠ [] →
      (∀ t, rest.getLast? = some t → t.2.ge item = true) →
      ip.lt item = true → rest.length ≤ fuel →
      ∃ xs p1 ip1 c1 ic1 ys,
        Find.walk fuel m item (some p) q = some (m, ⟨some p1, some c1⟩) ∧
        (p, ip) :: rest = xs ++ (p1, ip1) :: (c1, ic1) :: ys ∧
        ip1.lt item = true ∧ ic1.ge item = true := by
  intro rest
  induction rest with
  | nil => intro p ip q fuel _ h; exact absurd rfl h
  | cons x rest ih =>
    intro p ip q fuel hs _ hlast hlt hfuel
    obtain ⟨c, ic⟩ := x
    obtain ⟨hq, n, hn, hi, hf, hr⟩ := hs
    simp only at hq hn hi
    obtain ⟨fuel, rfl⟩ : ∃ f, fuel = f + 1 := ⟨fuel - 1, by simp at hfuel; omega⟩
    subst hq
    cases rest with
    | nil =>
      have hnull : n.next = nullWord := by
        have : n.next.ptr = none := hr
        cases hnx : n.next with
        | mk pp ff => rw [hnx] at this hf; simp at this hf; subst this; subst hf; rfl
      refine ⟨[], p, ip, c, ic, [], ?_, rfl, hlt, hlast _ rfl⟩
      simp [Find.walk, Heap.read_some, hn, hnull]
    | cons y rest =>
      have hnn : n.next ≠ nullWord := by
        intro e
        have h1 : n.next.ptr = some y.1 := hr.1
        rw [e] at h1
        cases h1
      have hskip : Find.skipMarked (m.length + 1) m (some p) (some c) (GetPointer n.next)
          = some (m, some c, GetPointer n.next) := by
        simp [Find.skipMarked, Heap.read_some, hn, GetFlag, hf]
      by_cases hge : ic.ge item = true
      · refine ⟨[], p, ip, c, ic, y :: rest, ?_, rfl, hlt, hge⟩
        simp [Find.walk, Heap.read_some, hn, hnn, hskip, hi, hge]
      · have hlt1 : ic.lt item = true := by
          by_contra hc
          exact hge ((KeyValue.ge_iff_not_lt _ _).mpr hc)
        obtain ⟨xs, p1, ip1, c1, ic1, ys, hw, hdec, h1, h2⟩ :=
          ih c ic n.next.ptr fuel hr (by simp)
            (fun t ht => hlast t (by simpa using ht)) hlt1 (by simp at hfuel ⊢; omega)
        refine ⟨(p, ip) :: xs, p1, ip1, c1, ic1, ys, ?_, ?_, h1, h2⟩
        · simp [Find.walk, Heap.read_some, hn, hnn, hskip, hi, hge]
          exact hw
        · simp [hdec]

theorem KeyValue.ge_of_lt {a b : KeyValue} (h : a.lt b = true) : b.ge a = true := by
  rw [KeyValue.lt_iff] at h; rw [KeyValue.ge_iff]; omega

theorem Find_spec {l : LockFreeList} {L : List (Nat × KeyValue)} (h : ListInv l L)
    {s : Nat} {is item : KeyValue} (hmem : (s, is) ∈ L) (hlt : is.lt item = true)
    (hitem : item.lt tailItem = true) :
    ∃ A p ip c ic B,
      Find l.mem (some s) item = some (l.mem, ⟨some p, some c⟩) ∧
      L = A ++ (p, ip) :: (c, ic) :: B ∧ ip.lt item = true ∧ ic.ge item = true := by
  obtain ⟨pre, rest, hL⟩ := List.append_of_mem hmem
  have hseg := h.seg
  rw [hL, Seg.append] at hseg
  obtain ⟨r, _, hr⟩ := hseg
  obtain ⟨hrs, n, hn, hi, hf, hrest⟩ := hr
  obtain ⟨t, ht⟩ := h.last
  have hne : rest ≠ [] := by
    rintro rfl
    rw [hL] at ht
    simp at ht
    rw [ht.2] at hlt
    exact KeyValue.lt_asymm hlt hitem
  have hlast : ∀ u, rest.getLast? = some u → u.2.ge item = true := by
    intro u hu
    cases rest with
    | nil => exact absurd rfl hne
    | cons y ys =>
      rw [hL, List.getLast?_append, List.getLast?_cons_cons, hu] at ht
      simp at ht
      rw [ht]
      exact KeyValue.ge_of_lt hitem
  have hlen : rest.length ≤ l.mem.length + 1 := by
    have := h.seg.length_le h.sorted
    rw [hL] at this
    simp at this
    omega
  simp only at hn hi
  have hlt1 : n.item.lt item = true := by rw [hi]; exact hlt
  obtain ⟨xs, p1, ip1, c1, ic1, ys, hw, hdec, h1, h2⟩ :=
    Find.walk_spec l.mem item rest s is n.next.ptr (l.mem.length + 1) hrest hne hlast hlt hlen
  refine ⟨pre ++ xs, p1, ip1, c1, ic1, ys, ?_, ?_, h1, h2⟩
  · simp only [Find, Heap.read_some, hn, Option.some_bind, GetPointer]
    exact hw
  · rw [hL, hdec, List.append_assoc]

/-- In an ascending list, the first node that is not below `item` decides membership. -/
theorem mem_iff_of_split {L A B : List (Nat × KeyValue)} {c : Nat} {ic item : KeyValue}
    (hs : L.Pairwise (fun x y => x.2.lt y.2 = true))
    (hL : L = A ++ (c, ic) :: B)
    (h1 : ∀ x ∈ A, x.2.lt item = true) (h2 : ic.ge item = true) :
    item ∈ L.map Prod.snd ↔ ic = item := by
  subst hL
  rw [List.pairwise_append, List.pairwise_cons] at hs
  obtain ⟨_, ⟨hc, _⟩, _⟩ := hs
  constructor
  · intro hm
    obtain ⟨x, hx, rfl⟩ := List.mem_map.mp hm
    rcases List.mem_append.mp hx with hx | hx
    · exact absurd (h1 x hx) (KeyValue.lt_irrefl _)
    · rcases List.mem_cons.mp hx with e | hx
      · rw [e]
      · exact absurd (hc _ hx) ((KeyValue.ge_iff_not_lt _ _).mp h2)
  · intro e
    rw [← e]
    exact List.mem_map.mpr ⟨(c, ic), by simp, rfl⟩

theorem Contains.loop_stops (m : Heap) (item : KeyValue) :
    ∀ (S : List (Nat × KeyValue)) (q : Ptr) (fuel : Nat),
      Seg m q S none → S ≠ [] →
      (∀ t, S.getLast? = some t → t.2.ge item = true) → S.length ≤ fuel →
      ∃ xs c ic ys,
        Contains.loop fuel m item q = some (some c) ∧ S = xs ++ (c, ic) :: ys ∧
        (∀ x ∈ xs, x.2.lt item = true) ∧ ic.ge item = true := by
  intro S
  induction S with
  | nil => intro q fuel _ h; exact absurd rfl h
  | cons x rest ih =>
    intro q fuel hs _ hlast hfuel
    obtain ⟨c, ic⟩ := x
    obtain ⟨hq, n, hn, hi, hf, hr⟩ := hs
    simp only at hq hn hi
    obtain ⟨fuel, rfl⟩ : ∃ f, fuel = f + 1 := ⟨fuel - 1, by simp at hfuel; omega⟩
    subst hq
    by_cases hlt : ic.lt item = true
    · have hne : rest ≠ [] := by
        rintro rfl
        exact (KeyValue.ge_iff_not_lt _ _).mp (hlast _ rfl) hlt
      obtain ⟨xs, c1, ic1, ys, hw, hdec, h1, h2⟩ :=
        ih n.next.ptr fuel hr hne
          (fun t ht => hlast t (by
            cases rest with
            | nil => exact absurd rfl hne
            | cons y ys => simpa using ht))
          (by simp at hfuel ⊢; omega)
      refine ⟨(c, ic) :: xs, c1, ic1, ys, ?_, by simp [hdec], ?_, h2⟩
      · simp [Contains.loop, Heap.read_some, hn, hi, hlt, GetPointer]
        exact hw
      · intro x hx
        rcases List.mem_cons.mp hx with rfl | hx
        · exact hlt
        · exact h1 x hx
    · refine ⟨[], c, ic, rest, ?_, rfl, by simp, (KeyValue.ge_iff_not_lt _ _).mpr hlt⟩
      simp [Contains.loop, Heap.read_some, hn, hi, hlt]

theorem LockFreeList.Contains_list_spec {l : LockFreeList} {L : List (Nat × KeyValue)}
    (h : ListInv l L) {s : Nat} {is item : KeyValue} (hmem : (s, is) ∈ L)
    (hlt : is.lt item = true) (hitem : item.lt tailItem = true) :
    l.Contains (some s) item = some (decide (item ∈ L.map Prod.snd)) := by
  obtain ⟨pre, rest, hL⟩ := List.append_of_mem hmem
  have hseg := h.seg
  rw [hL, Seg.append] at hseg
  obtain ⟨r, hpre, hr⟩ := hseg
  have hrs : r = some s := hr.1
  subst hrs
  obtain ⟨t, ht⟩ := h.last
  have hlast : ∀ u, ((s, is) :: rest).getLast? = some u → u.2.ge item = true := by
    intro u hu
    rw [hL, List.getLast?_append, hu] at ht
    simp at ht
    rw [ht]
    exact KeyValue.ge_of_lt hitem
  have hlen : ((s, is) :: rest).length ≤ l.mem.length + 1 := by
    have := h.seg.length_le h.sorted
    rw [hL] at this
    simp at this ⊢
    omega
  obtain ⟨xs, c, ic, ys, hw, hdec, h1, h2⟩ :=
    Contains.loop_stops l.mem item _ (some s) (l.mem.length + 1) hr (by simp) hlast hlen
  have hL2 : L = (pre ++ xs) ++ (c, ic) :: ys := by
    rw [hL, hdec, List.append_assoc]
  have hA : ∀ x ∈ pre ++ xs, x.2.lt item = true := by
    intro x hx
    rcases List.mem_append.mp hx with hx | hx
    · have hs := h.sorted
      rw [hL, List.pairwise_append] at hs
      exact KeyValue.lt_trans (hs.2.2 x hx (s, is) (List.mem_cons_self _ _)) hlt
    · exact h1 x hx
  have hiff := mem_iff_of_split h.sorted hL2 hA h2
  have hc : (c, ic) ∈ L := by rw [hL2]; simp
  obtain ⟨n, hn, hi, hf⟩ := h.seg.node hc
  simp only at hn hi
  simp only [LockFreeList.Contains, hw, Option.some_bind, Heap.read_some, hn, GetFlag, hf, hi]
  congr 1
  by_cases e : ic = item
  · simp [e, hiff.mpr e, (KeyValue.eq_iff _ _).mpr rfl]
  · have : ¬ (ic.eq item = true) := fun hc => e ((KeyValue.eq_iff _ _).mp hc)
    simp [this, mt hiff.mp e]

/-- Insertion of `z` between two neighbours keeps a list ascending. -/
theorem pairwise_insert {A B : List (Nat × KeyValue)} {x y z : Nat × KeyValue}
    (hs : (A ++ x :: y :: B).Pairwise (fun x y => x.2.lt y.2 = true))
    (h1 : x.2.lt z.2 = true) (h2 : z.2.lt y.2 = true) :
    (A ++ x :: z :: y :: B).Pairwise (fun x y => x.2.lt y.2 = true) := by
  rw [List.pairwise_append, List.pairwise_cons, List.pairwise_cons] at hs
  obtain ⟨hA, ⟨hx, hy, hB⟩, hAB⟩ := hs
  rw [List.pairwise_append, List.pairwise_cons, List.pairwise_cons, List.pairwise_cons]
  refine ⟨hA, ⟨?_, ?_, hy, hB⟩, ?_⟩
  · intro a ha
    rcases List.mem_cons.mp ha with rfl | ha
    · exact h1
    · exact hx a ha
  · intro a ha
    rcases List.mem_cons.mp ha with rfl | ha
    · exact h2
    · exact KeyValue.lt_trans h2 (hy a ha)
  · intro a ha b hb
    rcases List.mem_cons.mp hb with rfl | hb
    · exact hAB a ha _ (List.mem_cons_self _ _)
    · rcases List.mem_cons.mp hb with rfl | hb
      · exact KeyValue.lt_trans (hAB a ha x (List.mem_cons_self _ _)) h1
      · exact hAB a ha b (List.mem_cons_of_mem _ hb)

/-- State of the heap after a node has been linked in behind `p`. -/
theorem Seg.insert {m m3 : Heap} {hd : Ptr} {A B : List (Nat × KeyValue)} {p c n : Nat}
    {ip ic item : KeyValue} {np : NodeType}
    (hseg : Seg m hd (A ++ (p, ip) :: (c, ic) :: B) none)
    (hsort : (A ++ (p, ip) :: (c, ic) :: B).Pairwise (fun x y => x.2.lt y.2 = true))
    (hp : m[p]? = some np)
    (hframe : ∀ a, a < m.length → a ≠ p → m3[a]? = m[a]?)
    (h3p : m3[p]? = some { np with next := plain (some n) })
    (h3n : m3[n]? = some ⟨item, false, plain (some c)⟩) :
    Seg m3 hd (A ++ (p, ip) :: (n, item) :: (c, ic) :: B) none := by
  have hpm : (p, ip) ∈ A ++ (p, ip) :: (c, ic) :: B := by simp
  have hsplit := Seg.append.mp hseg
  obtain ⟨r, hA, hr⟩ := hsplit
  obtain ⟨hrp, np1, hnp1, hip, hfp, hrest⟩ := hr
  simp only at hrp hnp1 hip
  rw [hp] at hnp1
  cases hnp1
  rw [List.pairwise_append, List.pairwise_cons] at hsort
  obtain ⟨_, ⟨hpB, _⟩, hAp⟩ := hsort
  refine Seg.append.mpr ⟨r, ?_, hrp, _, h3p, hip, rfl, rfl, _, h3n, rfl, rfl, ?_⟩
  · refine hA.congr (fun x hx => hframe _ ?_ ?_)
    · exact hseg.addr_lt (List.mem_append_left _ hx)
    · exact hseg.addr_ne (List.mem_append_left _ hx) hpm
        (KeyValue.ne_of_lt (hAp x hx _ (List.mem_cons_self _ _)))
  · refine (show Seg m (some c) ((c, ic) :: B) none from ?_).congr (fun x hx => hframe _ ?_ ?_)
    · have hc : np.next.ptr = some c := hrest.1
      rw [← hc]; exact hrest
    · exact hseg.addr_lt (List.mem_append_right _ (List.mem_cons_of_mem _ hx))
    · exact hseg.addr_ne (List.mem_append_right _ (List.mem_cons_of_mem _ hx)) hpm
        (Ne.symm (KeyValue.ne_of_lt (hpB x hx)))

theorem MarkedPtr.eq_plain {w : MarkedPtr} {p : Ptr} (h1 : w.flag = false) (h2 : w.ptr = p) :
    w = plain p := by
  cases w; simp only at h1 h2; subst h1; subst h2; rfl

/-- The retry loop of `Add` on a well-formed list: one round decides. -/
theorem LockFreeList.Add.loop_once {m : Heap} {hd : Ptr} {L : List (Nat × KeyValue)}
    (h : ListInv ⟨m, hd⟩ L) {s : Nat} {is item : KeyValue} (hmem : (s, is) ∈ L)
    (hlt : is.lt item = true) (hitem : item.lt tailItem = true) (fuel : Nat) :
    (item ∈ L.map Prod.snd ∧
      Add.loop (fuel + 1) (m ++ [⟨item, false, nullWord⟩]) (some s) item m.length
        = some (m, false)) ∨
    (item ∉ L.map Prod.snd ∧ ∃ m3 L1,
      Add.loop (fuel + 1) (m ++ [⟨item, false, nullWord⟩]) (some s) item m.length
        = some (m3, true) ∧
      m3.length = m.length + 1 ∧ ListInv ⟨m3, hd⟩ L1 ∧
      (∀ x, x ∈ L1 ↔ x ∈ L ∨ x = (m.length, item)) ∧ L1.head? = L.head?) := by
  set node0 : NodeType := ⟨item, false, nullWord⟩ with hnode0
  have h1 : ListInv ⟨m ++ [node0], hd⟩ L := ⟨h.seg.alloc node0, h.sorted, h.last⟩
  obtain ⟨A, p, ip, c, ic, B, hfind, hL, hip, hic⟩ := Find_spec h1 hmem hlt hitem
  simp only at hfind
  have hpm : (p, ip) ∈ L := by rw [hL]; simp
  have hcm : (c, ic) ∈ L := by rw [hL]; simp
  obtain ⟨nc, hnc, hnci, _⟩ := h.seg.node hcm
  simp only at hnc hnci
  have hc1 : (m ++ [node0])[c]? = some nc := by
    rw [List.getElem?_append_left (h.seg.addr_lt hcm)]; exact hnc
  have hiff := @mem_iff_of_split L (A ++ [(p, ip)]) B c ic item h.sorted
    (by rw [hL]; simp) (by
      intro x hx
      rcases List.mem_append.mp hx with hx | hx
      · have hs := h.sorted
        rw [hL, List.pairwise_append] at hs
        exact KeyValue.lt_trans (hs.2.2 x hx _ (List.mem_cons_self _ _)) hip
      · simp at hx; rw [hx]; exact hip) hic
  by_cases e : ic = item
  · left
    refine ⟨hiff.mpr e, ?_⟩
    simp only [Add.loop, hfind, Option.some_bind, Heap.read_some, hc1, hnci, e,
      (KeyValue.eq_iff _ _).mpr rfl, if_true, List.dropLast_concat]
  · right
    refine ⟨mt hiff.mp e, ?_⟩
    have hne : ¬ (ic.eq item = true) := fun hc => e ((KeyValue.eq_iff _ _).mp hc)
    have hseg := h.seg
    simp only at hseg
    have hseg0 := hseg
    rw [hL] at hseg
    obtain ⟨r, _, hr⟩ := Seg.append.mp hseg
    obtain ⟨_, np, hnp, hnpi, hnpf, hrest⟩ := hr
    simp only at hnp hnpi
    have hnpc : np.next.ptr = some c := hrest.1
    have hnpn : np.next = plain (some c) := MarkedPtr.eq_plain hnpf hnpc
    have hplt : p < m.length := h.seg.addr_lt hpm
    have hpn : m.length ≠ p := by omega
    let m2 : Heap := (m ++ [node0]).set m.length { node0 with next := plain (some c) }
    let m3 : Heap := m2.set p { np with next := plain (some m.length) }
    have hw : Heap.writeNext (m ++ [node0]) (some m.length) (ResetFlag (plain (some c)))
        = some m2 := by
      simp only [Heap.writeNext, List.getElem?_concat_length]
      rfl
    have h2p : m2[p]? = some np := by
      simp only [m2]
      rw [List.getElem?_set_ne hpn, List.getElem?_append_left hplt]; exact hnp
    have hcas : Heap.casNext m2 (some p) (plain (some c)) (plain (some m.length))
        = some (m3, true) := by
      simp only [Heap.casNext, h2p, hnpn, if_true]
    refine ⟨m3, A ++ (p, ip) :: (m.length, item) :: (c, ic) :: B, ?_, ?_, ⟨?_, ?_, ?_⟩, ?_, ?_⟩
    · simp only [Add.loop, hfind, Option.some_bind, Heap.read_some, hc1, hnci, hne, hw, hcas]
      simp
    · simp [m3, m2]
    · refine Seg.insert hseg (hL ▸ h.sorted) hnp ?_ ?_ ?_
      · intro a ha hap
        simp only [m3, m2]
        rw [List.getElem?_set_ne (Ne.symm hap), List.getElem?_set_ne (by omega),
          List.getElem?_append_left ha]
      · simp only [m3]
        rw [List.getElem?_set_self (by simp [m2]; omega)]
      · simp only [m3, m2]
        rw [List.getElem?_set_ne (Ne.symm hpn), List.getElem?_set_self (by simp)]
    · have hs := h.sorted
      rw [hL] at hs
      refine pairwise_insert (z := (m.length, item)) hs hip ?_
      rcases KeyValue.ge_cases hic with e1 | e1
      · exact absurd e1 e
      · exact e1
    · obtain ⟨t, ht⟩ := h.last
      refine ⟨t, ?_⟩
      rw [hL] at ht
      rw [← ht]
      simp [List.getLast?_append, List.getLast?_cons_cons]
    · intro x
      rw [hL]
      simp only [List.mem_append, List.mem_cons]
      tauto
    · rw [hL]
      cases A <;> simp

theorem LockFreeList.AddAndGetPointer.loop_eq (fuel : Nat) (m : Heap) (start : Ptr)
    (item : KeyValue) (n : Nat) :
    AddAndGetPointer.loop fuel m start item n
      = (Add.loop fuel m start item n).map fun r => (r.1, if r.2 then some n else none) := by
  induction fuel generalizing m with
  | zero => rfl
  | succ f ih =>
    simp only [AddAndGetPointer.loop, Add.loop]
    cases Find m start item with
    | none => rfl
    | some r =>
      obtain ⟨m1, pred, curr⟩ := r
      simp only [Option.some_bind]
      have key : ∀ dup : Bool,
          (if dup = true then some (List.dropLast m1, (none : Ptr))
            else (m1.writeNext (some n) (ResetFlag (plain curr))).bind fun m2 =>
              (m2.casNext pred (plain curr) (plain (some n))).bind fun r3 =>
                if r3.2 = true then some (r3.1, some n)
                else AddAndGetPointer.loop f r3.1 start item n)
          = Option.map (fun r => (r.1, if r.2 = true then some n else none))
            (if dup = true then some (List.dropLast m1, false)
            else (m1.writeNext (some n) (ResetFlag (plain curr))).bind fun m2 =>
              (m2.casNext pred (plain curr) (plain (some n))).bind fun r3 =>
                if r3.2 = true then some (r3.1, true)
                else Add.loop f r3.1 start item n) := by
        intro dup
        cases dup with
        | true => simp
        | false =>
          simp only [Bool.false_eq_true, if_false]
          cases Heap.writeNext m1 (some n) (ResetFlag (plain curr)) with
          | none => rfl
          | some m2 =>
            simp only [Option.some_bind]
            cases Heap.casNext m2 pred (plain curr) (plain (some n)) with
            | none => rfl
            | some r3 =>
              simp only [Option.some_bind]
              cases h3 : r3.2 with
              | true => simp
              | false => simp [ih]
      cases curr with
      | none => exact key false
      | some c =>
        simp only
        cases m1.read (some c) with
        | none => rfl
        | some nc => exact key _

/-- The method `Add` on a well-formed list, started at a node below `item`. -/
theorem LockFreeList.Add_list_spec {l : LockFreeList} {L : List (Nat × KeyValue)}
    (h : ListInv l L) {s : Nat} {is item : KeyValue} (hmem : (s, is) ∈ L)
    (hlt : is.lt item = true) (hitem : item.lt tailItem = true) :
    (item ∈ L.map Prod.snd ∧ l.Add (some s) item = some (l, false)) ∨
    (item ∉ L.map Prod.snd ∧ ∃ l1 L1,
      l.Add (some s) item = some (l1, true) ∧ l1.head = l.head ∧
      l1.mem.length = l.mem.length + 1 ∧ ListInv l1 L1 ∧
      (∀ x, x ∈ L1 ↔ x ∈ L ∨ x = (l.mem.length, item)) ∧ L1.head? = L.head?) := by
  obtain ⟨m, hd⟩ := l
  rcases Add.loop_once h hmem hlt hitem (m.length + 1) with ⟨h1, h2⟩ | ⟨h1, m3, L1, h2, h3, h4, h5, h6⟩
  · left
    refine ⟨h1, ?_⟩
    simp only [LockFreeList.Add, Heap.alloc, List.length_append, List.length_singleton, h2,
      Option.some_bind]
  · right
    refine ⟨h1, ⟨m3, hd⟩, L1, ?_, rfl, h3, h4, h5, h6⟩
    simp only [LockFreeList.Add, Heap.alloc, List.length_append, List.length_singleton, h2,
      Option.some_bind]

/-- The method `AddAndGetPointer` on a well-formed list. -/
theorem LockFreeList.AddAndGetPointer_list_spec {l : LockFreeList} {L : List (Nat × KeyValue)}
    (h : ListInv l L) {s : Nat} {is item : KeyValue} (hmem : (s, is) ∈ L)
    (hlt : is.lt item = true) (hitem : item.lt tailItem = true) :
    (item ∈ L.map Prod.snd ∧ l.AddAndGetPointer (some s) item = some (l, none)) ∨
    (item ∉ L.map Prod.snd ∧ ∃ l1 L1,
      l.AddAndGetPointer (some s) item = some (l1, some l.mem.length) ∧ l1.head = l.head ∧
      l1.mem.length = l.mem.length + 1 ∧ ListInv l1 L1 ∧
      (∀ x, x ∈ L1 ↔ x ∈ L ∨ x = (l.mem.length, item)) ∧ L1.head? = L.head?) := by
  obtain ⟨m, hd⟩ := l
  rcases Add.loop_once h hmem hlt hitem (m.length + 1) with ⟨h1, h2⟩ | ⟨h1, m3, L1, h2, h3, h4, h5, h6⟩
  · left
    refine ⟨h1, ?_⟩
    simp only [LockFreeList.AddAndGetPointer, Heap.alloc, List.length_append,
      List.length_singleton, AddAndGetPointer.loop_eq, h2, Option.some_bind, Option.map_some']
    simp
  · right
    refine ⟨h1, ⟨m3, hd⟩, L1, ?_, rfl, h3, h4, h5, h6⟩
    simp only [LockFreeList.AddAndGetPointer, Heap.alloc, List.length_append,
      List.length_singleton, AddAndGetPointer.loop_eq, h2, Option.some_bind, Option.map_some']
    simp

/-- The retry loop of `Remove` on a well-formed list: one round decides. -/
theorem LockFreeList.Remove.loop_decides {m : Heap} {hd : Ptr} {L : List (Nat × KeyValue)}
    (h : ListInv ⟨m, hd⟩ L) {s : Nat} {is item : KeyValue} (hmem : (s, is) ∈ L)
    (hlt : is.lt item = true) (hitem : item.lt tailItem = true) (fuel : Nat) :
    (item ∉ L.map Prod.snd ∧ Remove.loop (fuel + 1) m (some s) item = some (m, false)) ∨
    (item ∈ L.map Prod.snd ∧ ∃ m3 L1,
      Remove.loop (fuel + 1) m (some s) item = some (m3, true) ∧
      m3.length = m.length ∧ ListInv ⟨m3, hd⟩ L1 ∧
      (∀ x, x ∈ L1 ↔ x ∈ L ∧ x.2 ≠ item) ∧ L1.head? = L.head?) := by
  obtain ⟨A, p, ip, c, ic, B, hfind, hL, hip, hic⟩ := Find_spec h hmem hlt hitem
  simp only at hfind
  have hpm : (p, ip) ∈ L := by rw [hL]; simp
  have hcm : (c, ic) ∈ L := by rw [hL]; simp
  obtain ⟨nc, hnc, hnci, hncf⟩ := h.seg.node hcm
  simp only at hnc hnci
  have hsort := h.sorted
  rw [hL, List.pairwise_append, List.pairwise_cons, List.pairwise_cons] at hsort
  obtain ⟨hsA, ⟨hpB, hcB, hsB⟩, hAp⟩ := hsort
  have hA : ∀ x ∈ A ++ [(p, ip)], x.2.lt item = true := by
    intro x hx
    rcases List.mem_append.mp hx with hx | hx
    · exact KeyValue.lt_trans (hAp x hx _ (List.mem_cons_self _ _)) hip
    · simp at hx; rw [hx]; exact hip
  have hiff := @mem_iff_of_split L (A ++ [(p, ip)]) B c ic item h.sorted
    (by rw [hL]; simp) hA hic
  by_cases e : ic = item
  · right
    refine ⟨hiff.mpr e, ?_⟩
    have hne : ¬ (item.ne ic = true) := fun hc => (KeyValue.ne_iff _ _).mp hc e.symm
    have hseg := h.seg
    simp only at hseg
    rw [hL] at hseg
    obtain ⟨r, hsegA, hr⟩ := Seg.append.mp hseg
    obtain ⟨hrp, np, hnp, hnpi, hnpf, hrest⟩ := hr
    simp only at hnp hnpi hrp
    obtain ⟨hnpc, nc1, hnc1, _, _, hsegB⟩ := hrest
    simp only at hnpc hnc1
    rw [hnc] at hnc1
    cases hnc1
    have hnpn : np.next = plain (some c) := MarkedPtr.eq_plain hnpf hnpc
    have hpc : p ≠ c := h.seg.addr_ne hpm hcm (KeyValue.ne_of_lt (hpB _ (List.mem_cons_self _ _)))
    have hplt : p < m.length := h.seg.addr_lt hpm
    have hclt : c < m.length := h.seg.addr_lt hcm
    have hreset : ResetFlag nc.next = nc.next := by
      cases hx : nc.next with
      | mk pp ff => rw [hx] at hncf; simp at hncf; subst hncf; rfl
    let m2 : Heap := m.set c { nc with next := SetFlag nc.next }
    let m3 : Heap := m2.set p { np with next := nc.next }
    have hcas1 : Heap.casNext m (some c) (ResetFlag nc.next) (SetFlag nc.next)
        = some (m2, true) := by
      simp only [Heap.casNext, hnc, hreset, if_true]
    have h2p : m2[p]? = some np := by
      simp only [m2]
      rw [List.getElem?_set_ne (Ne.symm hpc)]; exact hnp
    have hcas2 : Heap.casNext m2 (some p) (plain (some c)) (ResetFlag nc.next)
        = some (m3, true) := by
      simp only [Heap.casNext, h2p, hnpn, hreset, if_true]
    have hBne : B ≠ [] := by
      rintro rfl
      obtain ⟨t, ht⟩ := h.last
      rw [hL] at ht
      simp [List.getLast?_append, List.getLast?_cons_cons] at ht
      rw [e] at ht
      rw [ht.2] at hitem
      exact KeyValue.lt_irrefl _ hitem
    have hframe : ∀ a, a ≠ p → a ≠ c → m3[a]? = m[a]? := by
      intro a hap hac
      simp only [m3, m2]
      rw [List.getElem?_set_ne (Ne.symm hap), List.getElem?_set_ne (Ne.symm hac)]
    refine ⟨m3, A ++ (p, ip) :: B, ?_, ?_, ⟨?_, ?_, ?_⟩, ?_, ?_⟩
    · simp only [Remove.loop, hfind, Option.some_bind, Heap.read_some, hnc, hnci, hne, hcas1,
        hcas2]
      simp
    · simp [m3, m2]
    · refine Seg.append.mpr ⟨r, ?_, hrp, { np with next := nc.next }, ?_, hnpi, hncf, ?_⟩
      · refine hsegA.congr (fun x hx => hframe _ ?_ ?_)
        · exact h.seg.addr_ne (hL ▸ List.mem_append_left _ hx) hpm
            (KeyValue.ne_of_lt (hAp x hx _ (List.mem_cons_self _ _)))
        · exact h.seg.addr_ne (hL ▸ List.mem_append_left _ hx) hcm
            (KeyValue.ne_of_lt (hAp x hx _ (List.mem_cons_of_mem _ (List.mem_cons_self _ _))))
      · simp only [m3]
        rw [List.getElem?_set_self (by simp [m2]; omega)]
      · refine hsegB.congr (fun x hx => hframe _ ?_ ?_)
        · exact h.seg.addr_ne
            (hL ▸ List.mem_append_right _ (List.mem_cons_of_mem _ (List.mem_cons_of_mem _ hx)))
            hpm (Ne.symm (KeyValue.ne_of_lt (hpB x (List.mem_cons_of_mem _ hx))))
        · exact h.seg.addr_ne
            (hL ▸ List.mem_append_right _ (List.mem_cons_of_mem _ (List.mem_cons_of_mem _ hx)))
            hcm (Ne.symm (KeyValue.ne_of_lt (hcB x hx)))
    · rw [List.pairwise_append, List.pairwise_cons]
      refine ⟨hsA, ⟨fun x hx => hpB x (List.mem_cons_of_mem _ hx), hsB⟩, ?_⟩
      intro a ha b hb
      rcases List.mem_cons.mp hb with rfl | hb
      · exact hAp a ha _ (List.mem_cons_self _ _)
      · exact hAp a ha b (List.mem_cons_of_mem _ (List.mem_cons_of_mem _ hb))
    · obtain ⟨t, ht⟩ := h.last
      refine ⟨t, ?_⟩
      rw [hL] at ht
      rw [← ht]
      cases B with
      | nil => exact absurd rfl hBne
      | cons b B => simp [List.getLast?_append, List.getLast?_cons_cons]
    · intro x
      rw [hL]
      simp only [List.mem_append, List.mem_cons]
      constructor
      · rintro (hx | rfl | hx)
        · exact ⟨Or.inl hx, KeyValue.ne_of_lt (hA x (List.mem_append_left _ hx))⟩
        · exact ⟨Or.inr (Or.inl rfl), KeyValue.ne_of_lt hip⟩
        · refine ⟨Or.inr (Or.inr (Or.inr hx)), ?_⟩
          rw [← e]
          exact Ne.symm (KeyValue.ne_of_lt (hcB x hx))
      · rintro ⟨hx | rfl | rfl | hx, hne1⟩
        · exact Or.inl hx
        · exact Or.inr (Or.inl rfl)
        · exact absurd e hne1
        · exact Or.inr (Or.inr hx)
    · rw [hL]
      cases A <;> simp
  · left
    refine ⟨mt hiff.mp e, ?_⟩
    have hne : item.ne ic = true := (KeyValue.ne_iff _ _).mpr (Ne.symm e)
    simp only [Remove.loop, hfind, Option.some_bind, Heap.read_some, hnc, hnci, hne, if_true]

/-- The method `Remove` on a well-formed list, started at a node below `item`. -/
theorem LockFreeList.Remove_list_spec {l : LockFreeList} {L : List (Nat × KeyValue)}
    (h : ListInv l L) {s : Nat} {is item : KeyValue} (hmem : (s, is) ∈ L)
    (hlt : is.lt item = true) (hitem : item.lt tailItem = true) :
    (item ∉ L.map Prod.snd ∧ l.Remove (some s) item = some (l, false)) ∨
    (item ∈ L.map Prod.snd ∧ ∃ l1 L1,
      l.Remove (some s) item = some (l1, true) ∧ l1.head = l.head ∧
      l1.mem.length = l.mem.length ∧ ListInv l1 L1 ∧
      (∀ x, x ∈ L1 ↔ x ∈ L ∧ x.2 ≠ item) ∧ L1.head? = L.head?) := by
  obtain ⟨m, hd⟩ := l
  rcases Remove.loop_decides h hmem hlt hitem m.length with
    ⟨h1, h2⟩ | ⟨h1, m3, L1, h2, h3, h4, h5, h6⟩
  · left
    refine ⟨h1, ?_⟩
    simp only [LockFreeList.Remove, h2, Option.some_bind]
  · right
    refine ⟨h1, ⟨m3, hd⟩, L1, ?_, rfl, h3, h4, h5, h6⟩
    simp only [LockFreeList.Remove, h2, Option.some_bind]

/-! ## Sort keys -/

namespace LockFreeHashTable

theorem MASK_eq : MASK = 2 ^ 24 - 1 := by decide
theorem HIGH_eq : HIGH = 2 ^ 31 := by decide
theorem ALLONE_eq : ALLONE = 2 ^ 32 - 1 := by decide

theorem HashFunction_lt (v : Nat) : HashFunction v < 2 ^ 32 := by
  unfold HashFunction
  simp only
  apply Nat.xor_lt_two_pow
  · rw [Nat.shiftRight_eq_div_pow]
    exact lt_of_le_of_lt (Nat.div_le_self _ _) (Nat.mod_lt _ (by decide))
  · exact Nat.mod_lt _ (by decide)

theorem MakeSentinelKey_even (b : Nat) : MakeSentinelKey b % 2 = 0 := by
  have h : (MakeSentinelKey b).testBit 0 = false := by
    unfold MakeSentinelKey
    rw [Reverse_testBit, Nat.testBit_and, MASK_eq, Nat.testBit_two_pow_sub_one]
    simp
  rw [Nat.testBit_zero] at h
  simp at h
  omega

theorem MakeNormalKey_odd (v : Nat) : MakeNormalKey v % 2 = 1 := by
  have h : (MakeNormalKey v).testBit 0 = true := by
    unfold MakeNormalKey
    simp only
    rw [Reverse_testBit, Nat.testBit_or, HIGH_eq, Nat.testBit_two_pow]
    simp
  rw [Nat.testBit_zero] at h
  simpa using h

theorem MakeNormalKey_lt (v : Nat) : MakeNormalKey v < UINT32_MAX := by
  have h1 : MakeNormalKey v < 2 ^ 32 := Reverse_lt _
  have h2 : (MakeNormalKey v).testBit 1 = false := by
    unfold MakeNormalKey
    simp only
    rw [Reverse_testBit, Nat.testBit_or, Nat.testBit_and, HIGH_eq, MASK_eq,
      Nat.testBit_two_pow, Nat.testBit_two_pow_sub_one]
    simp
  have h3 : MakeNormalKey v ≠ 2 ^ 32 - 1 := by
    intro e
    rw [e, Nat.testBit_two_pow_sub_one] at h2
    simp at h2
  unfold UINT32_MAX
  omega

theorem MakeSentinelKey_lt (b : Nat) : MakeSentinelKey b < UINT32_MAX := by
  have h1 : MakeSentinelKey b < 2 ^ 32 := Reverse_lt _
  have h2 := MakeSentinelKey_even b
  unfold UINT32_MAX
  omega

theorem normalItem_lt_tail (v : Nat) : (normalItem v).lt tailItem = true := by
  rw [KeyValue.lt_iff]
  left
  exact MakeNormalKey_lt v

theorem sentinelItem_lt_tail (b : Nat) : (sentinelItem b).lt tailItem = true := by
  rw [KeyValue.lt_iff]
  left
  exact MakeSentinelKey_lt b

theorem normalItem_ne_sentinelItem (v b : Nat) : normalItem v ≠ sentinelItem b := by
  intro e
  have h1 := MakeSentinelKey_even b
  have h2 := MakeNormalKey_odd v
  have h3 : MakeNormalKey v = MakeSentinelKey b := congrArg KeyValue.key e
  omega

theorem normalItem_injective {v w : Nat} (h : normalItem v = normalItem w) : v = w :=
  congrArg KeyValue.value h

theorem sentinelItem_injective {a b : Nat} (h : sentinelItem a = sentinelItem b) : a = b :=
  congrArg KeyValue.value h

/-- The sentinel of the bucket of a hash value is below the item of the value,
for every bucket count `2 ^ k`. -/
theorem sentinelItem_lt_normalItem (v k : Nat) :
    (sentinelItem (HashFunction v % 2 ^ k)).lt (normalItem v) = true := by
  rw [KeyValue.lt_iff]
  left
  show MakeSentinelKey _ < MakeNormalKey v
  have h1 : MakeSentinelKey (HashFunction v % 2 ^ k) ≤ MakeNormalKey v := by
    unfold MakeSentinelKey MakeNormalKey
    apply Reverse_mono
    apply Nat.eq_of_testBit_eq
    intro i
    simp only [Nat.testBit_and, Nat.testBit_or, Nat.testBit_mod_two_pow]
    cases decide (i < k) <;> cases (HashFunction v).testBit i <;> cases MASK.testBit i <;> simp
  have h2 := MakeSentinelKey_even (HashFunction v % 2 ^ k)
  have h3 := MakeNormalKey_odd v
  omega

/-- The sentinel of bucket `i - 2 ^ k` is below the one of bucket `i`. -/
theorem sentinelItem_lt_sentinelItem {i k : Nat} (h1 : 2 ^ k ≤ i) (h2 : i < 2 ^ (k + 1)) :
    (sentinelItem (i - 2 ^ k)).lt (sentinelItem i) = true := by
  have hk : 0 < 2 ^ k := Nat.pow_pos (by decide)
  have hmod : i - 2 ^ k = i % 2 ^ k := by
    rw [Nat.pow_succ] at h2
    rw [Nat.mod_eq_sub_mod h1, Nat.mod_eq_of_lt (by omega)]
  have hle : MakeSentinelKey (i - 2 ^ k) ≤ MakeSentinelKey i := by
    unfold MakeSentinelKey
    apply Reverse_mono
    apply Nat.eq_of_testBit_eq
    intro j
    rw [hmod]
    simp only [Nat.testBit_and, Nat.testBit_mod_two_pow]
    cases decide (j < k) <;> cases i.testBit j <;> cases MASK.testBit j <;> simp
  rw [KeyValue.lt_iff]
  show MakeSentinelKey _ < MakeSentinelKey i ∨ (MakeSentinelKey _ = MakeSentinelKey i ∧ i - 2 ^ k < i)
  omega

/-- The index `AddSentinelNode` starts from: bit `k` cleared. -/
theorem clear_bit {i k : Nat} (hk : k ≤ 31) (h1 : 2 ^ k ≤ i) (h2 : i < 2 ^ (k + 1)) :
    i &&& (ALLONE ^^^ (1 <<< k)) = i - 2 ^ k := by
  have hk0 : 0 < 2 ^ k := Nat.pow_pos (by decide)
  have hmod : i - 2 ^ k = i % 2 ^ k := by
    rw [Nat.pow_succ] at h2
    rw [Nat.mod_eq_sub_mod h1, Nat.mod_eq_of_lt (by omega)]
  rw [hmod]
  apply Nat.eq_of_testBit_eq
  intro j
  rw [Nat.testBit_and, Nat.testBit_xor, Nat.one_shiftLeft, ALLONE_eq,
    Nat.testBit_two_pow_sub_one, Nat.testBit_two_pow, Nat.testBit_mod_two_pow]
  rcases Nat.lt_trichotomy j k with h | h | h
  · have a1 : j < 32 := by omega
    have a2 : ¬ k = j := by omega
    simp [h, a1, a2]
  · subst h
    have a1 : j < 32 := by omega
    simp [a1]
  · have a2 : ¬ j < k := by omega
    have a3 : i.testBit j = false := by
      apply Nat.testBit_lt_two_pow
      exact lt_of_lt_of_le h2 (Nat.pow_le_pow_right (by decide) (by omega))
    simp [a2, a3]

theorem ALLONE_shift {k : Nat} (hk : k ≤ 32) : ALLONE >>> (32 - k) = 2 ^ k - 1 := by
  apply Nat.eq_of_testBit_eq
  intro j
  rw [Nat.testBit_shiftRight, ALLONE_eq, Nat.testBit_two_pow_sub_one,
    Nat.testBit_two_pow_sub_one]
  congr 1
  apply propext
  omega

end LockFreeHashTable

/-! ## The table between two operations -/

namespace LockFreeHashTable

theorem GetSentinelNode_spec {s : LockFreeHashTable} {L : List (Nat × KeyValue)} {lim : Nat}
    (h : CoreInv s L lim) (value : Nat) :
    ∃ k a, 1 ≤ k ∧ k ≤ 31 ∧ s.hashtable.length = 2 ^ k ∧
      s.GetSentinelNode value = some (some a) ∧ (a, sentinelItem (value % 2 ^ k)) ∈ L := by
  obtain ⟨k, hk1, hk2, hk⟩ := h.size
  have hlt : 2 ^ k < 2 ^ 32 := Nat.pow_lt_pow_right (by decide) (by omega)
  have hbits : s.GetNumberOfBitsUsed = k := by
    unfold GetNumberOfBitsUsed GetHashtablePointer u32
    rw [hk, Nat.mod_eq_of_lt hlt, Nat.log2_two_pow]
  have hshift : u32 (32 + 2 ^ 32 - k) = 32 - k := by
    unfold u32
    omega
  have hb : value % 2 ^ k < s.hashtable.length := by
    rw [hk]; exact Nat.mod_lt _ (Nat.pow_pos (by decide))
  obtain ⟨a, ha, hmem⟩ := h.bucket _ hb
  refine ⟨k, a, hk1, hk2, hk, ?_, hmem⟩
  unfold GetSentinelNode
  simp only [hbits, hshift]
  rw [if_neg (by omega), ALLONE_shift (by omega), Nat.and_pow_two_sub_one_eq_mod]
  exact ha

/-- The method `Contains` of the table reports membership of the item in the list. -/
theorem Contains_spec {s : LockFreeHashTable} {L : List (Nat × KeyValue)} {lim : Nat}
    (h : CoreInv s L lim) (v : Nat) :
    s.Contains v = some (decide (normalItem v ∈ L.map Prod.snd)) := by
  obtain ⟨k, a, _, _, _, hget, hmem⟩ := GetSentinelNode_spec h (HashFunction v)
  unfold Contains
  rw [hget]
  exact LockFreeList.Contains_list_spec h.list hmem (sentinelItem_lt_normalItem v k)
    (normalItem_lt_tail v)

end LockFreeHashTable

theorem regularCount_cons (x : Nat × KeyValue) (L : List (Nat × KeyValue)) :
    regularCount (x :: L) = regularCount L + (if isRegular x.2 = true then 1 else 0) := by
  unfold regularCount
  by_cases h : isRegular x.2 = true
  · simp [List.filter_cons, h]
  · simp [List.filter_cons, h]

theorem regularCount_perm {L1 L2 : List (Nat × KeyValue)} (h : L1.Perm L2) :
    regularCount L1 = regularCount L2 :=
  (h.filter _).length_eq

theorem nodup_of_sorted {L : List (Nat × KeyValue)}
    (h : L.Pairwise (fun x y => x.2.lt y.2 = true)) : L.Nodup := by
  refine List.Pairwise.imp ?_ h
  intro x y hlt e
  subst e
  exact KeyValue.lt_irrefl _ hlt

/-- The cells after an insertion are those before it and the new one. -/
theorem perm_of_insert {L L1 : List (Nat × KeyValue)} {x : Nat × KeyValue}
    (hs : L.Pairwise (fun x y => x.2.lt y.2 = true))
    (hs1 : L1.Pairwise (fun x y => x.2.lt y.2 = true))
    (hx : x.2 ∉ L.map Prod.snd) (hmem : ∀ y, y ∈ L1 ↔ y ∈ L ∨ y = x) :
    L1.Perm (x :: L) := by
  rw [List.perm_ext_iff_of_nodup (nodup_of_sorted hs1)]
  · intro y
    rw [hmem, List.mem_cons]
    tauto
  · rw [List.nodup_cons]
    refine ⟨fun hc => hx (List.mem_map.mpr ⟨x, hc, rfl⟩), nodup_of_sorted hs⟩

/-- In an ascending list an item belongs to one cell only. -/
theorem eq_of_item_eq {L : List (Nat × KeyValue)}
    (hs : L.Pairwise (fun x y => x.2.lt y.2 = true)) {x y : Nat × KeyValue}
    (hx : x ∈ L) (hy : y ∈ L) (e : x.2 = y.2) : x = y := by
  have key := List.Pairwise.forall_of_forall (R := fun a b : Nat × KeyValue => a.2 = b.2 → a = b)
    (l := L) (by intro a b hab e1; exact (hab e1.symm).symm) (by intro a _ _; rfl)
    (hs.imp (by
      intro a b hab e1
      rw [e1] at hab
      exact absurd hab (KeyValue.lt_irrefl _)))
  exact key hx hy e

/-- The cells before a removal are those after it and the removed one. -/
theorem perm_of_remove {L L1 : List (Nat × KeyValue)} {item : KeyValue}
    (hs : L.Pairwise (fun x y => x.2.lt y.2 = true))
    (hs1 : L1.Pairwise (fun x y => x.2.lt y.2 = true))
    (hx : item ∈ L.map Prod.snd) (hmem : ∀ y, y ∈ L1 ↔ y ∈ L ∧ y.2 ≠ item) :
    ∃ c, L.Perm ((c, item) :: L1) := by
  obtain ⟨x, hxL, rfl⟩ := List.mem_map.mp hx
  refine ⟨x.1, ?_⟩
  rw [List.perm_ext_iff_of_nodup (nodup_of_sorted hs)]
  · intro y
    rw [List.mem_cons, hmem]
    constructor
    · intro hy
      by_cases e : y.2 = x.2
      · exact Or.inl (eq_of_item_eq hs hy hxL e)
      · exact Or.inr ⟨hy, e⟩
    · rintro (rfl | ⟨hy, _⟩)
      · exact hxL
      · exact hy
  · rw [List.nodup_cons]
    refine ⟨fun hc => ((hmem _).mp hc).2 rfl, nodup_of_sorted hs1⟩

namespace LockFreeHashTable

theorem isRegular_normalItem (v : Nat) : isRegular (normalItem v) = true := by
  have h1 : (normalItem v).key % 2 = 1 := MakeNormalKey_odd v
  have h2 : (normalItem v).key < UINT32_MAX := MakeNormalKey_lt v
  simp [isRegular, h1]
  omega

theorem isRegular_sentinelItem (b : Nat) : isRegular (sentinelItem b) = false := by
  have h1 : (sentinelItem b).key % 2 = 0 := MakeSentinelKey_even b
  simp [isRegular, h1]

theorem mem_items_insert {L L1 : List (Nat × KeyValue)} {x : Nat × KeyValue}
    (hmem : ∀ y, y ∈ L1 ↔ y ∈ L ∨ y = x) (it : KeyValue) :
    it ∈ L1.map Prod.snd ↔ it ∈ L.map Prod.snd ∨ it = x.2 := by
  simp only [List.mem_map]
  constructor
  · rintro ⟨y, hy, rfl⟩
    rcases (hmem y).mp hy with h | rfl
    · exact Or.inl ⟨y, h, rfl⟩
    · exact Or.inr rfl
  · rintro (⟨y, hy, rfl⟩ | rfl)
    · exact ⟨y, (hmem y).mpr (Or.inl hy), rfl⟩
    · exact ⟨x, (hmem x).mpr (Or.inr rfl), rfl⟩

theorem regularCount_insert_normal {L L1 : List (Nat × KeyValue)} {n v : Nat}
    (hs : L.Pairwise (fun x y => x.2.lt y.2 = true))
    (hs1 : L1.Pairwise (fun x y => x.2.lt y.2 = true))
    (hmem : ∀ x, x ∈ L1 ↔ x ∈ L ∨ x = (n, normalItem v))
    (hnew : normalItem v ∉ L.map Prod.snd) : regularCount L1 = regularCount L + 1 := by
  have hp := perm_of_insert hs hs1 (x := (n, normalItem v)) hnew hmem
  have hc := regularCount_perm hp
  rw [regularCount_cons, if_pos (isRegular_normalItem v)] at hc
  exact hc

theorem regularCount_remove_normal {L L1 : List (Nat × KeyValue)} {v : Nat}
    (hs : L.Pairwise (fun x y => x.2.lt y.2 = true))
    (hs1 : L1.Pairwise (fun x y => x.2.lt y.2 = true))
    (hmem : ∀ x, x ∈ L1 ↔ x ∈ L ∧ x.2 ≠ normalItem v)
    (hold : normalItem v ∈ L.map Prod.snd) : regularCount L = regularCount L1 + 1 := by
  obtain ⟨c, hp⟩ := perm_of_remove hs hs1 hold hmem
  have hc := regularCount_perm hp
  rw [regularCount_cons, if_pos (isRegular_normalItem v)] at hc
  exact hc

theorem regularCount_insert_sentinel {L L1 : List (Nat × KeyValue)} {n i : Nat}
    (hs : L.Pairwise (fun x y => x.2.lt y.2 = true))
    (hs1 : L1.Pairwise (fun x y => x.2.lt y.2 = true))
    (hmem : ∀ x, x ∈ L1 ↔ x ∈ L ∨ x = (n, sentinelItem i))
    (hnew : sentinelItem i ∉ L.map Prod.snd) : regularCount L1 = regularCount L := by
  have hp := perm_of_insert hs hs1 (x := (n, sentinelItem i)) hnew hmem
  have hc := regularCount_perm hp
  rw [regularCount_cons, if_neg (by rw [isRegular_sentinelItem]; decide)] at hc
  exact hc

/-- A regular cell has been linked in and `table_size` incremented. -/
theorem CoreInv.insert_normal {s : LockFreeHashTable} {L L1 : List (Nat × KeyValue)}
    {lim n v : Nat} {l1 : LockFreeList} (h : CoreInv s L lim) (h1 : ListInv l1 L1)
    (hmem : ∀ x, x ∈ L1 ↔ x ∈ L ∨ x = (n, normalItem v))
    (hnew : normalItem v ∉ L.map Prod.snd) :
    CoreInv { s with list := l1, table_size := u32 (s.table_size + 1) } L1 lim := by
  refine ⟨h1, h.size, ?_, ?_, ?_⟩
  · intro b hb
    obtain ⟨a, ha, hm⟩ := h.bucket b hb
    exact ⟨a, ha, (hmem _).mpr (Or.inl hm)⟩
  · intro x hx
    rcases (hmem x).mp hx with hx | rfl
    · exact h.kinds x hx
    · exact Or.inr (Or.inr ⟨v, rfl⟩)
  · have hc := regularCount_insert_normal h.list.sorted h1.sorted hmem hnew
    show u32 (s.table_size + 1) = _
    rw [hc, h.count]
    unfold u32
    omega

/-- A sentinel cell has been linked in. -/
theorem CoreInv.insert_sentinel {s : LockFreeHashTable} {L L1 : List (Nat × KeyValue)}
    {i n : Nat} {l1 : LockFreeList} (h : CoreInv s L i) (h1 : ListInv l1 L1)
    (hmem : ∀ x, x ∈ L1 ↔ x ∈ L ∨ x = (n, sentinelItem i))
    (hnew : sentinelItem i ∉ L.map Prod.snd) :
    CoreInv { s with list := l1 } L1 (i + 1) := by
  refine ⟨h1, h.size, ?_, ?_, ?_⟩
  · intro b hb
    obtain ⟨a, ha, hm⟩ := h.bucket b hb
    exact ⟨a, ha, (hmem _).mpr (Or.inl hm)⟩
  · intro x hx
    rcases (hmem x).mp hx with hx | rfl
    · rcases h.kinds x hx with h2 | ⟨b, hb, h2⟩ | h2
      · exact Or.inl h2
      · exact Or.inr (Or.inl ⟨b, by omega, h2⟩)
      · exact Or.inr (Or.inr h2)
    · exact Or.inr (Or.inl ⟨i, by omega, rfl⟩)
  · have hc := regularCount_insert_sentinel h.list.sorted h1.sorted hmem hnew
    show s.table_size = _
    rw [hc, h.count]

/-- A regular cell has been unlinked and `table_size` decremented. -/
theorem CoreInv.remove_normal {s : LockFreeHashTable} {L L1 : List (Nat × KeyValue)}
    {lim v : Nat} {l1 : LockFreeList} (h : CoreInv s L lim) (h1 : ListInv l1 L1)
    (hmem : ∀ x, x ∈ L1 ↔ x ∈ L ∧ x.2 ≠ normalItem v)
    (hold : normalItem v ∈ L.map Prod.snd) :
    CoreInv { s with list := l1, table_size := u32 (s.table_size + (2 ^ 32 - 1)) } L1 lim := by
  refine ⟨h1, h.size, ?_, ?_, ?_⟩
  · intro b hb
    obtain ⟨a, ha, hm⟩ := h.bucket b hb
    exact ⟨a, ha, (hmem _).mpr ⟨hm, Ne.symm (normalItem_ne_sentinelItem v b)⟩⟩
  · intro x hx
    exact h.kinds x ((hmem x).mp hx).1
  · have hc := regularCount_remove_normal h.list.sorted h1.sorted hmem hold
    show u32 (s.table_size + (2 ^ 32 - 1)) = _
    rw [h.count, hc]
    unfold u32
    omega

/-- The method `Remove` of the table. -/
theorem Remove_spec {s : LockFreeHashTable} {L : List (Nat × KeyValue)}
    (h : TableInv s L) (v : Nat) :
    (normalItem v ∉ L.map Prod.snd ∧ s.Remove v = some (s, false)) ∨
    (normalItem v ∈ L.map Prod.snd ∧ ∃ s1 L1,
      s.Remove v = some (s1, true) ∧ TableInv s1 L1 ∧
      (∀ x, x ∈ L1 ↔ x ∈ L ∧ x.2 ≠ normalItem v) ∧
      s1.hashtable = s.hashtable ∧ s1.table_size = u32 (s.table_size + (2 ^ 32 - 1))) := by
  obtain ⟨k, a, _, _, _, hget, hmem⟩ := GetSentinelNode_spec h.core (HashFunction v)
  rcases LockFreeList.Remove_list_spec h.core.list hmem (sentinelItem_lt_normalItem v k)
      (normalItem_lt_tail v) with ⟨h1, h2⟩ | ⟨h1, l1, L1, h2, _, _, h5, h6, _⟩
  · left
    refine ⟨h1, ?_⟩
    unfold Remove
    rw [hget]
    simp only [Option.some_bind]
    show (s.list.Remove (some a) (normalItem v)).bind _ = _
    rw [h2]
    rfl
  · right
    refine ⟨h1, { s with list := l1, table_size := u32 (s.table_size + (2 ^ 32 - 1)) }, L1, ?_,
      ⟨h.core.remove_normal h5 h6 h1, h.growing, ?_⟩, h6, rfl, rfl⟩
    · unfold Remove
      rw [hget]
      simp only [Option.some_bind]
      show (s.list.Remove (some a) (normalItem v)).bind _ = _
      rw [h2]
      rfl
    · have hc := regularCount_remove_normal h.core.list.sorted h5.sorted h6 h1
      have := h.load
      show regularCount L1 ≤ MAX_AVERAGE_BUCKET_SIZE * s.hashtable.length
      omega

/-- The method `AddSentinelNode` for the next bucket `i` while the table grows. -/
theorem AddSentinelNode_spec {s : LockFreeHashTable} {L : List (Nat × KeyValue)} {i k : Nat}
    (h : CoreInv s L i) (hk : s.hashtable.length = 2 ^ k) (h1 : 2 ^ k ≤ i)
    (h2 : i < 2 ^ (k + 1)) :
    ∃ l1 L1 a, s.AddSentinelNode i = some ({ s with list := l1 }, some a) ∧
      CoreInv { s with list := l1 } L1 (i + 1) ∧
      (∀ x, x ∈ L1 ↔ x ∈ L ∨ x = (a, sentinelItem i)) ∧
      regularCount L1 = regularCount L := by
  obtain ⟨k1, hk1a, hk1b, hk1⟩ := h.size
  have hkk : k1 = k := Nat.pow_right_injective (le_refl 2) (hk1.symm.trans hk)
  subst hkk
  have hlt : 2 ^ k1 < 2 ^ 32 := Nat.pow_lt_pow_right (by decide) (by omega)
  have hbits : s.GetNumberOfBitsUsed = k1 := by
    unfold GetNumberOfBitsUsed GetHashtablePointer u32
    rw [hk, Nat.mod_eq_of_lt hlt, Nat.log2_two_pow]
  obtain ⟨k2, a, _, _, hk2, hget, hmem⟩ := GetSentinelNode_spec h (i - 2 ^ k1)
  have hkk : k2 = k1 := Nat.pow_right_injective (le_refl 2) (hk2.symm.trans hk)
  subst hkk
  have hmod : (i - 2 ^ k2) % 2 ^ k2 = i - 2 ^ k2 := by
    rw [Nat.pow_succ] at h2
    exact Nat.mod_eq_of_lt (by omega)
  rw [hmod] at hmem
  have hnew : sentinelItem i ∉ L.map Prod.snd := by
    intro hc
    obtain ⟨x, hx, hxi⟩ := List.mem_map.mp hc
    rcases h.kinds x hx with e | ⟨b, hb, e⟩ | ⟨v, e⟩
    · rw [hxi] at e
      have := sentinelItem_lt_tail i
      rw [e] at this
      exact KeyValue.lt_irrefl _ this
    · rw [hxi] at e
      have := sentinelItem_injective e
      omega
    · rw [hxi] at e
      exact normalItem_ne_sentinelItem v i e.symm
  rcases LockFreeList.AddAndGetPointer_list_spec h.list hmem (sentinelItem_lt_sentinelItem h1 h2)
      (sentinelItem_lt_tail i) with ⟨h3, _⟩ | ⟨_, l1, L1, h4, _, _, h7, h8, _⟩
  · exact absurd h3 hnew
  · refine ⟨l1, L1, s.list.mem.length, ?_, h.insert_sentinel h7 h8 hnew, h8,
      regularCount_insert_sentinel h.list.sorted h7.sorted h8 hnew⟩
    unfold AddSentinelNode
    rw [hbits, clear_bit (by omega) h1 h2, hget]
    simp only [Option.some_bind]
    show (s.list.AddAndGetPointer (some a) (sentinelItem i)).bind _ = _
    rw [h4]
    rfl

end LockFreeHashTable

/-! ## Growth -/

namespace LockFreeHashTable

/-- The copy loop of `DoubleHashTableSize` inside both vectors. -/
theorem DoubleHashTableSize.copy_spec (old : List Ptr) :
    ∀ (k i : Nat) (new : List Ptr), i + k ≤ old.length → i + k ≤ new.length →
      ∃ new1, DoubleHashTableSize.copy k i old new = some new1 ∧ new1.length = new.length ∧
        ∀ j, new1[j]? = if i ≤ j ∧ j < i + k then old[j]? else new[j]? := by
  intro k
  induction k with
  | zero =>
    intro i new _ _
    refine ⟨new, rfl, rfl, fun j => ?_⟩
    rw [if_neg (by omega)]
  | succ k ih =>
    intro i new h1 h2
    have hi : i < old.length := by omega
    obtain ⟨new1, hc, hl, hj⟩ := ih (i + 1) (new.set i old[i]) (by omega)
      (by rw [List.length_set]; omega)
    refine ⟨new1, ?_, by rw [hl, List.length_set], fun j => ?_⟩
    · simp only [DoubleHashTableSize.copy, List.getElem?_eq_getElem hi, Option.some_bind]
      rw [if_pos (by omega)]
      exact hc
    · rw [hj j]
      by_cases e : i = j
      · subst e
        rw [if_neg (by omega), if_pos (by omega), List.getElem?_set_self (by omega),
          List.getElem?_eq_getElem hi]
      · rw [List.getElem?_set_ne e]
        by_cases c : i + 1 ≤ j ∧ j < i + 1 + k
        · rw [if_pos c, if_pos (by omega)]
        · rw [if_neg c, if_neg (by omega)]

/-- The loop of `DoubleHashTableSize` that creates the sentinels of the buckets
`i .. 2 ^ (k + 1) - 1`. -/
theorem DoubleHashTableSize.fill_spec {k : Nat} :
    ∀ (r i : Nat) (s : LockFreeHashTable) (L : List (Nat × KeyValue)) (new : List Ptr),
      CoreInv s L i → s.hashtable.length = 2 ^ k → 2 ^ k ≤ i → i + r = 2 ^ (k + 1) →
      new.length = 2 ^ (k + 1) →
      (∀ b, b < i → ∃ a, new[b]? = some (some a) ∧ (a, sentinelItem b) ∈ L) →
      ∃ s1 L1 new1, DoubleHashTableSize.fill r i s new = some (s1, new1) ∧
        CoreInv s1 L1 (2 ^ (k + 1)) ∧ s1.hashtable = s.hashtable ∧ s1.growing = s.growing ∧
        s1.table_size = s.table_size ∧ new1.length = 2 ^ (k + 1) ∧
        (∀ b, b < 2 ^ (k + 1) → ∃ a, new1[b]? = some (some a) ∧ (a, sentinelItem b) ∈ L1) ∧
        (∀ b, b < i → new1[b]? = new[b]?) ∧
        (∀ w, normalItem w ∈ L1.map Prod.snd ↔ normalItem w ∈ L.map Prod.snd) ∧
        regularCount L1 = regularCount L := by
  intro r
  induction r with
  | zero =>
    intro i s L new h hk _ hr hnew hb
    have hi : i = 2 ^ (k + 1) := by omega
    subst hi
    exact ⟨s, L, new, rfl, h, rfl, rfl, rfl, hnew, hb, fun _ _ => rfl, fun _ => Iff.rfl, rfl⟩
  | succ r ih =>
    intro i s L new h hk h1 hr hnew hb
    obtain ⟨l1, L1, a, hadd, hcore, hmem, hcnt⟩ := AddSentinelNode_spec h hk h1 (by omega)
    obtain ⟨s2, L2, new2, hfill, hcore2, hh, hg, ht, hlen, hb2, hkeep, hnorm, hcnt2⟩ :=
      ih (i + 1) { s with list := l1 } L1 (new.set i (some a)) hcore hk (by omega) (by omega)
        (by rw [List.length_set]; exact hnew)
        (by
          intro b hbi
          by_cases e : i = b
          · subst e
            refine ⟨a, ?_, (hmem _).mpr (Or.inr rfl)⟩
            rw [List.getElem?_set_self (by omega)]
          · obtain ⟨a1, ha1, hm1⟩ := hb b (by omega)
            refine ⟨a1, ?_, (hmem _).mpr (Or.inl hm1)⟩
            rw [List.getElem?_set_ne e]
            exact ha1)
    refine ⟨s2, L2, new2, ?_, hcore2, hh, hg, ht, hlen, hb2, ?_, ?_, hcnt2.trans hcnt⟩
    · simp only [DoubleHashTableSize.fill, hadd, Option.some_bind]
      rw [if_pos (by omega)]
      exact hfill
    · intro b hbi
      rw [hkeep b (by omega), List.getElem?_set_ne (by omega)]
    · intro w
      rw [hnorm w, mem_items_insert hmem]
      constructor
      · rintro (h3 | h3)
        · exact h3
        · exact absurd h3 (normalItem_ne_sentinelItem w i)
      · exact Or.inl

theorem u32_two_pow {k : Nat} (hk : k ≤ 31) : u32 (2 ^ k) = 2 ^ k := by
  unfold u32
  exact Nat.mod_eq_of_lt (Nat.pow_lt_pow_right (by decide) (by omega))

/-- The method `DoubleHashTableSize` below `2 ^ 31` buckets. -/
theorem DoubleHashTableSize_spec {s : LockFreeHashTable} {L : List (Nat × KeyValue)} {k : Nat}
    (h : CoreInv s L (2 ^ k)) (hk : s.hashtable.length = 2 ^ k) (hk30 : k ≤ 30)
    (hload : regularCount L ≤ MAX_AVERAGE_BUCKET_SIZE * 2 ^ (k + 1)) :
    ∃ s1 L1, s.DoubleHashTableSize = some s1 ∧ TableInv s1 L1 ∧
      s1.hashtable.length = 2 ^ (k + 1) ∧ s1.table_size = s.table_size ∧
      (∀ b, b < 2 ^ k → s1.hashtable[b]? = s.hashtable[b]?) ∧
      (∀ w, normalItem w ∈ L1.map Prod.snd ↔ normalItem w ∈ L.map Prod.snd) ∧
      regularCount L1 = regularCount L := by
  have hpow : 2 ^ (k + 1) = 2 ^ k * 2 := Nat.pow_succ 2 k
  have hkpos : 0 < 2 ^ k := Nat.pow_pos (by decide)
  obtain ⟨new0, hcopy, hlen0, hj0⟩ := DoubleHashTableSize.copy_spec s.hashtable (2 ^ k) 0
    (List.replicate (2 ^ (k + 1)) none) (by omega) (by simp; omega)
  rw [List.length_replicate] at hlen0
  obtain ⟨s1, L1, new1, hfill, hcore, hh, hg, ht, hlen, hb, hkeep, hnorm, hcnt⟩ :=
    DoubleHashTableSize.fill_spec (2 ^ k) (2 ^ k) s L new0 h hk (le_refl _) (by omega) hlen0
      (by
        intro b hbk
        obtain ⟨a, ha, hm⟩ := h.bucket b (by omega)
        refine ⟨a, ?_, hm⟩
        rw [hj0 b, if_pos (by omega)]
        exact ha)
  refine ⟨{ s1 with hashtable := new1, growing := false }, L1, ?_,
    ⟨⟨hcore.list, ?_, ?_, ?_, hcore.count⟩, rfl, ?_⟩, hlen, ht, ?_, hnorm, hcnt⟩
  · unfold DoubleHashTableSize GetHashtablePointer
    simp only [hk, u32_two_pow (show k ≤ 31 by omega)]
    rw [← hpow, u32_two_pow (show k + 1 ≤ 31 by omega), hcopy]
    simp only [Option.some_bind]
    rw [show 2 ^ (k + 1) - 2 ^ k = 2 ^ k by omega, hfill]
    rfl
  · exact ⟨k + 1, by omega, by omega, hlen⟩
  · intro b hbl
    exact hb b (by rw [← hlen]; exact hbl)
  · show ∀ x ∈ L1, _
    intro x hx
    have := hcore.kinds x hx
    rw [show ({ s1 with hashtable := new1, growing := false } : LockFreeHashTable).hashtable.length
      = 2 ^ (k + 1) from hlen]
    exact this
  · show regularCount L1 ≤ MAX_AVERAGE_BUCKET_SIZE * new1.length
    rw [hcnt, hlen]
    exact hload
  · intro b hbk
    show new1[b]? = _
    rw [hkeep b hbk, hj0 b, if_pos (by omega)]

end LockFreeHashTable

/-! ## `Add` of the table -/

namespace LockFreeHashTable

theorem u32_u32 (x : Nat) : u32 (u32 x) = u32 x := by
  unfold u32
  exact Nat.mod_mod _ _

/-- At `2 ^ 31` buckets the product `current_max_entry * 2` wraps to zero and
the first copy falls outside the new vector. -/
theorem DoubleHashTableSize_overflow {s : LockFreeHashTable}
    (hk : s.hashtable.length = 2 ^ 31) : s.DoubleHashTableSize = none := by
  unfold DoubleHashTableSize GetHashtablePointer
  simp only [hk, u32_two_pow (le_refl 31)]
  have h0 : u32 (2 ^ 31 * 2) = 0 := by decide
  obtain ⟨m, hm⟩ : ∃ m, 2 ^ 31 = m + 1 := ⟨2 ^ 31 - 1, by norm_num⟩
  rw [h0, hm]
  simp only [DoubleHashTableSize.copy, List.replicate, List.length_nil, Nat.lt_irrefl, if_false]
  cases s.hashtable[0]? <;> rfl

/-- The load bound after an insertion that does not make the table grow. -/
theorem load_of_not_growthDue {c n k : Nat} (hk : k ≤ 31) (hn : n = 2 ^ k)
    (hload : c ≤ MAX_AVERAGE_BUCKET_SIZE * n)
    (hg : ¬ u32 (c % 2 ^ 32 + 1) > u32 (MAX_AVERAGE_BUCKET_SIZE * n)) :
    c + 1 ≤ MAX_AVERAGE_BUCKET_SIZE * n := by
  unfold MAX_AVERAGE_BUCKET_SIZE u32 at *
  rcases Nat.lt_or_ge k 30 with h | h
  · have : 2 ^ k ≤ 2 ^ 29 := Nat.pow_le_pow_right (by decide) (by omega)
    omega
  · have hk2 : k = 30 ∨ k = 31 := by omega
    rcases hk2 with rfl | rfl
    · norm_num at hn
      subst hn
      omega
    · norm_num at hn
      subst hn
      omega

/-- The method `Add` of the table. -/
theorem Add_spec {s : LockFreeHashTable} {L : List (Nat × KeyValue)}
    (h : TableInv s L) (v : Nat) :
    (normalItem v ∈ L.map Prod.snd ∧ s.Add v = some (s, false)) ∨
    (normalItem v ∉ L.map Prod.snd ∧ growthDue s ∧ s.hashtable.length = 2 ^ 31 ∧
      s.Add v = none) ∨
    (normalItem v ∉ L.map Prod.snd ∧ ¬ (growthDue s ∧ s.hashtable.length = 2 ^ 31) ∧
      ∃ s1 L1, s.Add v = some (s1, true) ∧ TableInv s1 L1 ∧
        (∀ w, normalItem w ∈ L1.map Prod.snd ↔ normalItem w ∈ L.map Prod.snd ∨ w = v) ∧
        s1.table_size = u32 (s.table_size + 1) ∧
        regularCount L1 = regularCount L + 1 ∧
        s1.hashtable.length
          = (if growthDue s then 2 * s.hashtable.length else s.hashtable.length) ∧
        (∀ b, b < s.hashtable.length → s1.hashtable[b]? = s.hashtable[b]?)) := by
  obtain ⟨k, a, hk1, hk31, hk, hget, hmem⟩ := GetSentinelNode_spec h.core (HashFunction v)
  rcases LockFreeList.Add_list_spec h.core.list hmem (sentinelItem_lt_normalItem v k)
      (normalItem_lt_tail v) with ⟨h1, h2⟩ | ⟨h1, l1, L1, h2, _, _, h5, h6, _⟩
  · left
    refine ⟨h1, ?_⟩
    unfold Add
    rw [hget]
    simp only [Option.some_bind]
    show (s.list.Add (some a) (normalItem v)).bind _ = _
    rw [h2]
    rfl
  · right
    have hcore := h.core.insert_normal h5 h6 h1
    have hcnt := regularCount_insert_normal h.core.list.sorted h5.sorted h6 h1
    have hitems : ∀ w, normalItem w ∈ L1.map Prod.snd ↔ normalItem w ∈ L.map Prod.snd ∨ w = v := by
      intro w
      rw [mem_items_insert h6]
      constructor
      · rintro (h3 | h3)
        · exact Or.inl h3
        · exact Or.inr (normalItem_injective h3)
      · rintro (h3 | rfl)
        · exact Or.inl h3
        · exact Or.inr rfl
    have hstep : s.Add v =
        if growthDue s then
          (DoubleHashTableSize
            { s with list := l1, table_size := u32 (s.table_size + 1), growing := true }).bind
            fun s2 => some (s2, true)
        else some ({ s with list := l1, table_size := u32 (s.table_size + 1) }, true) := by
      unfold Add
      rw [hget]
      simp only [Option.some_bind]
      show (s.list.Add (some a) (normalItem v)).bind _ = _
      rw [h2]
      simp only [Option.some_bind, Bool.not_true, Bool.false_eq_true, if_false, h.growing,
        GetHashtablePointer, u32_u32, LockFreeList.GetFlag, plain, Bool.not_false, and_true,
        if_true]
      rfl
    by_cases hg : growthDue s
    · by_cases hk2 : s.hashtable.length = 2 ^ 31
      · left
        refine ⟨h1, hg, hk2, ?_⟩
        rw [hstep, if_pos hg, DoubleHashTableSize_overflow (by exact hk2)]
        rfl
      · right
        refine ⟨h1, fun hc => hk2 hc.2, ?_⟩
        have hk30 : k ≤ 30 := by
          rcases Nat.lt_or_ge k 31 with h3 | h3
          · omega
          · exact absurd (by rw [hk, show k = 31 by omega]) hk2
        have hload : regularCount L1 ≤ MAX_AVERAGE_BUCKET_SIZE * 2 ^ (k + 1) := by
          have := h.load
          rw [hk] at this
          rw [hcnt, Nat.pow_succ]
          unfold MAX_AVERAGE_BUCKET_SIZE at *
          have : 0 < 2 ^ k := Nat.pow_pos (by decide)
          omega
        obtain ⟨s2, L2, hd, hinv, hlen, hts, hkeep, hnorm, hcnt2⟩ :=
          DoubleHashTableSize_spec
            (s := { s with list := l1, table_size := u32 (s.table_size + 1), growing := true })
            (L := L1) (k := k)
            ⟨hcore.list, hcore.size, hcore.bucket, by rw [← hk]; exact hcore.kinds, hcore.count⟩
            hk hk30 hload
        refine ⟨s2, L2, ?_, hinv, fun w => (hnorm w).trans (hitems w), hts, hcnt2.trans hcnt, ?_,
          ?_⟩
        · rw [hstep, if_pos hg, hd]
          rfl
        · rw [if_pos hg, hlen, hk, Nat.pow_succ]
          omega
        · intro b hb
          exact hkeep b (by rw [← hk]; exact hb)
    · right
      refine ⟨h1, fun hc => hg hc.1, _, L1, ?_, ⟨hcore, h.growing, ?_⟩, hitems, rfl, hcnt, ?_,
        fun _ _ => rfl⟩
      · rw [hstep, if_neg hg]
      · show regularCount L1 ≤ MAX_AVERAGE_BUCKET_SIZE * s.hashtable.length
        rw [hcnt]
        refine load_of_not_growthDue hk31 hk h.load ?_
        have := h.core.count
        unfold growthDue at hg
        rw [this] at hg
        exact hg
      · rw [if_neg hg]

end LockFreeHashTable

/-! ## The freshly constructed table and the reachable states -/

namespace LockFreeHashTable

/-- The state the constructor leaves. -/
theorem new_eq : LockFreeHashTable.new = some fresh := by
  rfl

theorem sentinelItem_zero : sentinelItem 0 = ⟨0, 0⟩ := by rfl

theorem sentinelItem_one : sentinelItem 1 = ⟨2147483648, 1⟩ := by rfl

/-- The invariant holds in the state the constructor leaves. -/
theorem TableInv_new {s : LockFreeHashTable} (h : LockFreeHashTable.new = some s) :
    TableInv s [(2, sentinelItem 0), (3, sentinelItem 1), (1, tailItem)] := by
  rw [new_eq] at h
  cases h
  refine ⟨⟨⟨?_, ?_, ⟨1, rfl⟩⟩, ⟨1, le_refl _, by decide, rfl⟩, ?_, ?_, ?_⟩, rfl, ?_⟩
  · exact ⟨rfl, _, rfl, rfl, rfl, rfl, _, rfl, rfl, rfl, rfl, _, rfl, rfl, rfl, rfl⟩
  · rw [sentinelItem_zero, sentinelItem_one]
    decide
  · intro b hb
    have hb2 : b < 2 := hb
    rcases Nat.lt_or_ge b 1 with h0 | h1
    · have : b = 0 := by omega
      subst this
      exact ⟨2, rfl, by simp⟩
    · have : b = 1 := by omega
      subst this
      exact ⟨3, rfl, by simp⟩
  · intro x hx
    simp only [List.mem_cons, List.mem_singleton, List.not_mem_nil, or_false] at hx
    rcases hx with rfl | rfl | rfl
    · exact Or.inr (Or.inl ⟨0, by decide, rfl⟩)
    · exact Or.inr (Or.inl ⟨1, by decide, rfl⟩)
    · exact Or.inl rfl
  · rw [sentinelItem_zero, sentinelItem_one]
    rfl
  · rw [sentinelItem_zero, sentinelItem_one]
    decide

/-- Every call keeps the invariant. -/
theorem TableInv_call {s s1 : LockFreeHashTable} {L : List (Nat × KeyValue)} {op : Op} {b : Bool}
    (h : TableInv s L) (hc : s.call op = some (s1, b)) : ∃ L1, TableInv s1 L1 := by
  cases op with
  | Add v =>
    rcases Add_spec h v with ⟨_, h2⟩ | ⟨_, _, _, h2⟩ | ⟨_, _, s2, L2, h2, h3, _⟩
    · rw [call, h2] at hc
      cases hc
      exact ⟨L, h⟩
    · rw [call, h2] at hc
      cases hc
    · rw [call, h2] at hc
      cases hc
      exact ⟨L2, h3⟩
  | Remove v =>
    rcases Remove_spec h v with ⟨_, h2⟩ | ⟨_, s2, L2, h2, h3, _⟩
    · rw [call, h2] at hc
      cases hc
      exact ⟨L, h⟩
    · rw [call, h2] at hc
      cases hc
      exact ⟨L2, h3⟩
  | Contains v =>
    rw [call, Contains_spec h.core v] at hc
    cases hc
    exact ⟨L, h⟩

/-- The invariant holds in every reachable state. -/
theorem Reachable.inv {s : LockFreeHashTable} (h : Reachable s) : ∃ L, TableInv s L := by
  induction h with
  | init h0 => exact ⟨_, TableInv_new h0⟩
  | call _ _ hc ih =>
    obtain ⟨L, hL⟩ := ih
    exact TableInv_call hL hc

theorem run_append (xs ys : List Op) :
    ∀ s : LockFreeHashTable, s.run (xs ++ ys) =
      (s.run xs).bind fun r => (r.1.run ys).bind fun r2 => some (r2.1, r.2 ++ r2.2) := by
  induction xs with
  | nil =>
    intro s
    simp only [List.nil_append, run, Option.some_bind]
    cases s.run ys <;> rfl
  | cons x xs ih =>
    intro s
    show s.run (x :: (xs ++ ys)) = _
    simp only [run]
    cases s.call x with
    | none => rfl
    | some r =>
      simp only [Option.some_bind]
      rw [ih r.1]
      cases r.1.run xs with
      | none => rfl
      | some r1 =>
        simp only [Option.some_bind]
        cases r1.1.run ys with
        | none => rfl
        | some r2 => simp

/-- A run of calls with 32-bit arguments that returns ends in a reachable state. -/
theorem Reachable.run {ops : List Op} :
    ∀ {s s1 : LockFreeHashTable} {rs : List Bool}, Reachable s →
      (∀ op ∈ ops, op.value < 2 ^ 32) → s.run ops = some (s1, rs) → Reachable s1 := by
  induction ops with
  | nil =>
    intro s s1 rs h _ hr
    simp only [LockFreeHashTable.run, Option.some.injEq, Prod.mk.injEq] at hr
    rw [← hr.1]
    exact h
  | cons op ops ih =>
    intro s s1 rs h hv hr
    simp only [LockFreeHashTable.run] at hr
    cases hc : s.call op with
    | none => rw [hc] at hr; cases hr
    | some r =>
      rw [hc] at hr
      simp only [Option.some_bind] at hr
      cases hr2 : r.1.run ops with
      | none => rw [hr2] at hr; cases hr
      | some r2 =>
        rw [hr2] at hr
        simp only [Option.some_bind, Option.some.injEq, Prod.mk.injEq] at hr
        have h1 : Reachable r.1 :=
          Reachable.call h (hv op (List.mem_cons_self _ _)) (by rw [hc])
        have := ih h1 (fun o ho => hv o (List.mem_cons_of_mem _ ho)) hr2
        rw [← hr.1]
        exact this

/-- The run that builds the table `loaded`. -/
theorem loaded_run :
    fresh.run [Op.Add 1, Op.Add 2, Op.Add 3, Op.Add 4, Op.Add 5, Op.Add 6, Op.Add 7, Op.Add 8]
      = some (loaded, [true, true, true, true, true, true, true, true]) := by
  decide!

theorem Reachable_loaded : Reachable loaded :=
  Reachable.run (Reachable.init new_eq) (by decide) loaded_run

end LockFreeHashTable

/-! ## Consequences of the invariant for single calls -/

namespace LockFreeHashTable

/-- The bucket a lookup starts from is the hash modulo the bucket count. -/
theorem GetSentinelNode_eq {s : LockFreeHashTable} {L : List (Nat × KeyValue)} {lim : Nat}
    (h : CoreInv s L lim) (value : Nat) :
    s.GetSentinelNode value = s.hashtable[value % s.hashtable.length]? := by
  obtain ⟨k, hk1, hk2, hk⟩ := h.size
  have hlt : 2 ^ k < 2 ^ 32 := Nat.pow_lt_pow_right (by decide) (by omega)
  have hbits : s.GetNumberOfBitsUsed = k := by
    unfold GetNumberOfBitsUsed GetHashtablePointer u32
    rw [hk, Nat.mod_eq_of_lt hlt, Nat.log2_two_pow]
  have hshift : u32 (32 + 2 ^ 32 - k) = 32 - k := by
    unfold u32
    omega
  unfold GetSentinelNode
  simp only [hbits, hshift]
  rw [if_neg (by omega), ALLONE_shift (by omega), Nat.and_pow_two_sub_one_eq_mod, hk]
  rfl

/-- Below `2 ^ 31` buckets `Add` returns, and it returns `true` exactly for a
value that `Contains` did not report. -/
theorem Add_of_inv {s : LockFreeHashTable} {L : List (Nat × KeyValue)} (h : TableInv s L)
    (hcap : s.hashtable.length < 2 ^ 31) (v : Nat) :
    ∃ s1 L1, s.Add v = some (s1, !decide (normalItem v ∈ L.map Prod.snd)) ∧ TableInv s1 L1 ∧
      (∀ w, normalItem w ∈ L1.map Prod.snd ↔ normalItem w ∈ L.map Prod.snd ∨ w = v) ∧
      (normalItem v ∈ L.map Prod.snd → s1 = s) := by
  rcases Add_spec h v with ⟨h1, h2⟩ | ⟨_, _, h3, _⟩ | ⟨h1, _, s1, L1, h2, h3, h4, _⟩
  · refine ⟨s, L, ?_, h, ?_, fun _ => rfl⟩
    · rw [h2]
      simp [h1]
    · intro w
      constructor
      · exact Or.inl
      · rintro (h3 | rfl)
        · exact h3
        · exact h1
  · omega
  · refine ⟨s1, L1, ?_, h3, h4, fun hc => absurd hc h1⟩
    rw [h2]
    simp [h1]

/-- The method `Remove` returns, and it returns `true` exactly for a value that
`Contains` reported. -/
theorem Remove_of_inv {s : LockFreeHashTable} {L : List (Nat × KeyValue)} (h : TableInv s L)
    (v : Nat) :
    ∃ s1 L1, s.Remove v = some (s1, decide (normalItem v ∈ L.map Prod.snd)) ∧ TableInv s1 L1 ∧
      (∀ w, normalItem w ∈ L1.map Prod.snd ↔ normalItem w ∈ L.map Prod.snd ∧ w ≠ v) ∧
      s1.hashtable = s.hashtable ∧ (normalItem v ∉ L.map Prod.snd → s1 = s) ∧
      regularCount L1 ≤ regularCount L := by
  rcases Remove_spec h v with ⟨h1, h2⟩ | ⟨h1, s1, L1, h2, h3, h4, h5, _⟩
  · refine ⟨s, L, ?_, h, ?_, rfl, fun _ => rfl, le_refl _⟩
    · rw [h2]
      simp [h1]
    · intro w
      constructor
      · intro h3
        refine ⟨h3, ?_⟩
        rintro rfl
        exact h1 h3
      · exact fun h3 => h3.1
  · refine ⟨s1, L1, ?_, h3, ?_, h5, fun hc => absurd h1 hc, ?_⟩
    rotate_left 2
    · have := regularCount_remove_normal h.core.list.sorted h3.core.list.sorted h4 h1
      omega
    · rw [h2]
      simp [h1]
    · intro w
      simp only [List.mem_map]
      constructor
      · rintro ⟨x, hx, hxw⟩
        have := (h4 x).mp hx
        refine ⟨⟨x, this.1, hxw⟩, ?_⟩
        rintro rfl
        exact this.2 hxw
      · rintro ⟨⟨x, hx, hxw⟩, hne⟩
        refine ⟨x, (h4 x).mpr ⟨hx, ?_⟩, hxw⟩
        rw [hxw]
        intro e
        exact hne (normalItem_injective e)

end LockFreeHashTable

/-! ## Properties of single calls in reachable states -/

namespace LockFreeHashTable

/-- A call of `Contains` that returns leaves the state it was called in. -/
theorem call_Contains_state (s : LockFreeHashTable) (v : Nat)
    (r : LockFreeHashTable × Bool) (hr : s.call (Op.Contains v) = some r) : r.1 = s := by
  rw [call] at hr
  cases hc : s.Contains v with
  | none => rw [hc] at hr; cases hr
  | some b => rw [hc] at hr; cases hr; rfl

/-- In a reachable state a call of `Contains` returns. -/
theorem call_Contains_returns {s : LockFreeHashTable} (h : Reachable s) (v : Nat) :
    ∃ b, s.call (Op.Contains v) = some (s, b) := by
  obtain ⟨L, hL⟩ := h.inv
  exact ⟨_, by rw [call, Contains_spec hL.core v]; rfl⟩

/-- C3: in every state reachable by sequential operations on a fresh table and
for every value `v`, `Remove(v)` returns, its result is the boolean `Contains(v)`
returned immediately before the call, and after a `Remove(v)` that returned
`true`, `Contains(v)` is `false`. -/
theorem C3_remove_iff_contains (s : LockFreeHashTable) (v : Nat) (h : Reachable s) :
    ∃ s1 b, s.Remove v = some (s1, b) ∧ s.Contains v = some b ∧
      (b = true → s1.Contains v = some false) := by
  obtain ⟨L, hL⟩ := h.inv
  obtain ⟨s1, L1, h1, h2, h3, _, _, _⟩ := Remove_of_inv hL v
  refine ⟨s1, _, h1, Contains_spec hL.core v, fun _ => ?_⟩
  rw [Contains_spec h2.core v]
  have : normalItem v ∉ L1.map Prod.snd := fun hc => ((h3 v).mp hc).2 rfl
  simp [this]

/-- Witness of C3: the value 3 in the table that holds 1 to 8. -/
theorem C3_remove_iff_contains_witness :
    Reachable loaded ∧ loaded.Contains 3 = some true ∧
      ∃ s1 b, loaded.Remove 3 = some (s1, b) ∧ loaded.Contains 3 = some b ∧
        (b = true → s1.Contains 3 = some false) :=
  ⟨Reachable_loaded, by decide!, C3_remove_iff_contains loaded 3 Reachable_loaded⟩

/-- C7: `Contains` is a pure query. In every state whatsoever, a call of
`Contains(v)` that returns leaves the whole state (heap of nodes with their
next pointers and marks, head, bucket vector, growth flag, element counter) as
it was; and in every reachable state the call does return. -/
theorem C7_contains_pure (s : LockFreeHashTable) (v : Nat) :
    (∀ r, s.call (Op.Contains v) = some r → r.1 = s) ∧
    (Reachable s → ∃ b, s.call (Op.Contains v) = some (s, b)) :=
  ⟨call_Contains_state s v, fun h => call_Contains_returns h v⟩

/-- Witness of C7: the value 3 in the table that holds 1 to 8. -/
theorem C7_contains_pure_witness :
    Reachable loaded ∧ ∃ b, loaded.call (Op.Contains 3) = some (loaded, b) :=
  ⟨Reachable_loaded, (C7_contains_pure loaded 3).2 Reachable_loaded⟩

/-- C10: in every reachable state, `Remove(v)` returns and leaves the bucket
vector as it was, `Contains(v)` returns and leaves the whole state as it was,
and an `Add(v)` of a value that `Contains` reports returns `false` and leaves
the whole state (element counter, bucket vector, list) as it was. -/
theorem C10_no_growth (s : LockFreeHashTable) (v : Nat) (h : Reachable s) :
    (∃ s1 b, s.Remove v = some (s1, b) ∧ s1.hashtable = s.hashtable ∧ s1.growing = s.growing) ∧
    (∃ b, s.call (Op.Contains v) = some (s, b)) ∧
    (s.Contains v = some true → s.Add v = some (s, false)) := by
  obtain ⟨L, hL⟩ := h.inv
  refine ⟨?_, call_Contains_returns h v, ?_⟩
  · obtain ⟨s1, L1, h1, h2, _, h4, _, _⟩ := Remove_of_inv hL v
    exact ⟨s1, _, h1, h4, by rw [h2.growing, hL.growing]⟩
  · intro hc
    rw [Contains_spec hL.core v] at hc
    have hmem : normalItem v ∈ L.map Prod.snd := by simpa using hc
    rcases Add_spec hL v with ⟨_, h2⟩ | ⟨h1, _⟩ | ⟨h1, _⟩
    · exact h2
    · exact absurd hmem h1
    · exact absurd hmem h1

/-- Witness of C10: the value 3 in the table that holds 1 to 8. -/
theorem C10_no_growth_witness :
    Reachable loaded ∧ loaded.Contains 3 = some true ∧
    (∃ s1 b, loaded.Remove 3 = some (s1, b) ∧ s1.hashtable = loaded.hashtable ∧
      s1.growing = loaded.growing) ∧
    (∃ b, loaded.call (Op.Contains 3) = some (loaded, b)) ∧
    (loaded.Contains 3 = some true → loaded.Add 3 = some (loaded, false)) :=
  ⟨Reachable_loaded, by decide!, C10_no_growth loaded 3 Reachable_loaded⟩

end LockFreeHashTable

namespace LockFreeHashTable

theorem not_mem_items_fresh (v : Nat) :
    normalItem v ∉ ([(2, sentinelItem 0), (3, sentinelItem 1), (1, tailItem)] :
      List (Nat × KeyValue)).map Prod.snd := by
  intro hc
  simp only [List.map_cons, List.map_nil, List.mem_cons, List.mem_singleton,
    List.not_mem_nil, or_false] at hc
  rcases hc with e | e | e
  · exact normalItem_ne_sentinelItem v 0 e
  · exact normalItem_ne_sentinelItem v 1 e
  · have := normalItem_lt_tail v
    rw [e] at this
    exact KeyValue.lt_irrefl _ this

/-- C8: the constructor returns a table whose bucket vector has length 2,
whose bucket 0 holds the head pointer of the list, whose bucket 1 holds a
pointer to a node with item `(MakeSentinelKey(1), 1)` that is the successor of
the head and the predecessor of the tail `(UINT32_MAX, UINT32_MAX)`, where
`MakeSentinelKey(1)` is `2 ^ 31`, whose element counter is 0, and in which `Contains(v)` is `false` for every `v`. -/
theorem C8_fresh_table :
    ∃ s, LockFreeHashTable.new = some s ∧ s.hashtable.length = 2 ∧
      s.hashtable[0]? = some s.list.GetHead ∧
      (∃ a h t hn an tn, s.hashtable[1]? = some (some a) ∧ s.list.GetHead = some h ∧
        s.list.mem[h]? = some hn ∧ hn.next = plain (some a) ∧
        s.list.mem[a]? = some an ∧ an.item = ⟨MakeSentinelKey 1, 1⟩ ∧ an.mark = false ∧
        an.next = plain (some t) ∧
        s.list.mem[t]? = some tn ∧ tn.item = ⟨UINT32_MAX, UINT32_MAX⟩ ∧ tn.next = nullWord) ∧
      MakeSentinelKey 1 = 2 ^ 31 ∧
      s.table_size = 0 ∧ s.growing = false ∧ ∀ v, s.Contains v = some false := by
  refine ⟨fresh, new_eq, rfl, rfl, ⟨3, 2, 1, _, _, _, rfl, rfl, rfl, rfl, rfl, rfl, rfl, rfl, rfl,
    rfl, rfl⟩, by decide, rfl, rfl, fun v => ?_⟩
  rw [Contains_spec (TableInv_new new_eq).core v, decide_eq_false (not_mem_items_fresh v)]

/-- Below `2 ^ 31` buckets `Add(v)` returns, and it returns `true` exactly when
`Contains(v)` returned `false` immediately before the call. -/
theorem Add_iff_absent_below_cap (s : LockFreeHashTable) (v : Nat) (h : Reachable s)
    (hcap : s.hashtable.length < 2 ^ 31) :
    ∃ s1 b, s.Add v = some (s1, b) ∧ s.Contains v = some (!b) := by
  obtain ⟨L, hL⟩ := h.inv
  obtain ⟨s1, L1, h1, _, _, _⟩ := Add_of_inv hL hcap v
  refine ⟨s1, _, h1, ?_⟩
  rw [Contains_spec hL.core v]
  simp

/-- Below `2 ^ 31` buckets the eight calls
`Contains, Add, Contains, Add, Contains, Remove, Contains, Remove` on a value
that `Contains` does not report return
`false, true, true, false, true, true, false, false`. -/
theorem eight_calls_below_cap (s : LockFreeHashTable) (v : Nat) (h : Reachable s)
    (hcap : s.hashtable.length < 2 ^ 31) (habs : s.Contains v = some false) :
    ∃ s1, s.run [Op.Contains v, Op.Add v, Op.Contains v, Op.Add v, Op.Contains v,
        Op.Remove v, Op.Contains v, Op.Remove v]
      = some (s1, [false, true, true, false, true, true, false, false]) := by
  obtain ⟨L, hL⟩ := h.inv
  have h0 : normalItem v ∉ L.map Prod.snd := by
    rw [Contains_spec hL.core v] at habs
    simpa using habs
  obtain ⟨s1, L1, a1, i1, m1, _⟩ := Add_of_inv hL hcap v
  have h1 : normalItem v ∈ L1.map Prod.snd := (m1 v).mpr (Or.inr rfl)
  have c1 : s1.Contains v = some true := by
    rw [Contains_spec i1.core v]; simp [h1]
  have a2 : s1.Add v = some (s1, false) := by
    rcases Add_spec i1 v with ⟨_, e⟩ | ⟨e, _⟩ | ⟨e, _⟩
    · exact e
    · exact absurd h1 e
    · exact absurd h1 e
  obtain ⟨s2, L2, r1, i2, m2, _, _, _⟩ := Remove_of_inv i1 v
  have h2 : normalItem v ∉ L2.map Prod.snd := fun hc => ((m2 v).mp hc).2 rfl
  have c2 : s2.Contains v = some false := by
    rw [Contains_spec i2.core v]; simp [h2]
  obtain ⟨s3, L3, r2, _, _, _, e3, _⟩ := Remove_of_inv i2 v
  have e3 := e3 h2
  subst e3
  refine ⟨s3, ?_⟩
  simp only [h0, h1, h2, decide_True, decide_False, Bool.not_false] at a1 r1 r2
  simp only [run, call, habs, a1, c1, a2, r1, c2, r2, Option.some_bind]

/-- C5: in every reachable state and for all values `v ≠ w`, `Contains(w)`
returns, and it returns the same boolean in the state any returning `Add(v)`
leaves, whether or not that `Add(v)` doubles the bucket vector, and in the
state `Remove(v)` leaves; `Remove(v)` always returns, `Add(v)` returns in every
state with fewer than `2 ^ 31` buckets. -/
theorem C5_other_values (s : LockFreeHashTable) (v w : Nat) (h : Reachable s) (hne : v ≠ w) :
    ∃ c, s.Contains w = some c ∧
      (∀ s1 b, s.Add v = some (s1, b) → s1.Contains w = some c) ∧
      (∃ s2 b, s.Remove v = some (s2, b) ∧ s2.Contains w = some c) ∧
      (s.hashtable.length < 2 ^ 31 → ∃ s1 b, s.Add v = some (s1, b)) := by
  obtain ⟨L, hL⟩ := h.inv
  refine ⟨_, Contains_spec hL.core w, ?_, ?_, ?_⟩
  · intro s1 b ha
    rcases Add_spec hL v with ⟨_, e⟩ | ⟨_, _, _, e⟩ | ⟨_, _, s2, L2, e, i2, m2, _⟩
    · rw [e] at ha
      cases ha
      exact Contains_spec hL.core w
    · rw [e] at ha
      cases ha
    · rw [e] at ha
      cases ha
      rw [Contains_spec i2.core w]
      congr 1
      apply decide_eq_decide.mpr
      rw [m2 w]
      constructor
      · rintro (e1 | e1)
        · exact e1
        · exact absurd e1.symm hne
      · exact Or.inl
  · obtain ⟨s2, L2, r1, i2, m2, _, _, _⟩ := Remove_of_inv hL v
    refine ⟨s2, _, r1, ?_⟩
    rw [Contains_spec i2.core w]
    congr 1
    apply decide_eq_decide.mpr
    rw [m2 w]
    constructor
    · exact fun e => e.1
    · exact fun e => ⟨e, Ne.symm hne⟩
  · intro hcap
    obtain ⟨s1, _, a1, _⟩ := Add_of_inv hL hcap v
    exact ⟨s1, _, a1⟩

/-- Witness of C5: in the table that holds 1 to 8, `Add(9)` doubles the bucket
vector from 2 to 4 entries. -/
theorem C5_other_values_witness :
    Reachable loaded ∧ 9 ≠ 3 ∧ loaded.hashtable.length = 2 ∧
      (∃ s1, loaded.Add 9 = some (s1, true) ∧ s1.hashtable.length = 4) ∧
      ∃ c, loaded.Contains 3 = some c ∧
        (∀ s1 b, loaded.Add 9 = some (s1, b) → s1.Contains 3 = some c) ∧
        (∃ s2 b, loaded.Remove 9 = some (s2, b) ∧ s2.Contains 3 = some c) ∧
        (loaded.hashtable.length < 2 ^ 31 → ∃ s1 b, loaded.Add 9 = some (s1, b)) :=
  ⟨Reachable_loaded, by decide, by decide!,
    ⟨(loaded.Add 9).get (by decide!) |>.1, by decide!, by decide!⟩,
    C5_other_values loaded 9 3 Reachable_loaded (by decide)⟩

/-- C6: in every reachable state with `N` buckets, whenever
`DoubleHashTableSize` returns it has published a vector of `2 * N` buckets,
`Contains(v)` returns for every `v` what it returned before, and the lookup of
`v` now starts from the entry of bucket `HashFunction(v) mod 2 * N`;
`DoubleHashTableSize` returns in every state with fewer than `2 ^ 31` buckets;
and when an inserting `Add(x)` has made the table grow to `2 * N` buckets, the
same holds for every value `v` other than `x`. -/
theorem C6_growth_preserves (s : LockFreeHashTable) (h : Reachable s) :
    (∀ s1, s.DoubleHashTableSize = some s1 →
      s1.hashtable.length = 2 * s.hashtable.length ∧
      ∀ v, ∃ c, s.Contains v = some c ∧ s1.Contains v = some c ∧
        s1.GetSentinelNode (HashFunction v)
          = s1.hashtable[HashFunction v % (2 * s.hashtable.length)]?) ∧
    (s.hashtable.length < 2 ^ 31 → ∃ s1, s.DoubleHashTableSize = some s1) ∧
    (∀ x s1, s.Add x = some (s1, true) → s1.hashtable.length = 2 * s.hashtable.length →
      ∀ v, v ≠ x → ∃ c, s.Contains v = some c ∧ s1.Contains v = some c ∧
        s1.GetSentinelNode (HashFunction v)
          = s1.hashtable[HashFunction v % (2 * s.hashtable.length)]?) := by
  obtain ⟨L, hL⟩ := h.inv
  obtain ⟨k, _, hk31, hk⟩ := hL.core.size
  have hadd : ∀ x s1, s.Add x = some (s1, true) →
      s1.hashtable.length = 2 * s.hashtable.length →
      ∀ v, v ≠ x → ∃ c, s.Contains v = some c ∧ s1.Contains v = some c ∧
        s1.GetSentinelNode (HashFunction v)
          = s1.hashtable[HashFunction v % (2 * s.hashtable.length)]? := by
    intro x s1 ha hlen v hv
    rcases Add_spec hL x with ⟨_, e⟩ | ⟨_, _, _, e⟩ | ⟨_, _, s2, L2, e, i2, m2, _⟩
    · rw [e] at ha
      cases ha
    · rw [e] at ha
      cases ha
    · rw [e] at ha
      cases ha
      refine ⟨_, Contains_spec hL.core v, ?_, ?_⟩
      · rw [Contains_spec i2.core v]
        congr 1
        apply decide_eq_decide.mpr
        rw [m2 v]
        constructor
        · rintro (e1 | e1)
          · exact e1
          · exact absurd e1 hv
        · exact Or.inl
      · rw [GetSentinelNode_eq i2.core, hlen]
  by_cases hcap : s.hashtable.length < 2 ^ 31
  · have hk30 : k ≤ 30 := by
      rw [hk] at hcap
      have := (Nat.pow_lt_pow_iff_right (show 1 < 2 by decide)).mp hcap
      omega
    have hload : regularCount L ≤ MAX_AVERAGE_BUCKET_SIZE * 2 ^ (k + 1) := by
      have := hL.load
      rw [hk] at this
      rw [Nat.pow_succ]
      unfold MAX_AVERAGE_BUCKET_SIZE at *
      omega
    obtain ⟨s1, L1, hd, hinv, hlen, _, _, hnorm, _⟩ :=
      DoubleHashTableSize_spec (by rw [← hk]; exact hL.core) hk hk30 hload
    have hlen2 : s1.hashtable.length = 2 * s.hashtable.length := by
      rw [hlen, hk, Nat.pow_succ]; omega
    refine ⟨fun s2 h2 => ?_, fun _ => ⟨s1, hd⟩, hadd⟩
    rw [hd] at h2
    cases h2
    refine ⟨hlen2, fun v => ⟨_, Contains_spec hL.core v, ?_, ?_⟩⟩
    · rw [Contains_spec hinv.core v]
      congr 1
      exact decide_eq_decide.mpr (hnorm v)
    · rw [GetSentinelNode_eq hinv.core, hlen2]
  · have hk2 : s.hashtable.length = 2 ^ 31 := by
      have : k = 31 := by
        by_contra hne
        apply hcap
        rw [hk]
        exact Nat.pow_lt_pow_right (by decide) (by omega)
      rw [hk, this]
    refine ⟨fun s2 h2 => ?_, fun hc => absurd hc hcap, hadd⟩
    rw [DoubleHashTableSize_overflow hk2] at h2
    cases h2

/-- Witness of C6: the fresh table, and `Add(9)` in the table that holds 1 to 8. -/
theorem C6_growth_preserves_witness :
    Reachable fresh ∧ fresh.hashtable.length < 2 ^ 31 ∧
      (∃ s1, fresh.DoubleHashTableSize = some s1 ∧
        s1.hashtable.length = 2 * fresh.hashtable.length ∧
        ∀ v, ∃ c, fresh.Contains v = some c ∧ s1.Contains v = some c ∧
          s1.GetSentinelNode (HashFunction v)
            = s1.hashtable[HashFunction v % (2 * fresh.hashtable.length)]?) ∧
      Reachable loaded ∧
      ∃ s1, loaded.Add 9 = some (s1, true) ∧
        s1.hashtable.length = 2 * loaded.hashtable.length ∧
        ∀ v, v ≠ 9 → ∃ c, loaded.Contains v = some c ∧ s1.Contains v = some c ∧
          s1.GetSentinelNode (HashFunction v)
            = s1.hashtable[HashFunction v % (2 * loaded.hashtable.length)]? := by
  have h := C6_growth_preserves fresh (Reachable.init new_eq)
  have h2 := C6_growth_preserves loaded Reachable_loaded
  obtain ⟨s1, h1⟩ := h.2.1 (by decide)
  have ha : loaded.Add 9 = some ((loaded.Add 9).get (by decide!) |>.1, true) := by decide!
  have hl : ((loaded.Add 9).get (by decide!) |>.1).hashtable.length
      = 2 * loaded.hashtable.length := by decide!
  exact ⟨Reachable.init new_eq, by decide, ⟨s1, h1, h.1 s1 h1⟩, Reachable_loaded,
    _, ha, hl, h2.2.2 9 _ ha hl⟩

end LockFreeHashTable

namespace LockFreeHashTable

/-- Below `2 ^ 30` buckets neither the counter nor the product
`MAX_AVERAGE_BUCKET_SIZE * size` wraps. -/
theorem growthDue_iff {s : LockFreeHashTable} {L : List (Nat × KeyValue)} (h : TableInv s L)
    (hcap : s.hashtable.length < 2 ^ 30) :
    s.table_size = regularCount L ∧ u32 (s.table_size + 1) = s.table_size + 1 ∧
      (growthDue s ↔ s.table_size + 1 > MAX_AVERAGE_BUCKET_SIZE * s.hashtable.length) := by
  have h1 := h.load
  have h2 := h.core.count
  unfold growthDue
  unfold MAX_AVERAGE_BUCKET_SIZE u32 at *
  have h3 : s.table_size = regularCount L := by omega
  refine ⟨h3, by omega, ?_⟩
  rw [Nat.mod_eq_of_lt (show s.table_size + 1 < 2 ^ 32 by omega),
    Nat.mod_eq_of_lt (show 4 * s.hashtable.length < 2 ^ 32 by omega)]

/-- Below `2 ^ 30` buckets an `Add` of a value that `Contains` does not report
returns `true`, increments the element counter, and leaves `2 * N` buckets when
the incremented counter exceeds `4 * N` and `N` buckets otherwise. -/
theorem growth_trigger_below_cap (s : LockFreeHashTable) (v : Nat) (h : Reachable s)
    (hcap : s.hashtable.length < 2 ^ 30) (habs : s.Contains v = some false) :
    ∃ s1, s.Add v = some (s1, true) ∧ s1.table_size = s.table_size + 1 ∧
      s1.hashtable.length =
        if s.table_size + 1 > MAX_AVERAGE_BUCKET_SIZE * s.hashtable.length
        then 2 * s.hashtable.length else s.hashtable.length := by
  obtain ⟨L, hL⟩ := h.inv
  have h0 : normalItem v ∉ L.map Prod.snd := by
    rw [Contains_spec hL.core v] at habs
    simpa using habs
  obtain ⟨_, h2, h3⟩ := growthDue_iff hL hcap
  rcases Add_spec hL v with ⟨e, _⟩ | ⟨_, _, e, _⟩ | ⟨_, _, s1, L1, a1, _, _, ts, _, len, _⟩
  · exact absurd e h0
  · rw [e] at hcap
    exact absurd hcap (by decide)
  · refine ⟨s1, a1, by rw [ts, h2], ?_⟩
    rw [len]
    by_cases g : growthDue s
    · rw [if_pos g, if_pos (h3.mp g)]
    · rw [if_neg g, if_neg (fun hc => g (h3.mpr hc))]

/-- One call below the capacity bound: the table and the reference set agree
on the result, and the invariants of a run are kept. The number `n` bounds the
calls made so far. -/
theorem call_refines {s : LockFreeHashTable} {L : List (Nat × KeyValue)}
    {t : LockBasedHashTable} {n : Nat} (op : Op) (h : TableInv s L)
    (hrel : ∀ v, normalItem v ∈ L.map Prod.snd ↔ v ∈ t.map)
    (hcount : regularCount L ≤ n)
    (hsize : s.hashtable.length ≤ 2 ∨ 2 * s.hashtable.length < n) (hn : n < 2 ^ 31) :
    ∃ s1 L1, s.call op = some (s1, (t.call op).2) ∧ TableInv s1 L1 ∧
      (∀ v, normalItem v ∈ L1.map Prod.snd ↔ v ∈ (t.call op).1.map) ∧
      regularCount L1 ≤ n + 1 ∧
      (s1.hashtable.length ≤ 2 ∨ 2 * s1.hashtable.length < n + 1) := by
  have hcap30 : s.hashtable.length < 2 ^ 30 := by omega
  cases op with
  | Add v =>
    obtain ⟨hts, _, hg⟩ := growthDue_iff h hcap30
    rcases Add_spec h v with ⟨e, a⟩ | ⟨_, _, e, _⟩ | ⟨e, _, s1, L1, a, i1, m1, _, c1, len, _⟩
    · have hv : v ∈ t.map := (hrel v).mp e
      refine ⟨s, L, ?_, h, ?_, by omega, by omega⟩
      · simp [call, a, LockBasedHashTable.call, LockBasedHashTable.Add, hv]
      · intro w
        simp only [LockBasedHashTable.call, LockBasedHashTable.Add, Finset.mem_insert]
        rw [hrel w]
        constructor
        · exact Or.inr
        · rintro (rfl | hw)
          · exact hv
          · exact hw
    · omega
    · have hv : v ∉ t.map := fun hc => e ((hrel v).mpr hc)
      refine ⟨s1, L1, ?_, i1, ?_, by omega, ?_⟩
      · simp [call, a, LockBasedHashTable.call, LockBasedHashTable.Add, hv]
      · intro w
        simp only [LockBasedHashTable.call, LockBasedHashTable.Add, Finset.mem_insert]
        rw [m1 w, hrel w]
        tauto
      · rw [len]
        by_cases g : growthDue s
        · rw [if_pos g]
          right
          have := hg.mp g
          unfold MAX_AVERAGE_BUCKET_SIZE at this
          omega
        · rw [if_neg g]
          omega
  | Remove v =>
    obtain ⟨s1, L1, r, i1, m1, ht, _, c1⟩ := Remove_of_inv h v
    refine ⟨s1, L1, ?_, i1, ?_, by omega, by rw [ht]; omega⟩
    · rw [call, r]
      simp only [LockBasedHashTable.call, LockBasedHashTable.Remove]
      congr 2
      exact decide_eq_decide.mpr (hrel v)
    · intro w
      simp only [LockBasedHashTable.call, LockBasedHashTable.Remove, Finset.mem_erase]
      rw [m1 w, hrel w]
      tauto
  | Contains v =>
    refine ⟨s, L, ?_, h, hrel, by omega, by omega⟩
    rw [call, Contains_spec h.core v]
    simp only [LockBasedHashTable.call, LockBasedHashTable.Contains, Option.some_bind]
    congr 2
    exact decide_eq_decide.mpr (hrel v)

/-- A run below the capacity bound: the table returns the results of the
reference set. -/
theorem run_refines (ops : List Op) :
    ∀ (s : LockFreeHashTable) (L : List (Nat × KeyValue)) (t : LockBasedHashTable) (n : Nat),
      TableInv s L → (∀ v, normalItem v ∈ L.map Prod.snd ↔ v ∈ t.map) →
      regularCount L ≤ n → (s.hashtable.length ≤ 2 ∨ 2 * s.hashtable.length < n) →
      n + ops.length ≤ 2 ^ 31 →
      ∃ s1, s.run ops = some (s1, (t.run ops).2) := by
  induction ops with
  | nil =>
    intro s L t n _ _ _ _ _
    exact ⟨s, rfl⟩
  | cons op ops ih =>
    intro s L t n h hrel hcount hsize hn
    simp only [List.length_cons] at hn
    obtain ⟨s1, L1, c, i1, r1, c1, z1⟩ := call_refines op h hrel hcount hsize (by omega)
    obtain ⟨s2, hrun⟩ := ih s1 L1 (t.call op).1 (n + 1) i1 r1 c1 z1 (by omega)
    refine ⟨s2, ?_⟩
    simp only [run, c, Option.some_bind, hrun, LockBasedHashTable.run]

/-- A run of at most `2 ^ 31` calls on a fresh table returns the results of the
reference set. -/
theorem refines_set_below_cap (ops : List Op) (hlen : ops.length ≤ 2 ^ 31) :
    ∃ s1, fresh.run ops = some (s1, (LockBasedHashTable.new.run ops).2) :=
  run_refines ops fresh _ LockBasedHashTable.new 0 (TableInv_new new_eq)
    (fun v => by
      constructor
      · intro hc
        exact absurd hc (not_mem_items_fresh v)
      · intro hc
        simp [LockBasedHashTable.new] at hc)
    (by decide) (Or.inl (by decide)) (by omega)

end LockFreeHashTable

/-! ## The run that reaches `2 ^ 31` buckets -/

namespace LockFreeHashTable

/-- The bucket count after one more insertion. -/
theorem sizeAfter_step {n N k : Nat} (hN : N = 2 ^ k) (hs : sizeAfter n N)
    (hn : n ≤ 2 ^ 31 + 1) :
    N ≠ 2 ^ 31 ∧
      sizeAfter (n + 1)
        (if u32 (n % 2 ^ 32 + 1) > u32 (MAX_AVERAGE_BUCKET_SIZE * N) then 2 * N else N) := by
  unfold sizeAfter MAX_AVERAGE_BUCKET_SIZE u32 at *
  rcases hs with ⟨h1, h2⟩ | ⟨h1, h2, h3, h4⟩ | ⟨h1, h2⟩ | ⟨h1, _⟩
  · subst h2
    refine ⟨by omega, ?_⟩
    split_ifs with g
    · right; left; omega
    · left; omega
  · have hk : k ≤ 29 := by
      have : 2 ^ k < 2 ^ 30 := by omega
      have := (Nat.pow_lt_pow_iff_right (show 1 < 2 by decide)).mp this
      omega
    have hN29 : N ≤ 2 ^ 29 := by rw [hN]; exact Nat.pow_le_pow_right (by decide) hk
    refine ⟨by omega, ?_⟩
    split_ifs with g
    · by_cases e : n = 2 ^ 31
      · right; right; left; omega
      · right; left; omega
    · right; left
      omega
  · subst h2
    refine ⟨by omega, ?_⟩
    split_ifs with g
    · right; right; right; omega
    · omega
  · omega

/-- The state after the insertions `Add(0), ..., Add(n - 1)` into a fresh table,
for every `n` up to `2 ^ 31 + 2`. -/
theorem run_addsUpTo (n : Nat) (hn : n ≤ 2 ^ 31 + 2) :
    ∃ s L, fresh.run (addsUpTo n) = some (s, List.replicate n true) ∧ TableInv s L ∧
      (∀ v, normalItem v ∈ L.map Prod.snd ↔ v < n) ∧ regularCount L = n ∧
      sizeAfter n s.hashtable.length := by
  induction n with
  | zero =>
    refine ⟨fresh, _, rfl, TableInv_new new_eq, fun v => ?_, by decide, Or.inl ⟨by decide, rfl⟩⟩
    constructor
    · exact fun hc => absurd hc (not_mem_items_fresh v)
    · exact fun hc => absurd hc (Nat.not_lt_zero v)
  | succ n ih =>
    obtain ⟨s, L, hrun, hinv, hmem, hcnt, hsz⟩ := ih (by omega)
    obtain ⟨k, _, _, hk⟩ := hinv.core.size
    have hstep := sizeAfter_step hk hsz (by omega)
    have hts : s.table_size = n % 2 ^ 32 := by rw [hinv.core.count, hcnt]
    have habs : normalItem n ∉ L.map Prod.snd := fun hc => absurd ((hmem n).mp hc) (by omega)
    rcases Add_spec hinv n with ⟨e, _⟩ | ⟨_, _, e, _⟩ | ⟨_, _, s1, L1, a, i1, m1, _, c1, len, _⟩
    · exact absurd e habs
    · exact absurd e hstep.1
    · refine ⟨s1, L1, ?_, i1, ?_, by omega, ?_⟩
      · unfold addsUpTo
        rw [List.range_succ, List.map_append, run_append]
        have : (List.range n).map Op.Add = addsUpTo n := rfl
        rw [this, hrun]
        simp only [List.map_cons, List.map_nil, run, call, a, Option.some_bind,
          List.replicate_succ']
      · intro v
        rw [m1 v, hmem v]
        omega
      · have hg : growthDue s ↔
            u32 (n % 2 ^ 32 + 1) > u32 (MAX_AVERAGE_BUCKET_SIZE * s.hashtable.length) := by
          unfold growthDue
          rw [hts]
        have h2 := hstep.2
        rw [len]
        by_cases g : growthDue s
        · rw [if_pos g]
          rw [if_pos (hg.mp g)] at h2
          exact h2
        · rw [if_neg g]
          rw [if_neg (fun hc => g (hg.mpr hc))] at h2
          exact h2

/-- The state with `2 ^ 31` buckets: reachable, and the next inserting `Add`
has no defined result. -/
theorem overflow_state :
    ∃ s, fresh.run (addsUpTo (2 ^ 31 + 2)) = some (s, List.replicate (2 ^ 31 + 2) true) ∧
      Reachable s ∧ s.hashtable.length = 2 ^ 31 ∧
      s.Contains (2 ^ 31 + 2) = some false ∧ s.Add (2 ^ 31 + 2) = none := by
  obtain ⟨s, L, hrun, hinv, hmem, hcnt, hsz⟩ := run_addsUpTo (2 ^ 31 + 2) (le_refl _)
  have hlen : s.hashtable.length = 2 ^ 31 := by
    unfold sizeAfter at hsz
    omega
  have habs : normalItem (2 ^ 31 + 2) ∉ L.map Prod.snd :=
    fun hc => absurd ((hmem _).mp hc) (by omega)
  refine ⟨s, hrun, ?_, hlen, ?_, ?_⟩
  · refine Reachable.run (Reachable.init new_eq) ?_ hrun
    intro op hop
    unfold addsUpTo at hop
    obtain ⟨v, hv, rfl⟩ := List.mem_map.mp hop
    have := List.mem_range.mp hv
    show v < 2 ^ 32
    omega
  · rw [Contains_spec hinv.core, decide_eq_false habs]
  · rcases Add_spec hinv (2 ^ 31 + 2) with ⟨e, _⟩ | ⟨_, _, _, e⟩ | ⟨_, e, _⟩
    · exact absurd e habs
    · exact e
    · exfalso
      apply e
      refine ⟨?_, hlen⟩
      unfold growthDue
      rw [hinv.core.count, hcnt, hlen]
      decide

end LockFreeHashTable

/-! ## Properties that meet the 32-bit growth arithmetic -/

namespace LockFreeHashTable

/-- The state with `2 ^ 30` buckets: the next inserting `Add` doubles the
bucket vector although the incremented counter does not exceed four times the
bucket count. -/
theorem trigger_state :
    ∃ s s1, fresh.run (addsUpTo (2 ^ 31 + 1)) = some (s, List.replicate (2 ^ 31 + 1) true) ∧
      s.hashtable.length = 2 ^ 30 ∧ s.table_size = 2 ^ 31 + 1 ∧
      s.Contains (2 ^ 31 + 1) = some false ∧ s.Add (2 ^ 31 + 1) = some (s1, true) ∧
      s.table_size + 1 ≤ MAX_AVERAGE_BUCKET_SIZE * s.hashtable.length ∧
      s1.hashtable.length = 2 * s.hashtable.length := by
  obtain ⟨s, L, hrun, hinv, hmem, hcnt, hsz⟩ := run_addsUpTo (2 ^ 31 + 1) (by omega)
  have hlen : s.hashtable.length = 2 ^ 30 := by
    unfold sizeAfter at hsz
    omega
  have hts : s.table_size = 2 ^ 31 + 1 := by
    rw [hinv.core.count, hcnt]
    decide
  have habs : normalItem (2 ^ 31 + 1) ∉ L.map Prod.snd :=
    fun hc => absurd ((hmem _).mp hc) (by omega)
  have hg : growthDue s := by
    unfold growthDue
    rw [hts, hlen]
    decide
  rcases Add_spec hinv (2 ^ 31 + 1) with ⟨e, _⟩ | ⟨_, _, e, _⟩ | ⟨_, _, s1, L1, a, _, _, _, _, len, _⟩
  · exact absurd e habs
  · rw [hlen] at e
    exact absurd e (by decide)
  · refine ⟨s, s1, hrun, hlen, hts, ?_, a, ?_, ?_⟩
    · rw [Contains_spec hinv.core, decide_eq_false habs]
    · rw [hts, hlen]
      decide
    · rw [len, if_pos hg]

/-- C1: every sequence of at most `2 ^ 31` calls of `Add`, `Remove` and
`Contains` issued by one thread to a freshly constructed `LockFreeHashTable`
returns, call by call, the booleans that `LockBasedHashTable`, the set of
values that starts empty, returns; the run `Add(0), ..., Add(2 ^ 31 + 2)` of
32-bit values has no defined result. -/
theorem C1_refines_set :
    (∀ ops : List Op, ops.length ≤ 2 ^ 31 →
      ∃ s0 s1, LockFreeHashTable.new = some s0 ∧
        s0.run ops = some (s1, (LockBasedHashTable.new.run ops).2)) ∧
    (∃ s0, LockFreeHashTable.new = some s0 ∧ (∀ op ∈ addsUpTo (2 ^ 31 + 3), op.value < 2 ^ 32) ∧
      s0.run (addsUpTo (2 ^ 31 + 3)) = none) := by
  constructor
  · intro ops hlen
    obtain ⟨s1, h⟩ := refines_set_below_cap ops hlen
    exact ⟨fresh, s1, new_eq, h⟩
  · refine ⟨fresh, new_eq, ?_, ?_⟩
    · intro op hop
      unfold addsUpTo at hop
      obtain ⟨v, hv, rfl⟩ := List.mem_map.mp hop
      have := List.mem_range.mp hv
      show v < 2 ^ 32
      omega
    · obtain ⟨s, hrun, _, _, _, hadd⟩ := overflow_state
      have : addsUpTo (2 ^ 31 + 3) = addsUpTo (2 ^ 31 + 2) ++ [Op.Add (2 ^ 31 + 2)] := by
        unfold addsUpTo
        rw [show 2 ^ 31 + 3 = (2 ^ 31 + 2) + 1 by rfl, List.range_succ, List.map_append]
        rfl
      rw [this, run_append, hrun]
      simp only [Option.some_bind, run, call, hadd, Option.none_bind]

/-- Witness of C1: scenario S1 of the specification. -/
theorem C1_refines_set_witness :
    [Op.Add 7, Op.Add 42, Op.Add 7, Op.Contains 42, Op.Remove 7, Op.Remove 7,
        Op.Contains 7].length ≤ 2 ^ 31 ∧
      ∃ s0 s1, LockFreeHashTable.new = some s0 ∧
        s0.run [Op.Add 7, Op.Add 42, Op.Add 7, Op.Contains 42, Op.Remove 7, Op.Remove 7,
            Op.Contains 7]
          = some (s1, (LockBasedHashTable.new.run [Op.Add 7, Op.Add 42, Op.Add 7,
              Op.Contains 42, Op.Remove 7, Op.Remove 7, Op.Contains 7]).2) :=
  ⟨by decide, C1_refines_set.1 _ (by decide)⟩

/-- C2: in every reachable state with fewer than `2 ^ 31` buckets and for every
value `v`, `Add(v)` returns, and it returns `true` exactly when `Contains(v)`
returned `false` immediately before the call; in the state that
`Add(0), ..., Add(2 ^ 31 + 1)` reach from a fresh table, with `2 ^ 31` buckets,
`Contains(2 ^ 31 + 2)` returns `false` and `Add(2 ^ 31 + 2)` has no defined
result. -/
theorem C2_add_iff_absent :
    (∀ (s : LockFreeHashTable) (v : Nat), Reachable s → s.hashtable.length < 2 ^ 31 →
      ∃ s1 b, s.Add v = some (s1, b) ∧ s.Contains v = some (!b)) ∧
    (∃ s, fresh.run (addsUpTo (2 ^ 31 + 2)) = some (s, List.replicate (2 ^ 31 + 2) true) ∧
      Reachable s ∧ s.hashtable.length = 2 ^ 31 ∧
      s.Contains (2 ^ 31 + 2) = some false ∧ s.Add (2 ^ 31 + 2) = none) :=
  ⟨Add_iff_absent_below_cap, overflow_state⟩

/-- Witness of C2 in the fresh table. -/
theorem C2_add_iff_absent_witness :
    Reachable fresh ∧ fresh.hashtable.length < 2 ^ 31 ∧
      ∃ s1 b, fresh.Add 7 = some (s1, b) ∧ fresh.Contains 7 = some (!b) :=
  ⟨Reachable.init new_eq, by decide,
    C2_add_iff_absent.1 fresh 7 (Reachable.init new_eq) (by decide)⟩

/-- C4: for every value `v` that `Contains` does not report in a reachable
state with fewer than `2 ^ 31` buckets, the eight calls
`Contains, Add, Contains, Add, Contains, Remove, Contains, Remove` on `v`
return `false, true, true, false, true, true, false, false`; in the state
that `Add(0), ..., Add(2 ^ 31 + 1)` reach from a fresh table the same eight
calls on the absent value `2 ^ 31 + 2` have no defined result. -/
theorem C4_eight_calls :
    (∀ (s : LockFreeHashTable) (v : Nat), Reachable s → s.hashtable.length < 2 ^ 31 →
      s.Contains v = some false →
      ∃ s1, s.run [Op.Contains v, Op.Add v, Op.Contains v, Op.Add v, Op.Contains v,
          Op.Remove v, Op.Contains v, Op.Remove v]
        = some (s1, [false, true, true, false, true, true, false, false])) ∧
    (∃ s, fresh.run (addsUpTo (2 ^ 31 + 2)) = some (s, List.replicate (2 ^ 31 + 2) true) ∧
      Reachable s ∧ s.Contains (2 ^ 31 + 2) = some false ∧
      s.run [Op.Contains (2 ^ 31 + 2), Op.Add (2 ^ 31 + 2), Op.Contains (2 ^ 31 + 2),
          Op.Add (2 ^ 31 + 2), Op.Contains (2 ^ 31 + 2), Op.Remove (2 ^ 31 + 2),
          Op.Contains (2 ^ 31 + 2), Op.Remove (2 ^ 31 + 2)] = none) := by
  refine ⟨eight_calls_below_cap, ?_⟩
  obtain ⟨s, hrun, hr, _, hc, hadd⟩ := overflow_state
  refine ⟨s, hrun, hr, hc, ?_⟩
  simp only [run, call, hc, hadd, Option.some_bind, Option.none_bind]

/-- Witness of C4 in the fresh table. -/
theorem C4_eight_calls_witness :
    Reachable fresh ∧ fresh.hashtable.length < 2 ^ 31 ∧ fresh.Contains 7 = some false ∧
      ∃ s1, fresh.run [Op.Contains 7, Op.Add 7, Op.Contains 7, Op.Add 7, Op.Contains 7,
          Op.Remove 7, Op.Contains 7, Op.Remove 7]
        = some (s1, [false, true, true, false, true, true, false, false]) :=
  ⟨Reachable.init new_eq, by decide, by decide!,
    C4_eight_calls.1 fresh 7 (Reachable.init new_eq) (by decide) (by decide!)⟩

/-- C9: in every reachable state with `N < 2 ^ 30` buckets an `Add` of a value
that `Contains` does not report returns `true`, increments the element
counter, and leaves `2 * N` buckets when the incremented counter exceeds
`4 * N` and `N` buckets otherwise; the nine calls `Add(1)` to `Add(9)` on a
fresh table all return `true` and leave at least 4 buckets and `Contains` true
for all nine values; in the state that `Add(0), ..., Add(2 ^ 31)` reach from a
fresh table, with `N = 2 ^ 30` buckets, `Add(2 ^ 31 + 1)` inserts and doubles
the bucket vector although the incremented counter does not exceed `4 * N`. -/
theorem C9_growth_trigger :
    (∀ (s : LockFreeHashTable) (v : Nat), Reachable s → s.hashtable.length < 2 ^ 30 →
      s.Contains v = some false →
      ∃ s1, s.Add v = some (s1, true) ∧ s1.table_size = s.table_size + 1 ∧
        s1.hashtable.length =
          if s.table_size + 1 > MAX_AVERAGE_BUCKET_SIZE * s.hashtable.length
          then 2 * s.hashtable.length else s.hashtable.length) ∧
    (∃ s0 s9, LockFreeHashTable.new = some s0 ∧ s0.hashtable.length = 2 ∧
      s0.run [Op.Add 1, Op.Add 2, Op.Add 3, Op.Add 4, Op.Add 5, Op.Add 6, Op.Add 7, Op.Add 8,
          Op.Add 9]
        = some (s9, [true, true, true, true, true, true, true, true, true]) ∧
      4 ≤ s9.hashtable.length ∧
      ∀ v ∈ [1, 2, 3, 4, 5, 6, 7, 8, 9], s9.Contains v = some true) ∧
    (∃ s s1, fresh.run (addsUpTo (2 ^ 31 + 1)) = some (s, List.replicate (2 ^ 31 + 1) true) ∧
      s.hashtable.length = 2 ^ 30 ∧ s.table_size = 2 ^ 31 + 1 ∧
      s.Contains (2 ^ 31 + 1) = some false ∧ s.Add (2 ^ 31 + 1) = some (s1, true) ∧
      s.table_size + 1 ≤ MAX_AVERAGE_BUCKET_SIZE * s.hashtable.length ∧
      s1.hashtable.length = 2 * s.hashtable.length) := by
  refine ⟨growth_trigger_below_cap, ?_, trigger_state⟩
  exact ⟨fresh, (fresh.run [Op.Add 1, Op.Add 2, Op.Add 3, Op.Add 4, Op.Add 5, Op.Add 6,
    Op.Add 7, Op.Add 8, Op.Add 9]).get (by decide!) |>.1, new_eq, rfl, by decide!, by decide!,
    by decide!⟩

/-- Witness of C9: the insertion that makes the table `loaded` grow. -/
theorem C9_growth_trigger_witness :
    Reachable loaded ∧ loaded.hashtable.length < 2 ^ 30 ∧ loaded.Contains 9 = some false ∧
      loaded.table_size = 8 ∧ loaded.hashtable.length = 2 ∧
      ∃ s1, loaded.Add 9 = some (s1, true) ∧ s1.table_size = loaded.table_size + 1 ∧
        s1.hashtable.length =
          if loaded.table_size + 1 > MAX_AVERAGE_BUCKET_SIZE * loaded.hashtable.length
          then 2 * loaded.hashtable.length else loaded.hashtable.length :=
  ⟨Reachable_loaded, by decide!, by decide!, by decide!, by decide!,
    C9_growth_trigger.1 loaded 9 Reachable_loaded (by decide!) (by decide!)⟩

end LockFreeHashTable
/-! ## Order of the list and sentinel coverage -/

/-- The cells met from `p` to the null pointer are determined by the heap. -/
theorem Seg.unique {m : Heap} {xs : List (Nat × KeyValue)} :
    ∀ {p : Ptr} {ys : List (Nat × KeyValue)}, Seg m p xs none → Seg m p ys none → xs = ys := by
  induction xs with
  | nil =>
    intro p ys h1 h2
    cases ys with
    | nil => rfl
    | cons y ys =>
      have e1 : p = none := h1
      obtain ⟨e2, _⟩ := h2
      rw [e1] at e2
      cases e2
  | cons x xs ih =>
    intro p ys h1 h2
    obtain ⟨e1, n, hn, hi, _, hr⟩ := h1
    cases ys with
    | nil =>
      have e2 : p = none := h2
      rw [e2] at e1
      cases e1
    | cons y ys =>
      obtain ⟨e2, n2, hn2, hi2, _, hr2⟩ := h2
      rw [e1] at e2
      have e3 : x.1 = y.1 := Option.some.inj e2
      rw [← e3, hn] at hn2
      cases hn2
      have e4 : x = y := Prod.ext e3 (hi.symm.trans hi2)
      rw [e4, ih hr hr2]

namespace LockFreeHashTable

/-- Two values whose hashes agree in the 24 bits `MASK` keeps have the same
sort key. -/
theorem MakeNormalKey_congr {v w : Nat}
    (h : HashFunction v &&& MASK = HashFunction w &&& MASK) :
    MakeNormalKey v = MakeNormalKey w := by
  unfold MakeNormalKey
  simp only [h]

/-- In a reachable state the cells from the head to the null pointer form one
list that ends with the tail and ascends strictly in `KeyValue::operator<`. -/
theorem Reachable.ascending {s : LockFreeHashTable} (h : Reachable s) :
    ∃ L, Seg s.list.mem s.list.head L none ∧ (∃ t, L.getLast? = some (t, tailItem)) ∧
      L.Pairwise (fun x y => x.2.lt y.2 = true) ∧
      ∀ L1, Seg s.list.mem s.list.head L1 none → L1 = L := by
  obtain ⟨L, hL⟩ := h.inv
  exact ⟨L, hL.core.list.seg, hL.core.list.last, hL.core.list.sorted,
    fun L1 h1 => Seg.unique h1 hL.core.list.seg⟩

/-- The table after `Add(5948)` and `Add(9883)` on a fresh table holds both
values. -/
theorem shared_key_state :
    ∃ s, fresh.run [Op.Add 5948, Op.Add 9883] = some (s, [true, true]) ∧
      s.Contains 5948 = some true ∧ s.Contains 9883 = some true :=
  ⟨(fresh.run [Op.Add 5948, Op.Add 9883]).get (by decide!) |>.1, by decide!, by decide!,
    by decide!⟩

/-- C18: in every state reachable by calls of one thread on a fresh table, the
cells from the head to the null pointer form one list that ends with the tail
node and is strictly ascending in `KeyValue::operator<`, which is the
lexicographic order on (sort key, value); no two cells carry the same item. -/
theorem C18_list_ascending (s : LockFreeHashTable) (h : Reachable s) :
    ∃ L, Seg s.list.mem s.list.head L none ∧ (∃ t, L.getLast? = some (t, tailItem)) ∧
      (∀ L1, Seg s.list.mem s.list.head L1 none → L1 = L) ∧
      L.Pairwise (fun x y => x.2.lt y.2 = true) ∧
      L.Pairwise (fun x y =>
        x.2.key < y.2.key ∨ (x.2.key = y.2.key ∧ x.2.value < y.2.value)) ∧
      (L.map Prod.snd).Nodup := by
  obtain ⟨L, hseg, hlast, hs, huniq⟩ := h.ascending
  refine ⟨L, hseg, hlast, huniq, hs, hs.imp (fun {x y} hxy => (KeyValue.lt_iff _ _).mp hxy), ?_⟩
  rw [List.Nodup, List.pairwise_map]
  exact hs.imp (fun {x y} hxy => KeyValue.ne_of_lt hxy)

/-- Witness of C18 in the fresh table. -/
theorem C18_list_ascending_witness :
    Reachable fresh ∧
    ∃ L, Seg fresh.list.mem fresh.list.head L none ∧ (∃ t, L.getLast? = some (t, tailItem)) ∧
      (∀ L1, Seg fresh.list.mem fresh.list.head L1 none → L1 = L) ∧
      L.Pairwise (fun x y => x.2.lt y.2 = true) ∧
      L.Pairwise (fun x y =>
        x.2.key < y.2.key ∨ (x.2.key = y.2.key ∧ x.2.value < y.2.value)) ∧
      (L.map Prod.snd).Nodup :=
  ⟨Reachable.init new_eq, C18_list_ascending fresh (Reachable.init new_eq)⟩

/-- Counterexample to C19: `Add(5948)` and `Add(9883)` on a fresh table both
return `true`, and the list of the state they leave holds two different cells
with the same sort key, because the two values are different and
`MakeNormalKey` gives them the same key. -/
theorem C19_shared_sort_key :
    ∃ s L x y, fresh.run [Op.Add 5948, Op.Add 9883] = some (s, [true, true]) ∧ Reachable s ∧
      Seg s.list.mem s.list.head L none ∧ x ∈ L ∧ y ∈ L ∧ x ≠ y ∧ x.2.key = y.2.key ∧
      x.2.value = 5948 ∧ y.2.value = 9883 ∧ MakeNormalKey 5948 = MakeNormalKey 9883 := by
  obtain ⟨s, hrun, h1, h2⟩ := shared_key_state
  have hr : Reachable s := Reachable.run (Reachable.init new_eq) (by decide) hrun
  obtain ⟨L, hL⟩ := hr.inv
  rw [Contains_spec hL.core] at h1 h2
  have m1 := of_decide_eq_true (Option.some.inj h1)
  have m2 := of_decide_eq_true (Option.some.inj h2)
  obtain ⟨x, hx, ex⟩ := List.mem_map.mp m1
  obtain ⟨y, hy, ey⟩ := List.mem_map.mp m2
  have hk : MakeNormalKey 5948 = MakeNormalKey 9883 := MakeNormalKey_congr (by decide)
  refine ⟨s, L, x, y, hrun, hr, hL.core.list.seg, hx, hy, ?_, ?_, ?_, ?_, hk⟩
  · intro e
    rw [e, ey] at ex
    exact absurd (congrArg KeyValue.value ex) (by decide)
  · rw [ex, ey]
    exact hk
  · rw [ex]
    rfl
  · rw [ey]
    rfl

/-- C19, amended: in every state reachable by calls of one thread on a fresh
table, the sort keys of the cells from the head to the null pointer ascend,
not always strictly, and cells with the same sort key ascend strictly in their
values; two values whose hashes agree in the 24 bits kept by `MASK` have the
same sort key. -/
theorem C19_sort_keys_ascending (s : LockFreeHashTable) (h : Reachable s) :
    (∃ L, Seg s.list.mem s.list.head L none ∧ (∃ t, L.getLast? = some (t, tailItem)) ∧
      (∀ L1, Seg s.list.mem s.list.head L1 none → L1 = L) ∧
      L.Pairwise (fun x y => x.2.key ≤ y.2.key ∧ (x.2.key = y.2.key → x.2.value < y.2.value))) ∧
    ∀ v w, HashFunction v % 2 ^ 24 = HashFunction w % 2 ^ 24 →
      MakeNormalKey v = MakeNormalKey w := by
  obtain ⟨L, hseg, hlast, hs, huniq⟩ := h.ascending
  refine ⟨⟨L, hseg, hlast, huniq, hs.imp (fun {x y} hxy => ?_)⟩, fun v w hvw => ?_⟩
  · rcases (KeyValue.lt_iff _ _).mp hxy with h1 | ⟨h1, h2⟩
    · exact ⟨le_of_lt h1, fun e => absurd e (ne_of_lt h1)⟩
    · exact ⟨le_of_eq h1, fun _ => h2⟩
  · apply MakeNormalKey_congr
    have e : MASK = 2 ^ 24 - 1 := by decide
    rw [e, Nat.and_pow_two_sub_one_eq_mod, Nat.and_pow_two_sub_one_eq_mod, hvw]

/-- Witness of C19, amended, in the fresh table. -/
theorem C19_sort_keys_ascending_witness :
    Reachable fresh ∧
    ((∃ L, Seg fresh.list.mem fresh.list.head L none ∧
      (∃ t, L.getLast? = some (t, tailItem)) ∧
      (∀ L1, Seg fresh.list.mem fresh.list.head L1 none → L1 = L) ∧
      L.Pairwise (fun x y => x.2.key ≤ y.2.key ∧ (x.2.key = y.2.key → x.2.value < y.2.value))) ∧
    ∀ v w, HashFunction v % 2 ^ 24 = HashFunction w % 2 ^ 24 →
      MakeNormalKey v = MakeNormalKey w) :=
  ⟨Reachable.init new_eq, C19_sort_keys_ascending fresh (Reachable.init new_eq)⟩

/-- C20: in every state reachable by calls of one thread on a fresh table and
for every bucket index `b` below the bucket count, entry `b` of the bucket
vector is a non-null pointer to a cell of the list that starts at the head;
the next word of that cell is unmarked, its sort key is `MakeSentinelKey(b)`
and its value is `b`. Every entry of the vector that an `Add` with a 32-bit
argument leaves, grown or not, is a non-null pointer. -/
theorem C20_sentinel_coverage (s : LockFreeHashTable) (h : Reachable s) :
    (∀ b, b < s.hashtable.length →
      ∃ L a n, Seg s.list.mem s.list.head L none ∧ s.hashtable[b]? = some (some a) ∧
        (a, n.item) ∈ L ∧ s.list.mem.read (some a) = some n ∧
        n.item.key = MakeSentinelKey b ∧ n.item.value = b ∧ GetFlag n.next = false) ∧
    ∀ v s1 r, v < 2 ^ 32 → s.Add v = some (s1, r) →
      ∀ i, i < s1.hashtable.length → ∃ a, s1.hashtable[i]? = some (some a) := by
  have key : ∀ s : LockFreeHashTable, Reachable s → ∀ b, b < s.hashtable.length →
      ∃ L a n, Seg s.list.mem s.list.head L none ∧ s.hashtable[b]? = some (some a) ∧
        (a, n.item) ∈ L ∧ s.list.mem.read (some a) = some n ∧
        n.item.key = MakeSentinelKey b ∧ n.item.value = b ∧ GetFlag n.next = false := by
    intro s h b hb
    obtain ⟨L, hL⟩ := h.inv
    obtain ⟨a, ha, hmem⟩ := hL.core.bucket b hb
    obtain ⟨n, hn, hi, hf⟩ := hL.core.list.seg.node hmem
    have hi : n.item = sentinelItem b := hi
    refine ⟨L, a, n, hL.core.list.seg, ha, ?_, hn, ?_, ?_, hf⟩
    · rw [hi]
      exact hmem
    · rw [hi]
      rfl
    · rw [hi]
      rfl
  refine ⟨key s h, fun v s1 r hv hadd i hi => ?_⟩
  have h1 : Reachable s1 := @Reachable.call s s1 (Op.Add v) r h hv hadd
  obtain ⟨_, a, _, _, ha, _⟩ := key s1 h1 i hi
  exact ⟨a, ha⟩

/-- Witness of C20 in the fresh table. -/
theorem C20_sentinel_coverage_witness :
    Reachable fresh ∧
    ((∀ b, b < fresh.hashtable.length →
      ∃ L a n, Seg fresh.list.mem fresh.list.head L none ∧
        fresh.hashtable[b]? = some (some a) ∧
        (a, n.item) ∈ L ∧ fresh.list.mem.read (some a) = some n ∧
        n.item.key = MakeSentinelKey b ∧ n.item.value = b ∧ GetFlag n.next = false) ∧
    ∀ v s1 r, v < 2 ^ 32 → fresh.Add v = some (s1, r) →
      ∀ i, i < s1.hashtable.length → ∃ a, s1.hashtable[i]? = some (some a)) :=
  ⟨Reachable.init new_eq, C20_sentinel_coverage fresh (Reachable.init new_eq)⟩

end LockFreeHashTable
/-! ## `Add` on a list with a logically deleted node -/

namespace KeyValue

theorem ge_self (a : KeyValue) : a.ge a = true := by
  rw [ge_iff]; omega

theorem eq_self (a : KeyValue) : a.eq a = true := by
  rw [eq_iff]

end KeyValue

namespace LockFreeList

/-- The inner loop of `Find`, entered at a node from which unmarked nodes
below `item` lead to a logically deleted node not below `item`: the loop
unlinks that node from its predecessor and returns it as `curr`. -/
theorem Find.walk_marked {m : Heap} {item : KeyValue} {a : Nat} {na : NodeType} {t : Ptr}
    (ha : m[a]? = some na) (hmark : na.next = ⟨t, true⟩) (hge : na.item.ge item = true) :
    ∀ (A : List (Nat × KeyValue)) (p : Nat) (np : NodeType) (fuel : Nat),
      m[p]? = some np → np.next.flag = false → Seg m np.next.ptr A (some a) →
      (∀ x ∈ A, x.2.lt item = true) → p ≠ a → (∀ x ∈ A, x.1 ≠ a) → A.length < fuel →
      ∃ pl npl, ((p, np.item) :: A).getLast? = some (pl, npl.item) ∧ m[pl]? = some npl ∧
        Find.walk fuel m item (some p) np.next.ptr
          = some (m.set pl { npl with next := plain t }, ⟨some pl, some a⟩) := by
  have hnn : (⟨t, true⟩ : MarkedPtr) ≠ nullWord := by
    intro e
    cases e
  intro A
  induction A with
  | nil =>
    intro p np fuel hp hf hs _ hpa _ hfuel
    obtain ⟨fuel, rfl⟩ : ∃ f, fuel = f + 1 := ⟨fuel - 1, by simp at hfuel; omega⟩
    have hptr : np.next.ptr = some a := hs
    have hnext : np.next = plain (some a) := MarkedPtr.eq_plain hf hptr
    have hskip : Find.skipMarked (m.length + 1) m (some p) (some a) t
        = some (m.set p { np with next := plain t }, some a, t) := by
      simp [Find.skipMarked, Heap.read_some, ha, hmark, GetFlag, Heap.casNext, hp, hnext]
    have ha2 : (m.set p { np with next := plain t })[a]? = some na := by
      rw [List.getElem?_set_ne hpa, ha]
    refine ⟨p, np, rfl, hp, ?_⟩
    rw [Find.walk, hptr, Heap.read_some, ha, Option.some_bind, hmark, if_neg hnn]
    simp only [GetPointer, hskip, Option.some_bind, Heap.read_some, ha2, hge, if_true]
  | cons x A ih =>
    intro p np fuel hp hf hs hlt hpa hna hfuel
    obtain ⟨c, ic⟩ := x
    obtain ⟨hq, nc, hc, hi, hfc, hr⟩ := hs
    simp only at hq hc hi
    obtain ⟨fuel, rfl⟩ : ∃ f, fuel = f + 1 := ⟨fuel - 1, by simp at hfuel; omega⟩
    have hcn : nc.next ≠ nullWord := by
      intro e
      rw [e] at hr
      cases A with
      | nil => exact absurd (show (none : Ptr) = some a from hr) (by simp)
      | cons y A => exact absurd hr.1 (by simp [nullWord])
    have hskip : Find.skipMarked (m.length + 1) m (some p) (some c) (GetPointer nc.next)
        = some (m, some c, GetPointer nc.next) := by
      simp [Find.skipMarked, Heap.read_some, hc, GetFlag, hfc]
    have hlt1 : nc.item.lt item = true := by
      rw [hi]
      exact hlt (c, ic) (List.mem_cons_self _ _)
    have hnge : ¬ nc.item.ge item = true := by
      rw [KeyValue.ge_iff_not_lt]
      exact fun hc1 => hc1 hlt1
    obtain ⟨pl, npl, hlast, hpl, hw⟩ := ih c nc fuel hc hfc hr
      (fun y hy => hlt y (List.mem_cons_of_mem _ hy)) (hna (c, ic) (List.mem_cons_self _ _))
      (fun y hy => hna y (List.mem_cons_of_mem _ hy)) (by simp at hfuel ⊢; omega)
    refine ⟨pl, npl, ?_, hpl, ?_⟩
    · rw [List.getLast?_cons_cons, ← hi]
      exact hlast
    · rw [Find.walk, hq, Heap.read_some, hc, Option.some_bind, if_neg hcn]
      simp only [hskip, Option.some_bind, Heap.read_some, hc, hnge, if_false]
      exact hw

/-- `Add(start, item)` on a list in which unmarked nodes below `item` lead from
`start` to a logically deleted node that carries `item`: the call unlinks that
node from its predecessor, links nothing and returns `false`. -/
theorem Add_marked {l : LockFreeList} {s a : Nat} {is : KeyValue}
    {A : List (Nat × KeyValue)} {na : NodeType} {t : Ptr}
    (hseg : Seg l.mem (some s) ((s, is) :: A) (some a))
    (hsort : ((s, is) :: A).Pairwise (fun x y => x.2.lt y.2 = true))
    (ha : l.mem[a]? = some na) (hmark : na.next = ⟨t, true⟩)
    (hlt : ∀ x ∈ (s, is) :: A, x.2.lt na.item = true) :
    ∃ pl npl, ((s, is) :: A).getLast? = some (pl, npl.item) ∧ l.mem[pl]? = some npl ∧
      l.Add (some s) na.item
        = some ({ l with mem := l.mem.set pl { npl with next := plain t } }, false) := by
  have hne : ∀ x ∈ (s, is) :: A, x.1 ≠ a := by
    intro x hx e
    obtain ⟨n, hn, hi, _⟩ := hseg.node hx
    rw [e, ha] at hn
    cases hn
    exact KeyValue.lt_irrefl _ (hi ▸ hlt x hx)
  have hlen : A.length < (l.mem ++ [(⟨na.item, false, nullWord⟩ : NodeType)]).length + 1 := by
    have := hseg.length_le hsort
    simp only [List.length_cons, List.length_append, List.length_singleton] at this ⊢
    omega
  have hlta : a < l.mem.length := (List.getElem?_eq_some_iff.mp ha).1
  have ha1 : (l.mem ++ [(⟨na.item, false, nullWord⟩ : NodeType)])[a]? = some na := by
    rw [List.getElem?_append_left hlta, ha]
  obtain ⟨_, ns, hns, hi, hf, hr⟩ := hseg.alloc ⟨na.item, false, nullWord⟩
  simp only at hns hi
  obtain ⟨pl, npl, hlast, hpl, hw⟩ := Find.walk_marked ha1 hmark (KeyValue.ge_self na.item) A s ns
    ((l.mem ++ [(⟨na.item, false, nullWord⟩ : NodeType)]).length + 1) hns hf hr
    (fun x hx => hlt x (List.mem_cons_of_mem _ hx)) (hne _ (List.mem_cons_self _ _))
    (fun x hx => hne x (List.mem_cons_of_mem _ hx)) hlen
  rw [hi] at hlast
  have hmem : (pl, npl.item) ∈ (s, is) :: A := List.mem_of_mem_getLast? hlast
  have hltp : pl < l.mem.length := hseg.addr_lt hmem
  have hpl0 : l.mem[pl]? = some npl := by
    rw [← hpl, List.getElem?_append_left hltp]
  have hf : Find (l.mem ++ [(⟨na.item, false, nullWord⟩ : NodeType)]) (some s) na.item
      = some ((l.mem ++ [(⟨na.item, false, nullWord⟩ : NodeType)]).set pl
          { npl with next := plain t }, ⟨some pl, some a⟩) := by
    unfold Find
    rw [Heap.read_some, hns, Option.some_bind]
    exact hw
  have ha2 : ((l.mem ++ [(⟨na.item, false, nullWord⟩ : NodeType)]).set pl
      { npl with next := plain t })[a]? = some na := by
    rw [List.getElem?_set_ne (hne _ hmem), ha1]
  have hdrop : ((l.mem ++ [(⟨na.item, false, nullWord⟩ : NodeType)]).set pl
      { npl with next := plain t }).dropLast = l.mem.set pl { npl with next := plain t } := by
    rw [List.set_append_left _ _ hltp, List.dropLast_concat]
  refine ⟨pl, npl, hlast, hpl0, ?_⟩
  simp only [LockFreeList.Add, Heap.alloc, Add.loop, hf, Option.some_bind, Heap.read_some, ha2,
    KeyValue.eq_self, if_true, hdrop]

/-- The state `withMarked item` arises from a new list by `Add(head, item)`
and the marking compare-and-swap of `Remove(head, item)`. -/
theorem withMarked_arises (item : KeyValue) (h : item.lt tailItem = true) :
    ∃ l1, LockFreeList.new.Add (some 2) item = some (l1, true) ∧ l1.head = some 2 ∧
      l1.mem.casNext (some 3) (ResetFlag (plain (some 1))) (SetFlag (plain (some 1)))
        = some ((withMarked item).mem, true) := by
  have hne : KeyValue.eq ⟨UINT32_MAX, UINT32_MAX⟩ item = false := by
    rw [Bool.eq_false_iff]
    intro e
    rw [KeyValue.eq_iff] at e
    rw [← e] at h
    exact absurd h (by decide)
  have hfind : Find [⟨⟨0, 0⟩, false, nullWord⟩, ⟨⟨UINT32_MAX, UINT32_MAX⟩, false, nullWord⟩,
      ⟨⟨0, 0⟩, false, plain (some 1)⟩, ⟨item, false, nullWord⟩] (some 2) item
      = some ([⟨⟨0, 0⟩, false, nullWord⟩, ⟨⟨UINT32_MAX, UINT32_MAX⟩, false, nullWord⟩,
        ⟨⟨0, 0⟩, false, plain (some 1)⟩, ⟨item, false, nullWord⟩], ⟨some 2, some 1⟩) := rfl
  refine ⟨⟨[⟨⟨0, 0⟩, false, nullWord⟩, ⟨⟨UINT32_MAX, UINT32_MAX⟩, false, nullWord⟩,
      ⟨⟨0, 0⟩, false, plain (some 3)⟩, ⟨item, false, plain (some 1)⟩], some 2⟩, ?_, rfl, rfl⟩
  show (Add.loop 5 [⟨⟨0, 0⟩, false, nullWord⟩, ⟨⟨UINT32_MAX, UINT32_MAX⟩, false, nullWord⟩,
      ⟨⟨0, 0⟩, false, plain (some 1)⟩, ⟨item, false, nullWord⟩] (some 2) item 3).bind _ = _
  rw [Add.loop, hfind]
  simp only [Option.some_bind, Heap.read_some, List.getElem?_cons_succ, List.getElem?_cons_zero,
    hne]
  rfl

end LockFreeList
namespace LockFreeList

/-- The state `withMarked item` is well formed; the only cell that carries
`item` is logically deleted. -/
theorem withMarked_inv (item : KeyValue) (h0 : KeyValue.lt ⟨0, 0⟩ item = true)
    (h1 : item.lt tailItem = true) :
    MListInv (withMarked item) [(2, ⟨0, 0⟩, false), (3, item, true), (1, tailItem, false)] ∧
      ∀ c ∈ [((2 : Nat), (⟨0, 0⟩ : KeyValue), false), (3, item, true), (1, tailItem, false)],
        c.2.1 = item → c.2.2 = true := by
  refine ⟨⟨?_, ?_, ⟨_, rfl, rfl⟩, ⟨1, rfl⟩⟩, ?_⟩
  · exact ⟨rfl, _, rfl, rfl, rfl, rfl, _, rfl, rfl, rfl, rfl, _, rfl, rfl, rfl, rfl⟩
  · simp only [List.pairwise_cons, List.mem_cons, List.mem_singleton, List.not_mem_nil,
      forall_eq_or_imp, forall_eq, List.Pairwise.nil, and_true, false_implies, implies_true]
    exact ⟨⟨h0, KeyValue.lt_trans h0 h1⟩, h1⟩
  · intro c hc e
    simp only [List.mem_cons, List.mem_singleton, List.not_mem_nil, or_false] at hc
    rcases hc with rfl | rfl | rfl
    · exact absurd (e ▸ h0) (KeyValue.lt_irrefl _)
    · rfl
    · exact absurd (e ▸ h1) (KeyValue.lt_irrefl _)

/-- The state `withUnlinked item` is well formed and holds the head and the
tail only. -/
theorem withUnlinked_inv (item : KeyValue) :
    MListInv (withUnlinked item) [(2, ⟨0, 0⟩, false), (1, tailItem, false)] := by
  refine ⟨?_, ?_, ⟨_, rfl, rfl⟩, ⟨1, rfl⟩⟩
  · exact ⟨rfl, _, rfl, rfl, rfl, rfl, _, rfl, rfl, rfl, rfl⟩
  · simp only [List.pairwise_cons, List.mem_cons, List.mem_singleton, List.not_mem_nil,
      forall_eq_or_imp, forall_eq, List.Pairwise.nil, and_true, false_implies, implies_true]
    decide

/-- `Contains(head, item)` returns `false` in the state `withMarked item`. -/
theorem Contains_withMarked (item : KeyValue) (h0 : KeyValue.lt ⟨0, 0⟩ item = true) :
    (withMarked item).Contains (some 2) item = some false := by
  have hloop : Contains.loop 5 (withMarked item).mem item (some 2) = some (some 3) := by
    rw [Contains.loop]
    simp only [withMarked, Heap.read_some, List.getElem?_cons_succ, List.getElem?_cons_zero,
      Option.some_bind, h0, if_true, GetPointer, plain]
    rw [Contains.loop]
    simp only [Heap.read_some, List.getElem?_cons_succ, List.getElem?_cons_zero,
      Option.some_bind, KeyValue.lt_irrefl, if_false, Bool.false_eq_true]
  show (Contains.loop 5 (withMarked item).mem item (some 2)).bind _ = _
  rw [hloop]
  simp only [Option.some_bind, withMarked, Heap.read_some, List.getElem?_cons_succ,
    List.getElem?_cons_zero, KeyValue.eq_self, GetFlag, SetFlag, Bool.not_true, Bool.and_false]

/-- `Contains(head, item)` returns `false` in the state `withUnlinked item`. -/
theorem Contains_withUnlinked (item : KeyValue) (h0 : KeyValue.lt ⟨0, 0⟩ item = true)
    (h1 : item.lt tailItem = true) :
    (withUnlinked item).Contains (some 2) item = some false := by
  have hlt : ¬ KeyValue.lt ⟨UINT32_MAX, UINT32_MAX⟩ item = true := KeyValue.lt_asymm h1
  have hne : KeyValue.eq ⟨UINT32_MAX, UINT32_MAX⟩ item = false := by
    rw [Bool.eq_false_iff]
    intro e
    rw [KeyValue.eq_iff] at e
    rw [← e] at h1
    exact absurd h1 (by decide)
  have hloop : Contains.loop 5 (withUnlinked item).mem item (some 2) = some (some 1) := by
    rw [Contains.loop]
    simp only [withUnlinked, Heap.read_some, List.getElem?_cons_succ, List.getElem?_cons_zero,
      Option.some_bind, h0, if_true, GetPointer, plain]
    rw [Contains.loop]
    simp only [Heap.read_some, List.getElem?_cons_succ, List.getElem?_cons_zero,
      Option.some_bind, hlt, if_false, Bool.false_eq_true]
  show (Contains.loop 5 (withUnlinked item).mem item (some 2)).bind _ = _
  rw [hloop]
  simp only [Option.some_bind, withUnlinked, Heap.read_some, List.getElem?_cons_succ,
    List.getElem?_cons_zero, hne, Bool.false_and]

/-- `Add(head, item)` in the state `withMarked item` unlinks the logically
deleted node, links nothing and returns `false`. -/
theorem Add_withMarked (item : KeyValue) (h0 : KeyValue.lt ⟨0, 0⟩ item = true) :
    (withMarked item).Add (some 2) item = some (withUnlinked item, false) := by
  obtain ⟨pl, npl, hlast, hpl, hadd⟩ :=
    @Add_marked (withMarked item) 2 3 ⟨0, 0⟩ [] ⟨item, false, SetFlag (plain (some 1))⟩ (some 1)
      ⟨rfl, _, rfl, rfl, rfl, rfl⟩ (List.pairwise_singleton _ _) rfl rfl
      (fun x hx => by rw [List.mem_singleton.mp hx]; exact h0)
  have e : pl = 2 := by
    have := Option.some.inj hlast
    exact (congrArg Prod.fst this).symm
  subst e
  have e2 : npl = ⟨⟨0, 0⟩, false, plain (some 3)⟩ := (Option.some.inj hpl).symm
  subst e2
  exact hadd

/-- C11: on a well-formed list without logically deleted nodes, `Add(start,
item)`, started at a node below `item`, returns, and it returns `false`
exactly when a node carries `item`. On a list in which unmarked nodes below
`item` lead from `start` to a logically deleted node that carries `item`,
`Add(start, item)` returns `false` and links no node. In particular, in the
well-formed state `withMarked item`, where `item` occurs only in a logically
deleted node and `Contains` returns `false`, `Add(head, item)` returns `false`
and leaves the state `withUnlinked item`, in which no node carries `item` and
`Contains` returns `false`. -/
theorem C11_add_marked_node :
    (∀ (l : LockFreeList) (L : List (Nat × KeyValue)) (s : Nat) (is item : KeyValue),
      ListInv l L → (s, is) ∈ L → is.lt item = true → item.lt tailItem = true →
      ∃ l1 b, l.Add (some s) item = some (l1, b) ∧ (b = false ↔ item ∈ L.map Prod.snd)) ∧
    (∀ (l : LockFreeList) (s a : Nat) (is : KeyValue) (A : List (Nat × KeyValue))
        (na : NodeType) (t : Ptr),
      Seg l.mem (some s) ((s, is) :: A) (some a) →
      ((s, is) :: A).Pairwise (fun x y => x.2.lt y.2 = true) →
      l.mem[a]? = some na → na.next = ⟨t, true⟩ →
      (∀ x ∈ (s, is) :: A, x.2.lt na.item = true) →
      ∃ l1, l.Add (some s) na.item = some (l1, false) ∧ l1.mem.length = l.mem.length) ∧
    (∀ item : KeyValue, KeyValue.lt ⟨0, 0⟩ item = true → item.lt tailItem = true →
      MListInv (withMarked item) [(2, ⟨0, 0⟩, false), (3, item, true), (1, tailItem, false)] ∧
      (∀ c ∈ [((2 : Nat), (⟨0, 0⟩ : KeyValue), false), (3, item, true), (1, tailItem, false)],
        c.2.1 = item → c.2.2 = true) ∧
      (withMarked item).Contains (some 2) item = some false ∧
      (withMarked item).Add (some 2) item = some (withUnlinked item, false) ∧
      MListInv (withUnlinked item) [(2, ⟨0, 0⟩, false), (1, tailItem, false)] ∧
      (withUnlinked item).Contains (some 2) item = some false) := by
  refine ⟨?_, ?_, ?_⟩
  · intro l L s is item h hmem hlt hitem
    rcases LockFreeList.Add_list_spec h hmem hlt hitem with ⟨h1, h2⟩ | ⟨h1, l1, _, h2, _⟩
    · exact ⟨l, false, h2, iff_of_true rfl h1⟩
    · exact ⟨l1, true, h2, iff_of_false (by simp) h1⟩
  · intro l s a is A na t hseg hsort ha hmark hlt
    obtain ⟨pl, npl, _, _, hadd⟩ := Add_marked hseg hsort ha hmark hlt
    exact ⟨_, hadd, List.length_set _ _ _⟩
  · intro item h0 h1
    exact ⟨(withMarked_inv item h0 h1).1, (withMarked_inv item h0 h1).2,
      Contains_withMarked item h0, Add_withMarked item h0, withUnlinked_inv item,
      Contains_withUnlinked item h0 h1⟩

/-- Witness of C11: the item with key 5 and value 5. -/
theorem C11_add_marked_node_witness :
    KeyValue.lt ⟨0, 0⟩ ⟨5, 5⟩ = true ∧ KeyValue.lt ⟨5, 5⟩ tailItem = true ∧
      (withMarked ⟨5, 5⟩).Contains (some 2) ⟨5, 5⟩ = some false ∧
      (withMarked ⟨5, 5⟩).Add (some 2) ⟨5, 5⟩ = some (withUnlinked ⟨5, 5⟩, false) :=
  ⟨by decide, by decide,
    (C11_add_marked_node.2.2 ⟨5, 5⟩ (by decide) (by decide)).2.2.1,
    (C11_add_marked_node.2.2 ⟨5, 5⟩ (by decide) (by decide)).2.2.2.1⟩

end LockFreeList
/-! ## `initial_project.c`: what the list functions leave unchanged -/

namespace InitialProject

theorem Memory.store_B_length {m m1 : Memory} {addr : Loc} {v : marked_ptr_t}
    (h : m.store addr v = some m1) : m1.B.length = m.B.length := by
  cases addr with
  | bucket i =>
    simp only [Memory.store] at h
    split at h
    · cases h
      exact List.length_set _ _ _
    · cases h
  | next a =>
    simp only [Memory.store, Option.bind_eq_some] at h
    obtain ⟨e, _, h⟩ := h
    cases h
    rfl

theorem Memory.CAS_B_length {m : Memory} {addr : Loc} {o n : marked_ptr_t}
    {r : Memory × marked_ptr_t} (h : m.CAS addr o n = some r) : r.1.B.length = m.B.length := by
  simp only [Memory.CAS, Option.bind_eq_some] at h
  obtain ⟨w, _, h⟩ := h
  split at h
  · simp only [Option.bind_eq_some] at h
    obtain ⟨m1, h1, h⟩ := h
    cases h
    exact Memory.store_B_length h1
  · cases h
    rfl

theorem list_find_inner_B_length : ∀ (fuel : Nat) (m : Memory) (key : Nat) (prev : Loc)
    (cur next : marked_ptr_t) (r : Memory × marked_ptr_t × Option Found),
    list_find.inner fuel m key prev cur next = some r → r.1.B.length = m.B.length := by
  intro fuel
  induction fuel with
  | zero =>
    intro m key prev cur next r h
    cases h
  | succ fuel ih =>
    intro m key prev cur next r h
    rw [list_find.inner] at h
    split at h
    · cases h
      rfl
    · simp only [Option.bind_eq_some] at h
      obtain ⟨e, _, w, _, h⟩ := h
      split at h
      · cases h
        rfl
      · split at h
        · split at h
          · cases h
            rfl
          · exact ih _ _ _ _ _ _ h
        · simp only [Option.bind_eq_some] at h
          obtain ⟨r2, h2, h⟩ := h
          split at h
          · rw [ih _ _ _ _ _ _ h, Memory.CAS_B_length h2]
          · cases h
            exact Memory.CAS_B_length h2

theorem list_find_outer_B_length : ∀ (fuel : Nat) (m : Memory) (head : Loc) (key : Nat)
    (next : marked_ptr_t) (r : Memory × Found),
    list_find.outer fuel m head key next = some r → r.1.B.length = m.B.length := by
  intro fuel
  induction fuel with
  | zero =>
    intro m head key next r h
    cases h
  | succ fuel ih =>
    intro m head key next r h
    rw [list_find.outer] at h
    simp only [Option.bind_eq_some] at h
    obtain ⟨cur, _, r1, h1, h⟩ := h
    split at h
    · cases h
      exact list_find_inner_B_length _ _ _ _ _ _ _ h1
    · rw [ih _ _ _ _ _ h, list_find_inner_B_length _ _ _ _ _ _ _ h1]

theorem list_find_B_length {m : Memory} {head : Loc} {key : Nat} {r : Memory × Found}
    (h : list_find m head key = some r) : r.1.B.length = m.B.length :=
  list_find_outer_B_length _ _ _ _ _ _ h

theorem list_insert_loop_B_length : ∀ (fuel : Nat) (m : Memory) (head : Loc) (node : Nat)
    (r : Memory × Nat × marked_ptr_t),
    list_insert.loop fuel m head node = some r → r.1.B.length = m.B.length := by
  intro fuel
  induction fuel with
  | zero =>
    intro m head node r h
    cases h
  | succ fuel ih =>
    intro m head node r h
    rw [list_insert.loop] at h
    simp only [Option.bind_eq_some] at h
    obtain ⟨n, _, r1, h1, h⟩ := h
    split at h
    · cases h
      exact list_find_B_length h1
    · simp only [Option.bind_eq_some] at h
      obtain ⟨m1, hm1, r2, h2, h⟩ := h
      have e : r2.1.B.length = m.B.length := by
        rw [Memory.CAS_B_length h2, Memory.store_B_length hm1, list_find_B_length h1]
      split at h
      · cases h
        exact e
      · rw [ih _ _ _ _ h, e]

theorem list_insert_B_length {m : Memory} {head : Loc} {node : Nat}
    {r : Memory × Nat × marked_ptr_t}
    (h : list_insert m head node = some r) : r.1.B.length = m.B.length :=
  list_insert_loop_B_length _ _ _ _ _ h

theorem list_delete_loop_B_length : ∀ (fuel : Nat) (m : Memory) (head : Loc) (key : Nat)
    (r : Memory × Nat),
    list_delete.loop fuel m head key = some r → r.1.B.length = m.B.length := by
  intro fuel
  induction fuel with
  | zero =>
    intro m head key r h
    cases h
  | succ fuel ih =>
    intro m head key r h
    rw [list_delete.loop] at h
    simp only [Option.bind_eq_some] at h
    obtain ⟨r1, h1, h⟩ := h
    split at h
    · cases h
      exact list_find_B_length h1
    · split at h
      · cases h
      · simp only [Option.bind_eq_some] at h
        obtain ⟨r2, h2, h⟩ := h
        have e2 : r2.1.B.length = m.B.length := by
          rw [Memory.CAS_B_length h2, list_find_B_length h1]
        split at h
        · rw [ih _ _ _ _ h, e2]
        · simp only [Option.bind_eq_some] at h
          obtain ⟨r3, h3, h⟩ := h
          have e3 : r3.1.B.length = m.B.length := by
            rw [Memory.CAS_B_length h3, e2]
          split at h
          · cases h
            exact e3
          · simp only [Option.bind_eq_some] at h
            obtain ⟨r4, h4, h⟩ := h
            cases h
            rw [list_find_B_length h4, e3]

theorem list_delete_B_length {m : Memory} {head : Loc} {key : Nat} {r : Memory × Nat}
    (h : list_delete m head key = some r) : r.1.B.length = m.B.length :=
  list_delete_loop_B_length _ _ _ _ _ h

theorem initialize_bucket_go_B_length : ∀ (fuel : Nat) (m : Memory) (bucket : Nat) (m1 : Memory),
    initialize_bucket.go fuel m bucket = some m1 → m1.B.length = m.B.length := by
  intro fuel
  induction fuel with
  | zero =>
    intro m bucket m1 h
    cases h
  | succ fuel ih =>
    intro m bucket m1 h
    rw [initialize_bucket.go] at h
    simp only [Option.bind_eq_some, Memory.malloc] at h
    obtain ⟨bp, _, m2, h2, r, hr, h⟩ := h
    have e2 : m2.B.length = m.B.length := by
      split at h2
      · exact ih _ _ _ h2
      · cases h2
        rfl
    have e3 : r.1.B.length = m.B.length := by
      rw [list_insert_B_length hr]
      exact e2
    split at h
    · simp only [Option.bind_eq_some] at h
      obtain ⟨b, _, h⟩ := h
      split at h
      · cases h
      · cases h
        exact e3
    · rw [Memory.store_B_length h, e3]

theorem initialize_bucket_frame {h h1 : hash_s} {bucket : Nat}
    (hi : initialize_bucket h bucket = some h1) :
    h1.mem.B.length = h.mem.B.length ∧ h1.count = h.count ∧ h1.size = h.size ∧
      h1.hard_max_buckets = h.hard_max_buckets := by
  simp only [initialize_bucket, Option.bind_eq_some] at hi
  obtain ⟨m, hm, hi⟩ := hi
  cases hi
  exact ⟨initialize_bucket_go_B_length _ _ _ _ hm, rfl, rfl, rfl⟩

end InitialProject
namespace InitialProject

/-- What one `hash_put` that returns does to the scalar fields: the bucket
array keeps its length and `hard_max_buckets` its value; a call that returns 0
leaves `count` and `size`, a call that returns 1 increments `count` and
doubles `size` when the old `count` divided by `size` exceeds `MAX_LOAD` and
twice the size is at most `hard_max_buckets`. -/
theorem hash_put_spec {h h1 : hash_s} {key value r : Nat}
    (hp : hash_put h key value = some (h1, r)) :
    h1.mem.B.length = h.mem.B.length ∧ h1.hard_max_buckets = h.hard_max_buckets ∧
    ((r = 0 ∧ h1.count = h.count ∧ h1.size = h.size) ∨
     (r = 1 ∧ h1.count = u64 (h.count + 1) ∧
      h1.size = if h.count / h.size > MAX_LOAD ∧ u64 (2 * h.size) ≤ h.hard_max_buckets
        then u64 (2 * h.size) else h.size)) := by
  simp only [hash_put, Memory.malloc] at hp
  split at hp
  · cases hp
  split at hp
  · cases hp
  simp only [Option.bind_eq_some] at hp
  obtain ⟨b, _, h2, hh2, r1, hr1, hp⟩ := hp
  have e2 : h2.mem.B.length = h.mem.B.length ∧ h2.count = h.count ∧ h2.size = h.size ∧
      h2.hard_max_buckets = h.hard_max_buckets := by
    split at hh2
    · have hf := initialize_bucket_frame hh2
      exact hf
    · cases hh2
      exact ⟨rfl, rfl, rfl, rfl⟩
  obtain ⟨eB, ec, es, eh⟩ := e2
  have e3 : r1.1.B.length = h.mem.B.length := by
    rw [list_insert_B_length hr1, eB]
  split at hp
  · cases hp
    exact ⟨e3, eh, Or.inl ⟨rfl, ec, es⟩⟩
  · simp only [ec, es, eh] at hp
    by_cases hc : h.count / h.size > MAX_LOAD
    · rw [if_pos hc] at hp
      by_cases hm : u64 (2 * h.size) ≤ h.hard_max_buckets
      · rw [if_pos hm] at hp
        cases hp
        refine ⟨e3, rfl, Or.inr ⟨rfl, rfl, ?_⟩⟩
        simp only [if_true, if_pos (And.intro hc hm)]
      · rw [if_neg hm] at hp
        cases hp
        refine ⟨e3, rfl, Or.inr ⟨rfl, rfl, ?_⟩⟩
        rw [if_neg (fun hcm => hm hcm.2)]
    · rw [if_neg hc] at hp
      cases hp
      refine ⟨e3, rfl, Or.inr ⟨rfl, rfl, ?_⟩⟩
      rw [if_neg (fun hcm => hc hcm.1)]

/-- What one `hash_remove` that returns does to the scalar fields. -/
theorem hash_remove_spec {h h1 : hash_s} {key r : Nat}
    (hp : hash_remove h key = some (h1, r)) :
    h1.mem.B.length = h.mem.B.length ∧ h1.hard_max_buckets = h.hard_max_buckets ∧
    h1.size = h.size ∧
    ((r = 0 ∧ h1.count = h.count) ∨ (r = 1 ∧ h1.count = u64 (h.count + (2 ^ 64 - 1)))) := by
  simp only [hash_remove] at hp
  split at hp
  · cases hp
  simp only [Option.bind_eq_some] at hp
  obtain ⟨b, _, h2, hh2, r1, hr1, hp⟩ := hp
  have e2 : h2.mem.B.length = h.mem.B.length ∧ h2.count = h.count ∧ h2.size = h.size ∧
      h2.hard_max_buckets = h.hard_max_buckets := by
    split at hh2
    · exact initialize_bucket_frame hh2
    · cases hh2
      exact ⟨rfl, rfl, rfl, rfl⟩
  obtain ⟨eB, ec, es, eh⟩ := e2
  have e3 : r1.1.B.length = h.mem.B.length := by
    rw [list_delete_B_length hr1, eB]
  split at hp
  · cases hp
    exact ⟨e3, eh, es, Or.inl ⟨rfl, ec⟩⟩
  · cases hp
    refine ⟨e3, eh, es, Or.inr ⟨rfl, ?_⟩⟩
    simp only [ec]

/-- What one `hash_get` that returns does to the scalar fields. -/
theorem hash_get_spec {h h1 : hash_s} {key r : Nat}
    (hp : hash_get h key = some (h1, r)) :
    h1.mem.B.length = h.mem.B.length ∧ h1.hard_max_buckets = h.hard_max_buckets ∧
    h1.size = h.size ∧ h1.count = h.count := by
  simp only [hash_get] at hp
  split at hp
  · cases hp
  simp only [Option.bind_eq_some] at hp
  obtain ⟨b, _, h2, hh2, r1, hr1, hp⟩ := hp
  have e2 : h2.mem.B.length = h.mem.B.length ∧ h2.count = h.count ∧ h2.size = h.size ∧
      h2.hard_max_buckets = h.hard_max_buckets := by
    split at hh2
    · exact initialize_bucket_frame hh2
    · cases hh2
      exact ⟨rfl, rfl, rfl, rfl⟩
  obtain ⟨eB, ec, es, eh⟩ := e2
  cases hp
  exact ⟨by rw [list_find_B_length hr1, eB], eh, es, ec⟩

end InitialProject
namespace InitialProject

theorem hash_create_eq {pagesize : Nat} (hp : 8 ≤ pagesize) :
    hash_create 0 pagesize = some (table pagesize) := by
  have h : 0 < pagesize / 8 := Nat.div_pos hp (by decide)
  simp only [hash_create, if_true, List.length_replicate, if_pos h]
  rfl

theorem run_concat (cs ds : List Call) :
    ∀ h : hash_s, run h (cs ++ ds) =
      (run h cs).bind fun r => (run r.1 ds).bind fun r2 => some (r2.1, r.2 ++ r2.2) := by
  induction cs with
  | nil =>
    intro h
    simp only [List.nil_append, run, Option.some_bind]
    cases run h ds <;> rfl
  | cons c cs ih =>
    intro h
    show run h (c :: (cs ++ ds)) = _
    simp only [run]
    cases call h c with
    | none => rfl
    | some r =>
      simp only [Option.some_bind]
      rw [ih r.1]
      cases run r.1 cs with
      | none => rfl
      | some r1 =>
        simp only [Option.some_bind]
        cases run r1.1 ds with
        | none => rfl
        | some r2 => simp

theorem Reached.of_run {pagesize : Nat} {cs : List Call} :
    ∀ {h h1 : hash_s} {rs : List Nat}, Reached pagesize h → run h cs = some (h1, rs) →
      Reached pagesize h1 := by
  induction cs with
  | nil =>
    intro h h1 rs hr hrun
    simp only [InitialProject.run, Option.some.injEq, Prod.mk.injEq] at hrun
    rw [← hrun.1]
    exact hr
  | cons c cs ih =>
    intro h h1 rs hr hrun
    simp only [InitialProject.run, Option.bind_eq_some] at hrun
    obtain ⟨r, hc, r2, hr2, e⟩ := hrun
    cases e
    exact ih (Reached.call hr hc) hr2

/-- Scalar invariant of the table: `hard_max_buckets` is the page size
divided by 8, the bucket array has that many slots, and `size` lies between 2
and `hard_max_buckets`. -/
theorem Reached.scalars {pagesize : Nat} {h : hash_s} (hp : 16 ≤ pagesize)
    (hp2 : pagesize < 2 ^ 31) (hr : Reached pagesize h) :
    h.hard_max_buckets = pagesize / 8 ∧ h.mem.B.length = h.hard_max_buckets ∧ 2 ≤ h.size ∧
      h.size ≤ h.hard_max_buckets := by
  induction hr with
  | init h0 =>
    rw [hash_create_eq (by omega)] at h0
    cases h0
    refine ⟨rfl, ?_, le_refl _, ?_⟩
    · simp [table]
    · show 2 ≤ pagesize / 8
      omega
  | @call h h1 c r _ hc ih =>
    obtain ⟨e1, e2, e3, e4⟩ := ih
    cases c with
    | put key value =>
      obtain ⟨f1, f2, f3⟩ := hash_put_spec hc
      refine ⟨f2.trans e1, by rw [f1, f2, e2], ?_⟩
      rcases f3 with ⟨_, _, f⟩ | ⟨_, _, f⟩
      · rw [f, f2]
        exact ⟨e3, e4⟩
      · rw [f, f2]
        split
        · rename_i hc2
          have hlt : 2 * h.size < 2 ^ 64 := by omega
          have e : u64 (2 * h.size) = 2 * h.size := Nat.mod_eq_of_lt hlt
          rw [e] at hc2 ⊢
          exact ⟨by omega, hc2.2⟩
        · exact ⟨e3, e4⟩
    | remove key =>
      obtain ⟨f1, f2, f3, _⟩ := hash_remove_spec hc
      exact ⟨f2.trans e1, by rw [f1, f2, e2], by rw [f3]; exact e3, by rw [f3, f2]; exact e4⟩
    | get key =>
      obtain ⟨f1, f2, f3, _⟩ := hash_get_spec hc
      exact ⟨f2.trans e1, by rw [f1, f2, e2], by rw [f3]; exact e3, by rw [f3, f2]; exact e4⟩

end InitialProject
/-! ## `initial_project.c`: the macro `REVERSE` -/

namespace InitialProject

theorem REVERSE_BYTE_bits :
    ∀ b, b < 256 → ∀ i, i < 8 → (REVERSE_BYTE b).testBit i = b.testBit (7 - i) := by
  decide!

theorem REVERSE_BYTE_lt (b : Nat) : REVERSE_BYTE b < 2 ^ 8 := by
  unfold REVERSE_BYTE
  exact lt_of_le_of_lt Nat.and_le_right (by decide)

theorem REVERSE_BYTE_testBit (b i : Nat) (hb : b < 256) :
    (REVERSE_BYTE b).testBit i = (decide (i < 8) && b.testBit (7 - i)) := by
  by_cases hi : i < 8
  · rw [REVERSE_BYTE_bits b hb i hi]
    simp [hi]
  · have h1 : (REVERSE_BYTE b).testBit i = false :=
      Nat.testBit_lt_two_pow (lt_of_lt_of_le (REVERSE_BYTE_lt b)
        (Nat.pow_le_pow_right (by decide) (by omega)))
    rw [h1]
    simp [hi]

/-- One of the eight terms of `REVERSE`: byte `j` of the argument, reversed,
in byte `7 - j` of the result. -/
theorem REVERSE_term (x j i : Nat) (hj : j < 8) :
    (u64 (REVERSE_BYTE ((u64 x >>> (8 * j)) &&& 0xff) <<< (56 - 8 * j))).testBit i
      = (decide (56 - 8 * j ≤ i ∧ i < 64 - 8 * j) && x.testBit (63 - i)) := by
  unfold u64
  have hb : ((x % 2 ^ 64) >>> (8 * j)) &&& 0xff < 256 :=
    lt_of_le_of_lt Nat.and_le_right (by decide)
  have hff : (0xff : Nat) = 2 ^ 8 - 1 := by decide
  rw [Nat.testBit_mod_two_pow, Nat.testBit_shiftLeft, REVERSE_BYTE_testBit _ _ hb,
    Nat.testBit_and, Nat.testBit_shiftRight, Nat.testBit_mod_two_pow, hff,
    Nat.testBit_two_pow_sub_one]
  by_cases h1 : 56 - 8 * j ≤ i ∧ i < 64 - 8 * j
  · have e : 8 * j + (7 - (i - (56 - 8 * j))) = 63 - i := by omega
    have h2 : i < 64 := by omega
    have h3 : i ≥ 56 - 8 * j := h1.1
    have h4 : i - (56 - 8 * j) < 8 := by omega
    have h5 : 63 - i < 64 := by omega
    have h6 : 7 - (i - (56 - 8 * j)) < 8 := by omega
    rw [e]
    simp [h1, h2, h3, h4, h5, h6]
  · rw [decide_eq_false h1, Bool.false_and]
    by_cases h2 : i < 64
    · by_cases h3 : i ≥ 56 - 8 * j
      · have h4 : ¬ i - (56 - 8 * j) < 8 := by omega
        simp [h2, h3, h4]
      · simp [h2, h3]
    · simp [h2]

theorem REVERSE_testBit (x i : Nat) :
    (REVERSE x).testBit i = (decide (i < 64) && x.testBit (63 - i)) := by
  have t0 := REVERSE_term x 0 i (by decide)
  have t1 := REVERSE_term x 1 i (by decide)
  have t2 := REVERSE_term x 2 i (by decide)
  have t3 := REVERSE_term x 3 i (by decide)
  have t4 := REVERSE_term x 4 i (by decide)
  have t5 := REVERSE_term x 5 i (by decide)
  have t6 := REVERSE_term x 6 i (by decide)
  have t7 := REVERSE_term x 7 i (by decide)
  simp only [Nat.mul_zero, Nat.shiftRight_zero, Nat.sub_zero, Nat.reduceMul, Nat.reduceSub] at t0 t1 t2 t3 t4 t5 t6 t7
  unfold REVERSE
  simp only [Nat.testBit_or, t0, t1, t2, t3, t4, t5, t6, t7]
  cases x.testBit (63 - i)
  · simp
  · simp only [Bool.and_true, Bool.or_eq_true, decide_eq_true_eq, ← Bool.decide_or]
    apply decide_eq_decide.mpr
    omega

theorem REVERSE_lt (x : Nat) : REVERSE x < 2 ^ 64 := by
  apply Nat.lt_pow_two_of_testBit
  intro i hi
  rw [REVERSE_testBit]
  have : ¬ i < 64 := by omega
  simp [this]

/-- The sort key of a key with the top bit clear is odd, and reversing it
with the lowest bit cleared gives the key back. -/
theorem REVERSE_so_regularkey (k : Nat) (hk : k < 2 ^ 63) :
    so_regularkey k &&& 1 = 1 ∧ REVERSE (so_regularkey k ^^^ 1) = k := by
  have hmsb : MSB = 2 ^ 63 := by decide
  constructor
  · apply Nat.eq_of_testBit_eq
    intro i
    rw [Nat.testBit_and, so_regularkey, REVERSE_testBit, Nat.testBit_or, hmsb,
      Nat.testBit_two_pow]
    by_cases h0 : i = 0
    · subst h0
      simp
    · have : (1 : Nat).testBit i = false := by
        rw [show (1 : Nat) = 2 ^ 0 by rfl, Nat.testBit_two_pow]
        simp
        omega
      simp [this]
  · apply Nat.eq_of_testBit_eq
    intro i
    rw [REVERSE_testBit, Nat.testBit_xor, so_regularkey, REVERSE_testBit, Nat.testBit_or, hmsb,
      Nat.testBit_two_pow, show (1 : Nat) = 2 ^ 0 by rfl, Nat.testBit_two_pow]
    by_cases h1 : i < 63
    · have h2 : 63 - i < 64 := by omega
      have h3 : 63 - (63 - i) = i := by omega
      have h4 : ¬ 63 = i := by omega
      have h5 : ¬ 0 = 63 - i := by omega
      have h6 : i < 64 := by omega
      simp [h2, h3, h4, h5, h6]
    · have h2 : k.testBit i = false :=
        Nat.testBit_lt_two_pow (lt_of_lt_of_le hk (Nat.pow_le_pow_right (by decide) (by omega)))
      rw [h2]
      by_cases h3 : i = 63
      · subst h3
        simp
      · have h4 : ¬ i < 64 := by omega
        simp [h4]

/-- The sort key of a bucket below `2 ^ 63` is even. -/
theorem so_dummykey_even (b : Nat) (hb : b < 2 ^ 63) : so_dummykey b &&& 1 = 0 := by
  apply Nat.eq_of_testBit_eq
  intro i
  rw [Nat.testBit_and, so_dummykey, REVERSE_testBit, Nat.zero_testBit]
  by_cases h0 : i = 0
  · subst h0
    have : b.testBit 63 = false := Nat.testBit_lt_two_pow hb
    simp [this]
  · have : (1 : Nat).testBit i = false := by
      rw [show (1 : Nat) = 2 ^ 0 by rfl, Nat.testBit_two_pow]
      simp
      omega
    simp [this]

end InitialProject
/-! ## `initial_project.c`: list segments in the memory -/

namespace InitialProject

namespace CSeg

theorem split {m : Memory} {xs ys : List (Nat × Nat × Nat)} {p q : Ptr} :
    CSeg m p (xs ++ ys) q ↔ ∃ r, CSeg m p xs r ∧ CSeg m r ys q := by
  induction xs generalizing p with
  | nil => simp [CSeg]
  | cons x xs ih =>
    constructor
    · intro h
      have h1 : CSeg m p (x :: (xs ++ ys)) q := h
      obtain ⟨hp, e, he, hk, hv, hf, hr⟩ := h1
      obtain ⟨r, h2, h3⟩ := ih.mp hr
      exact ⟨r, ⟨hp, e, he, hk, hv, hf, h2⟩, h3⟩
    · rintro ⟨r, ⟨hp, e, he, hk, hv, hf, h2⟩, h3⟩
      show CSeg m p (x :: (xs ++ ys)) q
      exact ⟨hp, e, he, hk, hv, hf, ih.mpr ⟨r, h2, h3⟩⟩

theorem frame {m m1 : Memory} {xs : List (Nat × Nat × Nat)} {p q : Ptr}
    (h : ∀ x ∈ xs, m1.cells[x.1]? = m.cells[x.1]?) (hs : CSeg m p xs q) : CSeg m1 p xs q := by
  induction xs generalizing p with
  | nil => exact hs
  | cons x xs ih =>
    obtain ⟨hp, e, he, hk, hv, hf, hr⟩ := hs
    refine ⟨hp, e, ?_, hk, hv, hf, ih (fun y hy => h y (List.mem_cons_of_mem _ hy)) hr⟩
    rw [h x (List.mem_cons_self _ _)]
    exact he

theorem cell {m : Memory} {xs : List (Nat × Nat × Nat)} {p q : Ptr} (hs : CSeg m p xs q)
    {x : Nat × Nat × Nat} (hx : x ∈ xs) :
    ∃ e, m.cells[x.1]? = some e ∧ e.key = x.2.1 ∧ e.value = x.2.2 ∧ e.next.flag = false := by
  induction xs generalizing p with
  | nil => cases hx
  | cons y ys ih =>
    obtain ⟨_, e, he, hk, hv, hf, hr⟩ := hs
    rcases List.mem_cons.mp hx with rfl | hx
    · exact ⟨e, he, hk, hv, hf⟩
    · exact ih hr hx

theorem addr_bound {m : Memory} {xs : List (Nat × Nat × Nat)} {p q : Ptr} (hs : CSeg m p xs q)
    {x : Nat × Nat × Nat} (hx : x ∈ xs) : x.1 < m.cells.length := by
  obtain ⟨e, he, _⟩ := hs.cell hx
  exact (List.getElem?_eq_some_iff.mp he).1

/-- The cells met from `p` to the null pointer are determined by the memory. -/
theorem functional {m : Memory} {xs : List (Nat × Nat × Nat)} :
    ∀ {p : Ptr} {ys : List (Nat × Nat × Nat)}, CSeg m p xs none → CSeg m p ys none →
      xs = ys := by
  induction xs with
  | nil =>
    intro p ys h1 h2
    cases ys with
    | nil => rfl
    | cons y ys =>
      have e1 : p = none := h1
      obtain ⟨e2, _⟩ := h2
      rw [e1] at e2
      cases e2
  | cons x xs ih =>
    intro p ys h1 h2
    obtain ⟨e1, e, he, hk, hv, _, hr⟩ := h1
    cases ys with
    | nil =>
      have e2 : p = none := h2
      rw [e2] at e1
      cases e1
    | cons y ys =>
      obtain ⟨e2, e', he', hk', hv', _, hr'⟩ := h2
      rw [e1] at e2
      have e3 : x.1 = y.1 := Option.some.inj e2
      rw [← e3, he] at he'
      cases he'
      have e4 : x = y := Prod.ext e3 (Prod.ext (hk.symm.trans hk') (hv.symm.trans hv'))
      rw [e4, ih hr hr']

/-- No address occurs twice on the way to the null pointer. -/
theorem addrs_nodup {m : Memory} {xs : List (Nat × Nat × Nat)} :
    ∀ {p : Ptr}, CSeg m p xs none → (xs.map Prod.fst).Nodup := by
  induction xs with
  | nil =>
    intro p _
    exact List.nodup_nil
  | cons x xs ih =>
    intro p hs
    obtain ⟨_, e, he, _, _, _, hr⟩ := hs
    rw [List.map_cons, List.nodup_cons]
    refine ⟨?_, ih hr⟩
    intro hmem
    obtain ⟨y, hy, hyx⟩ := List.mem_map.mp hmem
    obtain ⟨A, B, hAB⟩ := List.append_of_mem hy
    rw [hAB] at hr
    obtain ⟨r, _, h2⟩ := split.mp hr
    obtain ⟨_, e', he', _, _, _, hr'⟩ := h2
    rw [hyx, he] at he'
    cases he'
    have := functional hr hr'
    have hl := congrArg List.length this
    simp at hl
    omega

theorem length_bound {m : Memory} {xs : List (Nat × Nat × Nat)} {p : Ptr}
    (hs : CSeg m p xs none) : xs.length ≤ m.cells.length := by
  have h1 := hs.addrs_nodup
  have h2 : xs.map Prod.fst ⊆ List.range m.cells.length := by
    intro a ha
    obtain ⟨x, hx, rfl⟩ := List.mem_map.mp ha
    exact List.mem_range.mpr (hs.addr_bound hx)
  have h3 := (List.subperm_of_subset h1 h2).length_le
  simpa using h3

/-- Two cells of a segment with different contents have different addresses. -/
theorem addr_of_eq {m : Memory} {xs : List (Nat × Nat × Nat)} {p q : Ptr} (hs : CSeg m p xs q)
    {x y : Nat × Nat × Nat} (hx : x ∈ xs) (hy : y ∈ xs) (e : x.1 = y.1) : x = y := by
  obtain ⟨e1, he1, hk1, hv1, _⟩ := hs.cell hx
  obtain ⟨e2, he2, hk2, hv2, _⟩ := hs.cell hy
  rw [e, he2] at he1
  cases he1
  exact Prod.ext e (Prod.ext (hk1.symm.trans hk2) (hv1.symm.trans hv2))

end CSeg

end InitialProject
/-! ## `initial_project.c`: `list_find` on a list without marked cells -/

namespace InitialProject

theorem CONSTRUCT_PTR_OF {w : marked_ptr_t} (h : w.flag = false) :
    CONSTRUCT false (PTR_OF w) = w := by
  cases w
  simp only at h
  subst h
  rfl

/-- The inner loop of `list_find`, entered with `prev` the `next` field of the
cell `p` and `cur` its value: the loop passes the cells with a sort key below
`key` and returns at the first cell that is not below `key`, or at the end of
the list; the memory is left as it is. -/
theorem list_find_walk (m : Memory) (key : Nat) :
    ∀ (rest : List (Nat × Nat × Nat)) (p : Nat) (ep : hash_entry) (nx0 : marked_ptr_t)
      (fuel : Nat),
      m.cells[p]? = some ep → ep.next.flag = false → CSeg m ep.next.ptr rest none →
      rest.length < fuel →
      ∃ A rest1 p1 e1 f nxt,
        list_find.inner fuel m key (.next p) ep.next nx0 = some (m, nxt, some f) ∧
        rest = A ++ rest1 ∧ (∀ x ∈ A, x.2.1 < key) ∧
        ((p, ep.key, ep.value) :: A).getLast? = some (p1, e1.key, e1.value) ∧
        m.cells[p1]? = some e1 ∧ e1.next.flag = false ∧
        f.prev = .next p1 ∧ f.cur = e1.next ∧ CSeg m e1.next.ptr rest1 none ∧
        ((rest1 = [] ∧ f.ret = 0) ∨
          ∃ c kc vc rest2 ec, rest1 = (c, kc, vc) :: rest2 ∧ m.cells[c]? = some ec ∧
            key ≤ kc ∧ f.ret = (if kc = key then vc else 0) ∧ f.next = ec.next) := by
  intro rest
  induction rest with
  | nil =>
    intro p ep nx0 fuel hp hf hs hfuel
    obtain ⟨fuel, rfl⟩ : ∃ f, fuel = f + 1 := ⟨fuel - 1, by simp at hfuel; omega⟩
    have hnone : PTR_OF ep.next = none := hs
    refine ⟨[], [], p, ep, ⟨0, .next p, ep.next, nx0⟩, nx0, ?_, rfl, by simp, rfl, hp, hf, rfl,
      rfl, hs, Or.inl ⟨rfl, rfl⟩⟩
    rw [list_find.inner]
    simp only [hnone]
  | cons x rest ih =>
    intro p ep nx0 fuel hp hf hs hfuel
    obtain ⟨c, kc, vc⟩ := x
    obtain ⟨hq, ec, hc, hk, hv, hfc, hr⟩ := hs
    simp only at hq hc hk hv
    obtain ⟨fuel, rfl⟩ : ∃ f, fuel = f + 1 := ⟨fuel - 1, by simp at hfuel; omega⟩
    have hsome : PTR_OF ep.next = some c := hq
    have hload : m.load (.next p) = some ep.next := by
      simp only [Memory.load, hp, Option.some_bind]
    have hcon : CONSTRUCT false (some c) = ep.next := by
      rw [← hsome]
      exact CONSTRUCT_PTR_OF hf
    by_cases hge : key ≤ kc
    · refine ⟨[], (c, kc, vc) :: rest, p, ep,
        ⟨if kc = key then vc else 0, .next p, ep.next, ec.next⟩, ec.next, ?_, rfl, by simp, rfl,
        hp, hf, rfl, rfl, ⟨hq, ec, hc, hk, hv, hfc, hr⟩,
        Or.inr ⟨c, kc, vc, rest, ec, rfl, hc, hge, rfl, rfl⟩⟩
      rw [list_find.inner]
      simp only [hsome, hc, Option.some_bind, hload, hcon, ne_eq, not_true_eq_false, if_false,
        MARK_OF, hfc, Bool.not_false, if_true, hk, hv, ge_iff_le, hge]
    · obtain ⟨A, rest1, p1, e1, f, nxt, hw, hdec, hA, hlast, hp1, hf1, hprev, hcur, hseg1, hres⟩ :=
        ih c ec ec.next fuel hc hfc hr (by simp at hfuel ⊢; omega)
      refine ⟨(c, kc, vc) :: A, rest1, p1, e1, f, nxt, ?_, by rw [hdec]; rfl, ?_, ?_, hp1, hf1,
        hprev, hcur, hseg1, hres⟩
      · rw [list_find.inner]
        simp only [hsome, hc, Option.some_bind, hload, hcon, ne_eq, not_true_eq_false, if_false,
          MARK_OF, hfc, Bool.not_false, if_true, hk, ge_iff_le, hge]
        exact hw
      · intro x hx
        rcases List.mem_cons.mp hx with rfl | hx
        · exact Nat.lt_of_not_le hge
        · exact hA x hx
      · rw [List.getLast?_cons_cons, ← hk, ← hv]
        exact hlast

theorem before_le {x y : Nat × Nat × Nat} (h : before x y) : x.2.1 ≤ y.2.1 := by
  rcases h with h | ⟨h, _⟩
  · exact le_of_lt h
  · exact le_of_eq h

/-- The function `list_find`, started at the slot of a bucket whose cell has a
sort key below `key`, on a list without marked cells: the memory is left as it
is, `prev` is the `next` field of the last cell with a sort key below `key`,
`cur` its value, and the pointer returned is the payload of the cell `cur`
points to when that cell has the sort key `key`, and `NULL` otherwise. -/
theorem list_find_spec {m : Memory} {L : List (Nat × Nat × Nat)} {d : Nat}
    (hseg : CSeg m (some d) L none) (hsort : L.Pairwise before) {b s ks vs key : Nat}
    (hb : m.B[b]? = some ⟨some s, false⟩) (hs : (s, ks, vs) ∈ L) (hlt : ks < key) :
    ∃ A p1 kp vp rest1 e1 f,
      list_find m (.bucket b) key = some (m, f) ∧ L = A ++ (p1, kp, vp) :: rest1 ∧
      (∀ x ∈ A ++ [(p1, kp, vp)], x.2.1 < key) ∧
      m.cells[p1]? = some e1 ∧ e1.next.flag = false ∧ f.prev = .next p1 ∧ f.cur = e1.next ∧
      ((rest1 = [] ∧ e1.next.ptr = none ∧ f.ret = 0) ∨
        ∃ c kc vc rest2 ec, rest1 = (c, kc, vc) :: rest2 ∧ e1.next.ptr = some c ∧
          m.cells[c]? = some ec ∧ ec.next.flag = false ∧ key ≤ kc ∧
          f.ret = (if kc = key then vc else 0) ∧ f.next = ec.next) := by
  obtain ⟨pre, rest, hL⟩ := List.append_of_mem hs
  have hseg0 := hseg
  rw [hL] at hseg
  obtain ⟨r, _, hr⟩ := CSeg.split.mp hseg
  obtain ⟨_, es, hes, hk, hv, hfs, hrest⟩ := hr
  simp only at hes hk hv
  have hlen : rest.length < m.cells.length := by
    have := hseg0.length_bound
    rw [hL] at this
    simp at this
    omega
  obtain ⟨A, rest1, p1, e1, f, nxt, hw, hdec, hA, hlast, hp1, hf1, hprev, hcur, hseg1, hres⟩ :=
    list_find_walk m key rest s es es.next m.cells.length hes hfs hrest hlen
  obtain ⟨ys, hys⟩ := List.getLast?_eq_some_iff.mp hlast
  rw [hk, hv] at hys
  have hfind : list_find m (.bucket b) key = some (m, f) := by
    have hnlt : ¬ key ≤ es.key := by
      rw [hk]
      omega
    unfold list_find
    rw [list_find.outer]
    simp only [Memory.load, hb, Option.some_bind]
    rw [list_find.inner]
    simp only [PTR_OF, hes, Option.some_bind, Memory.load, hb, CONSTRUCT, ne_eq,
      not_true_eq_false, if_false, MARK_OF, hfs, Bool.not_false, if_true, ge_iff_le, hnlt]
    rw [hw]
    rfl
  refine ⟨pre ++ ys, p1, e1.key, e1.value, rest1, e1, f, hfind, ?_, ?_, hp1, hf1, hprev, hcur,
    ?_⟩
  · rw [hL, hdec, List.append_assoc, ← List.cons_append, hys]
    simp
  · intro x hx
    have hx1 : x ∈ pre ∨ x ∈ (s, ks, vs) :: A := by
      rw [hys]
      simp only [List.mem_append, List.mem_singleton] at hx ⊢
      tauto
    rcases hx1 with hx1 | hx1
    · rw [hL, List.pairwise_append] at hsort
      exact lt_of_le_of_lt (before_le (hsort.2.2 x hx1 _ (List.mem_cons_self _ _))) hlt
    · rcases List.mem_cons.mp hx1 with rfl | hx1
      · exact hlt
      · exact hA x hx1
  · rcases hres with ⟨h1, h2⟩ | ⟨c, kc, vc, rest2, ec, h1, h2, h3, h4, h5⟩
    · left
      subst h1
      exact ⟨rfl, hseg1, h2⟩
    · right
      subst h1
      obtain ⟨e1c, ec', hec', _, _, hfc, _⟩ := hseg1
      simp only at hec'
      rw [h2] at hec'
      cases hec'
      exact ⟨c, kc, vc, rest2, ec, rfl, e1c, h2, hfc, h3, h4, h5⟩

end InitialProject
/-! ## `initial_project.c`: `list_insert` and `list_delete` on a list without
marked cells -/

namespace InitialProject

/-- Insertion of `z` behind `x` keeps a list in order when every cell up to
`x` is in order with `z` and `z` with every cell behind. -/
theorem pairwise_insert_mid {α : Type} {R : α → α → Prop} {A B : List α} {x z : α}
    (hs : (A ++ x :: B).Pairwise R) (h1 : ∀ a ∈ A ++ [x], R a z) (h2 : ∀ b ∈ B, R z b) :
    (A ++ x :: z :: B).Pairwise R := by
  rw [List.pairwise_append, List.pairwise_cons] at hs
  obtain ⟨hA, ⟨hx, hB⟩, hAB⟩ := hs
  rw [List.pairwise_append, List.pairwise_cons, List.pairwise_cons]
  refine ⟨hA, ⟨?_, h2, hB⟩, ?_⟩
  · intro a ha
    rcases List.mem_cons.mp ha with rfl | ha
    · exact h1 x (by simp)
    · exact hx a ha
  · intro a ha b hb
    rcases List.mem_cons.mp hb with rfl | hb
    · exact hAB a ha _ (List.mem_cons_self _ _)
    · rcases List.mem_cons.mp hb with rfl | hb
      · exact h1 a (by simp [ha])
      · exact hAB a ha b (List.mem_cons_of_mem _ hb)

/-- In a list in order, split behind the last cell below `key`: a cell with
the sort key `key` and a payload other than `NULL` is the first cell of the
second part. -/
theorem first_of_present {L A rest1 : List (Nat × Nat × Nat)} {x0 : Nat × Nat × Nat} {key : Nat}
    (hsort : L.Pairwise before) (hL : L = A ++ x0 :: rest1)
    (hA : ∀ x ∈ A ++ [x0], x.2.1 < key) {x : Nat × Nat × Nat} (hx : x ∈ L)
    (hk : x.2.1 = key) (hv : x.2.2 ≠ 0)
    (hfirst : ∀ c rest2, rest1 = c :: rest2 → key ≤ c.2.1) :
    ∃ rest2, rest1 = x :: rest2 := by
  rw [hL] at hx hsort
  have hx1 : x ∈ A ++ [x0] ∨ x ∈ rest1 := by
    simp only [List.mem_append, List.mem_cons, List.mem_singleton, List.not_mem_nil,
      or_false] at hx ⊢
    tauto
  rcases hx1 with hx1 | hx1
  · exact absurd (hA x hx1) (by omega)
  · cases rest1 with
    | nil => cases hx1
    | cons c rest2 =>
      rcases List.mem_cons.mp hx1 with rfl | hx2
      · exact ⟨rest2, rfl⟩
      · have hc := hfirst c rest2 rfl
        rw [List.pairwise_append, List.pairwise_cons, List.pairwise_cons] at hsort
        rcases hsort.2.1.2.1 x hx2 with h | ⟨_, h⟩
        · omega
        · exact absurd h hv

/-- The function `list_insert` for a cell `n` outside the list, started at the
slot of a bucket whose cell has a smaller sort key. If a cell of the list has
the sort key of `n` and a payload other than `NULL`, the function returns 0
and leaves the memory as it is; otherwise it links `n` in behind the last cell
with a smaller sort key and returns 1. -/
theorem list_insert_spec {m : Memory} {L : List (Nat × Nat × Nat)} {d : Nat}
    (hseg : CSeg m (some d) L none) (hsort : L.Pairwise before) {b s ks vs n : Nat}
    {en : hash_entry}
    (hb : m.B[b]? = some ⟨some s, false⟩) (hs : (s, ks, vs) ∈ L)
    (hn : m.cells[n]? = some en) (hlt : ks < en.key) (hfresh : ∀ x ∈ L, x.1 ≠ n) :
    ((∃ x ∈ L, x.2.1 = en.key ∧ x.2.2 ≠ 0) ∧
      ∃ cur, list_insert m (.bucket b) n = some (m, 0, cur)) ∨
    ((¬ ∃ x ∈ L, x.2.1 = en.key ∧ x.2.2 ≠ 0) ∧
      ∃ m2 cur A p1 kp vp rest1, list_insert m (.bucket b) n = some (m2, 1, cur) ∧
        L = A ++ (p1, kp, vp) :: rest1 ∧ m2.B = m.B ∧ m2.cells.length = m.cells.length ∧
        (∀ a, a ≠ n → a ≠ p1 → m2.cells[a]? = m.cells[a]?) ∧
        CSeg m2 (some d) (A ++ (p1, kp, vp) :: (n, en.key, en.value) :: rest1) none ∧
        (A ++ (p1, kp, vp) :: (n, en.key, en.value) :: rest1).Pairwise before) := by
  obtain ⟨A, p1, kp, vp, rest1, e1, f, hfind, hL, hA, hp1, hf1, hprev, hcur, hres⟩ :=
    list_find_spec hseg hsort hb hs hlt
  have hp1L : (p1, kp, vp) ∈ L := by
    rw [hL]
    simp
  have hp1n : p1 ≠ n := hfresh _ hp1L
  have hfirst : ∀ c rest2, rest1 = c :: rest2 → en.key ≤ c.2.1 := by
    intro c rest2 e
    rcases hres with ⟨h1, _⟩ | ⟨c', kc, vc, rest2', ec, h1, _, _, _, h5, _⟩
    · rw [h1] at e
      cases e
    · rw [h1] at e
      cases e
      exact h5
  by_cases hret : f.ret ≠ 0
  · left
    constructor
    · rcases hres with ⟨_, _, h3⟩ | ⟨c, kc, vc, rest2, ec, h1, _, _, _, _, h6, _⟩
      · exact absurd h3 hret
      · by_cases hkc : kc = en.key
        · rw [if_pos hkc] at h6
          refine ⟨(c, kc, vc), ?_, hkc, ?_⟩
          · rw [hL, h1]
            simp
          · rw [← h6]
            exact hret
        · rw [if_neg hkc] at h6
          exact absurd h6 hret
    · refine ⟨f.cur, ?_⟩
      unfold list_insert
      rw [list_insert.loop]
      simp only [hn, Option.some_bind, hfind, hret, ne_eq, not_false_eq_true, if_true]
  · right
    have hret0 : f.ret = 0 := by
      by_contra hc
      exact hret hc
    have habs : ¬ ∃ x ∈ L, x.2.1 = en.key ∧ x.2.2 ≠ 0 := by
      rintro ⟨x, hx, hk, hv⟩
      obtain ⟨rest2, hr2⟩ := first_of_present hsort hL hA hx hk hv hfirst
      rcases hres with ⟨h1, _⟩ | ⟨c, kc, vc, rest2', ec, h1, _, _, _, _, h6, _⟩
      · rw [h1] at hr2
        cases hr2
      · rw [h1] at hr2
        cases hr2
        simp only at hk
        rw [if_pos hk, hret0] at h6
        exact hv h6.symm
    refine ⟨habs, ?_⟩
    have hltn : n < m.cells.length := (List.getElem?_eq_some_iff.mp hn).1
    have hltp : p1 < m.cells.length := (List.getElem?_eq_some_iff.mp hp1).1
    let m1 : Memory := { m with cells := m.cells.set n { en with next := e1.next } }
    let m2 : Memory := { m1 with cells := m1.cells.set p1 { e1 with next := CONSTRUCT false (some n) } }
    have hm1p : m1.cells[p1]? = some e1 := by
      show (m.cells.set n _)[p1]? = _
      rw [List.getElem?_set_ne (Ne.symm hp1n), hp1]
    have hm2p : m2.cells[p1]? = some { e1 with next := CONSTRUCT false (some n) } := by
      show ((m.cells.set n _).set p1 _)[p1]? = _
      rw [List.getElem?_set_eq_of_lt]
      rw [List.length_set]
      exact hltp
    have hm2n : m2.cells[n]? = some { en with next := e1.next } := by
      show ((m.cells.set n _).set p1 _)[n]? = _
      rw [List.getElem?_set_ne hp1n, List.getElem?_set_eq_of_lt _ hltn]
    have hframe : ∀ a, a ≠ n → a ≠ p1 → m2.cells[a]? = m.cells[a]? := by
      intro a h1 h2
      show ((m.cells.set n _).set p1 _)[a]? = _
      rw [List.getElem?_set_ne (Ne.symm h2), List.getElem?_set_ne (Ne.symm h1)]
    have hins : list_insert m (.bucket b) n = some (m2, 1, f.cur) := by
      have hcon : CONSTRUCT false (PTR_OF f.cur) = e1.next := by
        rw [hcur]
        exact CONSTRUCT_PTR_OF hf1
      unfold list_insert
      rw [list_insert.loop]
      simp only [hn, Option.some_bind, hfind, hret0, ne_eq, not_true_eq_false, if_false,
        Memory.store, hprev, Memory.CAS, Memory.load]
      have hm1p' : (m.cells.set n { en with next := e1.next })[p1]? = some e1 := hm1p
      simp only [hcon, hm1p', Option.some_bind, if_true]
    have hnodup := hseg.addrs_nodup
    rw [hL] at hseg hnodup hsort
    obtain ⟨r, hsA, hsr⟩ := CSeg.split.mp hseg
    obtain ⟨hr1, e1', he1', hk1, hv1, _, hsrest⟩ := hsr
    simp only at he1' hk1 hv1
    rw [hp1] at he1'
    cases he1'
    have hAne : ∀ x ∈ A, x.1 ≠ p1 := by
      intro x hx e
      rw [List.map_append, List.map_cons, List.nodup_append] at hnodup
      exact hnodup.2.2 (List.mem_map_of_mem _ hx) (by simp [e])
    have hRne : ∀ x ∈ rest1, x.1 ≠ p1 := by
      intro x hx e
      rw [List.map_append, List.map_cons, List.nodup_append, List.nodup_cons] at hnodup
      have hx1 : x.1 ∈ rest1.map Prod.fst := List.mem_map_of_mem _ hx
      rw [e] at hx1
      exact hnodup.2.1.1 hx1
    have hfreshA : ∀ x ∈ A, x.1 ≠ n := fun x hx => hfresh x (by rw [hL]; simp [hx])
    have hfreshR : ∀ x ∈ rest1, x.1 ≠ n := fun x hx => hfresh x (by rw [hL]; simp [hx])
    refine ⟨m2, f.cur, A, p1, kp, vp, rest1, hins, hL, rfl, ?_, hframe, ?_, ?_⟩
    · show ((m.cells.set n _).set p1 _).length = _
      rw [List.length_set, List.length_set]
    · refine CSeg.split.mpr ⟨r, hsA.frame (fun x hx => hframe _ (hfreshA x hx) (hAne x hx)), hr1,
        _, hm2p, hk1, hv1, rfl, rfl, _, hm2n, rfl, rfl, hf1, ?_⟩
      exact hsrest.frame (fun x hx => hframe _ (hfreshR x hx) (hRne x hx))
    · refine pairwise_insert_mid hsort (fun a ha => Or.inl (hA a ha)) ?_
      intro y hy
      rcases hres with ⟨h1, _⟩ | ⟨c, kc, vc, rest2, ec, h1, _, _, _, h5, h6, _⟩
      · rw [h1] at hy
        cases hy
      · have hc0 : kc = en.key → vc = 0 := by
          intro e
          rw [if_pos e, hret0] at h6
          exact h6.symm
        rw [h1] at hy hsort
        rcases List.mem_cons.mp hy with rfl | hy2
        · rcases Nat.lt_or_eq_of_le h5 with h | h
          · exact Or.inl h
          · exact Or.inr ⟨h, hc0 h.symm⟩
        · rw [List.pairwise_append, List.pairwise_cons, List.pairwise_cons] at hsort
          rcases hsort.2.1.2.1 y hy2 with h | ⟨h, h0⟩
          · exact Or.inl (lt_of_le_of_lt h5 h)
          · rcases Nat.lt_or_eq_of_le h5 with h' | h'
            · exact Or.inl (by simp only at h ⊢; omega)
            · exact Or.inr ⟨by simp only at h ⊢; omega, h0⟩

/-- The function `list_delete`, started at the slot of a bucket whose cell has
a sort key below `key`. If no cell of the list has the sort key `key` and a
payload other than `NULL`, the function returns 0 and leaves the memory as it
is; otherwise it marks and unlinks the first cell with the sort key `key` and
returns 1. -/
theorem list_delete_spec {m : Memory} {L : List (Nat × Nat × Nat)} {d : Nat}
    (hseg : CSeg m (some d) L none) (hsort : L.Pairwise before) {b s ks vs key : Nat}
    (hb : m.B[b]? = some ⟨some s, false⟩) (hs : (s, ks, vs) ∈ L) (hlt : ks < key) :
    ((¬ ∃ x ∈ L, x.2.1 = key ∧ x.2.2 ≠ 0) ∧ list_delete m (.bucket b) key = some (m, 0)) ∨
    (∃ m2 A p1 kp vp c vc rest2, vc ≠ 0 ∧ list_delete m (.bucket b) key = some (m2, 1) ∧
      L = A ++ (p1, kp, vp) :: (c, key, vc) :: rest2 ∧ m2.B = m.B ∧
      m2.cells.length = m.cells.length ∧
      (∀ a, a ≠ c → a ≠ p1 → m2.cells[a]? = m.cells[a]?) ∧
      CSeg m2 (some d) (A ++ (p1, kp, vp) :: rest2) none) := by
  obtain ⟨A, p1, kp, vp, rest1, e1, f, hfind, hL, hA, hp1, hf1, hprev, hcur, hres⟩ :=
    list_find_spec hseg hsort hb hs hlt
  have hfirst : ∀ c rest2, rest1 = c :: rest2 → key ≤ c.2.1 := by
    intro c rest2 e
    rcases hres with ⟨h1, _⟩ | ⟨c', kc, vc, rest2', ec, h1, _, _, _, h5, _⟩
    · rw [h1] at e
      cases e
    · rw [h1] at e
      cases e
      exact h5
  by_cases hret0 : f.ret = 0
  · left
    constructor
    · rintro ⟨x, hx, hk, hv⟩
      obtain ⟨rest2, hr2⟩ := first_of_present hsort hL hA hx hk hv hfirst
      rcases hres with ⟨h1, _⟩ | ⟨c, kc, vc, rest2', ec, h1, _, _, _, _, h6, _⟩
      · rw [h1] at hr2
        cases hr2
      · rw [h1] at hr2
        cases hr2
        simp only at hk
        rw [if_pos hk, hret0] at h6
        exact hv h6.symm
    · unfold list_delete
      rw [list_delete.loop]
      simp only [hfind, Option.some_bind, hret0, if_true]
  · right
    rcases hres with ⟨_, _, h3⟩ | ⟨c, kc, vc, rest2, ec, h1, hptr, hc, hfc, _, h6, h7⟩
    · exact absurd h3 hret0
    have hkc : kc = key := by
      by_contra hne
      rw [if_neg hne] at h6
      exact hret0 h6
    subst hkc
    rw [if_pos rfl] at h6
    subst h1
    have hnodup := hseg.addrs_nodup
    rw [hL] at hseg hnodup
    have hpc : p1 ≠ c := by
      intro e
      rw [List.map_append, List.map_cons, List.map_cons, List.nodup_append, List.nodup_cons] at hnodup
      exact hnodup.2.1.1 (by simp [e])
    have hltc : c < m.cells.length := (List.getElem?_eq_some_iff.mp hc).1
    have hltp : p1 < m.cells.length := (List.getElem?_eq_some_iff.mp hp1).1
    let m1 : Memory := { m with cells := m.cells.set c { ec with next := CONSTRUCT true (PTR_OF ec.next) } }
    let m2 : Memory := { m1 with cells := m1.cells.set p1 { e1 with next := ec.next } }
    have hm1p : (m.cells.set c { ec with next := CONSTRUCT true (PTR_OF ec.next) })[p1]?
        = some e1 := by
      rw [List.getElem?_set_ne (Ne.symm hpc), hp1]
    have hm2p : m2.cells[p1]? = some { e1 with next := ec.next } := by
      show ((m.cells.set c _).set p1 _)[p1]? = _
      rw [List.getElem?_set_eq_of_lt]
      rw [List.length_set]
      exact hltp
    have hframe : ∀ a, a ≠ c → a ≠ p1 → m2.cells[a]? = m.cells[a]? := by
      intro a h1 h2
      show ((m.cells.set c _).set p1 _)[a]? = _
      rw [List.getElem?_set_ne (Ne.symm h2), List.getElem?_set_ne (Ne.symm h1)]
    have hdel : list_delete m (.bucket b) kc = some (m2, 1) := by
      have hcon : CONSTRUCT false (PTR_OF ec.next) = ec.next := CONSTRUCT_PTR_OF hfc
      have hpo : PTR_OF e1.next = some c := hptr
      have hcon1 : CONSTRUCT false (some c) = e1.next := by
        rw [← hpo]
        exact CONSTRUCT_PTR_OF hf1
      unfold list_delete
      rw [list_delete.loop]
      simp only [hfind, Option.some_bind, hret0, if_false, hcur, hpo, h7, hprev, Memory.CAS,
        Memory.load, hc, hcon, if_true, Memory.store, ne_eq, not_true_eq_false, hm1p, hcon1]
    obtain ⟨r, hsA, hsr⟩ := CSeg.split.mp hseg
    obtain ⟨hr1, e1', he1', hk1, hv1, _, hsrest⟩ := hsr
    simp only at he1' hk1 hv1
    rw [hp1] at he1'
    cases he1'
    obtain ⟨_, ec', hec', _, _, _, hsrest2⟩ := hsrest
    simp only at hec'
    rw [hc] at hec'
    cases hec'
    have hAne : ∀ x ∈ A, x.1 ≠ p1 ∧ x.1 ≠ c := by
      intro x hx
      rw [List.map_append, List.map_cons, List.map_cons, List.nodup_append] at hnodup
      have hx1 : x.1 ∈ A.map Prod.fst := List.mem_map_of_mem _ hx
      exact ⟨fun e => hnodup.2.2 hx1 (by simp [e]), fun e => hnodup.2.2 hx1 (by simp [e])⟩
    have hRne : ∀ x ∈ rest2, x.1 ≠ p1 ∧ x.1 ≠ c := by
      intro x hx
      rw [List.map_append, List.map_cons, List.map_cons, List.nodup_append, List.nodup_cons,
        List.nodup_cons] at hnodup
      have hx1 : x.1 ∈ rest2.map Prod.fst := List.mem_map_of_mem _ hx
      constructor
      · intro e
        rw [e] at hx1
        exact hnodup.2.1.1 (List.mem_cons_of_mem _ hx1)
      · intro e
        rw [e] at hx1
        exact hnodup.2.1.2.1 hx1
    refine ⟨m2, A, p1, kp, vp, c, vc, rest2, ?_, hdel, hL, rfl, ?_, hframe, ?_⟩
    · rw [← h6]
      exact hret0
    · show ((m.cells.set c _).set p1 _).length = _
      rw [List.length_set, List.length_set]
    · refine CSeg.split.mpr ⟨r, hsA.frame (fun x hx => hframe _ (hAne x hx).2 (hAne x hx).1), hr1,
        _, hm2p, hk1, hv1, hfc, ?_⟩
      exact hsrest2.frame (fun x hx => hframe _ (hRne x hx).2 (hRne x hx).1)

end InitialProject
/-! ## `initial_project.c`: order of the sort keys -/

namespace InitialProject

theorem REVERSE_land (x y : Nat) : REVERSE (x &&& y) = REVERSE x &&& REVERSE y := by
  apply Nat.eq_of_testBit_eq
  intro i
  simp only [REVERSE_testBit, Nat.testBit_and]
  cases decide (i < 64) <;> simp

theorem REVERSE_le_of_subset {x y : Nat} (h : x &&& y = x) : REVERSE x ≤ REVERSE y := by
  have e : REVERSE x &&& REVERSE y = REVERSE x := by rw [← REVERSE_land, h]
  rw [← e]
  exact Nat.and_le_right

theorem REVERSE_injective {x y : Nat} (hx : x < 2 ^ 64) (hy : y < 2 ^ 64)
    (h : REVERSE x = REVERSE y) : x = y := by
  apply Nat.eq_of_testBit_eq
  intro i
  by_cases hi : i < 64
  · have h1 := congrArg (fun z => z.testBit (63 - i)) h
    simp only [REVERSE_testBit] at h1
    have h2 : 63 - i < 64 := by omega
    have h3 : 63 - (63 - i) = i := by omega
    simpa [h2, h3] using h1
  · have h1 : x.testBit i = false :=
      Nat.testBit_lt_two_pow (lt_of_lt_of_le hx (Nat.pow_le_pow_right (by decide) (by omega)))
    have h2 : y.testBit i = false :=
      Nat.testBit_lt_two_pow (lt_of_lt_of_le hy (Nat.pow_le_pow_right (by decide) (by omega)))
    rw [h1, h2]

theorem REVERSE_lt_of_subset {x y : Nat} (hx : x < 2 ^ 64) (hy : y < 2 ^ 64)
    (h : x &&& y = x) (hne : x ≠ y) : REVERSE x < REVERSE y :=
  lt_of_le_of_ne (REVERSE_le_of_subset h) (fun e => hne (REVERSE_injective hx hy e))

theorem MSB_eq : MSB = 2 ^ 63 := by decide

theorem so_regularkey_odd (k : Nat) : so_regularkey k &&& 1 = 1 := by
  apply Nat.eq_of_testBit_eq
  intro i
  rw [Nat.testBit_and, so_regularkey, REVERSE_testBit, Nat.testBit_or, MSB_eq,
    Nat.testBit_two_pow]
  by_cases h0 : i = 0
  · subst h0
    simp
  · have : (1 : Nat).testBit i = false := by
      rw [show (1 : Nat) = 2 ^ 0 by rfl, Nat.testBit_two_pow]
      simp
      omega
    simp [this]

/-- The sort key of bucket `lkey % 2 ^ j` is below the sort key of `lkey`. -/
theorem so_dummykey_lt_regular (lkey j : Nat) (hl : lkey < 2 ^ 64) (hj : 2 ^ j < 2 ^ 63) :
    so_dummykey (lkey % 2 ^ j) < so_regularkey lkey := by
  have hb : lkey % 2 ^ j < 2 ^ 63 := lt_trans (Nat.mod_lt _ (Nat.pow_pos (by decide))) hj
  have hor : lkey ||| MSB < 2 ^ 64 := Nat.or_lt_two_pow hl (by decide)
  apply REVERSE_lt_of_subset (lt_trans hb (by decide)) hor
  · apply Nat.eq_of_testBit_eq
    intro i
    rw [Nat.testBit_and, Nat.testBit_mod_two_pow, Nat.testBit_or]
    cases decide (i < j) <;> cases lkey.testBit i <;> simp
  · intro e
    have h1 := congrArg (fun z => z.testBit 63) e
    simp only [Nat.testBit_or, MSB_eq, Nat.testBit_two_pow] at h1
    have h2 : (lkey % 2 ^ j).testBit 63 = false := Nat.testBit_lt_two_pow hb
    rw [h2] at h1
    simp at h1

theorem shiftRight_le_self (t s : Nat) : t >>> s ≤ t := by
  rw [Nat.shiftRight_eq_div_pow]
  exact Nat.div_le_self _ _

/-- The parent of a bucket other than 0 lies below the highest power of two
that is at most the bucket. -/
theorem GET_PARENT_lt {b k : Nat} (hb : b < 2 ^ (k + 1)) : GET_PARENT b < 2 ^ k := by
  have step : ∀ t s : Nat, t < 2 ^ (k + 1) → t ||| (t >>> s) < 2 ^ (k + 1) :=
    fun t s ht => Nat.or_lt_two_pow ht (lt_of_le_of_lt (shiftRight_le_self t s) ht)
  have ht := step _ 32 (step _ 16 (step _ 8 (step _ 4 (step _ 2 (step b 1 hb)))))
  unfold GET_PARENT
  simp only
  refine lt_of_le_of_lt Nat.and_le_right ?_
  rw [Nat.shiftRight_eq_div_pow, Nat.pow_one]
  rw [Nat.pow_succ] at ht
  omega

theorem GET_PARENT_lt_self {b : Nat} (hb : b ≠ 0) : GET_PARENT b < b := by
  have h1 : b < 2 ^ (Nat.log2 b + 1) := Nat.lt_log2_self
  exact lt_of_lt_of_le (GET_PARENT_lt h1) (Nat.log2_self_le hb)

theorem GET_PARENT_subset (b : Nat) : GET_PARENT b &&& b = GET_PARENT b := by
  unfold GET_PARENT
  simp only
  apply Nat.eq_of_testBit_eq
  intro i
  simp only [Nat.testBit_and]
  cases b.testBit i <;> simp

/-- The sort key of the parent of a bucket is below the sort key of the
bucket. -/
theorem so_dummykey_parent_lt {b : Nat} (hb : b ≠ 0) (hlt : b < 2 ^ 64) :
    so_dummykey (GET_PARENT b) < so_dummykey b :=
  REVERSE_lt_of_subset (lt_trans (GET_PARENT_lt_self hb) hlt) hlt (GET_PARENT_subset b)
    (ne_of_lt (GET_PARENT_lt_self hb))

theorem so_dummykey_ne_regular {b k : Nat} (hb : b < 2 ^ 63) :
    so_dummykey b ≠ so_regularkey k := by
  intro e
  have h1 := so_dummykey_even b hb
  rw [e, so_regularkey_odd] at h1
  cases h1

end InitialProject
/-! ## `initial_project.c`: `initialize_bucket` -/

namespace InitialProject

theorem regs_append (A B : List (Nat × Nat × Nat)) : regs (A ++ B) = regs A ++ regs B := by
  simp only [regs, List.filter_append, List.map_append]

theorem regs_cons_even {z : Nat × Nat × Nat} (hz : z.2.1 &&& 1 = 0)
    (B : List (Nat × Nat × Nat)) : regs (z :: B) = regs B := by
  unfold regs
  rw [List.filter_cons]
  simp [hz]

theorem regs_cons_odd {z : Nat × Nat × Nat} (hz : z.2.1 &&& 1 = 1)
    (B : List (Nat × Nat × Nat)) : regs (z :: B) = z.2 :: regs B := by
  unfold regs
  rw [List.filter_cons]
  simp [hz]

theorem regs_insert_even {z : Nat × Nat × Nat} (hz : z.2.1 &&& 1 = 0)
    (A B : List (Nat × Nat × Nat)) (x : Nat × Nat × Nat) :
    regs (A ++ x :: z :: B) = regs (A ++ x :: B) := by
  have e1 : A ++ x :: z :: B = (A ++ [x]) ++ z :: B := by simp
  have e2 : A ++ x :: B = (A ++ [x]) ++ B := by simp
  rw [e1, e2, regs_append (A ++ [x]), regs_append (A ++ [x]), regs_cons_even hz]

theorem MInv.malloc {m : Memory} {L : List (Nat × Nat × Nat)} (h : MInv m L) (e : hash_entry) :
    MInv (m.malloc e).1 L := by
  obtain ⟨d, hd, hseg⟩ := h.seg
  refine ⟨⟨d, hd, ?_⟩, h.sorted, h.slots, h.bucket, h.kinds⟩
  refine hseg.frame (fun x hx => ?_)
  exact List.getElem?_append_left (hseg.addr_bound hx)

theorem MInv.addr_in_cells {m : Memory} {L : List (Nat × Nat × Nat)} (h : MInv m L)
    {x : Nat × Nat × Nat} (hx : x ∈ L) : x.1 < m.cells.length := by
  obtain ⟨d, _, hseg⟩ := h.seg
  exact hseg.addr_bound hx

theorem MInv.slot_zero {m : Memory} {L : List (Nat × Nat × Nat)} (h : MInv m L) :
    m.B[0]? ≠ some UNINITIALIZED := by
  obtain ⟨d, hd, _⟩ := h.seg
  rw [hd]
  intro e
  cases e

/-- An initialised slot points to the cell of its bucket. -/
theorem MInv.slot {m : Memory} {L : List (Nat × Nat × Nat)} (h : MInv m L) {b : Nat}
    {w : marked_ptr_t} (hb : m.B[b]? = some w) (hw : w ≠ UNINITIALIZED) :
    ∃ a, w = ⟨some a, false⟩ ∧ (a, so_dummykey b, 0) ∈ L := by
  have hlt : b < m.B.length := (List.getElem?_eq_some_iff.mp hb).1
  rcases h.bucket b hlt with h1 | ⟨a, h1, h2⟩
  · rw [hb] at h1
    exact absurd (Option.some.inj h1) hw
  · rw [hb] at h1
    exact ⟨a, Option.some.inj h1, h2⟩

/-- No cell of the list carries the sort key of an uninitialised bucket. -/
theorem MInv.no_dummy {m : Memory} {L : List (Nat × Nat × Nat)} (h : MInv m L) {b : Nat}
    (hb : m.B[b]? = some UNINITIALIZED) : ∀ x ∈ L, x.2.1 ≠ so_dummykey b := by
  intro x hx e
  have hlt : b < m.B.length := (List.getElem?_eq_some_iff.mp hb).1
  have hs := h.slots
  rcases h.kinds x hx with ⟨k, _, hk⟩ | ⟨b', hb', hk, _, hslot⟩
  · rw [e] at hk
    exact so_dummykey_ne_regular (by omega) hk
  · rw [e] at hk
    have : b = b' := REVERSE_injective (by omega) (by omega) hk
    subst this
    rw [hb] at hslot
    cases hslot

/-- The second half of `initialize_bucket`: the cell of the bucket is
allocated, linked in from the slot of the parent and stored in the slot. -/
theorem insert_dummy {m1 : Memory} {L1 : List (Nat × Nat × Nat)} {bucket parent : Nat}
    (h : MInv m1 L1) (hb : bucket < m1.B.length) (hun : m1.B[bucket]? = some UNINITIALIZED)
    (hp : parent < m1.B.length) (hpi : m1.B[parent]? ≠ some UNINITIALIZED)
    (hlt : so_dummykey parent < so_dummykey bucket) :
    ∃ m3 cur m4 L4,
      list_insert (m1.malloc ⟨so_dummykey bucket, 0, UNINITIALIZED⟩).1 (.bucket parent)
        m1.cells.length = some (m3, 1, cur) ∧
      m3.store (.bucket bucket) (CONSTRUCT false (some m1.cells.length)) = some m4 ∧
      MInv m4 L4 ∧ Grows m1 L1 m4 L4 ∧ m4.B[bucket]? ≠ some UNINITIALIZED ∧
      (∀ b : Nat, b ≠ bucket → m4.B[b]? = m1.B[b]?) := by
  have h2 := h.malloc ⟨so_dummykey bucket, 0, UNINITIALIZED⟩
  obtain ⟨d, hd, hseg⟩ := h2.seg
  obtain ⟨w, hw⟩ : ∃ w, m1.B[parent]? = some w := by
    rw [List.getElem?_eq_getElem hp]
    exact ⟨_, rfl⟩
  obtain ⟨s, hws, hsL⟩ := h.slot hw (fun e => hpi (by rw [hw, e]))
  subst hws
  have hn : (m1.malloc ⟨so_dummykey bucket, 0, UNINITIALIZED⟩).1.cells[m1.cells.length]?
      = some ⟨so_dummykey bucket, 0, UNINITIALIZED⟩ := by
    simp [Memory.malloc]
  have hfresh : ∀ x ∈ L1, x.1 ≠ m1.cells.length := fun x hx => ne_of_lt (h.addr_in_cells hx)
  rcases list_insert_spec hseg h2.sorted (b := parent) hw hsL hn hlt hfresh with
    ⟨⟨x, hx, hk, hv⟩, _⟩ | ⟨_, m3, cur, A, p1, kp, vp, rest1, hins, hL, hB, hlen, hframe, hseg3,
      hsort3⟩
  · exfalso
    rcases h.kinds x hx with ⟨k, _, hk2⟩ | ⟨b', _, _, hv2, _⟩
    · rw [hk] at hk2
      exact so_dummykey_ne_regular (lt_trans hb h.slots) hk2
    · exact hv hv2
  have hb3 : bucket < m3.B.length := by
    rw [hB]
    exact hb
  have hp1L : (p1, kp, vp) ∈ L1 := by
    rw [hL]
    simp
  have hmem4 : ∀ x, x ∈ A ++ (p1, kp, vp) :: (m1.cells.length, so_dummykey bucket, 0) :: rest1 ↔
      x ∈ L1 ∨ x = (m1.cells.length, so_dummykey bucket, 0) := by
    intro x
    rw [hL]
    simp only [List.mem_append, List.mem_cons]
    tauto
  have hbne : bucket ≠ 0 := by
    rintro rfl
    exact h.slot_zero hun
  have hB4 : ∀ b : Nat, b ≠ bucket →
      (m3.B.set bucket (CONSTRUCT false (some m1.cells.length)))[b]? = m1.B[b]? := by
    intro b hne
    rw [List.getElem?_set_ne (Ne.symm hne), hB]
    rfl
  have hB4b : (m3.B.set bucket (CONSTRUCT false (some m1.cells.length)))[bucket]?
      = some ⟨some m1.cells.length, false⟩ := by
    rw [List.getElem?_set_eq_of_lt _ hb3]
    rfl
  refine ⟨m3, cur, { m3 with B := m3.B.set bucket (CONSTRUCT false (some m1.cells.length)) },
    A ++ (p1, kp, vp) :: (m1.cells.length, so_dummykey bucket, 0) :: rest1, hins, ?_, ?_, ?_, ?_,
    hB4⟩
  · simp only [Memory.store, hb3, if_true]
  · refine ⟨⟨d, ?_, CSeg.frame (m := m3) (fun _ _ => rfl) hseg3⟩, hsort3, ?_, ?_, ?_⟩
    · show (m3.B.set bucket _)[0]? = _
      rw [hB4 0 (Ne.symm hbne)]
      exact hd
    · show (m3.B.set bucket _).length < _
      rw [List.length_set, hB]
      exact h.slots
    · intro b hblt
      have hblt1 : b < m1.B.length := by
        have : (m3.B.set bucket (CONSTRUCT false (some m1.cells.length))).length
            = m1.B.length := by
          rw [List.length_set, hB]
          rfl
        rw [← this]
        exact hblt
      by_cases hbb : b = bucket
      · subst hbb
        right
        exact ⟨m1.cells.length, hB4b, (hmem4 _).mpr (Or.inr rfl)⟩
      · show (m3.B.set bucket _)[b]? = _ ∨ ∃ a, (m3.B.set bucket _)[b]? = _ ∧ _
        rw [hB4 b hbb]
        rcases h.bucket b hblt1 with h1 | ⟨a, h1, h2⟩
        · exact Or.inl h1
        · exact Or.inr ⟨a, h1, (hmem4 _).mpr (Or.inl h2)⟩
    · intro x hx
      rcases (hmem4 x).mp hx with hx1 | rfl
      · rcases h.kinds x hx1 with hk | ⟨b', hb', hk, hv, hslot⟩
        · exact Or.inl hk
        · right
          have hne : b' ≠ bucket := by
            rintro rfl
            rw [hun] at hslot
            cases hslot
          refine ⟨b', ?_, hk, hv, ?_⟩
          · show b' < (m3.B.set bucket _).length
            rw [List.length_set, hB]
            exact hb'
          · show (m3.B.set bucket _)[b']? = _
            rw [hB4 b' hne]
            exact hslot
      · right
        refine ⟨bucket, ?_, rfl, rfl, hB4b⟩
        show bucket < (m3.B.set bucket _).length
        rw [List.length_set]
        exact hb3
  · refine ⟨?_, ?_, ?_, ?_, ?_⟩
    · show (m3.B.set bucket _).length = _
      rw [List.length_set, hB]
      rfl
    · intro b hbi
      have hne : b ≠ bucket := by
        rintro rfl
        exact hbi hun
      exact hB4 b hne
    · rw [regs_insert_even (so_dummykey_even bucket (lt_trans hb h.slots)), ← hL]
    · show m1.cells.length ≤ m3.cells.length
      rw [hlen]
      simp [Memory.malloc]
    · intro a ha hout
      constructor
      · show m3.cells[a]? = _
        rw [hframe a (ne_of_lt ha) (fun e => hout _ hp1L e.symm)]
        exact List.getElem?_append_left ha
      · intro x hx
        rcases (hmem4 x).mp hx with hx1 | rfl
        · exact hout x hx1
        · exact (ne_of_lt ha).symm
  · rw [hB4b]
    intro e
    cases e

theorem Grows.rfl (m : Memory) (L : List (Nat × Nat × Nat)) : Grows m L m L :=
  ⟨Eq.refl _, fun _ _ => Eq.refl _, Eq.refl _, le_refl _, fun _ _ h => ⟨Eq.refl _, h⟩⟩

theorem Grows.trans {m m1 m2 : Memory} {L L1 L2 : List (Nat × Nat × Nat)}
    (h1 : Grows m L m1 L1) (h2 : Grows m1 L1 m2 L2) : Grows m L m2 L2 := by
  refine ⟨h2.slots.trans h1.slots, ?_, h2.regs.trans h1.regs, le_trans h1.cells h2.cells, ?_⟩
  · intro b hb
    have e1 := h1.kept b hb
    rw [h2.kept b (by rw [e1]; exact hb), e1]
  · intro a ha hout
    obtain ⟨e1, o1⟩ := h1.outside a ha hout
    obtain ⟨e2, o2⟩ := h2.outside a (lt_of_lt_of_le ha h1.cells) o1
    exact ⟨e2.trans e1, o2⟩

/-- The function `initialize_bucket` for an uninitialised bucket inside the
bucket array: it returns, keeps the invariant of the memory, the initialised
slots, the regular cells and the cells outside the list, and leaves the slot
of the bucket initialised. -/
theorem initialize_bucket_go_spec : ∀ (fuel : Nat) (m : Memory) (L : List (Nat × Nat × Nat))
    (bucket : Nat), MInv m L → bucket < m.B.length → m.B[bucket]? = some UNINITIALIZED →
    bucket < 2 ^ fuel →
    ∃ m1 L1, initialize_bucket.go fuel m bucket = some m1 ∧ MInv m1 L1 ∧ Grows m L m1 L1 ∧
      m1.B[bucket]? ≠ some UNINITIALIZED ∧ (∀ b : Nat, bucket < b → m1.B[b]? = m.B[b]?) := by
  intro fuel
  induction fuel with
  | zero =>
    intro m L bucket h _ hun hlt
    have : bucket = 0 := by
      simp at hlt
      exact hlt
    subst this
    exact absurd hun h.slot_zero
  | succ fuel ih =>
    intro m L bucket h hb hun hlt
    have hbne : bucket ≠ 0 := by
      rintro rfl
      exact h.slot_zero hun
    have hpl : GET_PARENT bucket < bucket := GET_PARENT_lt_self hbne
    have hpf : GET_PARENT bucket < 2 ^ fuel := GET_PARENT_lt hlt
    have hpB : GET_PARENT bucket < m.B.length := lt_trans hpl hb
    have hkey : so_dummykey (GET_PARENT bucket) < so_dummykey bucket :=
      so_dummykey_parent_lt hbne (lt_trans hb (lt_trans h.slots (by decide)))
    obtain ⟨bp, hbp⟩ : ∃ w, m.B[GET_PARENT bucket]? = some w := by
      rw [List.getElem?_eq_getElem hpB]
      exact ⟨_, rfl⟩
    have hfirst : ∃ m1 L1,
        (if bp = UNINITIALIZED then initialize_bucket.go fuel m (GET_PARENT bucket) else some m)
          = some m1 ∧ MInv m1 L1 ∧ Grows m L m1 L1 ∧
        m1.B[GET_PARENT bucket]? ≠ some UNINITIALIZED ∧
        (∀ b : Nat, GET_PARENT bucket < b → m1.B[b]? = m.B[b]?) := by
      by_cases hbpu : bp = UNINITIALIZED
      · rw [if_pos hbpu]
        subst hbpu
        exact ih m L (GET_PARENT bucket) h hpB hbp hpf
      · rw [if_neg hbpu]
        refine ⟨m, L, rfl, h, Grows.rfl m L, ?_, fun _ _ => rfl⟩
        rw [hbp]
        intro e
        exact hbpu (Option.some.inj e)
    obtain ⟨m1, L1, hgo, hinv1, hgrow1, hinit1, hframe1⟩ := hfirst
    have hb1 : bucket < m1.B.length := by
      rw [hgrow1.slots]
      exact hb
    have hun1 : m1.B[bucket]? = some UNINITIALIZED := by
      rw [hframe1 bucket hpl]
      exact hun
    obtain ⟨m3, cur, m4, L4, hins, hstore, hinv4, hgrow4, hinit4, hframe4⟩ :=
      insert_dummy hinv1 hb1 hun1 (lt_trans hpl hb1) hinit1 hkey
    simp only [Memory.malloc] at hins
    refine ⟨m4, L4, ?_, hinv4, hgrow1.trans hgrow4, hinit4, ?_⟩
    · rw [initialize_bucket.go]
      simp only [hbp, Option.some_bind, hgo, Memory.malloc, hins, Nat.one_ne_zero, if_false,
        hstore]
    · intro b hbb
      rw [hframe4 b (ne_of_gt hbb), hframe1 b (lt_trans hpl hbb)]

end InitialProject
/-! ## `initial_project.c`: the public functions keep the invariant -/

namespace InitialProject

theorem mem_regs {L : List (Nat × Nat × Nat)} {k v : Nat} :
    (k, v) ∈ regs L ↔ k &&& 1 ≠ 0 ∧ ∃ a, (a, k, v) ∈ L := by
  unfold regs
  simp only [List.mem_map, List.mem_filter, decide_eq_true_eq]
  constructor
  · rintro ⟨x, ⟨hx, hodd⟩, e⟩
    obtain ⟨a, k', v'⟩ := x
    cases e
    exact ⟨hodd, a, hx⟩
  · rintro ⟨hodd, a, hx⟩
    exact ⟨(a, k, v), ⟨hx, hodd⟩, rfl⟩

theorem so_regularkey_odd_ne (k : Nat) : so_regularkey k &&& 1 ≠ 0 := by
  rw [so_regularkey_odd]
  decide

/-- Presence of a sort key with a payload other than `NULL`, in terms of the
cells and in terms of the regular cells. -/
theorem present_iff {L : List (Nat × Nat × Nat)} (k : Nat) :
    (∃ x ∈ L, x.2.1 = so_regularkey k ∧ x.2.2 ≠ 0) ↔
      ∃ v, v ≠ 0 ∧ (so_regularkey k, v) ∈ regs L := by
  constructor
  · rintro ⟨⟨a, k', v⟩, hx, hk, hv⟩
    simp only at hk hv
    subst hk
    exact ⟨v, hv, mem_regs.mpr ⟨so_regularkey_odd_ne k, a, hx⟩⟩
  · rintro ⟨v, hv, hm⟩
    obtain ⟨_, a, hx⟩ := mem_regs.mp hm
    exact ⟨(a, so_regularkey k, v), hx, rfl, hv⟩

/-- The first steps of `hash_put`, `hash_get` and `hash_remove`: the slot of
the bucket is initialised if it is not yet. -/
theorem ensure_bucket {m : Memory} {L : List (Nat × Nat × Nat)} (h : MInv m L) {bucket : Nat}
    (hb : bucket < m.B.length) :
    ∃ bw m2 L2 s, m.B[bucket]? = some bw ∧
      (if bw = UNINITIALIZED then initialize_bucket.go 64 m bucket else some m) = some m2 ∧
      MInv m2 L2 ∧ Grows m L m2 L2 ∧ m2.B[bucket]? = some ⟨some s, false⟩ ∧
      (s, so_dummykey bucket, 0) ∈ L2 := by
  obtain ⟨bw, hbw⟩ : ∃ w, m.B[bucket]? = some w := by
    rw [List.getElem?_eq_getElem hb]
    exact ⟨_, rfl⟩
  by_cases hu : bw = UNINITIALIZED
  · subst hu
    obtain ⟨m2, L2, hgo, hinv, hgrow, hinit, _⟩ :=
      initialize_bucket_go_spec 64 m L bucket h hb hbw
        (lt_trans hb (lt_trans h.slots (by decide)))
    have hb2 : bucket < m2.B.length := by
      rw [hgrow.slots]
      exact hb
    obtain ⟨w, hw⟩ : ∃ w, m2.B[bucket]? = some w := by
      rw [List.getElem?_eq_getElem hb2]
      exact ⟨_, rfl⟩
    obtain ⟨s, hs, hsL⟩ := hinv.slot hw (fun e => hinit (by rw [hw, e]))
    subst hs
    exact ⟨_, m2, L2, s, hbw, by rw [if_pos rfl]; exact hgo, hinv, hgrow, hw, hsL⟩
  · obtain ⟨s, hs, hsL⟩ := h.slot hbw hu
    subst hs
    exact ⟨_, m, L, s, hbw, by rw [if_neg hu], h, Grows.rfl m L, hbw, hsL⟩

theorem lt_of_MSB_clear {x : Nat} (hx : x < 2 ^ 64) (h : x &&& MSB = 0) : x < 2 ^ 63 := by
  apply Nat.lt_pow_two_of_testBit
  intro i hi
  by_cases h63 : i = 63
  · subst h63
    have h1 := congrArg (fun z => z.testBit 63) h
    simp only [Nat.testBit_and, MSB_eq, Nat.testBit_two_pow, Nat.zero_testBit] at h1
    simpa using h1
  · exact Nat.testBit_lt_two_pow (lt_of_lt_of_le hx (Nat.pow_le_pow_right (by decide) (by omega)))

theorem regs_insert_odd {z : Nat × Nat × Nat} (hz : z.2.1 &&& 1 = 1)
    (A B : List (Nat × Nat × Nat)) (x : Nat × Nat × Nat) :
    regs (A ++ x :: B) = regs (A ++ [x]) ++ regs B ∧
      regs (A ++ x :: z :: B) = regs (A ++ [x]) ++ z.2 :: regs B := by
  have e1 : A ++ x :: z :: B = (A ++ [x]) ++ z :: B := by simp
  have e2 : A ++ x :: B = (A ++ [x]) ++ B := by simp
  rw [e1, e2, regs_append (A ++ [x]), regs_append (A ++ [x]), regs_cons_odd hz]
  exact ⟨rfl, rfl⟩

theorem initialize_bucket_lift {t : hash_s} {bw : marked_ptr_t} {bucket : Nat} {m2 : Memory}
    (e : (if bw = UNINITIALIZED then initialize_bucket.go 64 t.mem bucket else some t.mem)
      = some m2) :
    (if bw = UNINITIALIZED then initialize_bucket t bucket else some t)
      = some { t with mem := m2 } := by
  by_cases hu : bw = UNINITIALIZED
  · rw [if_pos hu] at e ⊢
    simp only [initialize_bucket, e, Option.some_bind]
  · rw [if_neg hu] at e ⊢
    cases e
    rfl

/-- The function `hash_put` on a table that meets the invariant, for a key
with the top bit clear: it returns and keeps the invariant. It returns 0 and
leaves the regular cells when a regular cell carries the sort key of the key
with a payload other than `NULL`; otherwise it returns 1 and adds one regular
cell with the sort key of the key and the payload given. -/
theorem hash_put_inv {h : hash_s} {L : List (Nat × Nat × Nat)} (hi : CInv h L)
    (key value : Nat) (hk : u64 key &&& MSB = 0) :
    ∃ h1 L1 r, hash_put h key value = some (h1, r) ∧ CInv h1 L1 ∧
      ((r = 0 ∧ (∃ v, v ≠ 0 ∧ (so_regularkey (u64 key), v) ∈ regs L) ∧ regs L1 = regs L) ∨
       (r = 1 ∧ (¬ ∃ v, v ≠ 0 ∧ (so_regularkey (u64 key), v) ∈ regs L) ∧
          ∃ X Y, regs L = X ++ Y ∧ regs L1 = X ++ (so_regularkey (u64 key), value) :: Y)) := by
  obtain ⟨j, hj1, hsz, hszB⟩ := hi.size
  have hlk : u64 key < 2 ^ 64 := Nat.mod_lt _ (by decide)
  have hk63 : u64 key < 2 ^ 63 := lt_of_MSB_clear hlk hk
  have hs0 : h.size ≠ 0 := by
    rw [hsz]
    exact Nat.pos_iff_ne_zero.mp (Nat.pow_pos (by decide))
  have hslots := hi.mem.slots
  have hbs : u64 key % h.size < h.size := Nat.mod_lt _ (Nat.pos_of_ne_zero hs0)
  have hinv1 := hi.mem.malloc ⟨so_regularkey (u64 key), value, UNINITIALIZED⟩
  have hbB : u64 key % h.size <
      (h.mem.malloc ⟨so_regularkey (u64 key), value, UNINITIALIZED⟩).1.B.length :=
    lt_of_lt_of_le hbs hszB
  obtain ⟨bw, m2, L2, s, hbw, hens, hinv2, hgrow, hslot, hsL⟩ := ensure_bucket hinv1 hbB
  have hn1 : (h.mem.malloc ⟨so_regularkey (u64 key), value, UNINITIALIZED⟩).1.cells[h.mem.cells.length]?
      = some ⟨so_regularkey (u64 key), value, UNINITIALIZED⟩ := by
    simp [Memory.malloc]
  obtain ⟨hn2, hfresh⟩ := hgrow.outside h.mem.cells.length (by simp [Memory.malloc])
    (fun x hx => ne_of_lt (hi.mem.addr_in_cells hx))
  rw [hn1] at hn2
  have hlt : so_dummykey (u64 key % h.size) < so_regularkey (u64 key) := by
    rw [hsz]
    exact so_dummykey_lt_regular (u64 key) j hlk (by rw [← hsz]; omega)
  have hlift := initialize_bucket_lift
    (t := { h with mem := (h.mem.malloc ⟨so_regularkey (u64 key), value, UNINITIALIZED⟩).1 }) hens
  simp only [Memory.malloc] at hlift hbw
  obtain ⟨d, hd, hseg⟩ := hinv2.seg
  have hpre : (∃ v, v ≠ 0 ∧ (so_regularkey (u64 key), v) ∈ regs L) ↔
      (∃ x ∈ L2, x.2.1 = so_regularkey (u64 key) ∧ x.2.2 ≠ 0) := by
    rw [present_iff, hgrow.regs]
  have hB2 : m2.B.length = h.mem.B.length := hgrow.slots
  rcases list_insert_spec hseg hinv2.sorted hslot hsL hn2 hlt hfresh with
    ⟨hp, cur, hins⟩ | ⟨hnp, m3, cur, A, p1, kp, vp, rest1, hins, hL2, hB, hlen, hframe, hseg3,
      hsort3⟩
  · refine ⟨{ h with mem := m2 }, L2, 0, ?_, ⟨hinv2, ?_, ⟨j, hj1, hsz, ?_⟩, ?_⟩,
      Or.inl ⟨rfl, hpre.mpr hp, hgrow.regs⟩⟩
    · simp only [hash_put, hs0, if_false, hk, ne_eq, not_true_eq_false, Memory.malloc, hbw,
        Option.some_bind, hlift, hins, if_true]
    · show h.hard_max_buckets = m2.B.length
      rw [hB2]
      exact hi.cap
    · show h.size ≤ m2.B.length
      rw [hB2]
      exact hszB
    · show h.count = _
      rw [hgrow.regs]
      exact hi.count
  · have hodd : so_regularkey (u64 key) &&& 1 = 1 := so_regularkey_odd _
    obtain ⟨hr1, hr2⟩ := regs_insert_odd
      (z := (h.mem.cells.length, so_regularkey (u64 key), value)) hodd A rest1 (p1, kp, vp)
    have hmem3 : ∀ x, x ∈ A ++ (p1, kp, vp) ::
        (h.mem.cells.length, so_regularkey (u64 key), value) :: rest1 ↔
        x ∈ L2 ∨ x = (h.mem.cells.length, so_regularkey (u64 key), value) := by
      intro x
      rw [hL2]
      simp only [List.mem_append, List.mem_cons]
      tauto
    have hinv3 : MInv m3 (A ++ (p1, kp, vp) ::
        (h.mem.cells.length, so_regularkey (u64 key), value) :: rest1) := by
      refine ⟨⟨d, by rw [hB]; exact hd, hseg3⟩, hsort3, by rw [hB]; exact hinv2.slots, ?_, ?_⟩
      · intro b hb
        rw [hB] at hb ⊢
        rcases hinv2.bucket b hb with h1 | ⟨a, h1, h2⟩
        · exact Or.inl h1
        · exact Or.inr ⟨a, h1, (hmem3 _).mpr (Or.inl h2)⟩
      · intro x hx
        rw [hB]
        rcases (hmem3 x).mp hx with hx1 | rfl
        · exact hinv2.kinds x hx1
        · exact Or.inl ⟨u64 key, hk63, rfl⟩
    have hcount : u64 (h.count + 1) = (regs (A ++ (p1, kp, vp) ::
        (h.mem.cells.length, so_regularkey (u64 key), value) :: rest1)).length % 2 ^ 64 := by
      have e1 : (regs (A ++ (p1, kp, vp) ::
          (h.mem.cells.length, so_regularkey (u64 key), value) :: rest1)).length
          = (regs L).length + 1 := by
        rw [hr2, ← hgrow.regs, hL2, hr1]
        simp only [List.length_append, List.length_cons]
        omega
      rw [e1, hi.count]
      unfold u64
      omega
    have hB3 : m3.B.length = h.mem.B.length := by
      rw [hB, hB2]
    have hregs : ∃ X Y, regs L = X ++ Y ∧ regs (A ++ (p1, kp, vp) ::
        (h.mem.cells.length, so_regularkey (u64 key), value) :: rest1)
        = X ++ (so_regularkey (u64 key), value) :: Y :=
      ⟨regs (A ++ [(p1, kp, vp)]), regs rest1, by rw [← hgrow.regs, hL2, hr1], hr2⟩
    have hnp' : ¬ ∃ v, v ≠ 0 ∧ (so_regularkey (u64 key), v) ∈ regs L := fun hc => hnp (hpre.mp hc)
    by_cases hc : h.count / h.size > MAX_LOAD
    · by_cases hm : u64 (2 * h.size) ≤ h.hard_max_buckets
      · have h2s : 2 * h.size < 2 ^ 64 := by omega
        have e2 : u64 (2 * h.size) = 2 * h.size := Nat.mod_eq_of_lt h2s
        refine ⟨⟨m3, u64 (h.count + 1), u64 (2 * h.size), h.hard_max_buckets⟩, _, 1, ?_,
          ⟨hinv3, ?_, ⟨j + 1, by omega, ?_, ?_⟩, hcount⟩, Or.inr ⟨rfl, hnp', hregs⟩⟩
        · simp only [hash_put, hs0, if_false, hk, ne_eq, not_true_eq_false, Memory.malloc, hbw,
            Option.some_bind, hlift, hins, Nat.one_ne_zero, hc, if_true, hm]
        · show h.hard_max_buckets = m3.B.length
          rw [hB3]
          exact hi.cap
        · show u64 (2 * h.size) = 2 ^ (j + 1)
          rw [e2, hsz, Nat.pow_succ]
          omega
        · show u64 (2 * h.size) ≤ m3.B.length
          rw [hB3, ← hi.cap]
          exact hm
      · refine ⟨⟨m3, u64 (h.count + 1), h.size, h.hard_max_buckets⟩, _, 1, ?_,
          ⟨hinv3, ?_, ⟨j, hj1, hsz, ?_⟩, hcount⟩, Or.inr ⟨rfl, hnp', hregs⟩⟩
        · simp only [hash_put, hs0, if_false, hk, ne_eq, not_true_eq_false, Memory.malloc, hbw,
            Option.some_bind, hlift, hins, Nat.one_ne_zero, hc, if_true, hm]
        · show h.hard_max_buckets = m3.B.length
          rw [hB3]
          exact hi.cap
        · show h.size ≤ m3.B.length
          rw [hB3]
          exact hszB
    · refine ⟨⟨m3, u64 (h.count + 1), h.size, h.hard_max_buckets⟩, _, 1, ?_,
        ⟨hinv3, ?_, ⟨j, hj1, hsz, ?_⟩, hcount⟩, Or.inr ⟨rfl, hnp', hregs⟩⟩
      · simp only [hash_put, hs0, if_false, hk, ne_eq, not_true_eq_false, Memory.malloc, hbw,
          Option.some_bind, hlift, hins, Nat.one_ne_zero, hc]
      · show h.hard_max_buckets = m3.B.length
        rw [hB3]
        exact hi.cap
      · show h.size ≤ m3.B.length
        rw [hB3]
        exact hszB

/-- The function `hash_remove` on a table that meets the invariant: it returns
and keeps the invariant. It returns 0 and leaves the regular cells when no
regular cell carries the sort key of the key with a payload other than `NULL`;
otherwise it returns 1 and removes one such cell. -/
theorem hash_remove_inv {h : hash_s} {L : List (Nat × Nat × Nat)} (hi : CInv h L)
    (key : Nat) :
    ∃ h1 L1 r, hash_remove h key = some (h1, r) ∧ CInv h1 L1 ∧
      ((r = 0 ∧ (¬ ∃ v, v ≠ 0 ∧ (so_regularkey (u64 key), v) ∈ regs L) ∧ regs L1 = regs L) ∨
       (r = 1 ∧ ∃ v X Y, v ≠ 0 ∧ regs L = X ++ (so_regularkey (u64 key), v) :: Y ∧
          regs L1 = X ++ Y)) := by
  obtain ⟨j, hj1, hsz, hszB⟩ := hi.size
  have hlk : u64 key < 2 ^ 64 := Nat.mod_lt _ (by decide)
  have hs0 : h.size ≠ 0 := by
    rw [hsz]
    exact Nat.pos_iff_ne_zero.mp (Nat.pow_pos (by decide))
  have hslots := hi.mem.slots
  have hbs : u64 key % h.size < h.size := Nat.mod_lt _ (Nat.pos_of_ne_zero hs0)
  obtain ⟨bw, m2, L2, s, hbw, hens, hinv2, hgrow, hslot, hsL⟩ :=
    ensure_bucket hi.mem (lt_of_lt_of_le hbs hszB)
  have hlt : so_dummykey (u64 key % h.size) < so_regularkey (u64 key) := by
    rw [hsz]
    exact so_dummykey_lt_regular (u64 key) j hlk (by rw [← hsz]; omega)
  have hlift := initialize_bucket_lift (t := h) hens
  obtain ⟨d, hd, hseg⟩ := hinv2.seg
  have hpre : (∃ v, v ≠ 0 ∧ (so_regularkey (u64 key), v) ∈ regs L) ↔
      (∃ x ∈ L2, x.2.1 = so_regularkey (u64 key) ∧ x.2.2 ≠ 0) := by
    rw [present_iff, hgrow.regs]
  have hB2 : m2.B.length = h.mem.B.length := hgrow.slots
  rcases list_delete_spec hseg hinv2.sorted hslot hsL hlt with
    ⟨hnp, hdel⟩ | ⟨m3, A, p1, kp, vp, c, vc, rest2, hvc, hdel, hL2, hB, hlen, hframe, hseg3⟩
  · refine ⟨{ h with mem := m2 }, L2, 0, ?_, ⟨hinv2, ?_, ⟨j, hj1, hsz, ?_⟩, ?_⟩,
      Or.inl ⟨rfl, fun hc => hnp (hpre.mp hc), hgrow.regs⟩⟩
    · simp only [hash_remove, hs0, if_false, hbw, Option.some_bind, hlift, hdel, if_true]
    · show h.hard_max_buckets = m2.B.length
      rw [hB2]
      exact hi.cap
    · show h.size ≤ m2.B.length
      rw [hB2]
      exact hszB
    · show h.count = _
      rw [hgrow.regs]
      exact hi.count
  · have hodd : so_regularkey (u64 key) &&& 1 = 1 := so_regularkey_odd _
    obtain ⟨hr1, hr2⟩ := regs_insert_odd
      (z := (c, so_regularkey (u64 key), vc)) hodd A rest2 (p1, kp, vp)
    have hsub : (A ++ (p1, kp, vp) :: rest2).Sublist L2 := by
      rw [hL2]
      exact List.Sublist.append_left
        (List.Sublist.cons₂ _ (List.sublist_cons_self _ _)) A
    have hmem3 : ∀ x, x ∈ L2 → x.2.1 ≠ so_regularkey (u64 key) →
        x ∈ A ++ (p1, kp, vp) :: rest2 := by
      intro x hx hne
      rw [hL2] at hx
      simp only [List.mem_append, List.mem_cons] at hx ⊢
      rcases hx with hx | hx | hx | hx
      · exact Or.inl hx
      · exact Or.inr (Or.inl hx)
      · rw [hx] at hne
        exact absurd rfl hne
      · exact Or.inr (Or.inr hx)
    have hinv3 : MInv m3 (A ++ (p1, kp, vp) :: rest2) := by
      refine ⟨⟨d, by rw [hB]; exact hd, hseg3⟩, hinv2.sorted.sublist hsub,
        by rw [hB]; exact hinv2.slots, ?_, ?_⟩
      · intro b hb
        rw [hB] at hb ⊢
        rcases hinv2.bucket b hb with h1 | ⟨a, h1, h2⟩
        · exact Or.inl h1
        · exact Or.inr ⟨a, h1, hmem3 _ h2
            (so_dummykey_ne_regular (lt_trans hb hinv2.slots))⟩
      · intro x hx
        rw [hB]
        exact hinv2.kinds x (hsub.subset hx)
    have hlen1 : (regs L).length = (regs (A ++ (p1, kp, vp) :: rest2)).length + 1 := by
      rw [← hgrow.regs, hL2, hr2, hr1]
      simp only [List.length_append, List.length_cons]
      omega
    have hcount : u64 (h.count + (2 ^ 64 - 1))
        = (regs (A ++ (p1, kp, vp) :: rest2)).length % 2 ^ 64 := by
      rw [hi.count, hlen1]
      unfold u64
      omega
    refine ⟨⟨m3, u64 (h.count + (2 ^ 64 - 1)), h.size, h.hard_max_buckets⟩, _, 1, ?_,
      ⟨hinv3, ?_, ⟨j, hj1, hsz, ?_⟩, hcount⟩,
      Or.inr ⟨rfl, vc, regs (A ++ [(p1, kp, vp)]), regs rest2, hvc, ?_, hr1⟩⟩
    · simp only [hash_remove, hs0, if_false, hbw, Option.some_bind, hlift, hdel,
        Nat.one_ne_zero]
    · show h.hard_max_buckets = m3.B.length
      rw [hB, hB2]
      exact hi.cap
    · show h.size ≤ m3.B.length
      rw [hB, hB2]
      exact hszB
    · rw [← hgrow.regs, hL2, hr2]

/-- The function `hash_get` on a table that meets the invariant: it returns
and keeps the invariant and the regular cells. -/
theorem hash_get_inv {h : hash_s} {L : List (Nat × Nat × Nat)} (hi : CInv h L) (key : Nat) :
    ∃ h1 L1 r, hash_get h key = some (h1, r) ∧ CInv h1 L1 ∧ regs L1 = regs L := by
  obtain ⟨j, hj1, hsz, hszB⟩ := hi.size
  have hlk : u64 key < 2 ^ 64 := Nat.mod_lt _ (by decide)
  have hs0 : h.size ≠ 0 := by
    rw [hsz]
    exact Nat.pos_iff_ne_zero.mp (Nat.pow_pos (by decide))
  have hslots := hi.mem.slots
  have hbs : u64 key % h.size < h.size := Nat.mod_lt _ (Nat.pos_of_ne_zero hs0)
  obtain ⟨bw, m2, L2, s, hbw, hens, hinv2, hgrow, hslot, hsL⟩ :=
    ensure_bucket hi.mem (lt_of_lt_of_le hbs hszB)
  have hlt : so_dummykey (u64 key % h.size) < so_regularkey (u64 key) := by
    rw [hsz]
    exact so_dummykey_lt_regular (u64 key) j hlk (by rw [← hsz]; omega)
  have hlift := initialize_bucket_lift (t := h) hens
  obtain ⟨d, hd, hseg⟩ := hinv2.seg
  have hB2 : m2.B.length = h.mem.B.length := hgrow.slots
  obtain ⟨A, p1, kp, vp, rest1, e1, f, hfind, _⟩ :=
    list_find_spec hseg hinv2.sorted hslot hsL hlt
  refine ⟨{ h with mem := m2 }, L2, f.ret, ?_, ⟨hinv2, ?_, ⟨j, hj1, hsz, ?_⟩, ?_⟩, hgrow.regs⟩
  · simp only [hash_get, hs0, if_false, hbw, Option.some_bind, hlift, hfind]
  · show h.hard_max_buckets = m2.B.length
    rw [hB2]
    exact hi.cap
  · show h.size ≤ m2.B.length
    rw [hB2]
    exact hszB
  · show h.count = _
    rw [hgrow.regs]
    exact hi.count

end InitialProject
/-! ## `initial_project.c`: the invariant in every reached state -/

namespace InitialProject

theorem so_dummykey_zero : so_dummykey 0 = 0 := by decide!

theorem CInv_table {pagesize : Nat} (hp : 16 ≤ pagesize) (hp2 : pagesize < 2 ^ 31) :
    CInv (table pagesize) [(0, 0, 0)] := by
  have hpos : 0 < pagesize / 8 := by omega
  have hlen : (table pagesize).mem.B.length = pagesize / 8 := by
    simp [table]
  have h0 : (table pagesize).mem.B[0]? = some ⟨some 0, false⟩ := by
    show ((List.replicate (pagesize / 8) UNINITIALIZED).set 0 _)[0]? = _
    rw [List.getElem?_set_eq_of_lt]
    · rfl
    · simp only [List.length_replicate]
      exact hpos
  have hb : ∀ b : Nat, b ≠ 0 → b < pagesize / 8 →
      (table pagesize).mem.B[b]? = some UNINITIALIZED := by
    intro b hb hlt
    show ((List.replicate (pagesize / 8) UNINITIALIZED).set 0 _)[b]? = _
    rw [List.getElem?_set_ne (Ne.symm hb), List.getElem?_replicate, if_pos hlt]
  refine ⟨⟨⟨0, h0, ⟨rfl, _, rfl, rfl, rfl, rfl, rfl⟩⟩, List.pairwise_singleton _ _, ?_, ?_, ?_⟩,
    ?_, ⟨1, le_refl _, rfl, ?_⟩, rfl⟩
  · rw [hlen]
    omega
  · intro b hblt
    rw [hlen] at hblt
    by_cases hb0 : b = 0
    · subst hb0
      right
      exact ⟨0, h0, by rw [so_dummykey_zero]; exact List.mem_singleton.mpr rfl⟩
    · exact Or.inl (hb b hb0 hblt)
  · intro x hx
    rw [List.mem_singleton.mp hx]
    right
    exact ⟨0, by rw [hlen]; exact hpos, so_dummykey_zero.symm, rfl, h0⟩
  · exact hlen.symm
  · rw [hlen]
    show 2 ≤ pagesize / 8
    omega

theorem hash_put_MSB {h h1 : hash_s} {key value r : Nat}
    (hc : hash_put h key value = some (h1, r)) : u64 key &&& MSB = 0 := by
  by_contra hne
  simp only [hash_put] at hc
  split at hc
  · cases hc
  · cases hc

/-- Every state one thread reaches from a new table meets the invariant. -/
theorem Reached.cinv {pagesize : Nat} {h : hash_s} (hp : 16 ≤ pagesize)
    (hp2 : pagesize < 2 ^ 31) (hr : Reached pagesize h) : ∃ L, CInv h L := by
  induction hr with
  | init h0 =>
    rw [hash_create_eq (by omega)] at h0
    cases h0
    exact ⟨_, CInv_table hp hp2⟩
  | @call h h1 c r _ hc ih =>
    obtain ⟨L, hL⟩ := ih
    cases c with
    | put key value =>
      obtain ⟨h2, L2, r2, e, hinv, _⟩ := hash_put_inv hL key value (hash_put_MSB hc)
      have e2 : InitialProject.call h (Call.put key value) = some (h2, r2) := e
      rw [hc] at e2
      cases e2
      exact ⟨L2, hinv⟩
    | remove key =>
      obtain ⟨h2, L2, r2, e, hinv, _⟩ := hash_remove_inv hL key
      have e2 : InitialProject.call h (Call.remove key) = some (h2, r2) := e
      rw [hc] at e2
      cases e2
      exact ⟨L2, hinv⟩
    | get key =>
      obtain ⟨h2, L2, r2, e, hinv, _⟩ := hash_get_inv hL key
      have e2 : InitialProject.call h (Call.get key) = some (h2, r2) := e
      rw [hc] at e2
      cases e2
      exact ⟨L2, hinv⟩

/-- The loop of `call_hash_callback_fn` on a list without marked cells: it
returns, with one call for every regular cell, in list order. -/
theorem callback_returns {m : Memory} :
    ∀ (L : List (Nat × Nat × Nat)) (w : marked_ptr_t) (fuel : Nat), w.flag = false →
      CSeg m w.ptr L none → L.length < fuel →
      call_hash_callback_fn.loop fuel m w
        = some ((regs L).map fun kv => (REVERSE (kv.1 ^^^ 1), kv.2)) := by
  intro L
  induction L with
  | nil =>
    intro w fuel hw hs hfuel
    obtain ⟨fuel, rfl⟩ : ∃ f, fuel = f + 1 := ⟨fuel - 1, by simp at hfuel; omega⟩
    have hnone : PTR_OF w = none := hs
    rw [call_hash_callback_fn.loop]
    simp only [hnone]
    rfl
  | cons x L ih =>
    intro w fuel hw hs hfuel
    obtain ⟨fuel, rfl⟩ : ∃ f, fuel = f + 1 := ⟨fuel - 1, by simp at hfuel; omega⟩
    obtain ⟨a, k, v⟩ := x
    obtain ⟨hq, e, he, hk, hv, hf, hr⟩ := hs
    simp only at hq he hk hv
    have hsome : PTR_OF w = some a := hq
    have hrec := ih e.next fuel hf hr (by simp at hfuel ⊢; omega)
    rw [call_hash_callback_fn.loop]
    simp only [hsome, he, Option.some_bind, MARK_OF, hw, ne_eq, not_true_eq_false, if_false,
      hrec, hk, hv]
    by_cases hodd : k &&& 1 = 0
    · rw [regs_cons_even (z := (a, k, v)) hodd]
      simp [hodd]
    · have h1 : k &&& 1 = 1 := by
        have := Nat.and_one_is_mod k
        omega
      rw [regs_cons_odd (z := (a, k, v)) h1]
      simp [h1]

/-- The cells `cellsFrom` collects on a list without marked cells. -/
theorem cellsFrom_spec {m : Memory} :
    ∀ (L : List (Nat × Nat × Nat)) (w : marked_ptr_t) (fuel : Nat),
      CSeg m w.ptr L none → L.length < fuel →
      ∃ es, cellsFrom fuel m w = some es ∧
        es.map (fun e => (e.key, e.value)) = L.map Prod.snd ∧
        (es.filter isRegular).map (fun e => (e.key, e.value)) = regs L := by
  intro L
  induction L with
  | nil =>
    intro w fuel hs hfuel
    obtain ⟨fuel, rfl⟩ : ∃ f, fuel = f + 1 := ⟨fuel - 1, by simp at hfuel; omega⟩
    have hnone : PTR_OF w = none := hs
    refine ⟨[], ?_, rfl, rfl⟩
    rw [cellsFrom]
    simp only [hnone]
  | cons x L ih =>
    intro w fuel hs hfuel
    obtain ⟨fuel, rfl⟩ : ∃ f, fuel = f + 1 := ⟨fuel - 1, by simp at hfuel; omega⟩
    obtain ⟨a, k, v⟩ := x
    obtain ⟨hq, e, he, hk, hv, hf, hr⟩ := hs
    simp only at hq he hk hv
    have hsome : PTR_OF w = some a := hq
    obtain ⟨es, hes, hmap, hreg⟩ := ih e.next fuel hr (by simp at hfuel ⊢; omega)
    refine ⟨e :: es, ?_, ?_, ?_⟩
    · rw [cellsFrom]
      simp only [hsome, he, Option.some_bind, hes]
    · simp only [List.map_cons, hmap, hk, hv]
    · by_cases hodd : k &&& 1 = 0
      · have h1 : ¬ isRegular e = true := by
          unfold isRegular
          simp only [hk, hodd, ne_eq, not_true_eq_false, decide_False, Bool.false_eq_true,
            not_false_eq_true]
        rw [List.filter_cons_of_neg h1, hreg, regs_cons_even (z := (a, k, v)) hodd]
      · have h1 : isRegular e = true := by
          unfold isRegular
          rw [hk]
          exact decide_eq_true hodd
        have h2 : k &&& 1 = 1 := by
          have := Nat.and_one_is_mod k
          omega
        rw [List.filter_cons_of_pos h1, List.map_cons, hreg, regs_cons_odd (z := (a, k, v)) h2,
          hk, hv]

/-- On a table that meets the invariant, the cells of the list are those of
the invariant and `call_hash_callback_fn` returns one call for every regular
cell, in list order. -/
theorem CInv.cells {h : hash_s} {L : List (Nat × Nat × Nat)} (hi : CInv h L) :
    ∃ es, listCells h = some es ∧
      (es.filter isRegular).map (fun e => (e.key, e.value)) = regs L ∧
      call_hash_callback_fn h
        = some ((es.filter isRegular).map fun e => (REVERSE (e.key ^^^ 1), e.value)) := by
  obtain ⟨d, hd, hseg⟩ := hi.mem.seg
  have hlen : L.length < h.mem.cells.length + 1 := by
    have := hseg.length_bound
    omega
  obtain ⟨es, hes, _, hreg⟩ := cellsFrom_spec L ⟨some d, false⟩ (h.mem.cells.length + 1) hseg hlen
  have hcb := callback_returns L ⟨some d, false⟩ (h.mem.cells.length + 1) rfl hseg hlen
  refine ⟨es, ?_, hreg, ?_⟩
  · simp only [listCells, hd, Option.some_bind, hes]
  · simp only [call_hash_callback_fn, hd, Option.some_bind, hcb]
    rw [← hreg, List.map_map]
    rfl

/-- The sort keys of the regular cells ascend; they ascend strictly when no
regular cell carries the payload `NULL`. -/
theorem regs_sorted {L : List (Nat × Nat × Nat)} (hs : L.Pairwise before) :
    (regs L).Pairwise (fun x y => x.1 ≤ y.1) ∧
    ((∀ kv ∈ regs L, kv.2 ≠ 0) → (regs L).Pairwise (fun x y => x.1 < y.1)) := by
  constructor
  · unfold regs
    rw [List.pairwise_map]
    exact (hs.filter _).imp (fun {x y} hxy => before_le hxy)
  · intro hnn
    unfold regs at hnn ⊢
    rw [List.pairwise_map]
    refine (hs.filter _).imp_of_mem ?_
    intro x y _ hy hxy
    rcases hxy with h1 | ⟨_, h2⟩
    · exact h1
    · exact absurd h2 (hnn y.2 (List.mem_map_of_mem _ hy))

theorem MSB_clear_of_lt {k : Nat} (hk : k < 2 ^ 63) : u64 k &&& MSB = 0 := by
  have hu : u64 k = k := Nat.mod_eq_of_lt (lt_trans hk (by decide))
  rw [hu]
  apply Nat.eq_of_testBit_eq
  intro i
  rw [Nat.testBit_and, MSB_eq, Nat.testBit_two_pow, Nat.zero_testBit]
  by_cases h63 : 63 = i
  · subst h63
    rw [Nat.testBit_lt_two_pow hk]
    rfl
  · simp [h63]

/-- In every reached state `hash_put` of a key with the top bit clear returns,
0 or 1. -/
theorem hash_put_returns {pagesize : Nat} {h : hash_s} (hp : 16 ≤ pagesize)
    (hp2 : pagesize < 2 ^ 31) (hr : Reached pagesize h) (key value : Nat) (hk : key < 2 ^ 63) :
    ∃ h1 r, hash_put h key value = some (h1, r) ∧ (r = 0 ∨ r = 1) := by
  obtain ⟨L, hL⟩ := hr.cinv hp hp2
  obtain ⟨h1, _, r, e, _, hcase⟩ := hash_put_inv hL key value (MSB_clear_of_lt hk)
  refine ⟨h1, r, e, ?_⟩
  rcases hcase with ⟨hr0, _⟩ | ⟨hr1, _⟩
  · exact Or.inl hr0
  · exact Or.inr hr1

end InitialProject
/-! ## `initial_project.c`: element counter, hard cap and growth threshold -/

namespace InitialProject

/-- The field `count` after a run: the number it held before, plus the calls
of `hash_put` that returned 1, minus the calls of `hash_remove` that returned
1, in 64 bits. -/
theorem run_count (cs : List Call) :
    ∀ (h h1 : hash_s) (rs : List Nat), run h cs = some (h1, rs) →
      u64 (h1.count + removesDone cs rs) = u64 (h.count + putsDone cs rs) := by
  induction cs with
  | nil =>
    intro h h1 rs hrun
    simp only [run, Option.some.injEq, Prod.mk.injEq] at hrun
    rw [← hrun.1, ← hrun.2]
    rfl
  | cons c cs ih =>
    intro h h1 rs hrun
    simp only [run, Option.bind_eq_some] at hrun
    obtain ⟨r, hc, r2, hr2, e⟩ := hrun
    cases e
    have h2 := ih r.1 r2.1 r2.2 hr2
    obtain ⟨h', x⟩ := r
    simp only [u64] at h2 ⊢
    cases c with
    | put key value =>
      obtain ⟨_, _, f⟩ := hash_put_spec hc
      simp only [putsDone, removesDone]
      rcases f with ⟨f0, f1, _⟩ | ⟨f0, f1, _⟩
      · subst f0
        simp only [f1] at h2
        simp only [Nat.zero_ne_one, if_false]
        omega
      · subst f0
        simp only [f1, u64] at h2
        simp only [if_true]
        omega
    | remove key =>
      obtain ⟨_, _, _, f⟩ := hash_remove_spec hc
      simp only [putsDone, removesDone]
      rcases f with ⟨f0, f1⟩ | ⟨f0, f1⟩
      · subst f0
        simp only [f1] at h2
        simp only [Nat.zero_ne_one, if_false]
        omega
      · subst f0
        simp only [f1, u64] at h2
        simp only [if_true]
        omega
    | get key =>
      obtain ⟨_, _, _, f⟩ := hash_get_spec hc
      simp only [putsDone, removesDone]
      simp only [f] at h2
      omega

/-- The table after `hash_put(h, 1, 1), ..., hash_put(h, 9, 9)`. -/
theorem nine_puts :
    (run (table 4096) (putsUpTo 9)).map (fun r => (r.2, r.1.count, r.1.size, hash_count r.1))
      = some ([1, 1, 1, 1, 1, 1, 1, 1, 1], 9, 2, 2) := by decide!

/-- The table after `hash_put(h, 1, 1), ..., hash_put(h, 10, 10)`. -/
theorem ten_puts :
    (run (table 4096) (putsUpTo 10)).map (fun r => (r.2, r.1.count, r.1.size, hash_count r.1))
      = some ([1, 1, 1, 1, 1, 1, 1, 1, 1, 1], 10, 2, 2) := by decide!

/-- The table after `hash_put(h, 1, 1), ..., hash_put(h, 11, 11)`. -/
theorem eleven_puts :
    (run (table 4096) (putsUpTo 11)).map (fun r => (r.2, r.1.count, r.1.size, hash_count r.1))
      = some ([1, 1, 1, 1, 1, 1, 1, 1, 1, 1, 1], 11, 4, 4) := by decide!

/-- C14: `hash_count(h)` returns the field `size`, the number of buckets in
use, which is at least 2. In every state one thread reaches from a new table
the field `count` is the number of regular cells of the list, and after every
run on a new table it is the number of `hash_put` calls that returned 1 minus
the number of `hash_remove` calls that returned 1, in 64 bits. `hash_count`
returns 2 for the new table, which holds no element, 2 after nine calls of
`hash_put` that returned 1, and 4 after eleven. -/
theorem C14_hash_count :
    (∀ h : hash_s, hash_count h = h.size) ∧
    (∀ (pagesize : Nat) (cs : List Call) (h0 h1 : hash_s) (rs : List Nat),
      16 ≤ pagesize → pagesize < 2 ^ 31 →
      hash_create 0 pagesize = some h0 → run h0 cs = some (h1, rs) →
      u64 (h1.count + removesDone cs rs) = u64 (putsDone cs rs) ∧ 2 ≤ hash_count h1 ∧
      ∃ es, listCells h1 = some es ∧ h1.count = (es.filter isRegular).length % 2 ^ 64) ∧
    (∃ h0, hash_create 0 4096 = some h0 ∧ h0.count = 0 ∧ hash_count h0 = 2 ∧
      (run h0 (putsUpTo 9)).map (fun r => (r.2, r.1.count, r.1.size, hash_count r.1))
        = some ([1, 1, 1, 1, 1, 1, 1, 1, 1], 9, 2, 2) ∧
      (run h0 (putsUpTo 11)).map (fun r => (r.2, r.1.count, r.1.size, hash_count r.1))
        = some ([1, 1, 1, 1, 1, 1, 1, 1, 1, 1, 1], 11, 4, 4)) := by
  refine ⟨fun _ => rfl, ?_, ⟨table 4096, hash_create_eq (by decide), rfl, rfl, nine_puts,
    eleven_puts⟩⟩
  intro pagesize cs h0 h1 rs hp hp2 hc hrun
  have h := run_count cs h0 h1 rs hrun
  have e : h0.count = 0 := by
    rw [hash_create_eq (by omega)] at hc
    cases hc
    rfl
  rw [e, Nat.zero_add] at h
  have hr : Reached pagesize h1 := (Reached.init hc).of_run hrun
  obtain ⟨L, hL⟩ := hr.cinv hp hp2
  obtain ⟨es, hes, hreg, _⟩ := hL.cells
  refine ⟨h, (hr.scalars hp hp2).2.2.1, es, hes, ?_⟩
  rw [hL.count, ← hreg, List.length_map]

/-- Witness of C14: a run of three calls on a new table. -/
theorem C14_hash_count_witness :
    (16 ≤ 4096 ∧ 4096 < 2 ^ 31 ∧ hash_create 0 4096 = some (table 4096) ∧
      (run (table 4096) [Call.put 1 1, Call.put 2 2, Call.remove 1]).isSome = true) ∧
    ∀ h1 rs, run (table 4096) [Call.put 1 1, Call.put 2 2, Call.remove 1] = some (h1, rs) →
      u64 (h1.count + removesDone [Call.put 1 1, Call.put 2 2, Call.remove 1] rs)
        = u64 (putsDone [Call.put 1 1, Call.put 2 2, Call.remove 1] rs) ∧ 2 ≤ hash_count h1 ∧
      ∃ es, listCells h1 = some es ∧ h1.count = (es.filter isRegular).length % 2 ^ 64 :=
  ⟨⟨by decide, by decide, hash_create_eq (by decide), by decide!⟩,
    fun h1 rs hrun => C14_hash_count.2.1 4096 _ (table 4096) h1 rs (by decide) (by decide)
      (hash_create_eq (by decide)) hrun⟩

/-- C16: in every state one thread reaches from a new table, in a program
whose page size is at least 16 and fits an `int`, `size` is at most
`hard_max_buckets`, the bucket array has `hard_max_buckets` slots, so that the
bucket index of every key lies inside it; `hash_put` of a key with the top bit
clear returns 0 or 1, and a `hash_put` that returns 1 while twice the size
exceeds `hard_max_buckets` increments `count` and leaves `size` as it is. -/
theorem C16_hard_cap (pagesize : Nat) (h : hash_s) (hp : 16 ≤ pagesize)
    (hp2 : pagesize < 2 ^ 31) (hr : Reached pagesize h) :
    h.size ≤ h.hard_max_buckets ∧ h.mem.B.length = h.hard_max_buckets ∧
    (∀ key, u64 key % h.size < h.mem.B.length) ∧
    (∀ key value, key < 2 ^ 63 →
      ∃ h1 r, hash_put h key value = some (h1, r) ∧ (r = 0 ∨ r = 1) ∧
        h1.size ≤ h1.hard_max_buckets) ∧
    (∀ key value h1, hash_put h key value = some (h1, 1) →
      2 * h.size > h.hard_max_buckets → h1.size = h.size ∧ h1.count = u64 (h.count + 1)) := by
  obtain ⟨e1, e2, e3, e4⟩ := hr.scalars hp hp2
  refine ⟨e4, e2, fun key => ?_, fun key value hk => ?_, fun key value h1 hput hcap => ?_⟩
  · rw [e2]
    exact lt_of_lt_of_le (Nat.mod_lt _ (by omega)) e4
  · obtain ⟨h1, r, hput, hr01⟩ := hash_put_returns hp hp2 hr key value hk
    have hr1 : Reached pagesize h1 := @Reached.call pagesize h h1 (Call.put key value) r hr hput
    exact ⟨h1, r, hput, hr01, (hr1.scalars hp hp2).2.2.2⟩
  · obtain ⟨_, _, f⟩ := hash_put_spec hput
    rcases f with ⟨f0, _, _⟩ | ⟨_, f1, f2⟩
    · cases f0
    · refine ⟨?_, f1⟩
      rw [f2, if_neg]
      intro hc
      have hlt : 2 * h.size < 2 ^ 64 := by omega
      have e : u64 (2 * h.size) = 2 * h.size := Nat.mod_eq_of_lt hlt
      rw [e] at hc
      omega

theorem capped_run :
    run (table 32) (putsUpTo 11) = some (capped, [1, 1, 1, 1, 1, 1, 1, 1, 1, 1, 1]) := by
  decide!

theorem tenth_run :
    run (table 4096) (putsUpTo 10) = some (tenth, [1, 1, 1, 1, 1, 1, 1, 1, 1, 1]) := by
  decide!

/-- Witness of C16: the table of a program with page size 32 after eleven
insertions has four buckets in four slots, and the twelfth insertion returns 1
and leaves four buckets. -/
theorem C16_hard_cap_witness :
    16 ≤ 32 ∧ 32 < 2 ^ 31 ∧ Reached 32 capped ∧
    (hash_put capped 12 12).map (fun r => (r.2, r.1.size, r.1.count)) = some (1, 4, 12) ∧
    2 * capped.size > capped.hard_max_buckets ∧
    (capped.size ≤ capped.hard_max_buckets ∧ capped.mem.B.length = capped.hard_max_buckets ∧
    (∀ key, u64 key % capped.size < capped.mem.B.length) ∧
    (∀ key value, key < 2 ^ 63 →
      ∃ h1 r, hash_put capped key value = some (h1, r) ∧ (r = 0 ∨ r = 1) ∧
        h1.size ≤ h1.hard_max_buckets) ∧
    (∀ key value h1, hash_put capped key value = some (h1, 1) →
      2 * capped.size > capped.hard_max_buckets →
      h1.size = capped.size ∧ h1.count = u64 (capped.count + 1))) :=
  ⟨by decide, by decide, (Reached.init (hash_create_eq (by decide))).of_run capped_run,
    by decide!, by decide!,
    C16_hard_cap 32 capped (by decide) (by decide)
      ((Reached.init (hash_create_eq (by decide))).of_run capped_run)⟩

/-- Counterexample to C17: the nine calls `hash_put(h, 1, 1), ...,
hash_put(h, 9, 9)` on a new table with two of 512 buckets in use all return 1
and leave nine elements, more than `MAX_LOAD` times the size, in two buckets. -/
theorem C17_nine_puts :
    ∃ h0 h9, hash_create 0 4096 = some h0 ∧ h0.size = 2 ∧ h0.hard_max_buckets = 512 ∧
      run h0 (putsUpTo 9) = some (h9, [1, 1, 1, 1, 1, 1, 1, 1, 1]) ∧ h9.count = 9 ∧
      h9.count > MAX_LOAD * h0.size ∧ h9.size = 2 := by
  have h := nine_puts
  simp only [Option.map_eq_some'] at h
  obtain ⟨r, hr, e⟩ := h
  obtain ⟨h9, rs⟩ := r
  simp only [Prod.mk.injEq] at e
  obtain ⟨e1, e2, e3, _⟩ := e
  subst e1
  refine ⟨table 4096, h9, hash_create_eq (by decide), rfl, rfl, hr, e2, ?_, e3⟩
  rw [e2]
  decide

/-- C17, amended: in every state one thread reaches from a new table, in a
program whose page size is at least 16 and fits an `int`, a `hash_put` that
returns 1 increments `count`, and it doubles `size` exactly when the count
before the insertion is at least `(MAX_LOAD + 1) * size` and twice the size is
at most `hard_max_buckets`. Ten insertions into a new table leave two buckets,
eleven leave four. -/
theorem C17_growth_threshold (pagesize : Nat) (h : hash_s) (hp : 16 ≤ pagesize)
    (hp2 : pagesize < 2 ^ 31) (hr : Reached pagesize h) :
    (∀ key value h1, hash_put h key value = some (h1, 1) →
      h1.count = u64 (h.count + 1) ∧
      h1.size = if (MAX_LOAD + 1) * h.size ≤ h.count ∧ 2 * h.size ≤ h.hard_max_buckets
        then 2 * h.size else h.size) ∧
    (run (table 4096) (putsUpTo 10)).map (fun r => (r.2, r.1.count, r.1.size, hash_count r.1))
      = some ([1, 1, 1, 1, 1, 1, 1, 1, 1, 1], 10, 2, 2) ∧
    (run (table 4096) (putsUpTo 11)).map (fun r => (r.2, r.1.count, r.1.size, hash_count r.1))
      = some ([1, 1, 1, 1, 1, 1, 1, 1, 1, 1, 1], 11, 4, 4) := by
  obtain ⟨e1, e2, e3, e4⟩ := hr.scalars hp hp2
  refine ⟨fun key value h1 hput => ?_, ten_puts, eleven_puts⟩
  obtain ⟨_, _, f⟩ := hash_put_spec hput
  rcases f with ⟨f0, _, _⟩ | ⟨_, f1, f2⟩
  · cases f0
  · refine ⟨f1, ?_⟩
    have hlt : 2 * h.size < 2 ^ 64 := by omega
    have e : u64 (2 * h.size) = 2 * h.size := Nat.mod_eq_of_lt hlt
    have hdiv : h.count / h.size > MAX_LOAD ↔ (MAX_LOAD + 1) * h.size ≤ h.count :=
      Nat.le_div_iff_mul_le (by omega)
    rw [f2, e]
    simp only [hdiv]

/-- Witness of C17, amended: the eleventh insertion into a new table. -/
theorem C17_growth_threshold_witness :
    16 ≤ 4096 ∧ 4096 < 2 ^ 31 ∧ Reached 4096 tenth ∧ tenth.count = 10 ∧ tenth.size = 2 ∧
    (hash_put tenth 11 11).map (fun r => (r.2, r.1.size, r.1.count)) = some (1, 4, 11) ∧
    ∀ key value h1, hash_put tenth key value = some (h1, 1) →
      h1.count = u64 (tenth.count + 1) ∧
      h1.size = if (MAX_LOAD + 1) * tenth.size ≤ tenth.count ∧
          2 * tenth.size ≤ tenth.hard_max_buckets
        then 2 * tenth.size else tenth.size :=
  ⟨by decide, by decide, (Reached.init (hash_create_eq (by decide))).of_run tenth_run,
    by decide!, by decide!, by decide!,
    (C17_growth_threshold 4096 tenth (by decide) (by decide)
      ((Reached.init (hash_create_eq (by decide))).of_run tenth_run)).1⟩

end InitialProject
namespace InitialProject

/-- The runs on a new table that show how `hash_put` and `hash_remove` treat a
key stored with the payload 5 and a key stored with the payload `NULL`. -/
theorem payload_runs :
    (run (table 4096) [Call.put 2 5, Call.put 2 7]).map
        (fun r => (r.2, r.1.count, (listCells r.1).map (List.map fun e => (e.key, e.value))))
      = some ([1, 0], 1, some [(0, 0), (so_regularkey 2, 5)]) ∧
    (run (table 4096) [Call.put 2 5, Call.remove 2]).map
        (fun r => (r.2, r.1.count, (listCells r.1).map (List.map fun e => (e.key, e.value))))
      = some ([1, 1], 0, some [(0, 0)]) ∧
    (run (table 4096) [Call.put 2 0, Call.put 2 7]).map
        (fun r => (r.2, r.1.count, (listCells r.1).map (List.map fun e => (e.key, e.value))))
      = some ([1, 1], 2, some [(0, 0), (so_regularkey 2, 7), (so_regularkey 2, 0)]) ∧
    (run (table 4096) [Call.put 2 0, Call.put 2 0]).map
        (fun r => (r.2, call_hash_callback_fn r.1))
      = some ([1, 1], some [(2, 0), (2, 0)]) ∧
    (run (table 4096) [Call.put 2 0, Call.remove 2]).map
        (fun r => (r.2, r.1.count, (listCells r.1).map (List.map fun e => (e.key, e.value))))
      = some ([1, 0], 1, some [(0, 0), (so_regularkey 2, 0)]) :=
  ⟨by decide!, by decide!, by decide!, by decide!, by decide!⟩

/-- After `hash_put(h, k, p)` has returned 1 in a state that meets the
invariant: with `p` other than `NULL` a second `hash_put` of `k` returns 0 and
`hash_remove` returns 1; with `p` equal to `NULL` a second `hash_put` of `k`
returns 1 and `hash_remove` returns 0. -/
theorem put_twice {h h1 : hash_s} {L : List (Nat × Nat × Nat)} (hL : CInv h L) {k p : Nat}
    (q : Nat) (hk : k < 2 ^ 63) (hput : hash_put h k p = some (h1, 1)) :
    (p ≠ 0 → (∃ h2 es1 es2, hash_put h1 k q = some (h2, 0) ∧ h2.count = h1.count ∧
        listCells h1 = some es1 ∧ listCells h2 = some es2 ∧
        (es2.filter isRegular).map (fun e => (e.key, e.value))
          = (es1.filter isRegular).map (fun e => (e.key, e.value))) ∧
      ∃ h3, hash_remove h1 k = some (h3, 1)) ∧
    (p = 0 → (∃ h2, hash_put h1 k q = some (h2, 1)) ∧ ∃ h3, hash_remove h1 k = some (h3, 0)) := by
  have hu : u64 k = k := Nat.mod_eq_of_lt (lt_trans hk (by decide))
  have hmsb : u64 k &&& MSB = 0 := hash_put_MSB hput
  obtain ⟨h1', L1, r, e, hL1, hcase⟩ := hash_put_inv hL k p hmsb
  rw [hput] at e
  cases e
  rw [hu] at hcase
  rcases hcase with ⟨h0, _⟩ | ⟨_, hnp, X, Y, hX, hX1⟩
  · cases h0
  obtain ⟨h2, L2, r2, e2, hL2, hcase2⟩ := hash_put_inv hL1 k q hmsb
  obtain ⟨h3, L3, r3, e3, hL3, hcase3⟩ := hash_remove_inv hL1 k
  rw [hu] at hcase2 hcase3
  constructor
  · intro hp
    have hpres : ∃ v, v ≠ 0 ∧ (so_regularkey k, v) ∈ regs L1 :=
      ⟨p, hp, by rw [hX1]; simp⟩
    constructor
    · rcases hcase2 with ⟨hr, _, hregs⟩ | ⟨_, hn, _⟩
      · subst hr
        obtain ⟨es1, hes1, hreg1, _⟩ := hL1.cells
        obtain ⟨es2, hes2, hreg2, _⟩ := hL2.cells
        refine ⟨h2, es1, es2, e2, ?_, hes1, hes2, ?_⟩
        · rw [hL2.count, hL1.count, hregs]
        · rw [hreg2, hreg1, hregs]
      · exact absurd hpres hn
    · rcases hcase3 with ⟨_, hn, _⟩ | ⟨hr, _⟩
      · exact absurd hpres hn
      · subst hr
        exact ⟨h3, e3⟩
  · intro hp
    subst hp
    have habs : ¬ ∃ v, v ≠ 0 ∧ (so_regularkey k, v) ∈ regs L1 := by
      rintro ⟨v, hv, hm⟩
      rw [hX1] at hm
      simp only [List.mem_append, List.mem_cons, Prod.mk.injEq] at hm
      rcases hm with hm | ⟨_, hm⟩ | hm
      · exact hnp ⟨v, hv, by rw [hX]; simp [hm]⟩
      · exact hv hm
      · exact hnp ⟨v, hv, by rw [hX]; simp [hm]⟩
    constructor
    · rcases hcase2 with ⟨_, hpr, _⟩ | ⟨hr, _⟩
      · exact absurd hpr habs
      · subst hr
        exact ⟨h2, e2⟩
    · rcases hcase3 with ⟨hr, _⟩ | ⟨_, v, X', Y', hv, hm, _⟩
      · subst hr
        exact ⟨h3, e3⟩
      · exact absurd ⟨v, hv, by rw [hm]; simp⟩ habs

/-- C13: in every state one thread reaches from a new table and for every key
`k` with the top bit clear, after `hash_put(h, k, p)` has returned 1 with a
payload `p` other than `NULL`, `hash_put(h, k, q)` returns 0 and leaves
`count` and the regular cells of the list, and `hash_remove(h, k)` returns 1;
after `hash_put(h, k, NULL)` has returned 1, `hash_put(h, k, q)` returns 1,
for every `q`, and `hash_remove(h, k)` returns 0. On a new table the second
`hash_put` of key 2 after `hash_put(h, 2, NULL)` leaves two cells with the
sort key of 2 in the list. -/
theorem C13_null_payload :
    (∀ (pagesize : Nat) (h h1 : hash_s) (k p q : Nat), 16 ≤ pagesize → pagesize < 2 ^ 31 →
      Reached pagesize h → k < 2 ^ 63 → hash_put h k p = some (h1, 1) →
      (p ≠ 0 → (∃ h2 es1 es2, hash_put h1 k q = some (h2, 0) ∧ h2.count = h1.count ∧
          listCells h1 = some es1 ∧ listCells h2 = some es2 ∧
          (es2.filter isRegular).map (fun e => (e.key, e.value))
            = (es1.filter isRegular).map (fun e => (e.key, e.value))) ∧
        ∃ h3, hash_remove h1 k = some (h3, 1)) ∧
      (p = 0 → (∃ h2, hash_put h1 k q = some (h2, 1)) ∧
        ∃ h3, hash_remove h1 k = some (h3, 0))) ∧
    (∃ h0, hash_create 0 4096 = some h0 ∧
      (run h0 [Call.put 2 0, Call.put 2 7]).map
          (fun r => (r.2, r.1.count, (listCells r.1).map (List.map fun e => (e.key, e.value))))
        = some ([1, 1], 2, some [(0, 0), (so_regularkey 2, 7), (so_regularkey 2, 0)]) ∧
      (run h0 [Call.put 2 0, Call.remove 2]).map
          (fun r => (r.2, r.1.count, (listCells r.1).map (List.map fun e => (e.key, e.value))))
        = some ([1, 0], 1, some [(0, 0), (so_regularkey 2, 0)])) := by
  refine ⟨?_, table 4096, hash_create_eq (by decide), payload_runs.2.2.1, payload_runs.2.2.2.2⟩
  intro pagesize h h1 k p q hp hp2 hr hk hput
  obtain ⟨L, hL⟩ := hr.cinv hp hp2
  exact put_twice hL q hk hput

/-- Witness of C13: key 2 with the payloads 5 and `NULL` on a new table. -/
theorem C13_null_payload_witness :
    (16 ≤ 4096 ∧ 4096 < 2 ^ 31 ∧ Reached 4096 (table 4096) ∧ 2 < 2 ^ 63 ∧
      (hash_put (table 4096) 2 5).map Prod.snd = some 1 ∧
      (hash_put (table 4096) 2 0).map Prod.snd = some 1) ∧
    (∀ h1, hash_put (table 4096) 2 5 = some (h1, 1) →
      ∃ h3, hash_remove h1 2 = some (h3, 1)) ∧
    (∀ h1, hash_put (table 4096) 2 0 = some (h1, 1) →
      ∃ h2, hash_put h1 2 7 = some (h2, 1)) :=
  ⟨⟨by decide, by decide, Reached.init (hash_create_eq (by decide)), by decide, by decide!,
      by decide!⟩,
    fun h1 hput => ((C13_null_payload.1 4096 (table 4096) h1 2 5 7 (by decide) (by decide)
      (Reached.init (hash_create_eq (by decide))) (by decide) hput).1 (by decide)).2,
    fun h1 hput => ((C13_null_payload.1 4096 (table 4096) h1 2 0 7 (by decide) (by decide)
      (Reached.init (hash_create_eq (by decide))) (by decide) hput).2 rfl).1⟩

/-- C15: the sort key of every key with the top bit clear is odd, and
`REVERSE` of that sort key with its lowest bit cleared is the key; the sort
key of a bucket is even. In every state one thread reaches from a new table
`call_hash_callback_fn` returns, and its calls are the cells of the list with
an odd sort key, one call for each, in list order, which is the ascending
order of the sort keys; each call passes the key the cell was put with, and no
key is passed twice when no regular cell carries the payload `NULL`. After
`hash_put(h, 2, NULL)` has been called twice on a new table, both calls
returning 1, the callback is called twice with the key 2. -/
theorem C15_iteration :
    (∀ k, k < 2 ^ 63 → so_regularkey k &&& 1 = 1 ∧ REVERSE (so_regularkey k ^^^ 1) = k) ∧
    (∀ b, b < 2 ^ 63 → so_dummykey b &&& 1 = 0) ∧
    (∀ (pagesize : Nat) (h : hash_s), 16 ≤ pagesize → pagesize < 2 ^ 31 →
      Reached pagesize h →
      ∃ es, listCells h = some es ∧
        call_hash_callback_fn h
          = some ((es.filter isRegular).map fun e => (REVERSE (e.key ^^^ 1), e.value)) ∧
        (es.filter isRegular).Pairwise (fun x y => x.key ≤ y.key) ∧
        (∀ e ∈ es.filter isRegular,
          ∃ k, k < 2 ^ 63 ∧ e.key = so_regularkey k ∧ REVERSE (e.key ^^^ 1) = k) ∧
        ((∀ e ∈ es.filter isRegular, e.value ≠ 0) →
          (es.filter isRegular).Pairwise (fun x y => x.key < y.key))) ∧
    (run (table 4096) (putsUpTo 9)).map (fun r => call_hash_callback_fn r.1)
      = some (some [(8, 8), (4, 4), (2, 2), (6, 6), (1, 1), (9, 9), (5, 5), (3, 3), (7, 7)]) ∧
    (run (table 4096) [Call.put 2 0, Call.put 2 0]).map
        (fun r => (r.2, call_hash_callback_fn r.1))
      = some ([1, 1], some [(2, 0), (2, 0)]) := by
  refine ⟨REVERSE_so_regularkey, so_dummykey_even, ?_, by decide!, payload_runs.2.2.2.1⟩
  intro pagesize h hp hp2 hr
  obtain ⟨L, hL⟩ := hr.cinv hp hp2
  obtain ⟨es, hes, hreg, hcb⟩ := hL.cells
  obtain ⟨hs1, hs2⟩ := regs_sorted hL.mem.sorted
  rw [← hreg, List.pairwise_map] at hs1 hs2
  refine ⟨es, hes, hcb, hs1, ?_, ?_⟩
  · intro e he
    have hm : (e.key, e.value) ∈ regs L := by
      rw [← hreg]
      exact List.mem_map_of_mem (fun e => (e.key, e.value)) he
    obtain ⟨hodd, a, ha⟩ := mem_regs.mp hm
    rcases hL.mem.kinds _ ha with ⟨k, hk, hkey⟩ | ⟨b, hb, hkey, _⟩
    · simp only at hkey
      exact ⟨k, hk, hkey, by rw [hkey]; exact (REVERSE_so_regularkey k hk).2⟩
    · simp only at hkey
      rw [hkey, so_dummykey_even b (lt_trans hb hL.mem.slots)] at hodd
      exact absurd rfl hodd
  · intro hnn
    apply hs2
    intro kv hkv
    obtain ⟨e, he, rfl⟩ := List.mem_map.mp hkv
    exact hnn e he

/-- Witness of C15: the key 12345, and the table after ten insertions. -/
theorem C15_iteration_witness :
    (12345 < 2 ^ 63 ∧ so_regularkey 12345 &&& 1 = 1 ∧
      REVERSE (so_regularkey 12345 ^^^ 1) = 12345) ∧
    (16 ≤ 4096 ∧ 4096 < 2 ^ 31 ∧ Reached 4096 tenth ∧
      ∃ es, listCells tenth = some es ∧
        call_hash_callback_fn tenth
          = some ((es.filter isRegular).map fun e => (REVERSE (e.key ^^^ 1), e.value)) ∧
        (es.filter isRegular).Pairwise (fun x y => x.key ≤ y.key)) :=
  ⟨⟨by decide, C15_iteration.1 12345 (by decide)⟩, by decide, by decide,
    (Reached.init (hash_create_eq (by decide))).of_run tenth_run,
    (C15_iteration.2.2.1 4096 tenth (by decide) (by decide)
      ((Reached.init (hash_create_eq (by decide))).of_run tenth_run)).imp
      (fun _ hx => ⟨hx.1, hx.2.1, hx.2.2.1⟩)⟩

end InitialProject
/-! ## Bit reversal and key encoding, continued -/

namespace LockFreeHashTable

/-- The method `Reverse` undoes itself on 32-bit words. -/
theorem Reverse_Reverse {x : Nat} (hx : x < 2 ^ 32) : Reverse (Reverse x) = x := by
  apply Nat.eq_of_testBit_eq
  intro i
  rw [Reverse_testBit, Reverse_testBit]
  by_cases h : i ≤ 31
  · have h1 : 31 - i ≤ 31 := by omega
    have h2 : 31 - (31 - i) = i := by omega
    simp [h, h1, h2]
  · have h3 : x.testBit i = false :=
      Nat.testBit_lt_two_pow (lt_of_lt_of_le hx (Nat.pow_le_pow_right (by decide) (by omega)))
    simp [h, h3]

/-- The method `Reverse` is injective on 32-bit words. -/
theorem Reverse_inj {x y : Nat} (hx : x < 2 ^ 32) (hy : y < 2 ^ 32)
    (h : Reverse x = Reverse y) : x = y := by
  rw [← Reverse_Reverse hx, ← Reverse_Reverse hy, h]

theorem MakeSentinelKey_lt_MakeNormalKey (v k : Nat) :
    MakeSentinelKey (HashFunction v &&& (2 ^ k - 1)) < MakeNormalKey v := by
  rw [Nat.and_pow_two_sub_one_eq_mod]
  have h := sentinelItem_lt_normalItem v k
  rw [KeyValue.lt_iff] at h
  have h2 := MakeSentinelKey_even (HashFunction v % 2 ^ k)
  have h3 := MakeNormalKey_odd v
  rcases h with h | ⟨h, _⟩
  · exact h
  · have e : MakeSentinelKey (HashFunction v % 2 ^ k) = MakeNormalKey v := h
    omega

theorem and_one_eq_mod (x : Nat) : x &&& 1 = x % 2 :=
  Nat.and_pow_two_sub_one_eq_mod x 1

/-- The source's keys and the keys of the specification agree exactly on the
words whose bits 24 to 30 are clear. -/
theorem MakeSentinelKey_eq_spec (b : Nat) :
    MakeSentinelKey b = spec_sentinel_key b ↔ b &&& MASK = b &&& spec_MASK := by
  unfold MakeSentinelKey spec_sentinel_key
  constructor
  · intro h
    refine Reverse_inj ?_ ?_ h
    · exact lt_of_le_of_lt Nat.and_le_right (by decide)
    · exact lt_of_le_of_lt Nat.and_le_right (by decide)
  · intro h
    rw [h]

theorem MakeNormalKey_eq_spec (v : Nat) :
    MakeNormalKey v = spec_normal_key v ↔
      HashFunction v &&& MASK = HashFunction v &&& spec_MASK := by
  unfold MakeNormalKey spec_normal_key
  have hT : spec_TOP = HIGH := by decide
  rw [hT]
  constructor
  · intro h
    have h1 : (HashFunction v &&& MASK) ||| HIGH = (HashFunction v &&& spec_MASK) ||| HIGH := by
      refine Reverse_inj ?_ ?_ h
      · exact Nat.or_lt_two_pow (lt_of_le_of_lt Nat.and_le_right (by decide)) (by decide)
      · exact Nat.or_lt_two_pow (lt_of_le_of_lt Nat.and_le_right (by decide)) (by decide)
    apply Nat.eq_of_testBit_eq
    intro i
    have h2 := congrArg (fun x => x.testBit i) h1
    simp only [Nat.testBit_or, Nat.testBit_and] at h2 ⊢
    have eM : MASK = 2 ^ 24 - 1 := by decide
    have eS : spec_MASK = 2 ^ 31 - 1 := by decide
    have eH : HIGH = 2 ^ 31 := by decide
    rw [eM, eS, eH, Nat.testBit_two_pow_sub_one, Nat.testBit_two_pow_sub_one,
      Nat.testBit_two_pow] at h2
    rw [eM, eS, Nat.testBit_two_pow_sub_one, Nat.testBit_two_pow_sub_one]
    by_cases h31 : 31 = i
    · subst h31
      simp
    · simpa [h31] using h2
  · intro h
    simp only [h]

end LockFreeHashTable

/-! ## Key encoding: reversal, parity, sentinels below their elements -/

namespace LockFreeHashTable

/-- C30: `Reverse` is the bitwise reversal within 32 bits: for every 32-bit `x`
and every `i` from 0 to 31, bit `i` of `Reverse(x)` is bit `31 - i` of `x`, and
the result is a 32-bit word; hence `Reverse(Reverse(x)) = x`, and `Reverse` is
injective on 32-bit words. -/
theorem C30_reverse_bits :
    (∀ x i, x < 2 ^ 32 → i ≤ 31 → (Reverse x).testBit i = x.testBit (31 - i)) ∧
    (∀ x, Reverse x < 2 ^ 32) ∧
    (∀ x, x < 2 ^ 32 → Reverse (Reverse x) = x) ∧
    (∀ x y, x < 2 ^ 32 → y < 2 ^ 32 → Reverse x = Reverse y → x = y) := by
  refine ⟨fun x i _ hi => ?_, Reverse_lt, fun x hx => Reverse_Reverse hx,
    fun x y hx hy h => Reverse_inj hx hy h⟩
  rw [Reverse_testBit]
  simp [hi]

/-- Witness of C30: the word `0x12345678`, whose reversal is `0x1E6A2C48`. -/
theorem C30_reverse_bits_witness :
    (0x12345678 < 2 ^ 32 ∧ 3 ≤ 31 ∧ Reverse 0x12345678 = 0x1E6A2C48) ∧
    (Reverse 0x12345678).testBit 3 = Nat.testBit 0x12345678 (31 - 3) ∧
    Reverse (Reverse 0x12345678) = 0x12345678 :=
  ⟨⟨by decide, by decide, by decide⟩, C30_reverse_bits.1 0x12345678 3 (by decide) (by decide),
    C30_reverse_bits.2.2.1 0x12345678 (by decide)⟩

/-- C24: for every bucket count `2 ^ k`, in particular for `1 ≤ k ≤ 31`, and
every value `v`, with `b = HashFunction(v) & (2 ^ k - 1)`, the sort key
`MakeSentinelKey(b)` is strictly below `MakeNormalKey(v)`, so the item of the
sentinel of bucket `b` is below the item of `v` in `KeyValue::operator<`. In
every reachable state the node `GetSentinelNode(HashFunction(v))` returns is
the entry of bucket `b` of the bucket vector, it carries the item
`(MakeSentinelKey(b), b)`, which is below the item searched, and `Find`
started there returns. -/
theorem C24_sentinel_below :
    (∀ k v, MakeSentinelKey (HashFunction v &&& (2 ^ k - 1)) < MakeNormalKey v ∧
      KeyValue.lt ⟨MakeSentinelKey (HashFunction v &&& (2 ^ k - 1)),
        HashFunction v &&& (2 ^ k - 1)⟩ ⟨MakeNormalKey v, v⟩ = true) ∧
    (∀ s : LockFreeHashTable, Reachable s →
      ∃ k, 1 ≤ k ∧ k ≤ 31 ∧ s.hashtable.length = 2 ^ k ∧
        ∀ v, ∃ a n w, s.GetSentinelNode (HashFunction v) = some (some a) ∧
          s.hashtable[HashFunction v &&& (2 ^ k - 1)]? = some (some a) ∧
          s.list.mem.read (some a) = some n ∧
          n.item = ⟨MakeSentinelKey (HashFunction v &&& (2 ^ k - 1)),
            HashFunction v &&& (2 ^ k - 1)⟩ ∧
          n.item.lt ⟨MakeNormalKey v, v⟩ = true ∧
          LockFreeList.Find s.list.mem (some a) ⟨MakeNormalKey v, v⟩ = some (s.list.mem, w)) := by
  have key : ∀ k v, MakeSentinelKey (HashFunction v &&& (2 ^ k - 1)) < MakeNormalKey v ∧
      KeyValue.lt ⟨MakeSentinelKey (HashFunction v &&& (2 ^ k - 1)),
        HashFunction v &&& (2 ^ k - 1)⟩ ⟨MakeNormalKey v, v⟩ = true := by
    intro k v
    refine ⟨MakeSentinelKey_lt_MakeNormalKey v k, ?_⟩
    rw [KeyValue.lt_iff]
    exact Or.inl (MakeSentinelKey_lt_MakeNormalKey v k)
  refine ⟨key, fun s hs => ?_⟩
  obtain ⟨L, hL⟩ := hs.inv
  obtain ⟨k, hk1, hk2, hlen⟩ := hL.core.size
  refine ⟨k, hk1, hk2, hlen, fun v => ?_⟩
  obtain ⟨k1, a, _, _, hlen1, hget, hmem⟩ := GetSentinelNode_spec hL.core (HashFunction v)
  have ek : k1 = k := Nat.pow_right_injective (le_refl 2) (hlen1.symm.trans hlen)
  subst ek
  have hidx : HashFunction v &&& (2 ^ k1 - 1) = HashFunction v % 2 ^ k1 :=
    Nat.and_pow_two_sub_one_eq_mod _ _
  obtain ⟨n, hn, hi, _⟩ := hL.core.list.seg.node hmem
  have hi : n.item = sentinelItem (HashFunction v % 2 ^ k1) := hi
  have hlt : (sentinelItem (HashFunction v % 2 ^ k1)).lt (normalItem v) = true :=
    sentinelItem_lt_normalItem v k1
  obtain ⟨A, p, ip, c, ic, B, hfind, _⟩ :=
    Find_spec hL.core.list hmem hlt (normalItem_lt_tail v)
  refine ⟨a, n, ⟨some p, some c⟩, hget, ?_, hn, ?_, ?_, hfind⟩
  · rw [hidx, ← hlen1, ← GetSentinelNode_eq hL.core]
    exact hget
  · rw [hidx, hi]
    rfl
  · rw [hi]
    exact hlt

/-- Witness of C24 in the fresh table, with two buckets. -/
theorem C24_sentinel_below_witness :
    Reachable fresh ∧ fresh.hashtable.length = 2 ^ 1 ∧
    MakeSentinelKey (HashFunction 7 &&& (2 ^ 1 - 1)) < MakeNormalKey 7 ∧
    ∃ k, 1 ≤ k ∧ k ≤ 31 ∧ fresh.hashtable.length = 2 ^ k ∧
      ∀ v, ∃ a n w, fresh.GetSentinelNode (HashFunction v) = some (some a) ∧
        fresh.hashtable[HashFunction v &&& (2 ^ k - 1)]? = some (some a) ∧
        fresh.list.mem.read (some a) = some n ∧
        n.item = ⟨MakeSentinelKey (HashFunction v &&& (2 ^ k - 1)),
          HashFunction v &&& (2 ^ k - 1)⟩ ∧
        n.item.lt ⟨MakeNormalKey v, v⟩ = true ∧
        LockFreeList.Find fresh.list.mem (some a) ⟨MakeNormalKey v, v⟩
          = some (fresh.list.mem, w) :=
  ⟨Reachable.init new_eq, rfl, (C24_sentinel_below.1 1 7).1,
    C24_sentinel_below.2 fresh (Reachable.init new_eq)⟩

/-- C25: the lowest bit of `MakeSentinelKey(b)` is 0 for every `b` and the
lowest bit of `MakeNormalKey(v)` is 1 for every `v`, so the sort key of a value
is never the sort key of a bucket and the item of a value is never the item of
a sentinel. In every reachable state `Remove(v)` returns and leaves the bucket
vector as it was; every cell of the list that is no longer in the list
afterwards carries the item of `v`, and the sentinel every bucket entry points
to is a cell of the list before and after the call. -/
theorem C25_key_parity :
    (∀ b, MakeSentinelKey b &&& 1 = 0) ∧ (∀ v, MakeNormalKey v &&& 1 = 1) ∧
    (∀ v b, MakeNormalKey v ≠ MakeSentinelKey b) ∧
    (∀ v b, (⟨MakeNormalKey v, v⟩ : KeyValue) ≠ ⟨MakeSentinelKey b, b⟩) ∧
    (∀ (s : LockFreeHashTable) (v : Nat), Reachable s →
      ∃ s1 r L L1, s.Remove v = some (s1, r) ∧ s1.hashtable = s.hashtable ∧
        Seg s.list.mem s.list.head L none ∧ Seg s1.list.mem s1.list.head L1 none ∧
        (∀ x ∈ L, x ∉ L1 → x.2 = ⟨MakeNormalKey v, v⟩) ∧
        ∀ b, b < s.hashtable.length →
          ∃ a, s1.hashtable[b]? = some (some a) ∧
            (a, (⟨MakeSentinelKey b, b⟩ : KeyValue)) ∈ L ∧
            (a, (⟨MakeSentinelKey b, b⟩ : KeyValue)) ∈ L1) := by
  refine ⟨fun b => ?_, fun v => ?_, fun v b e => ?_, fun v b => normalItem_ne_sentinelItem v b,
    fun s v hs => ?_⟩
  · rw [and_one_eq_mod]
    exact MakeSentinelKey_even b
  · rw [and_one_eq_mod]
    exact MakeNormalKey_odd v
  · have h1 := MakeSentinelKey_even b
    have h2 := MakeNormalKey_odd v
    omega
  · obtain ⟨L, hL⟩ := hs.inv
    rcases Remove_spec hL v with ⟨_, hrem⟩ | ⟨_, s1, L1, hrem, hL1, hmem, htab, _⟩
    · refine ⟨s, false, L, L, hrem, rfl, hL.core.list.seg, hL.core.list.seg,
        fun x hx hnx => absurd hx hnx, fun b hb => ?_⟩
      obtain ⟨a, ha, hin⟩ := hL.core.bucket b hb
      exact ⟨a, ha, hin, hin⟩
    · refine ⟨s1, true, L, L1, hrem, htab, hL.core.list.seg, hL1.core.list.seg,
        fun x hx hnx => ?_, fun b hb => ?_⟩
      · by_contra hne
        exact hnx ((hmem x).mpr ⟨hx, hne⟩)
      · obtain ⟨a, ha, hin⟩ := hL.core.bucket b hb
        rw [htab]
        refine ⟨a, ha, hin, (hmem _).mpr ⟨hin, ?_⟩⟩
        exact fun e => normalItem_ne_sentinelItem v b e.symm

/-- Witness of C25: `Remove(3)` in the table that holds 1 to 8. -/
theorem C25_key_parity_witness :
    Reachable loaded ∧ loaded.Contains 3 = some true ∧
    ∃ s1 r L L1, loaded.Remove 3 = some (s1, r) ∧ s1.hashtable = loaded.hashtable ∧
      Seg loaded.list.mem loaded.list.head L none ∧ Seg s1.list.mem s1.list.head L1 none ∧
      (∀ x ∈ L, x ∉ L1 → x.2 = ⟨MakeNormalKey 3, 3⟩) ∧
      ∀ b, b < loaded.hashtable.length →
        ∃ a, s1.hashtable[b]? = some (some a) ∧
          (a, (⟨MakeSentinelKey b, b⟩ : KeyValue)) ∈ L ∧
          (a, (⟨MakeSentinelKey b, b⟩ : KeyValue)) ∈ L1 :=
  ⟨Reachable_loaded, by decide!, C25_key_parity.2.2.2.2 loaded 3 Reachable_loaded⟩

/-- Counterexample to C26: the constant `MASK` of the source is `0x00FFFFFF`,
not `0x7FFFFFFF`; for the 32-bit bucket index `2 ^ 24` the source gives the
sentinel key 0 and the encoding of the specification gives 128, and for the
value 1 the source gives the key 3856180225 and the encoding of the
specification gives 3856180365. -/
theorem C26_mask_differs :
    MASK = 0x00FFFFFF ∧ MASK ≠ 0x7FFFFFFF ∧ 2 ^ 24 < 2 ^ 32 ∧
    MakeSentinelKey (2 ^ 24) = 0 ∧ Reverse (2 ^ 24 &&& 0x7FFFFFFF) = 128 ∧
    spec_sentinel_key (2 ^ 24) = 128 ∧
    MakeNormalKey 1 = 3856180225 ∧
    Reverse ((HashFunction 1 &&& 0x7FFFFFFF) ||| (1 <<< 31)) = 3856180365 ∧
    spec_normal_key 1 = 3856180365 := by
  decide

/-- C26, amended: `MakeSentinelKey(b) = Reverse(b & MASK)` and
`MakeNormalKey(v) = Reverse((HashFunction(v) & MASK) | HIGH)` with
`HIGH = 1 << 31` and `MASK = 0x00FFFFFF = 2 ^ 24 - 1`, which clears the top
eight bits; the keys are those of the specification, whose mask clears the top
bit only, exactly for the bucket indices and the hash values whose bits 24 to
30 are clear. -/
theorem C26_key_encoding :
    MASK = 2 ^ 24 - 1 ∧ HIGH = 1 <<< 31 ∧ spec_TOP = HIGH ∧ spec_MASK = 2 ^ 31 - 1 ∧
    (∀ b, MakeSentinelKey b = Reverse (b &&& 0x00FFFFFF)) ∧
    (∀ v, MakeNormalKey v = Reverse ((HashFunction v &&& 0x00FFFFFF) ||| (1 <<< 31))) ∧
    (∀ b, MakeSentinelKey b = Reverse (b % 2 ^ 24)) ∧
    (∀ b, MakeSentinelKey b = spec_sentinel_key b ↔ b % 2 ^ 24 = b % 2 ^ 31) ∧
    (∀ v, MakeNormalKey v = spec_normal_key v ↔
      HashFunction v % 2 ^ 24 = HashFunction v % 2 ^ 31) := by
  have eM : MASK = 2 ^ 24 - 1 := by decide
  have eS : spec_MASK = 2 ^ 31 - 1 := by decide
  refine ⟨eM, by decide, by decide, eS, fun b => rfl, fun v => rfl, fun b => ?_,
    fun b => ?_, fun v => ?_⟩
  · unfold MakeSentinelKey
    rw [eM, Nat.and_pow_two_sub_one_eq_mod]
  · rw [MakeSentinelKey_eq_spec, eM, eS, Nat.and_pow_two_sub_one_eq_mod,
      Nat.and_pow_two_sub_one_eq_mod]
  · rw [MakeNormalKey_eq_spec, eM, eS, Nat.and_pow_two_sub_one_eq_mod,
      Nat.and_pow_two_sub_one_eq_mod]

end LockFreeHashTable

/-! ## The calls of `AddSentinelNode` while the table grows -/

namespace LockFreeHashTable

/-- The last iteration of the second loop of `DoubleHashTableSize`: it calls
`AddSentinelNode` in the state the iterations before it leave. -/
theorem DoubleHashTableSize.fill_snoc :
    ∀ (j i : Nat) (s : LockFreeHashTable) (new : List Ptr),
      DoubleHashTableSize.fill (j + 1) i s new =
        (DoubleHashTableSize.fill j i s new).bind fun r =>
          (r.1.AddSentinelNode (i + j)).bind fun r2 =>
            if i + j < r.2.length then some (r2.1, r.2.set (i + j) r2.2) else none := by
  intro j
  induction j with
  | zero =>
    intro i s new
    simp only [DoubleHashTableSize.fill, Option.some_bind, Nat.add_zero]
  | succ j ih =>
    intro i s new
    rw [DoubleHashTableSize.fill]
    conv => rhs; rw [DoubleHashTableSize.fill]
    cases hadd : s.AddSentinelNode i with
    | none => rfl
    | some r =>
      simp only [Option.some_bind]
      by_cases hi : i < new.length
      · rw [if_pos hi, if_pos hi, ih (i + 1) r.1 (new.set i r.2)]
        have e : i + 1 + j = i + (j + 1) := by omega
        rw [e]
      · rw [if_neg hi, if_neg hi]
        rfl

/-- The state after `j` iterations of the second loop of `DoubleHashTableSize`:
the published vector is the old one, and the sentinels of the buckets below
`i + j` are in the list. -/
theorem DoubleHashTableSize.fill_prefix {k : Nat} :
    ∀ (j i : Nat) (s : LockFreeHashTable) (L : List (Nat × KeyValue)) (new : List Ptr),
      CoreInv s L i → s.hashtable.length = 2 ^ k → 2 ^ k ≤ i → i + j ≤ 2 ^ (k + 1) →
      new.length = 2 ^ (k + 1) →
      ∃ sj Lj nj, DoubleHashTableSize.fill j i s new = some (sj, nj) ∧
        CoreInv sj Lj (i + j) ∧ sj.hashtable = s.hashtable ∧ nj.length = 2 ^ (k + 1) := by
  intro j
  induction j with
  | zero =>
    intro i s L new h _ _ _ hnew
    exact ⟨s, L, new, rfl, h, rfl, hnew⟩
  | succ j ih =>
    intro i s L new h hk h1 hr hnew
    obtain ⟨l1, L1, a, hadd, hcore, _, _⟩ := AddSentinelNode_spec h hk h1 (by omega)
    obtain ⟨sj, Lj, nj, hfill, hcj, hh, hlen⟩ :=
      ih (i + 1) { s with list := l1 } L1 (new.set i (some a)) hcore hk (by omega) (by omega)
        (by rw [List.length_set]; exact hnew)
    refine ⟨sj, Lj, nj, ?_, ?_, hh, hlen⟩
    · simp only [DoubleHashTableSize.fill, hadd, Option.some_bind]
      rw [if_pos (by omega)]
      exact hfill
    · have e : i + (j + 1) = i + 1 + j := by omega
      rw [e]
      exact hcj

/-- The node `AddSentinelNode(i)` starts from, for a new bucket `i` of a table
with `2 ^ k` buckets: the entry of bucket `i - 2 ^ k`. -/
theorem AddSentinelNode_start {s : LockFreeHashTable} {L : List (Nat × KeyValue)}
    {lim i k : Nat} (h : CoreInv s L lim) (hk : s.hashtable.length = 2 ^ k) (h1 : 2 ^ k ≤ i)
    (h2 : i < 2 ^ (k + 1)) :
    s.GetNumberOfBitsUsed = k ∧
    i &&& (ALLONE ^^^ (1 <<< s.GetNumberOfBitsUsed)) = i - 2 ^ k ∧
    i - 2 ^ k < s.hashtable.length ∧
    ∃ a n, s.GetSentinelNode (i - 2 ^ k) = some (some a) ∧
      s.hashtable[i - 2 ^ k]? = some (some a) ∧ (a, sentinelItem (i - 2 ^ k)) ∈ L ∧
      s.list.mem.read (some a) = some n ∧ n.item = sentinelItem (i - 2 ^ k) ∧
      LockFreeList.GetFlag n.next = false ∧ n.item.lt (sentinelItem i) = true ∧
      s.AddSentinelNode i
        = (s.list.AddAndGetPointer (some a) ⟨MakeSentinelKey i, i⟩).bind fun r =>
            some ({ s with list := r.1 }, r.2) := by
  obtain ⟨k1, hk1a, hk1b, hk1⟩ := h.size
  have hkk : k1 = k := Nat.pow_right_injective (le_refl 2) (hk1.symm.trans hk)
  subst hkk
  have hlt : 2 ^ k1 < 2 ^ 32 := Nat.pow_lt_pow_right (by decide) (by omega)
  have hbits : s.GetNumberOfBitsUsed = k1 := by
    unfold GetNumberOfBitsUsed GetHashtablePointer u32
    rw [hk, Nat.mod_eq_of_lt hlt, Nat.log2_two_pow]
  have hclear := clear_bit (i := i) (k := k1) (by omega) h1 h2
  have hidx : i - 2 ^ k1 < s.hashtable.length := by
    rw [hk, Nat.pow_succ] at *
    omega
  obtain ⟨k2, a, _, _, hk2, hget, hmem⟩ := GetSentinelNode_spec h (i - 2 ^ k1)
  have hkk : k2 = k1 := Nat.pow_right_injective (le_refl 2) (hk2.symm.trans hk)
  subst hkk
  have hmod : (i - 2 ^ k2) % 2 ^ k2 = i - 2 ^ k2 := by
    rw [hk] at hidx
    exact Nat.mod_eq_of_lt hidx
  rw [hmod] at hmem
  obtain ⟨n, hn, hi, hf⟩ := h.list.seg.node hmem
  have hi : n.item = sentinelItem (i - 2 ^ k2) := hi
  refine ⟨hbits, by rw [hbits]; exact hclear, hidx, a, n, hget, ?_, hmem, hn, hi, hf, ?_, ?_⟩
  · have := GetSentinelNode_eq h (i - 2 ^ k2)
    rw [hk, hmod] at this
    rw [← this]
    exact hget
  · rw [hi]
    exact sentinelItem_lt_sentinelItem h1 h2
  · unfold AddSentinelNode
    rw [hbits, hclear, hget]
    rfl

/-- An `Add` that inserts while growth is due calls `DoubleHashTableSize` in a
state that meets the invariant of a growing table. -/
theorem Add_grows {s : LockFreeHashTable} {L : List (Nat × KeyValue)} (h : TableInv s L)
    (v : Nat) (h1 : normalItem v ∉ L.map Prod.snd) (hg : growthDue s) :
    ∃ l1 L1 k, 1 ≤ k ∧ k ≤ 31 ∧ s.hashtable.length = 2 ^ k ∧
      CoreInv { s with list := l1, table_size := u32 (s.table_size + 1), growing := true } L1
        (2 ^ k) ∧
      s.Add v =
        (DoubleHashTableSize
          { s with list := l1, table_size := u32 (s.table_size + 1), growing := true }).bind
          fun s2 => some (s2, true) := by
  obtain ⟨k, a, hk1, hk31, hk, hget, hmem⟩ := GetSentinelNode_spec h.core (HashFunction v)
  rcases LockFreeList.Add_list_spec h.core.list hmem (sentinelItem_lt_normalItem v k)
      (normalItem_lt_tail v) with ⟨h0, _⟩ | ⟨_, l1, L1, h2, _, _, h5, h6, _⟩
  · exact absurd h0 h1
  · have hcore := h.core.insert_normal h5 h6 h1
    refine ⟨l1, L1, k, hk1, hk31, hk,
      ⟨hcore.list, hcore.size, hcore.bucket, by rw [← hk]; exact hcore.kinds, hcore.count⟩, ?_⟩
    unfold Add
    rw [hget]
    simp only [Option.some_bind]
    show (s.list.Add (some a) (normalItem v)).bind _ = _
    rw [h2]
    simp only [Option.some_bind, Bool.not_true, Bool.false_eq_true, if_false, h.growing,
      GetHashtablePointer, u32_u32, LockFreeList.GetFlag, plain, Bool.not_false, and_true,
      if_true]
    have hg2 : u32 (s.table_size + 1) > u32 (MAX_AVERAGE_BUCKET_SIZE * s.hashtable.length) := hg
    rw [if_pos hg2]

/-- The calls of `AddSentinelNode` in a growth from `2 ^ k` buckets. -/
theorem DoubleHashTableSize_calls {s : LockFreeHashTable} {L : List (Nat × KeyValue)} {k : Nat}
    (h : CoreInv s L (2 ^ k)) (hk : s.hashtable.length = 2 ^ k) (hk30 : k ≤ 30) :
    ∃ new0,
      DoubleHashTableSize.copy (2 ^ k) 0 s.hashtable (List.replicate (2 ^ (k + 1)) none)
        = some new0 ∧
      s.DoubleHashTableSize = (DoubleHashTableSize.fill (2 ^ k) (2 ^ k) s new0).bind
        (fun r => some { r.1 with hashtable := r.2, growing := false }) ∧
      ∀ j, j < 2 ^ k → ∃ sj nj a n,
        DoubleHashTableSize.fill j (2 ^ k) s new0 = some (sj, nj) ∧
        sj.hashtable = s.hashtable ∧
        DoubleHashTableSize.fill (j + 1) (2 ^ k) s new0
          = (sj.AddSentinelNode (2 ^ k + j)).bind (fun r =>
              if 2 ^ k + j < nj.length then some (r.1, nj.set (2 ^ k + j) r.2) else none) ∧
        (2 ^ k + j) &&& (ALLONE ^^^ (1 <<< sj.GetNumberOfBitsUsed)) = j ∧
        j < s.hashtable.length ∧
        sj.GetSentinelNode j = some (some a) ∧ s.hashtable[j]? = some (some a) ∧
        sj.list.mem.read (some a) = some n ∧ n.item = ⟨MakeSentinelKey j, j⟩ ∧
        LockFreeList.GetFlag n.next = false ∧
        n.item.lt ⟨MakeSentinelKey (2 ^ k + j), 2 ^ k + j⟩ = true ∧
        sj.AddSentinelNode (2 ^ k + j)
          = (sj.list.AddAndGetPointer (some a) ⟨MakeSentinelKey (2 ^ k + j), 2 ^ k + j⟩).bind
              fun r => some ({ sj with list := r.1 }, r.2) := by
  have hpow : 2 ^ (k + 1) = 2 ^ k * 2 := Nat.pow_succ 2 k
  have hkpos : 0 < 2 ^ k := Nat.pow_pos (by decide)
  obtain ⟨new0, hcopy, hlen0, _⟩ := DoubleHashTableSize.copy_spec s.hashtable (2 ^ k) 0
    (List.replicate (2 ^ (k + 1)) none) (by omega) (by simp; omega)
  rw [List.length_replicate] at hlen0
  refine ⟨new0, hcopy, ?_, fun j hj => ?_⟩
  · unfold DoubleHashTableSize GetHashtablePointer
    simp only [hk, u32_two_pow (show k ≤ 31 by omega)]
    rw [← hpow, u32_two_pow (show k + 1 ≤ 31 by omega), hcopy]
    simp only [Option.some_bind]
    rw [show 2 ^ (k + 1) - 2 ^ k = 2 ^ k by omega]
  · obtain ⟨sj, Lj, nj, hfill, hcj, hh, _⟩ :=
      DoubleHashTableSize.fill_prefix j (2 ^ k) s L new0 h hk (le_refl _) (by omega) hlen0
    obtain ⟨_, hclear, hidx, a, n, hget, htab, _, hn, hi, hf, hlt, hadd⟩ :=
      AddSentinelNode_start (i := 2 ^ k + j) hcj (by rw [hh]; exact hk) (by omega) (by omega)
    have e : 2 ^ k + j - 2 ^ k = j := by omega
    rw [e] at hclear hidx hget htab hi
    refine ⟨sj, nj, a, n, hfill, hh, ?_, hclear, by rw [← hh]; exact hidx, hget,
      by rw [← hh]; exact htab, hn, hi, hf, hlt, hadd⟩
    rw [DoubleHashTableSize.fill_snoc, hfill]
    rfl

end LockFreeHashTable

/-! ## Windows of `Find` and the end of the loop of `Contains` -/

namespace LockFreeList

/-- On a well-formed list without logically deleted nodes `Find`, started at a
node below `item`, leaves the heap as it is and returns a window that meets
the condition of the specification. -/
theorem Find_post_of_inv {l : LockFreeList} {L : List (Nat × KeyValue)} (h : ListInv l L)
    {s : Nat} {is item : KeyValue} (hmem : (s, is) ∈ L) (hlt : is.lt item = true)
    (hitem : item.lt tailItem = true) :
    ∃ p ip c ic, Find l.mem (some s) item = some (l.mem, ⟨some p, some c⟩) ∧
      (p, ip) ∈ L ∧ (c, ic) ∈ L ∧ Find_post l.mem ⟨some p, some c⟩ item = true := by
  obtain ⟨A, p, ip, c, ic, B, hfind, hL, h1, h2⟩ := Find_spec h hmem hlt hitem
  have hseg := h.seg
  rw [hL, Seg.append] at hseg
  obtain ⟨r, _, hr⟩ := hseg
  obtain ⟨_, np, hnp, hip, hfp, hr2⟩ := hr
  obtain ⟨hpc, nc, hnc, hic, hfc, _⟩ := hr2
  simp only at hnp hip hnc hic hpc
  refine ⟨p, ip, c, ic, hfind, by rw [hL]; simp, by rw [hL]; simp, ?_⟩
  simp only [Find_post, Heap.read_some, hnp, hnc, GetPointer, GetFlag, hpc, hfp, hfc, hip, hic,
    h1, h2, decide_True, Bool.not_false, Bool.and_self]

/-- `Find(start, item)` on a list in which unmarked nodes below `item` lead
from `start` to a logically deleted node `a` that is not below `item`: the
call unlinks `a` from its predecessor and returns it as `curr`, so that
`pred->next` does not point to `curr` and `curr` is logically deleted. -/
theorem Find_marked {m : Heap} {s a : Nat} {is item : KeyValue}
    {A : List (Nat × KeyValue)} {na : NodeType} {t : Ptr}
    (hseg : Seg m (some s) ((s, is) :: A) (some a))
    (hsort : ((s, is) :: A).Pairwise (fun x y => x.2.lt y.2 = true))
    (ha : m[a]? = some na) (hmark : na.next = ⟨t, true⟩) (hge : na.item.ge item = true)
    (hlt : ∀ x ∈ (s, is) :: A, x.2.lt item = true) :
    ∃ (pl : Nat) (npl : NodeType) (m1 : Heap), ((s, is) :: A).getLast? = some (pl, npl.item) ∧ m[pl]? = some npl ∧
      m1 = m.set pl { npl with next := plain t } ∧
      Find m (some s) item = some (m1, ⟨some pl, some a⟩) ∧
      Heap.read m1 (some pl) = some { npl with next := plain t } ∧
      Heap.read m1 (some a) = some na ∧
      Find_post m1 ⟨some pl, some a⟩ item = false := by
  have hne : ∀ x ∈ (s, is) :: A, x.1 ≠ a := by
    intro x hx e
    obtain ⟨n, hn, hi, _⟩ := hseg.node hx
    rw [e, ha] at hn
    cases hn
    have h1 := hlt x hx
    rw [← hi] at h1
    rw [KeyValue.ge_iff_not_lt] at hge
    exact hge h1
  have hlen : A.length < m.length + 1 := by
    have := hseg.length_le hsort
    simp only [List.length_cons] at this
    omega
  obtain ⟨_, ns, hns, hi, hf, hr⟩ := hseg
  simp only at hns hi
  obtain ⟨pl, npl, hlast, hpl, hw⟩ := Find.walk_marked ha hmark hge A s ns (m.length + 1) hns hf hr
    (fun x hx => hlt x (List.mem_cons_of_mem _ hx)) (hne _ (List.mem_cons_self _ _))
    (fun x hx => hne x (List.mem_cons_of_mem _ hx)) hlen
  rw [hi] at hlast
  have hmem : (pl, npl.item) ∈ (s, is) :: A := List.mem_of_mem_getLast? hlast
  have hltp : pl < m.length := (List.getElem?_eq_some_iff.mp hpl).1
  have hp1 : (m.set pl { npl with next := plain t })[pl]? = some { npl with next := plain t } := by
    rw [List.getElem?_set_self hltp]
  have ha1 : (m.set pl { npl with next := plain t })[a]? = some na := by
    rw [List.getElem?_set_ne (hne _ hmem), ha]
  refine ⟨pl, npl, _, hlast, hpl, rfl, ?_, hp1, ha1, ?_⟩
  · unfold Find
    rw [Heap.read_some, hns, Option.some_bind]
    exact hw
  · simp only [Find_post, Heap.read_some, hp1, ha1, GetFlag, hmark, Bool.not_true,
      Bool.and_false, Bool.false_and]

theorem Find_withMarked (item x : KeyValue) :
    Find (withMarked item).mem (some 2) x
      = some ((withUnlinked item).mem,
          if item.ge x = true then ⟨some 2, some 3⟩ else ⟨some 3, some 1⟩) := by
  have hskip : Find.skipMarked 5 (withMarked item).mem (some 2) (some 3) (some 1)
      = some ((withUnlinked item).mem, some 3, some 1) := by
    rw [Find.skipMarked]
    rfl
  have h2 : (withMarked item).mem.read (some 2) = some ⟨⟨0, 0⟩, false, plain (some 3)⟩ := rfl
  have h3 : (withMarked item).mem.read (some 3)
      = some ⟨item, false, SetFlag (plain (some 1))⟩ := rfl
  have hu3 : (withUnlinked item).mem.read (some 3)
      = some ⟨item, false, SetFlag (plain (some 1))⟩ := rfl
  have hu1 : (withUnlinked item).mem.read (some 1)
      = some ⟨⟨UINT32_MAX, UINT32_MAX⟩, false, nullWord⟩ := rfl
  unfold Find
  rw [h2, Option.some_bind]
  show Find.walk 5 (withMarked item).mem x (some 2) (some 3) = _
  have hnn : ¬ SetFlag (plain (some 1)) = nullWord := by decide
  rw [Find.walk, h3, Option.some_bind, if_neg hnn]
  show (Find.skipMarked 5 (withMarked item).mem (some 2) (some 3) (some 1)).bind _ = _
  rw [hskip, Option.some_bind]
  simp only [hu3, Option.some_bind]
  by_cases hge : item.ge x = true
  · rw [if_pos hge, if_pos hge]
  · rw [if_neg hge, if_neg hge]
    show Find.walk 4 (withUnlinked item).mem x (some 3) (some 1) = _
    rw [Find.walk, hu1, Option.some_bind, if_pos rfl]

theorem Find_post_withMarked (item x : KeyValue) :
    Find_post (withUnlinked item).mem
      (if item.ge x = true then ⟨some 2, some 3⟩ else ⟨some 3, some 1⟩) x = false := by
  by_cases hge : item.ge x = true
  · rw [if_pos hge]
    simp [Find_post, withUnlinked, Heap.read, GetFlag, SetFlag, plain]
  · rw [if_neg hge]
    simp [Find_post, withUnlinked, Heap.read, GetFlag, SetFlag, plain]

/-- On a well-formed list without logically deleted nodes the loop of
`Contains`, started at a node of the list with an item below the tail item,
ends at a node of the list; `n` never becomes the null pointer. -/
theorem Contains_loop_in_list {l : LockFreeList} {L : List (Nat × KeyValue)} (h : ListInv l L)
    {s : Nat} {is item : KeyValue} (hmem : (s, is) ∈ L) (hitem : item.lt tailItem = true) :
    ∃ c ic, Contains.loop (l.mem.length + 1) l.mem item (some s) = some (some c) ∧
      (c, ic) ∈ L ∧ ic.ge item = true := by
  obtain ⟨pre, rest, hL⟩ := List.append_of_mem hmem
  have hseg := h.seg
  rw [hL, Seg.append] at hseg
  obtain ⟨r, hpre, hr⟩ := hseg
  have hrs : r = some s := hr.1
  subst hrs
  obtain ⟨t, ht⟩ := h.last
  have hlast : ∀ u, ((s, is) :: rest).getLast? = some u → u.2.ge item = true := by
    intro u hu
    rw [hL, List.getLast?_append, hu] at ht
    simp at ht
    rw [ht]
    exact KeyValue.ge_of_lt hitem
  have hlen : ((s, is) :: rest).length ≤ l.mem.length + 1 := by
    have := h.seg.length_le h.sorted
    rw [hL] at this
    simp at this ⊢
    omega
  obtain ⟨xs, c, ic, ys, hw, hdec, _, h2⟩ :=
    Contains.loop_stops l.mem item _ (some s) (l.mem.length + 1) hr (by simp) hlast hlen
  refine ⟨c, ic, hw, ?_, h2⟩
  rw [hL, hdec]
  simp

/-- The last node of a well-formed list is the tail, and its `next` word is the
unmarked null pointer. -/
theorem tail_next_null {l : LockFreeList} {L : List (Nat × KeyValue)} (h : ListInv l L) :
    ∃ t nt, L.getLast? = some (t, tailItem) ∧ l.mem.read (some t) = some nt ∧
      nt.item = tailItem ∧ nt.next = nullWord := by
  obtain ⟨t, ht⟩ := h.last
  obtain ⟨pre, hL⟩ : ∃ pre, L = pre ++ [(t, tailItem)] := by
    have hne : L ≠ [] := by
      rintro rfl
      simp at ht
    refine ⟨L.dropLast, ?_⟩
    have h1 := List.dropLast_append_getLast? (t, tailItem) ht
    exact h1.symm
  have hseg := h.seg
  rw [hL, Seg.append] at hseg
  obtain ⟨r, _, hr⟩ := hseg
  obtain ⟨_, nt, hnt, hi, hf, hnull⟩ := hr
  have hnull : nt.next.ptr = none := hnull
  refine ⟨t, nt, ht, hnt, hi, ?_⟩
  cases hw : nt.next with
  | mk p f =>
    rw [hw] at hf hnull
    simp only at hf hnull
    rw [hf, hnull]
    rfl

end LockFreeList

/-! ## The element counter and the bucket count in reachable states -/

namespace LockFreeHashTable

/-- In a reachable state the list holds at most `2 ^ 31 + 2` regular cells, one
fewer at `2 ^ 30` buckets, and every value in the list is a 32-bit value. -/
theorem Reachable.bounds {s : LockFreeHashTable} (h : Reachable s) :
    ∃ L, TableInv s L ∧ (s.hashtable.length = 2 ^ 30 → regularCount L ≤ 2 ^ 31 + 1) ∧
      (s.hashtable.length = 2 ^ 31 → regularCount L ≤ 2 ^ 31 + 2) ∧
      ∀ v, normalItem v ∈ L.map Prod.snd → v < 2 ^ 32 := by
  induction h with
  | init h0 =>
    refine ⟨_, TableInv_new h0, ?_, ?_, fun v hv => absurd hv (not_mem_items_fresh v)⟩
    · intro _
      have e : regularCount [(2, sentinelItem 0), (3, sentinelItem 1), (1, tailItem)] = 0 := by
        decide
      rw [e]
      omega
    · intro _
      have e : regularCount [(2, sentinelItem 0), (3, sentinelItem 1), (1, tailItem)] = 0 := by
        decide
      rw [e]
      omega
  | @call s s1 op b _ hv hc ih =>
    obtain ⟨L, hL, hA, hB, hV⟩ := ih
    cases op with
    | Contains v =>
      have e : s1 = s := by
        have := call_Contains_state s v (s1, b) hc
        exact this
      subst e
      exact ⟨L, hL, hA, hB, hV⟩
    | Remove v =>
      obtain ⟨s2, L2, hrem, hL2, hitems, htab, _, hcnt⟩ := Remove_of_inv hL v
      have hc2 : s.Remove v = some (s1, b) := hc
      rw [hrem] at hc2
      have e : s2 = s1 := congrArg Prod.fst (Option.some.inj hc2)
      subst e
      refine ⟨L2, hL2, ?_, ?_, fun w hw => hV w ((hitems w).mp hw).1⟩
      · intro hlen
        rw [htab] at hlen
        exact le_trans hcnt (hA hlen)
      · intro hlen
        rw [htab] at hlen
        exact le_trans hcnt (hB hlen)
    | Add v =>
      have hc2 : s.Add v = some (s1, b) := hc
      have hv2 : v < 2 ^ 32 := hv
      obtain ⟨k, hk1, hk31, hk⟩ := hL.core.size
      have hts := hL.core.count
      have hload := hL.load
      rcases Add_spec hL v with ⟨_, hadd⟩ | ⟨_, _, _, hadd⟩ |
        ⟨_, _, s2, L2, hadd, hL2, hitems, _, hcnt, hlen2, _⟩
      · rw [hadd] at hc2
        have e : s = s1 := congrArg Prod.fst (Option.some.inj hc2)
        subst e
        exact ⟨L, hL, hA, hB, hV⟩
      · rw [hadd] at hc2
        cases hc2
      · rw [hadd] at hc2
        have e : s2 = s1 := congrArg Prod.fst (Option.some.inj hc2)
        subst e
        refine ⟨L2, hL2, ?_, ?_, ?_⟩
        · intro hlen
          rw [hlen2] at hlen
          by_cases hg : growthDue s
          · rw [if_pos hg] at hlen
            unfold MAX_AVERAGE_BUCKET_SIZE at hload
            omega
          · rw [if_neg hg] at hlen
            have hAc := hA hlen
            unfold growthDue u32 MAX_AVERAGE_BUCKET_SIZE at hg
            rw [hlen, hts] at hg
            omega
        · intro hlen
          rw [hlen2] at hlen
          by_cases hg : growthDue s
          · rw [if_pos hg] at hlen
            have hAc := hA (by omega)
            omega
          · rw [if_neg hg] at hlen
            have hBc := hB hlen
            unfold growthDue u32 MAX_AVERAGE_BUCKET_SIZE at hg
            rw [hlen, hts] at hg
            omega
        · intro w hw
          rcases (hitems w).mp hw with h1 | rfl
          · exact hV w h1
          · exact hv2

/-- In a reachable state the counter has not wrapped. -/
theorem Reachable.count_lt {s : LockFreeHashTable} (h : Reachable s) :
    ∃ L, TableInv s L ∧ regularCount L ≤ 2 ^ 31 + 2 ∧ s.table_size = regularCount L ∧
      ∀ v, normalItem v ∈ L.map Prod.snd → v < 2 ^ 32 := by
  obtain ⟨L, hL, hA, hB, hV⟩ := h.bounds
  obtain ⟨k, hk1, hk31, hk⟩ := hL.core.size
  have hload := hL.load
  have hle : regularCount L ≤ 2 ^ 31 + 2 := by
    rcases Nat.lt_or_ge k 30 with h1 | h1
    · have h2 : 2 ^ k ≤ 2 ^ 29 := Nat.pow_le_pow_right (by decide) (by omega)
      unfold MAX_AVERAGE_BUCKET_SIZE at hload
      rw [hk] at hload
      omega
    · rcases Nat.eq_or_lt_of_le h1 with h2 | h2
      · have := hA (by rw [hk, ← h2])
        omega
      · have e : k = 31 := by omega
        exact hB (by rw [hk, e])
  refine ⟨L, hL, hle, ?_, hV⟩
  rw [hL.core.count]
  exact Nat.mod_eq_of_lt (by omega)

/-- The values of the regular cells of the list, in list order. -/
theorem regular_values {s : LockFreeHashTable} {L : List (Nat × KeyValue)} {lim : Nat}
    (h : CoreInv s L lim) :
    ((L.filter fun x => isRegular x.2).map fun x => x.2.value).Nodup ∧
    ((L.filter fun x => isRegular x.2).map fun x => x.2.value).length = regularCount L ∧
    (∀ x ∈ L, isRegular x.2 = true ↔ ∃ v, x.2 = normalItem v) ∧
    ∀ v, v ∈ ((L.filter fun x => isRegular x.2).map fun x => x.2.value) ↔
      normalItem v ∈ L.map Prod.snd := by
  have hkind : ∀ x ∈ L, isRegular x.2 = true ↔ ∃ v, x.2 = normalItem v := by
    intro x hx
    constructor
    · intro hr
      rcases h.kinds x hx with e | ⟨b, _, e⟩ | hv
      · rw [e] at hr
        exact absurd hr (by decide)
      · rw [e, isRegular_sentinelItem] at hr
        cases hr
      · exact hv
    · rintro ⟨v, e⟩
      rw [e]
      exact isRegular_normalItem v
  refine ⟨?_, ?_, hkind, ?_⟩
  · apply List.Nodup.map_on
    · intro x hx y hy e
      have hx1 := List.mem_filter.mp hx
      have hy1 := List.mem_filter.mp hy
      obtain ⟨v, ev⟩ := (hkind x hx1.1).mp (by simpa using hx1.2)
      obtain ⟨w, ew⟩ := (hkind y hy1.1).mp (by simpa using hy1.2)
      have e2 : v = w := by
        rw [ev, ew] at e
        exact e
      exact eq_of_item_eq h.list.sorted hx1.1 hy1.1 (by rw [ev, ew, e2])
    · exact (nodup_of_sorted h.list.sorted).filter _
  · rw [List.length_map]
    rfl
  · intro v
    rw [List.mem_map, List.mem_map]
    constructor
    · rintro ⟨x, hx, e⟩
      have hx1 := List.mem_filter.mp hx
      obtain ⟨w, ew⟩ := (hkind x hx1.1).mp (by simpa using hx1.2)
      refine ⟨x, hx1.1, ?_⟩
      rw [ew] at e ⊢
      have e2 : w = v := e
      rw [e2]
    · rintro ⟨x, hx, e⟩
      refine ⟨x, List.mem_filter.mpr ⟨hx, ?_⟩, ?_⟩
      · rw [e]
        simpa using isRegular_normalItem v
      · rw [e]
        rfl

/-- The effect of a call that returns on the bucket vector: it is left as it
is, or replaced by a vector of twice the length that agrees with it on the old
indices, and the latter only by an `Add` that inserts while growth is due. -/
theorem call_buckets {s s1 : LockFreeHashTable} {L : List (Nat × KeyValue)} {op : Op} {b : Bool}
    (h : TableInv s L) (hc : s.call op = some (s1, b)) :
    s1.hashtable = s.hashtable ∨
      (s1.hashtable.length = 2 * s.hashtable.length ∧
        (∀ i, i < s.hashtable.length → s1.hashtable[i]? = s.hashtable[i]?) ∧
        (∃ v, op = Op.Add v) ∧ b = true ∧ growthDue s) := by
  cases op with
  | Contains v =>
    left
    have := call_Contains_state s v (s1, b) hc
    have e : s1 = s := this
    rw [e]
  | Remove v =>
    left
    obtain ⟨s2, L2, hrem, _, _, htab, _⟩ := Remove_of_inv h v
    have hc2 : s.Remove v = some (s1, b) := hc
    rw [hrem] at hc2
    have e : s2 = s1 := congrArg Prod.fst (Option.some.inj hc2)
    rw [← e]
    exact htab
  | Add v =>
    have hc2 : s.Add v = some (s1, b) := hc
    rcases Add_spec h v with ⟨_, hadd⟩ | ⟨_, _, _, hadd⟩ |
      ⟨_, _, s2, L2, hadd, _, _, _, _, hlen2, hkeep⟩
    · rw [hadd] at hc2
      have e : s = s1 := congrArg Prod.fst (Option.some.inj hc2)
      rw [← e]
      exact Or.inl rfl
    · rw [hadd] at hc2
      cases hc2
    · rw [hadd] at hc2
      have e : s2 = s1 := congrArg Prod.fst (Option.some.inj hc2)
      have eb : true = b := congrArg Prod.snd (Option.some.inj hc2)
      subst e
      by_cases hg : growthDue s
      · rw [if_pos hg] at hlen2
        exact Or.inr ⟨hlen2, hkeep, ⟨v, rfl⟩, eb.symm, hg⟩
      · rw [if_neg hg] at hlen2
        left
        apply List.ext_getElem?
        intro i
        by_cases hi : i < s.hashtable.length
        · exact hkeep i hi
        · rw [List.getElem?_eq_none (by omega), List.getElem?_eq_none (by omega)]

/-- With fewer than `2 ^ 31` buckets every call returns; `Remove` and
`Contains` return in every reachable state. -/
theorem call_returns {s : LockFreeHashTable} {L : List (Nat × KeyValue)} (h : TableInv s L)
    (op : Op) (hcap : s.hashtable.length < 2 ^ 31 ∨ ∀ v, op ≠ Op.Add v) :
    ∃ s1 b, s.call op = some (s1, b) := by
  cases op with
  | Contains v =>
    refine ⟨s, decide (normalItem v ∈ L.map Prod.snd), ?_⟩
    show (s.Contains v).bind _ = _
    rw [Contains_spec h.core]
    rfl
  | Remove v =>
    obtain ⟨s2, _, hrem, _⟩ := Remove_of_inv h v
    exact ⟨s2, _, hrem⟩
  | Add v =>
    rcases hcap with hcap | hcap
    · obtain ⟨s2, _, hadd, _⟩ := Add_of_inv h hcap v
      exact ⟨s2, _, hadd⟩
    · exact absurd rfl (hcap v)

end LockFreeHashTable

/-! ## The cells between a sentinel and an element of its bucket -/

/-- In an ascending list, the cells between two cells are those whose items lie
between the items of the two. -/
theorem sorted_between {L : List (Nat × KeyValue)}
    (hs : L.Pairwise (fun x y => x.2.lt y.2 = true)) {x z : Nat × KeyValue}
    (hx : x ∈ L) (hz : z ∈ L) (hxz : x.2.lt z.2 = true) :
    ∃ A B C, L = A ++ x :: B ++ z :: C ∧ (∀ y ∈ B, x.2.lt y.2 = true ∧ y.2.lt z.2 = true) ∧
      ∀ y ∈ L, x.2.lt y.2 = true → y.2.lt z.2 = true → y ∈ B := by
  obtain ⟨A, R, hL⟩ := List.append_of_mem hx
  have hs1 := hs
  rw [hL, List.pairwise_append, List.pairwise_cons] at hs1
  obtain ⟨_, ⟨hxR, hsR⟩, hAxR⟩ := hs1
  have hzR : z ∈ R := by
    rw [hL] at hz
    rcases List.mem_append.mp hz with h | h
    · exact absurd (hAxR z h x (List.mem_cons_self _ _)) (KeyValue.lt_asymm hxz)
    · rcases List.mem_cons.mp h with h | h
      · rw [h] at hxz
        exact absurd hxz (KeyValue.lt_irrefl _)
      · exact h
  obtain ⟨B, C, hR⟩ := List.append_of_mem hzR
  have hs2 := hsR
  rw [hR, List.pairwise_append, List.pairwise_cons] at hs2
  obtain ⟨_, ⟨hzC, _⟩, hBzC⟩ := hs2
  refine ⟨A, B, C, ?_, fun y hy => ⟨?_, ?_⟩, fun y hy h1 h2 => ?_⟩
  · rw [hL, hR]
    simp
  · exact hxR y (by rw [hR]; exact List.mem_append_left _ hy)
  · exact hBzC y hy z (List.mem_cons_self _ _)
  · rw [hL] at hy
    rcases List.mem_append.mp hy with h | h
    · exact absurd (hAxR y h x (List.mem_cons_self _ _)) (KeyValue.lt_asymm h1)
    · rcases List.mem_cons.mp h with h | h
      · rw [h] at h1
        exact absurd h1 (KeyValue.lt_irrefl _)
      · rw [hR] at h
        rcases List.mem_append.mp h with h | h
        · exact h
        · rcases List.mem_cons.mp h with h | h
          · rw [h] at h2
            exact absurd h2 (KeyValue.lt_irrefl _)
          · exact absurd (hzC y h) (KeyValue.lt_asymm h2)

namespace LockFreeHashTable

/-- A word below `2 ^ m` whose reversal lies between the reversal of the `m`
low bits of `z` and the reversal of `z` with the top bit set has the reversal
of those `m` low bits. -/
theorem Reverse_sandwich {x y z m : Nat} (hm : m ≤ 31) (hx : x < 2 ^ m) (hy : y = z % 2 ^ m)
    (h1 : Reverse y ≤ Reverse x) (h2 : Reverse x ≤ Reverse (z ||| HIGH)) :
    Reverse x = Reverse y := by
  have hylt : y < 2 ^ m := by
    rw [hy]
    exact Nat.mod_lt _ (Nat.pow_pos (by decide))
  have c1 : Reverse (z ||| HIGH) >>> (32 - m) = Reverse y >>> (32 - m) := by
    apply Nat.eq_of_testBit_eq
    intro i
    rw [Nat.testBit_shiftRight, Nat.testBit_shiftRight, Reverse_testBit, Reverse_testBit,
      Nat.testBit_or, HIGH_eq, Nat.testBit_two_pow, hy, Nat.testBit_mod_two_pow]
    by_cases hi : 32 - m + i ≤ 31
    · have a1 : ¬ 31 = 31 - (32 - m + i) := by omega
      have a2 : 31 - (32 - m + i) < m := by omega
      simp [hi, a1, a2]
    · simp [hi]
  have c2 : Reverse x >>> (32 - m) = Reverse y >>> (32 - m) := by
    apply le_antisymm
    · rw [← c1, Nat.shiftRight_eq_div_pow, Nat.shiftRight_eq_div_pow]
      exact Nat.div_le_div_right h2
    · rw [Nat.shiftRight_eq_div_pow, Nat.shiftRight_eq_div_pow]
      exact Nat.div_le_div_right h1
  apply Nat.eq_of_testBit_eq
  intro i
  by_cases hi : i < 32 - m
  · rw [Reverse_testBit, Reverse_testBit]
    have b1 : x.testBit (31 - i) = false :=
      Nat.testBit_lt_two_pow (lt_of_lt_of_le hx (Nat.pow_le_pow_right (by decide) (by omega)))
    have b2 : y.testBit (31 - i) = false :=
      Nat.testBit_lt_two_pow (lt_of_lt_of_le hylt (Nat.pow_le_pow_right (by decide) (by omega)))
    rw [b1, b2]
  · have e := congrArg (fun w => w.testBit (i - (32 - m))) c2
    simp only [Nat.testBit_shiftRight] at e
    have e2 : 32 - m + (i - (32 - m)) = i := by omega
    rw [e2] at e
    exact e

/-- A sentinel whose key lies between the key of the sentinel of the bucket of
`v` and the key of `v`, in a table of `2 ^ k` buckets, has the key of that
sentinel. -/
theorem sentinel_key_between {k c : Nat} (v : Nat) (hc : c < 2 ^ k)
    (h1 : MakeSentinelKey (HashFunction v % 2 ^ k) ≤ MakeSentinelKey c)
    (h2 : MakeSentinelKey c ≤ MakeNormalKey v) :
    MakeSentinelKey c = MakeSentinelKey (HashFunction v % 2 ^ k) ∧
      c % 2 ^ 24 = HashFunction v % 2 ^ k % 2 ^ 24 ∧ (k ≤ 24 → c = HashFunction v % 2 ^ k) := by
  have hx24 : c % 2 ^ 24 < 2 ^ 24 := Nat.mod_lt _ (by decide)
  have hxle : c % 2 ^ 24 ≤ c := Nat.mod_le _ _
  have hxm : c % 2 ^ 24 < 2 ^ min k 24 := by
    rcases Nat.le_total k 24 with h | h
    · rw [Nat.min_eq_left h]
      omega
    · rw [Nat.min_eq_right h]
      exact hx24
  have hym : HashFunction v % 2 ^ k % 2 ^ 24 = HashFunction v % 2 ^ 24 % 2 ^ min k 24 := by
    apply Nat.eq_of_testBit_eq
    intro i
    simp only [Nat.testBit_mod_two_pow]
    by_cases a1 : i < 24 <;> by_cases a2 : i < k
    · have a3 : i < min k 24 := lt_min a2 a1
      simp [a1, a2, a3]
    · have a3 : ¬ i < min k 24 := fun h => a2 (lt_of_lt_of_le h (min_le_left _ _))
      simp [a1, a2, a3]
    · have a3 : ¬ i < min k 24 := fun h => a1 (lt_of_lt_of_le h (min_le_right _ _))
      simp [a1, a2, a3]
    · have a3 : ¬ i < min k 24 := fun h => a1 (lt_of_lt_of_le h (min_le_right _ _))
      simp [a1, a2, a3]
  have e := @Reverse_sandwich (c % 2 ^ 24) (HashFunction v % 2 ^ k % 2 ^ 24)
    (HashFunction v % 2 ^ 24) (min k 24) (le_trans (min_le_right _ _) (by decide)) hxm hym
    (by
      unfold MakeSentinelKey at h1
      rw [MASK_eq, Nat.and_pow_two_sub_one_eq_mod, Nat.and_pow_two_sub_one_eq_mod] at h1
      exact h1)
    (by
      unfold MakeSentinelKey MakeNormalKey at h2
      simp only at h2
      rw [MASK_eq, Nat.and_pow_two_sub_one_eq_mod, Nat.and_pow_two_sub_one_eq_mod] at h2
      exact h2)
  have hinj : c % 2 ^ 24 = HashFunction v % 2 ^ k % 2 ^ 24 :=
    Reverse_inj (lt_trans hx24 (by decide))
      (lt_trans (Nat.mod_lt _ (by decide)) (by decide)) e
  refine ⟨?_, hinj, fun hk => ?_⟩
  · unfold MakeSentinelKey
    rw [MASK_eq, Nat.and_pow_two_sub_one_eq_mod, Nat.and_pow_two_sub_one_eq_mod, e]
  · have hp : 2 ^ k ≤ 2 ^ 24 := Nat.pow_le_pow_right (by decide) hk
    have hb : HashFunction v % 2 ^ k < 2 ^ k := Nat.mod_lt _ (Nat.pow_pos (by decide))
    rw [Nat.mod_eq_of_lt (by omega), Nat.mod_eq_of_lt (by omega)] at hinj
    exact hinj

/-- The cells between the sentinel of the bucket of a value and the node of the
value: nodes of values, and sentinels with the sort key of that sentinel, which
exist only above `2 ^ 24` buckets. -/
theorem bucket_segment {s : LockFreeHashTable} {L : List (Nat × KeyValue)}
    (h : TableInv s L) {v c : Nat} (hv : (c, normalItem v) ∈ L) :
    ∃ a A B C, s.hashtable[HashFunction v % s.hashtable.length]? = some (some a) ∧
      L = A ++ (a, sentinelItem (HashFunction v % s.hashtable.length)) :: B
        ++ (c, normalItem v) :: C ∧
      ∀ y ∈ B, (∃ w, y.2 = normalItem w) ∨
        (2 ^ 24 < s.hashtable.length ∧ ∃ d, d < s.hashtable.length ∧ y.2 = sentinelItem d ∧
          MakeSentinelKey d = MakeSentinelKey (HashFunction v % s.hashtable.length) ∧
          d % 2 ^ 24 = HashFunction v % s.hashtable.length % 2 ^ 24 ∧
          HashFunction v % s.hashtable.length < d) := by
  obtain ⟨k, hk1, hk31, hk⟩ := h.core.size
  have hb : HashFunction v % s.hashtable.length < s.hashtable.length := by
    rw [hk]
    exact Nat.mod_lt _ (Nat.pow_pos (by decide))
  obtain ⟨a, ha, hmem⟩ := h.core.bucket _ hb
  have hlt : (sentinelItem (HashFunction v % s.hashtable.length)).lt (normalItem v) = true := by
    rw [hk]
    exact sentinelItem_lt_normalItem v k
  obtain ⟨A, B, C, hL, hB, _⟩ := sorted_between h.core.list.sorted hmem hv hlt
  refine ⟨a, A, B, C, ha, hL, fun y hy => ?_⟩
  obtain ⟨hy1, hy2⟩ := hB y hy
  simp only at hy1 hy2
  have hyL : y ∈ L := by
    rw [hL]
    simp [hy]
  rcases h.core.kinds y hyL with e | ⟨d, hd, e⟩ | hw
  · rw [e] at hy2
    exact absurd (normalItem_lt_tail v) (KeyValue.lt_asymm hy2)
  · right
    rw [e] at hy1 hy2
    rw [KeyValue.lt_iff] at hy1 hy2
    have p1 : MakeSentinelKey (HashFunction v % s.hashtable.length) ≤ MakeSentinelKey d := by
      rcases hy1 with q | ⟨q, _⟩
      · exact le_of_lt q
      · exact le_of_eq q
    have p2 : MakeSentinelKey d ≤ MakeNormalKey v := by
      rcases hy2 with q | ⟨q, _⟩
      · exact le_of_lt q
      · exact le_of_eq q
    rw [hk] at p1 hd
    obtain ⟨q1, q2, q3⟩ := sentinel_key_between v hd p1 p2
    have hbd : HashFunction v % 2 ^ k < d := by
      rcases hy1 with q | ⟨_, q⟩
      · rw [hk] at q
        have q4 : MakeSentinelKey (HashFunction v % 2 ^ k) < MakeSentinelKey d := q
        rw [q1] at q4
        exact absurd q4 (lt_irrefl _)
      · rw [hk] at q
        exact q
    have hk24 : 24 < k := by
      by_contra hc
      have := q3 (by omega)
      omega
    rw [hk]
    exact ⟨Nat.pow_lt_pow_right (by decide) hk24, d, hd, e, q1, q2, hbd⟩
  · exact Or.inl hw

/-- The table after `2 ^ 26 + 1` insertions has `2 ^ 25` buckets, and the
sentinel of bucket `2 ^ 24` lies between the sentinel of bucket 0 and the node
of the value 0, whose hash is 0. -/
theorem wide_state :
    ∃ s L a c d A B C,
      fresh.run (addsUpTo (2 ^ 26 + 1)) = some (s, List.replicate (2 ^ 26 + 1) true) ∧
      Reachable s ∧ s.hashtable.length = 2 ^ 25 ∧ Seg s.list.mem s.list.head L none ∧
      s.Contains 0 = some true ∧ HashFunction 0 % 2 ^ 25 = 0 ∧
      s.hashtable[0]? = some (some a) ∧ s.hashtable[2 ^ 24]? = some (some d) ∧
      L = A ++ (a, sentinelItem 0) :: B ++ (c, normalItem 0) :: C ∧
      (d, sentinelItem (2 ^ 24)) ∈ B := by
  obtain ⟨s, L, hrun, hinv, hmem, hcnt, hsz⟩ := run_addsUpTo (2 ^ 26 + 1) (by omega)
  obtain ⟨k, hk1, hk31, hk⟩ := hinv.core.size
  have hlen : s.hashtable.length = 2 ^ 25 := by
    unfold sizeAfter at hsz
    rw [hk] at hsz ⊢
    have e1 : 2 ^ (k + 1) = 2 ^ k * 2 := Nat.pow_succ 2 k
    have e2 : 2 ^ (k + 2) = 2 ^ k * 2 * 2 := by
      rw [Nat.pow_succ 2 (k + 1), e1]
    have h1 : 2 ^ (k + 1) ≤ 2 ^ 26 := by omega
    have h2 : 2 ^ 26 < 2 ^ (k + 2) := by omega
    have h3 : k + 1 ≤ 26 := (Nat.pow_le_pow_iff_right (by decide)).mp h1
    have h4 : 26 < k + 2 := (Nat.pow_lt_pow_iff_right (by decide)).mp h2
    have h5 : k = 25 := by omega
    rw [h5]
  have hr : Reachable s := by
    refine Reachable.run (Reachable.init new_eq) ?_ hrun
    intro op hop
    unfold addsUpTo at hop
    obtain ⟨v, hv, rfl⟩ := List.mem_map.mp hop
    have := List.mem_range.mp hv
    show v < 2 ^ 32
    omega
  have h0 : normalItem 0 ∈ L.map Prod.snd := (hmem 0).mpr (by omega)
  obtain ⟨x, hx, ex⟩ := List.mem_map.mp h0
  obtain ⟨c, it⟩ := x
  simp only at ex
  subst ex
  obtain ⟨a, ha, hma⟩ := hinv.core.bucket 0 (by rw [hlen]; decide)
  obtain ⟨d, hd, hmd⟩ := hinv.core.bucket (2 ^ 24) (by rw [hlen]; decide)
  have l1 : (sentinelItem 0).lt (normalItem 0) = true := by decide
  have l2 : (sentinelItem 0).lt (sentinelItem (2 ^ 24)) = true := by decide
  have l3 : (sentinelItem (2 ^ 24)).lt (normalItem 0) = true := by decide
  obtain ⟨A, B, C, hL, _, hB⟩ := sorted_between hinv.core.list.sorted hma hx l1
  refine ⟨s, L, a, c, d, A, B, C, hrun, hr, hlen, hinv.core.list.seg, ?_, by decide, ha, hd, hL,
    hB _ hmd l2 l3⟩
  rw [Contains_spec hinv.core, decide_eq_true h0]

end LockFreeHashTable

/-! ## Bucket partition, element counter, bucket count -/

namespace LockFreeHashTable

/-- Counterexample to C21: the insertions `Add(0), ..., Add(2 ^ 26)` on a fresh
table all return `true` and leave `2 ^ 25` buckets. The value 0 has the hash 0,
so its bucket is bucket 0, and in the list the sentinel the entry of bucket
`2 ^ 24` points to lies between the sentinel of bucket 0 and the node of the
value 0: the nearest sentinel before that node is not the one of bucket 0. -/
theorem C21_sentinel_between :
    ∃ s L a c d A B C,
      fresh.run (addsUpTo (2 ^ 26 + 1)) = some (s, List.replicate (2 ^ 26 + 1) true) ∧
      Reachable s ∧ s.hashtable.length = 2 ^ 25 ∧ Seg s.list.mem s.list.head L none ∧
      s.Contains 0 = some true ∧ HashFunction 0 % 2 ^ 25 = 0 ∧
      s.hashtable[0]? = some (some a) ∧ s.hashtable[2 ^ 24]? = some (some d) ∧
      L = A ++ (a, ⟨MakeSentinelKey 0, 0⟩) :: B ++ (c, ⟨MakeNormalKey 0, 0⟩) :: C ∧
      (d, (⟨MakeSentinelKey (2 ^ 24), 2 ^ 24⟩ : KeyValue)) ∈ B :=
  wide_state

/-- C21, amended: in every reachable state with `N` buckets, every node of a
value `v` lies in the list after the sentinel the entry of bucket
`HashFunction(v) mod N` points to, and every cell between the two is the node
of a value or a sentinel with the same sort key as that sentinel, of a bucket
with a larger index that agrees with it in the 24 low bits; such sentinels
exist only when `N` exceeds `2 ^ 24`, so up to `2 ^ 24` buckets the nearest
sentinel before the node of `v` is the one of bucket `HashFunction(v) mod N`. -/
theorem C21_bucket_partition (s : LockFreeHashTable) (h : Reachable s) :
    ∃ L, Seg s.list.mem s.list.head L none ∧
      ∀ v c, (c, (⟨MakeNormalKey v, v⟩ : KeyValue)) ∈ L →
        ∃ a A B C, s.hashtable[HashFunction v % s.hashtable.length]? = some (some a) ∧
          L = A ++ (a, ⟨MakeSentinelKey (HashFunction v % s.hashtable.length),
                HashFunction v % s.hashtable.length⟩) :: B
              ++ (c, ⟨MakeNormalKey v, v⟩) :: C ∧
          (∀ y ∈ B, (∃ w, y.2 = ⟨MakeNormalKey w, w⟩) ∨
            (2 ^ 24 < s.hashtable.length ∧ ∃ d, d < s.hashtable.length ∧
              y.2 = ⟨MakeSentinelKey d, d⟩ ∧
              MakeSentinelKey d = MakeSentinelKey (HashFunction v % s.hashtable.length) ∧
              d % 2 ^ 24 = HashFunction v % s.hashtable.length % 2 ^ 24 ∧
              HashFunction v % s.hashtable.length < d)) ∧
          (s.hashtable.length ≤ 2 ^ 24 → ∀ y ∈ B, ∃ w, y.2 = ⟨MakeNormalKey w, w⟩) := by
  obtain ⟨L, hL⟩ := h.inv
  refine ⟨L, hL.core.list.seg, fun v c hv => ?_⟩
  obtain ⟨a, A, B, C, ha, hdec, hB⟩ := bucket_segment hL hv
  refine ⟨a, A, B, C, ha, hdec, hB, fun hle y hy => ?_⟩
  rcases hB y hy with hw | ⟨hlt, _⟩
  · exact hw
  · omega

/-- Witness of C21, amended: the table that holds 1 to 8, with two buckets. -/
theorem C21_bucket_partition_witness :
    Reachable loaded ∧ loaded.hashtable.length = 2 ∧ loaded.Contains 3 = some true ∧
    ∃ L, Seg loaded.list.mem loaded.list.head L none ∧
      ∀ v c, (c, (⟨MakeNormalKey v, v⟩ : KeyValue)) ∈ L →
        ∃ a A B C, loaded.hashtable[HashFunction v % loaded.hashtable.length]? = some (some a) ∧
          L = A ++ (a, ⟨MakeSentinelKey (HashFunction v % loaded.hashtable.length),
                HashFunction v % loaded.hashtable.length⟩) :: B
              ++ (c, ⟨MakeNormalKey v, v⟩) :: C ∧
          (∀ y ∈ B, (∃ w, y.2 = ⟨MakeNormalKey w, w⟩) ∨
            (2 ^ 24 < loaded.hashtable.length ∧ ∃ d, d < loaded.hashtable.length ∧
              y.2 = ⟨MakeSentinelKey d, d⟩ ∧
              MakeSentinelKey d = MakeSentinelKey (HashFunction v % loaded.hashtable.length) ∧
              d % 2 ^ 24 = HashFunction v % loaded.hashtable.length % 2 ^ 24 ∧
              HashFunction v % loaded.hashtable.length < d)) ∧
          (loaded.hashtable.length ≤ 2 ^ 24 → ∀ y ∈ B, ∃ w, y.2 = ⟨MakeNormalKey w, w⟩) :=
  ⟨Reachable_loaded, by decide!, by decide!, C21_bucket_partition loaded Reachable_loaded⟩

/-- C22: in every reachable state the cells from the head to the null pointer
form one list of unmarked cells, `table_size` is the number of its regular
cells, a cell is regular exactly when it is the node of a 32-bit value and is
the tail or the sentinel of a bucket otherwise, and `table_size` is the number
of 32-bit values `v` for which `Contains(v)` returns `true`; `Contains`
returns `true` for 32-bit values only. -/
theorem C22_count_exact (s : LockFreeHashTable) (h : Reachable s) :
    ∃ L, Seg s.list.mem s.list.head L none ∧
      (∀ L1, Seg s.list.mem s.list.head L1 none → L1 = L) ∧
      s.table_size = regularCount L ∧
      s.table_size = (L.filter fun x => isRegular x.2).length ∧
      (∀ x ∈ L, isRegular x.2 = true ↔ ∃ v, v < 2 ^ 32 ∧ x.2 = ⟨MakeNormalKey v, v⟩) ∧
      (∀ x ∈ L, isRegular x.2 = false ↔
        (x.2 = ⟨UINT32_MAX, UINT32_MAX⟩ ∨
          ∃ b, b < s.hashtable.length ∧ x.2 = ⟨MakeSentinelKey b, b⟩)) ∧
      (Finset.filter (fun v => s.Contains v = some true) (Finset.range (2 ^ 32))).card
        = s.table_size ∧
      ∀ v, s.Contains v = some true → v < 2 ^ 32 := by
  obtain ⟨L, hL, _, hts, hV⟩ := h.count_lt
  obtain ⟨hnd, hlen, hkind, hmemv⟩ := regular_values hL.core
  have hcont : ∀ v, s.Contains v = some true ↔ normalItem v ∈ L.map Prod.snd := by
    intro v
    rw [Contains_spec hL.core]
    constructor
    · intro e
      exact of_decide_eq_true (Option.some.inj e)
    · intro e
      rw [decide_eq_true e]
  have hreg : ∀ x ∈ L, isRegular x.2 = true ↔ ∃ v, v < 2 ^ 32 ∧ x.2 = ⟨MakeNormalKey v, v⟩ := by
    intro x hx
    rw [hkind x hx]
    constructor
    · rintro ⟨v, e⟩
      refine ⟨v, hV v ?_, e⟩
      rw [← e]
      exact List.mem_map_of_mem Prod.snd hx
    · rintro ⟨v, _, e⟩
      exact ⟨v, e⟩
  refine ⟨L, hL.core.list.seg, fun L1 h1 => Seg.unique h1 hL.core.list.seg, hts, hts, hreg, ?_,
    ?_, fun v hv => hV v ((hcont v).mp hv)⟩
  · intro x hx
    constructor
    · intro hr
      rcases hL.core.kinds x hx with e | ⟨b, hb, e⟩ | ⟨v, e⟩
      · exact Or.inl e
      · exact Or.inr ⟨b, hb, e⟩
      · rw [e, isRegular_normalItem] at hr
        cases hr
    · rintro (e | ⟨b, _, e⟩)
      · rw [e]
        decide
      · rw [e]
        exact isRegular_sentinelItem b
  · have e : Finset.filter (fun v => s.Contains v = some true) (Finset.range (2 ^ 32))
        = ((L.filter fun x => isRegular x.2).map fun x => x.2.value).toFinset := by
      apply Finset.ext
      intro v
      rw [Finset.mem_filter, Finset.mem_range, List.mem_toFinset, hmemv v, hcont v]
      constructor
      · exact fun e => e.2
      · exact fun e => ⟨hV v e, e⟩
    rw [e, List.toFinset_card_of_nodup hnd, hlen, hts]

/-- Witness of C22: the table that holds 1 to 8. -/
theorem C22_count_exact_witness :
    Reachable loaded ∧ loaded.table_size = 8 ∧
    ∃ L, Seg loaded.list.mem loaded.list.head L none ∧
      (∀ L1, Seg loaded.list.mem loaded.list.head L1 none → L1 = L) ∧
      loaded.table_size = regularCount L ∧
      loaded.table_size = (L.filter fun x => isRegular x.2).length ∧
      (∀ x ∈ L, isRegular x.2 = true ↔ ∃ v, v < 2 ^ 32 ∧ x.2 = ⟨MakeNormalKey v, v⟩) ∧
      (∀ x ∈ L, isRegular x.2 = false ↔
        (x.2 = ⟨UINT32_MAX, UINT32_MAX⟩ ∨
          ∃ b, b < loaded.hashtable.length ∧ x.2 = ⟨MakeSentinelKey b, b⟩)) ∧
      (Finset.filter (fun v => loaded.Contains v = some true) (Finset.range (2 ^ 32))).card
        = loaded.table_size ∧
      ∀ v, loaded.Contains v = some true → v < 2 ^ 32 :=
  ⟨Reachable_loaded, by decide!, C22_count_exact loaded Reachable_loaded⟩

/-- C23: in every reachable state the bucket count is `2 ^ k` with
`1 ≤ k ≤ 31`. Every call that returns in a reachable state leaves the bucket
vector as it is or replaces it by one of twice the length with the old entries
at the old indices, the latter only in an `Add` that inserts while growth is
due. With fewer than `2 ^ 31` buckets every call returns, and `Remove` and
`Contains` always return. In the state that `Add(0), ..., Add(2 ^ 31 + 1)`
reach from a fresh table, with `N = 2 ^ 31` buckets, the length
`current_max_entry * 2` of the new vector is 0 in 32 bits and
`Add(2 ^ 31 + 2)`, which inserts, has no defined result. -/
theorem C23_bucket_count :
    (∀ s : LockFreeHashTable, Reachable s →
      ∃ k, 1 ≤ k ∧ k ≤ 31 ∧ s.hashtable.length = 2 ^ k ∧ 2 ≤ s.hashtable.length) ∧
    (∀ (s s1 : LockFreeHashTable) (op : Op) (b : Bool), Reachable s →
      s.call op = some (s1, b) →
      s1.hashtable = s.hashtable ∨
        (s1.hashtable.length = 2 * s.hashtable.length ∧
          (∀ i, i < s.hashtable.length → s1.hashtable[i]? = s.hashtable[i]?) ∧
          (∃ v, op = Op.Add v) ∧ b = true ∧ growthDue s)) ∧
    (∀ (s : LockFreeHashTable) (op : Op), Reachable s →
      (s.hashtable.length < 2 ^ 31 ∨ ∀ v, op ≠ Op.Add v) → ∃ s1 b, s.call op = some (s1, b)) ∧
    (∃ s, fresh.run (addsUpTo (2 ^ 31 + 2)) = some (s, List.replicate (2 ^ 31 + 2) true) ∧
      Reachable s ∧ s.hashtable.length = 2 ^ 31 ∧ u32 (u32 s.hashtable.length * 2) = 0 ∧
      s.Contains (2 ^ 31 + 2) = some false ∧ s.call (Op.Add (2 ^ 31 + 2)) = none) := by
  refine ⟨fun s hs => ?_, fun s s1 op b hs hc => ?_, fun s op hs hcap => ?_, ?_⟩
  · obtain ⟨L, hL⟩ := hs.inv
    obtain ⟨k, hk1, hk31, hk⟩ := hL.core.size
    refine ⟨k, hk1, hk31, hk, ?_⟩
    rw [hk]
    calc 2 = 2 ^ 1 := rfl
      _ ≤ 2 ^ k := Nat.pow_le_pow_right (by decide) hk1
  · obtain ⟨L, hL⟩ := hs.inv
    exact call_buckets hL hc
  · obtain ⟨L, hL⟩ := hs.inv
    exact call_returns hL op hcap
  · obtain ⟨s, hrun, hr, hlen, hcon, hadd⟩ := overflow_state
    refine ⟨s, hrun, hr, hlen, ?_, hcon, hadd⟩
    rw [hlen]
    decide

/-- Witness of C23: `Add(9)` in the table that holds 1 to 8 replaces the two
buckets by four. -/
theorem C23_bucket_count_witness :
    Reachable loaded ∧ loaded.hashtable.length = 2 ∧
    (∃ s1, loaded.call (Op.Add 9) = some (s1, true) ∧ s1.hashtable.length = 4) ∧
    (∃ k, 1 ≤ k ∧ k ≤ 31 ∧ loaded.hashtable.length = 2 ^ k ∧ 2 ≤ loaded.hashtable.length) ∧
    (∀ s1 b, loaded.call (Op.Add 9) = some (s1, b) →
      s1.hashtable = loaded.hashtable ∨
        (s1.hashtable.length = 2 * loaded.hashtable.length ∧
          (∀ i, i < loaded.hashtable.length → s1.hashtable[i]? = loaded.hashtable[i]?) ∧
          (∃ v, Op.Add 9 = Op.Add v) ∧ b = true ∧ growthDue loaded)) ∧
    ∃ s1 b, loaded.call (Op.Add 9) = some (s1, b) :=
  ⟨Reachable_loaded, by decide!, ⟨(loaded.call (Op.Add 9)).get (by decide!) |>.1, by decide!,
      by decide!⟩,
    C23_bucket_count.1 loaded Reachable_loaded,
    fun s1 b hc => C23_bucket_count.2.1 loaded s1 (Op.Add 9) b Reachable_loaded hc,
    C23_bucket_count.2.2.1 loaded (Op.Add 9) Reachable_loaded (Or.inl (by decide!))⟩

end LockFreeHashTable

/-! ## Traversals, windows of `Find`, and the parent of a new bucket -/

namespace LockFreeHashTable

/-- C27: the item of every value and the item of the sentinel of every bucket
are strictly below the item of the tail. In every reachable state the list
ends with the tail, whose `next` word is the null pointer; for every item
below the tail item and every start node in the list, the loop of `Contains`
ends at a node of the list, so `n` is never the null pointer, and `Contains`
returns; `Find`, started at a node below the item, leaves the heap as it is
and returns a window of two nodes of the list; and `Contains(v)` of the table
returns for every value `v`. -/
theorem C27_no_tail_crossing :
    (∀ v, KeyValue.lt ⟨MakeNormalKey v, v⟩ ⟨UINT32_MAX, UINT32_MAX⟩ = true) ∧
    (∀ b, KeyValue.lt ⟨MakeSentinelKey b, b⟩ ⟨UINT32_MAX, UINT32_MAX⟩ = true) ∧
    (∀ s : LockFreeHashTable, Reachable s →
      ∃ L t nt, Seg s.list.mem s.list.head L none ∧
        L.getLast? = some (t, ⟨UINT32_MAX, UINT32_MAX⟩) ∧
        s.list.mem.read (some t) = some nt ∧ nt.next = nullWord ∧
        (∀ (item : KeyValue) (start : Nat) (is : KeyValue), (start, is) ∈ L →
          item.lt ⟨UINT32_MAX, UINT32_MAX⟩ = true →
          (∃ c ic r, LockFreeList.Contains.loop (s.list.mem.length + 1) s.list.mem item
              (some start) = some (some c) ∧ (c, ic) ∈ L ∧
            s.list.Contains (some start) item = some r) ∧
          (is.lt item = true →
            ∃ p ip c ic, LockFreeList.Find s.list.mem (some start) item
                = some (s.list.mem, ⟨some p, some c⟩) ∧ (p, ip) ∈ L ∧ (c, ic) ∈ L)) ∧
        ∀ v, ∃ a r, s.GetSentinelNode (HashFunction v) = some (some a) ∧
          (∃ ia, (a, ia) ∈ L ∧ ia.lt ⟨MakeNormalKey v, v⟩ = true) ∧
          s.Contains v = some r) := by
  refine ⟨normalItem_lt_tail, sentinelItem_lt_tail, fun s hs => ?_⟩
  obtain ⟨L, hL⟩ := hs.inv
  obtain ⟨t, nt, hlast, hnt, _, hnull⟩ := LockFreeList.tail_next_null hL.core.list
  refine ⟨L, t, nt, hL.core.list.seg, hlast, hnt, hnull, fun item start is hmem hitem => ⟨?_, ?_⟩,
    fun v => ?_⟩
  · obtain ⟨c, ic, hloop, hc, _⟩ := LockFreeList.Contains_loop_in_list hL.core.list hmem hitem
    obtain ⟨n, hn, _, _⟩ := hL.core.list.seg.node hc
    simp only at hn
    refine ⟨c, ic, n.item.eq item && !LockFreeList.GetFlag n.next, hloop, hc, ?_⟩
    simp only [LockFreeList.Contains, hloop, Option.some_bind, Heap.read_some, hn]
  · intro hlt
    obtain ⟨p, ip, c, ic, hfind, hp, hc, _⟩ :=
      LockFreeList.Find_post_of_inv hL.core.list hmem hlt hitem
    exact ⟨p, ip, c, ic, hfind, hp, hc⟩
  · obtain ⟨k, a, _, _, _, hget, hmem⟩ := GetSentinelNode_spec hL.core (HashFunction v)
    exact ⟨a, decide (normalItem v ∈ L.map Prod.snd), hget,
      ⟨_, hmem, sentinelItem_lt_normalItem v k⟩, Contains_spec hL.core v⟩

/-- Witness of C27: the table that holds 1 to 8. -/
theorem C27_no_tail_crossing_witness :
    Reachable loaded ∧ loaded.Contains 3 = some true ∧ loaded.Contains 9 = some false ∧
    ∃ L t nt, Seg loaded.list.mem loaded.list.head L none ∧
      L.getLast? = some (t, ⟨UINT32_MAX, UINT32_MAX⟩) ∧
      loaded.list.mem.read (some t) = some nt ∧ nt.next = nullWord ∧
      (∀ (item : KeyValue) (start : Nat) (is : KeyValue), (start, is) ∈ L →
        item.lt ⟨UINT32_MAX, UINT32_MAX⟩ = true →
        (∃ c ic r, LockFreeList.Contains.loop (loaded.list.mem.length + 1) loaded.list.mem item
            (some start) = some (some c) ∧ (c, ic) ∈ L ∧
          loaded.list.Contains (some start) item = some r) ∧
        (is.lt item = true →
          ∃ p ip c ic, LockFreeList.Find loaded.list.mem (some start) item
              = some (loaded.list.mem, ⟨some p, some c⟩) ∧ (p, ip) ∈ L ∧ (c, ic) ∈ L)) ∧
      ∀ v, ∃ a r, loaded.GetSentinelNode (HashFunction v) = some (some a) ∧
        (∃ ia, (a, ia) ∈ L ∧ ia.lt ⟨MakeNormalKey v, v⟩ = true) ∧
        loaded.Contains v = some r :=
  ⟨Reachable_loaded, by decide!, by decide!, C27_no_tail_crossing.2.2 loaded Reachable_loaded⟩

/-- C29: in a state that meets the invariant of the table, with `2 ^ k` buckets
and `k ≤ 30`, `DoubleHashTableSize` copies the entries and then calls
`AddSentinelNode(i)` for the new buckets `i = 2 ^ k + j`, `j < 2 ^ k`, in this
order, each call in the state the calls before it leave, in which the published
vector is still the old one. In that state `i & ~(1 << GetNumberOfBitsUsed())`
is `j = i - 2 ^ k`, an index of the old vector; `GetSentinelNode` returns its
entry, an unmarked node of the list with the item `(MakeSentinelKey(j), j)`,
which is strictly below `(MakeSentinelKey(i), i)`; and `AddSentinelNode(i)` is
`AddAndGetPointer` started at that node. An `Add` that inserts in a reachable
state while growth is due calls `DoubleHashTableSize` in such a state. -/
theorem C29_growth_parent :
    (∀ (s : LockFreeHashTable) (L : List (Nat × KeyValue)) (k : Nat),
      CoreInv s L (2 ^ k) → s.hashtable.length = 2 ^ k → k ≤ 30 →
      ∃ new0,
        DoubleHashTableSize.copy (2 ^ k) 0 s.hashtable (List.replicate (2 ^ (k + 1)) none)
          = some new0 ∧
        s.DoubleHashTableSize = (DoubleHashTableSize.fill (2 ^ k) (2 ^ k) s new0).bind
          (fun r => some { r.1 with hashtable := r.2, growing := false }) ∧
        ∀ j, j < 2 ^ k → ∃ sj nj a n,
          DoubleHashTableSize.fill j (2 ^ k) s new0 = some (sj, nj) ∧
          sj.hashtable = s.hashtable ∧
          DoubleHashTableSize.fill (j + 1) (2 ^ k) s new0
            = (sj.AddSentinelNode (2 ^ k + j)).bind (fun r =>
                if 2 ^ k + j < nj.length then some (r.1, nj.set (2 ^ k + j) r.2) else none) ∧
          (2 ^ k + j) &&& (ALLONE ^^^ (1 <<< sj.GetNumberOfBitsUsed)) = j ∧
          j < s.hashtable.length ∧
          sj.GetSentinelNode j = some (some a) ∧ s.hashtable[j]? = some (some a) ∧
          sj.list.mem.read (some a) = some n ∧ n.item = ⟨MakeSentinelKey j, j⟩ ∧
          LockFreeList.GetFlag n.next = false ∧
          n.item.lt ⟨MakeSentinelKey (2 ^ k + j), 2 ^ k + j⟩ = true ∧
          sj.AddSentinelNode (2 ^ k + j)
            = (sj.list.AddAndGetPointer (some a) ⟨MakeSentinelKey (2 ^ k + j), 2 ^ k + j⟩).bind
                fun r => some ({ sj with list := r.1 }, r.2)) ∧
    (∀ (s : LockFreeHashTable) (v : Nat), Reachable s → s.Contains v = some false →
      growthDue s →
      ∃ l1 L1 k, 1 ≤ k ∧ k ≤ 31 ∧ s.hashtable.length = 2 ^ k ∧
        CoreInv { s with list := l1, table_size := u32 (s.table_size + 1), growing := true } L1
          (2 ^ k) ∧
        s.Add v =
          (DoubleHashTableSize
            { s with list := l1, table_size := u32 (s.table_size + 1), growing := true }).bind
            fun s2 => some (s2, true)) := by
  refine ⟨fun s L k h hk hk30 => DoubleHashTableSize_calls h hk hk30, fun s v hs hc hg => ?_⟩
  obtain ⟨L, hL⟩ := hs.inv
  rw [Contains_spec hL.core] at hc
  exact Add_grows hL v (of_decide_eq_false (Option.some.inj hc)) hg

/-- Witness of C29: the growth of the fresh table from two buckets to four, and
`Add(9)` in the table that holds 1 to 8. -/
theorem C29_growth_parent_witness :
    (CoreInv fresh [(2, sentinelItem 0), (3, sentinelItem 1), (1, tailItem)] (2 ^ 1) ∧
      fresh.hashtable.length = 2 ^ 1 ∧ 1 ≤ 30 ∧
      (fresh.DoubleHashTableSize.map fun s1 => s1.hashtable) = some [some 2, some 3, some 4, some 5]) ∧
    (∃ new0,
      DoubleHashTableSize.copy (2 ^ 1) 0 fresh.hashtable (List.replicate (2 ^ (1 + 1)) none)
        = some new0 ∧
      fresh.DoubleHashTableSize = (DoubleHashTableSize.fill (2 ^ 1) (2 ^ 1) fresh new0).bind
        (fun r => some { r.1 with hashtable := r.2, growing := false })) ∧
    (Reachable loaded ∧ loaded.Contains 9 = some false ∧ growthDue loaded ∧
      ∃ l1 L1 k, 1 ≤ k ∧ k ≤ 31 ∧ loaded.hashtable.length = 2 ^ k ∧
        CoreInv
          { loaded with list := l1, table_size := u32 (loaded.table_size + 1), growing := true }
          L1 (2 ^ k) ∧
        loaded.Add 9 =
          (DoubleHashTableSize
            { loaded with list := l1, table_size := u32 (loaded.table_size + 1), growing := true }
            ).bind
            fun s2 => some (s2, true)) :=
  ⟨⟨(TableInv_new new_eq).core, rfl, by decide, by decide!⟩,
    (C29_growth_parent.1 fresh [(2, sentinelItem 0), (3, sentinelItem 1), (1, tailItem)] 1
      (TableInv_new new_eq).core rfl (by decide)).imp (fun _ hx => ⟨hx.1, hx.2.1⟩),
    Reachable_loaded, by decide!, by decide!,
    C29_growth_parent.2 loaded 9 Reachable_loaded (by decide!) (by decide!)⟩

end LockFreeHashTable

namespace LockFreeList

/-- C28: on a well-formed list without logically deleted nodes, `Find(start,
x)`, started at a node below `x`, for `x` below the tail item, leaves the heap
as it is and returns a window that meets the condition of the specification.
On a list in which unmarked nodes below `x` lead from `start` to a logically
deleted node `a` that is not below `x`, `Find` unlinks `a` from its
predecessor `pl` and returns the window `(pl, a)`: `pl->next` points to the
successor of `a`, and `curr = a` is marked. In the well-formed state
`withMarked item`, `Find(head, x)` leaves the state `withUnlinked item` and
returns `(head, node of item)` when `item >= x`, where `curr` is marked and
no longer linked, and `(node of item, tail)` otherwise, where `pred` is marked
and no longer linked; the condition of the specification fails for both. -/
theorem C28_find_window :
    (∀ (l : LockFreeList) (L : List (Nat × KeyValue)) (s : Nat) (is x : KeyValue),
      ListInv l L → (s, is) ∈ L → is.lt x = true → x.lt tailItem = true →
      ∃ p ip c ic, Find l.mem (some s) x = some (l.mem, ⟨some p, some c⟩) ∧
        (p, ip) ∈ L ∧ (c, ic) ∈ L ∧ Find_post l.mem ⟨some p, some c⟩ x = true) ∧
    (∀ (m : Heap) (s a : Nat) (is x : KeyValue) (A : List (Nat × KeyValue)) (na : NodeType)
        (t : Ptr),
      Seg m (some s) ((s, is) :: A) (some a) →
      ((s, is) :: A).Pairwise (fun u w => u.2.lt w.2 = true) →
      m[a]? = some na → na.next = ⟨t, true⟩ → na.item.ge x = true →
      (∀ u ∈ (s, is) :: A, u.2.lt x = true) →
      ∃ (pl : Nat) (npl : NodeType) (m1 : Heap),
        ((s, is) :: A).getLast? = some (pl, npl.item) ∧ m[pl]? = some npl ∧
        m1 = m.set pl { npl with next := plain t } ∧
        Find m (some s) x = some (m1, ⟨some pl, some a⟩) ∧
        Heap.read m1 (some pl) = some { npl with next := plain t } ∧
        Heap.read m1 (some a) = some na ∧
        Find_post m1 ⟨some pl, some a⟩ x = false) ∧
    (∀ item x : KeyValue, KeyValue.lt ⟨0, 0⟩ item = true → item.lt tailItem = true →
      KeyValue.lt ⟨0, 0⟩ x = true →
      MListInv (withMarked item) [(2, ⟨0, 0⟩, false), (3, item, true), (1, tailItem, false)] ∧
      Find (withMarked item).mem (some 2) x
        = some ((withUnlinked item).mem,
            if item.ge x = true then ⟨some 2, some 3⟩ else ⟨some 3, some 1⟩) ∧
      Heap.read (withUnlinked item).mem (some 2) = some ⟨⟨0, 0⟩, false, plain (some 1)⟩ ∧
      Heap.read (withUnlinked item).mem (some 3)
        = some ⟨item, false, SetFlag (plain (some 1))⟩ ∧
      Find_post (withUnlinked item).mem
        (if item.ge x = true then ⟨some 2, some 3⟩ else ⟨some 3, some 1⟩) x = false) := by
  refine ⟨fun l L s is x h hmem hlt hx => Find_post_of_inv h hmem hlt hx,
    fun m s a is x A na t hseg hsort ha hmark hge hlt =>
      Find_marked hseg hsort ha hmark hge hlt,
    fun item x h0 h1 _ => ⟨(withMarked_inv item h0 h1).1, Find_withMarked item x, rfl, rfl,
      Find_post_withMarked item x⟩⟩

/-- Witness of C28: the new list, and the state `withMarked (5, 5)` searched
for `(5, 5)` and for `(7, 7)`. -/
theorem C28_find_window_witness :
    (ListInv LockFreeList.new [(2, ⟨0, 0⟩), (1, tailItem)] ∧
      ((2, (⟨0, 0⟩ : KeyValue)) ∈ [((2 : Nat), (⟨0, 0⟩ : KeyValue)), (1, tailItem)]) ∧
      KeyValue.lt ⟨0, 0⟩ ⟨5, 5⟩ = true ∧ KeyValue.lt ⟨5, 5⟩ tailItem = true ∧
      ∃ p ip c ic, Find LockFreeList.new.mem (some 2) ⟨5, 5⟩
          = some (LockFreeList.new.mem, ⟨some p, some c⟩) ∧
        (p, ip) ∈ [((2 : Nat), (⟨0, 0⟩ : KeyValue)), (1, tailItem)] ∧
        (c, ic) ∈ [((2 : Nat), (⟨0, 0⟩ : KeyValue)), (1, tailItem)] ∧
        Find_post LockFreeList.new.mem ⟨some p, some c⟩ ⟨5, 5⟩ = true) ∧
    (Find (withMarked ⟨5, 5⟩).mem (some 2) ⟨5, 5⟩
        = some ((withUnlinked ⟨5, 5⟩).mem, ⟨some 2, some 3⟩) ∧
      Find_post (withUnlinked ⟨5, 5⟩).mem ⟨some 2, some 3⟩ ⟨5, 5⟩ = false) ∧
    (Find (withMarked ⟨5, 5⟩).mem (some 2) ⟨7, 7⟩
        = some ((withUnlinked ⟨5, 5⟩).mem, ⟨some 3, some 1⟩) ∧
      Find_post (withUnlinked ⟨5, 5⟩).mem ⟨some 3, some 1⟩ ⟨7, 7⟩ = false) := by
  have hinv : ListInv LockFreeList.new [(2, ⟨0, 0⟩), (1, tailItem)] := by
    refine ⟨⟨rfl, _, rfl, rfl, rfl, rfl, _, rfl, rfl, rfl, rfl⟩, ?_, ⟨1, rfl⟩⟩
    simp only [List.pairwise_cons, List.mem_cons, List.mem_singleton, List.not_mem_nil,
      forall_eq_or_imp, forall_eq, List.Pairwise.nil, and_true, false_implies, implies_true]
    decide
  have h5 := C28_find_window.2.2 ⟨5, 5⟩ ⟨5, 5⟩ (by decide) (by decide) (by decide)
  have h7 := C28_find_window.2.2 ⟨5, 5⟩ ⟨7, 7⟩ (by decide) (by decide) (by decide)
  exact ⟨⟨hinv, by simp, by decide, by decide,
      C28_find_window.1 LockFreeList.new _ 2 ⟨0, 0⟩ ⟨5, 5⟩ hinv (by simp) (by decide) (by decide)⟩,
    ⟨h5.2.1, h5.2.2.2.2⟩, ⟨h7.2.1, h7.2.2.2.2⟩⟩

end LockFreeList

/-! ## The hash function on 32-bit values -/

namespace LockFreeHashTable

/-- The step `(x >> 16) ^ x` keeps 32-bit words. -/
theorem xorshift_lt {x : Nat} (hx : x < 2 ^ 32) : (x >>> 16) ^^^ x < 2 ^ 32 := by
  apply Nat.xor_lt_two_pow _ hx
  rw [Nat.shiftRight_eq_div_pow]
  exact lt_of_le_of_lt (Nat.div_le_self _ _) hx

/-- The step `(x >> 16) ^ x` undoes itself on 32-bit words. -/
theorem xorshift_xorshift {x : Nat} (hx : x < 2 ^ 32) :
    (((x >>> 16) ^^^ x) >>> 16) ^^^ ((x >>> 16) ^^^ x) = x := by
  apply Nat.eq_of_testBit_eq
  intro i
  simp only [Nat.testBit_xor, Nat.testBit_shiftRight]
  have h : x.testBit (16 + (16 + i)) = false :=
    Nat.testBit_lt_two_pow (lt_of_lt_of_le hx (Nat.pow_le_pow_right (by decide) (by omega)))
  rw [h]
  cases x.testBit (16 + i) <;> cases x.testBit i <;> rfl

/-- Multiplication by `0x45d9f3b` in 32 bits is undone by multiplication by
`0x119de1f3`, its inverse modulo `2 ^ 32`. -/
theorem mul_inverse {x : Nat} (hx : x < 2 ^ 32) :
    u32 (u32 (x * 0x45d9f3b) * 0x119de1f3) = x := by
  unfold u32
  rw [Nat.mod_mul_mod, Nat.mul_assoc, Nat.mul_mod, show (0x45d9f3b * 0x119de1f3) % 2 ^ 32 = 1 by
    decide, Nat.mul_one, Nat.mod_mod, Nat.mod_eq_of_lt hx]

/-- Multiplication by `0x119de1f3` in 32 bits is undone by multiplication by
`0x45d9f3b`. -/
theorem inverse_mul {x : Nat} (hx : x < 2 ^ 32) :
    u32 (u32 (x * 0x119de1f3) * 0x45d9f3b) = x := by
  unfold u32
  rw [Nat.mod_mul_mod, Nat.mul_assoc, Nat.mul_mod, show (0x119de1f3 * 0x45d9f3b) % 2 ^ 32 = 1 by
    decide, Nat.mul_one, Nat.mod_mod, Nat.mod_eq_of_lt hx]

theorem u32_lt (x : Nat) : u32 x < 2 ^ 32 := Nat.mod_lt _ (by decide)

/-- The three steps of `HashFunction`. -/
theorem HashFunction_eq (v : Nat) :
    HashFunction v =
      (u32 (((u32 (((v >>> 16) ^^^ v) * 0x45d9f3b) >>> 16)
          ^^^ u32 (((v >>> 16) ^^^ v) * 0x45d9f3b)) * 0x45d9f3b) >>> 16)
        ^^^ u32 (((u32 (((v >>> 16) ^^^ v) * 0x45d9f3b) >>> 16)
          ^^^ u32 (((v >>> 16) ^^^ v) * 0x45d9f3b)) * 0x45d9f3b) := rfl

/-- The method `HashFunction` is injective on 32-bit values. -/
theorem HashFunction_injective {v w : Nat} (hv : v < 2 ^ 32) (hw : w < 2 ^ 32)
    (h : HashFunction v = HashFunction w) : v = w := by
  rw [HashFunction_eq, HashFunction_eq] at h
  have h1 := congrArg (fun y => (y >>> 16) ^^^ y) h
  simp only at h1
  rw [xorshift_xorshift (u32_lt _), xorshift_xorshift (u32_lt _)] at h1
  have h2 := congrArg (fun y => u32 (y * 0x119de1f3)) h1
  simp only at h2
  rw [mul_inverse (xorshift_lt (u32_lt _)), mul_inverse (xorshift_lt (u32_lt _))] at h2
  have h3 := congrArg (fun y => (y >>> 16) ^^^ y) h2
  simp only at h3
  rw [xorshift_xorshift (u32_lt _), xorshift_xorshift (u32_lt _)] at h3
  have h4 := congrArg (fun y => u32 (y * 0x119de1f3)) h3
  simp only at h4
  rw [mul_inverse (xorshift_lt hv), mul_inverse (xorshift_lt hw)] at h4
  have h5 := congrArg (fun y => (y >>> 16) ^^^ y) h4
  simp only at h5
  rw [xorshift_xorshift hv, xorshift_xorshift hw] at h5
  exact h5

/-- Every 32-bit word is the hash of a 32-bit value. -/
theorem HashFunction_surjective {y : Nat} (hy : y < 2 ^ 32) :
    ∃ v, v < 2 ^ 32 ∧ HashFunction v = y := by
  have a1 := xorshift_lt hy
  have a2 := u32_lt (((y >>> 16) ^^^ y) * 0x119de1f3)
  have a3 := xorshift_lt a2
  have a4 := u32_lt (((u32 (((y >>> 16) ^^^ y) * 0x119de1f3) >>> 16)
    ^^^ u32 (((y >>> 16) ^^^ y) * 0x119de1f3)) * 0x119de1f3)
  refine ⟨_, xorshift_lt a4, ?_⟩
  rw [HashFunction_eq, xorshift_xorshift a4, inverse_mul a3, xorshift_xorshift a2,
    inverse_mul a1, xorshift_xorshift hy]

/-- Two values have the same sort key exactly when their hashes agree in the
bits `MASK` keeps. -/
theorem MakeNormalKey_eq_iff (v w : Nat) :
    MakeNormalKey v = MakeNormalKey w ↔
      HashFunction v % 2 ^ 24 = HashFunction w % 2 ^ 24 := by
  constructor
  · intro h
    unfold MakeNormalKey at h
    simp only at h
    rw [MASK_eq, Nat.and_pow_two_sub_one_eq_mod, Nat.and_pow_two_sub_one_eq_mod] at h
    have b1 : HashFunction v % 2 ^ 24 < 2 ^ 24 := Nat.mod_lt _ (by decide)
    have b2 : HashFunction w % 2 ^ 24 < 2 ^ 24 := Nat.mod_lt _ (by decide)
    have h1 : HashFunction v % 2 ^ 24 ||| HIGH = HashFunction w % 2 ^ 24 ||| HIGH := by
      refine Reverse_inj ?_ ?_ h
      · exact Nat.or_lt_two_pow (lt_trans b1 (by decide)) (by decide)
      · exact Nat.or_lt_two_pow (lt_trans b2 (by decide)) (by decide)
    apply Nat.eq_of_testBit_eq
    intro i
    have h2 := congrArg (fun x => x.testBit i) h1
    simp only [Nat.testBit_or, HIGH_eq, Nat.testBit_two_pow] at h2
    by_cases h31 : 31 = i
    · subst h31
      rw [Nat.testBit_lt_two_pow (lt_trans b1 (by decide)),
        Nat.testBit_lt_two_pow (lt_trans b2 (by decide))]
    · simpa [h31] using h2
  · intro h
    apply MakeNormalKey_congr
    rw [MASK_eq, Nat.and_pow_two_sub_one_eq_mod, Nat.and_pow_two_sub_one_eq_mod, h]

end LockFreeHashTable

/-! ## Load bound and bijectivity of the hash function -/

namespace LockFreeHashTable

/-- An `Add` that inserts in a reachable state increments the counter without
wrapping; when it doubles a vector of fewer than `2 ^ 30` buckets, the
incremented counter is `4 * N + 1`. -/
theorem Add_count {s s1 : LockFreeHashTable} {v : Nat} (h : Reachable s)
    (hadd : s.Add v = some (s1, true)) :
    s1.table_size = s.table_size + 1 ∧
    (s1.hashtable.length = 2 * s.hashtable.length → s.hashtable.length < 2 ^ 30 →
      s1.table_size = MAX_AVERAGE_BUCKET_SIZE * s.hashtable.length + 1) := by
  obtain ⟨L, hL, hle, hts, _⟩ := h.count_lt
  obtain ⟨k, hk1, _, hk⟩ := hL.core.size
  have hpos : 0 < s.hashtable.length := by
    rw [hk]
    exact Nat.pow_pos (by decide)
  rcases Add_spec hL v with ⟨_, e⟩ | ⟨_, _, _, e⟩ | ⟨_, _, s2, L2, e, _, _, hts2, _, hlen2, _⟩
  · rw [e] at hadd
    have := congrArg Prod.snd (Option.some.inj hadd)
    cases this
  · rw [e] at hadd
    cases hadd
  · rw [e] at hadd
    have e2 : s2 = s1 := congrArg Prod.fst (Option.some.inj hadd)
    subst e2
    have hinc : s2.table_size = s.table_size + 1 := by
      rw [hts2]
      unfold u32
      exact Nat.mod_eq_of_lt (by omega)
    refine ⟨hinc, fun hdbl hcap => ?_⟩
    have hg : growthDue s := by
      by_contra hg
      rw [if_neg hg] at hlen2
      omega
    obtain ⟨_, _, hiff⟩ := growthDue_iff hL hcap
    have h1 := hiff.mp hg
    have h2 := hL.load
    rw [← hts] at h2
    omega

/-- C31: in every reachable state `table_size` is at most
`MAX_AVERAGE_BUCKET_SIZE = 4` times the bucket count. Every call with a 32-bit
argument that returns in a reachable state leaves a state with this bound, and
a bucket count that is the old one or twice the old one. An `Add` that inserts
increments the counter by one, and when it doubles fewer than `2 ^ 30` buckets
the incremented counter is `4 * N + 1`, which is at most `4 * (2 * N)`. With
fewer than `2 ^ 31` buckets every call returns. -/
theorem C31_load_bound :
    MAX_AVERAGE_BUCKET_SIZE = 4 ∧
    (∀ s : LockFreeHashTable, Reachable s →
      s.table_size ≤ MAX_AVERAGE_BUCKET_SIZE * s.hashtable.length) ∧
    (∀ (s s1 : LockFreeHashTable) (op : Op) (b : Bool), Reachable s → op.value < 2 ^ 32 →
      s.call op = some (s1, b) →
      s1.table_size ≤ MAX_AVERAGE_BUCKET_SIZE * s1.hashtable.length ∧
      (s1.hashtable.length = s.hashtable.length ∨
        s1.hashtable.length = 2 * s.hashtable.length)) ∧
    (∀ (s s1 : LockFreeHashTable) (v : Nat), Reachable s → s.Add v = some (s1, true) →
      s1.table_size = s.table_size + 1 ∧
      (s1.hashtable.length = 2 * s.hashtable.length → s.hashtable.length < 2 ^ 30 →
        s1.table_size = MAX_AVERAGE_BUCKET_SIZE * s.hashtable.length + 1)) ∧
    (∀ (s : LockFreeHashTable) (op : Op), Reachable s → s.hashtable.length < 2 ^ 31 →
      ∃ s1 b, s.call op = some (s1, b)) := by
  have key : ∀ s : LockFreeHashTable, Reachable s →
      s.table_size ≤ MAX_AVERAGE_BUCKET_SIZE * s.hashtable.length := by
    intro s hs
    obtain ⟨L, hL, _, hts, _⟩ := hs.count_lt
    rw [hts]
    exact hL.load
  refine ⟨rfl, key, fun s s1 op b hs hv hc => ⟨?_, ?_⟩, fun s s1 v hs hadd => Add_count hs hadd,
    fun s op hs hcap => ?_⟩
  · exact key s1 (@Reachable.call s s1 op b hs hv hc)
  · obtain ⟨L, hL⟩ := hs.inv
    rcases call_buckets hL hc with e | ⟨e, _⟩
    · exact Or.inl (by rw [e])
    · exact Or.inr e
  · obtain ⟨L, hL⟩ := hs.inv
    exact call_returns hL op (Or.inl hcap)

/-- Witness of C31: `Add(9)` in the table that holds 1 to 8 in two buckets
leaves nine elements in four buckets. -/
theorem C31_load_bound_witness :
    Reachable loaded ∧ loaded.table_size = 8 ∧ loaded.hashtable.length = 2 ∧
    (∃ s1, loaded.Add 9 = some (s1, true) ∧ s1.table_size = 9 ∧ s1.hashtable.length = 4) ∧
    loaded.table_size ≤ MAX_AVERAGE_BUCKET_SIZE * loaded.hashtable.length ∧
    (∀ s1 b, loaded.call (Op.Add 9) = some (s1, b) →
      s1.table_size ≤ MAX_AVERAGE_BUCKET_SIZE * s1.hashtable.length ∧
      (s1.hashtable.length = loaded.hashtable.length ∨
        s1.hashtable.length = 2 * loaded.hashtable.length)) ∧
    ∃ s1 b, loaded.call (Op.Add 9) = some (s1, b) :=
  ⟨Reachable_loaded, by decide!, by decide!,
    ⟨(loaded.Add 9).get (by decide!) |>.1, by decide!, by decide!, by decide!⟩,
    C31_load_bound.2.1 loaded Reachable_loaded,
    fun s1 b hc => C31_load_bound.2.2.1 loaded s1 (Op.Add 9) b Reachable_loaded (by decide) hc,
    C31_load_bound.2.2.2.2 loaded (Op.Add 9) Reachable_loaded (by decide!)⟩

/-- C32: `HashFunction` maps 32-bit values to 32-bit words, different 32-bit
values have different hashes, and every 32-bit word is the hash of a 32-bit
value. The step `(x >> 16) ^ x` undoes itself on 32-bit words, and the
multiplication by `0x45d9f3b` modulo `2 ^ 32` is undone by the multiplication
by `0x119de1f3`. Two values have the same sort key exactly when their hashes
agree in the 24 low bits, the ones `MASK` keeps, so two different 32-bit values
with the same sort key have hashes that agree in the 24 low bits and differ in
the 8 high bits. -/
theorem C32_hash_bijective :
    (∀ v, HashFunction v < 2 ^ 32) ∧
    (∀ v w, v < 2 ^ 32 → w < 2 ^ 32 → v ≠ w → HashFunction v ≠ HashFunction w) ∧
    (∀ y, y < 2 ^ 32 → ∃ v, v < 2 ^ 32 ∧ HashFunction v = y) ∧
    (∀ x, x < 2 ^ 32 → (((x >>> 16) ^^^ x) >>> 16) ^^^ ((x >>> 16) ^^^ x) = x) ∧
    (∀ x, x < 2 ^ 32 → u32 (u32 (x * 0x45d9f3b) * 0x119de1f3) = x) ∧
    (∀ v w, MakeNormalKey v = MakeNormalKey w ↔
      HashFunction v &&& MASK = HashFunction w &&& MASK) ∧
    (∀ v w, v < 2 ^ 32 → w < 2 ^ 32 → v ≠ w → MakeNormalKey v = MakeNormalKey w →
      HashFunction v % 2 ^ 24 = HashFunction w % 2 ^ 24 ∧
      HashFunction v / 2 ^ 24 ≠ HashFunction w / 2 ^ 24) := by
  refine ⟨HashFunction_lt, fun v w hv hw hne h => hne (HashFunction_injective hv hw h),
    fun y hy => HashFunction_surjective hy, fun x hx => xorshift_xorshift hx,
    fun x hx => mul_inverse hx, fun v w => ?_, fun v w hv hw hne hkey => ?_⟩
  · rw [MakeNormalKey_eq_iff, MASK_eq, Nat.and_pow_two_sub_one_eq_mod,
      Nat.and_pow_two_sub_one_eq_mod]
  · have hmod := (MakeNormalKey_eq_iff v w).mp hkey
    refine ⟨hmod, fun hdiv => hne (HashFunction_injective hv hw ?_)⟩
    rw [← Nat.div_add_mod (HashFunction v) (2 ^ 24), ← Nat.div_add_mod (HashFunction w) (2 ^ 24),
      hmod, hdiv]

/-- Witness of C32: the values 5948 and 9883, which have the same sort key. -/
theorem C32_hash_bijective_witness :
    (5948 < 2 ^ 32 ∧ 9883 < 2 ^ 32 ∧ 5948 ≠ 9883 ∧ MakeNormalKey 5948 = MakeNormalKey 9883) ∧
    HashFunction 5948 ≠ HashFunction 9883 ∧
    (HashFunction 5948 % 2 ^ 24 = HashFunction 9883 % 2 ^ 24 ∧
      HashFunction 5948 / 2 ^ 24 ≠ HashFunction 9883 / 2 ^ 24) ∧
    ∃ v, v < 2 ^ 32 ∧ HashFunction v = 12345 :=
  ⟨⟨by decide, by decide, by decide, by decide⟩,
    C32_hash_bijective.2.1 5948 9883 (by decide) (by decide) (by decide),
    C32_hash_bijective.2.2.2.2.2.2 5948 9883 (by decide) (by decide) (by decide) (by decide),
    C32_hash_bijective.2.2.1 12345 (by decide)⟩

end LockFreeHashTable

